import Mathlib

/-!
# SDL_PangoDraw: the pjx attribute list and paragraph layout engine

A shallow embedding of `pjx/pjx-attributes.c` and of the line breaking and
line post-processing code of `pjx/pjx-layout.c`, followed by theorems about
the embedded functions.

Conventions of the embedding:

* a `GSList` is a `List`; a cursor walking a list (`prev`, `tmp_list`) is a
  zipper: the nodes already passed, in list order, and the nodes still ahead;
* `guint` indices are `Nat` (the code only copies and compares them);
  `int` widths are `Int`, C division is `Int.tdiv`;
* loops whose termination depends on the input take a `fuel` argument and
  return `none` when it runs out.
-/

namespace Pjx

/-! ## Attribute lists (`pjx/pjx-attributes.c`) -/

/-- A `PangoAttribute`: `klass` is `klass->type`, `value` is the payload that
`pango_attribute_equal` compares, and `[start_index, end_index)` is the byte range. -/
structure PangoAttribute where
  klass : Nat
  value : Int
  start_index : Nat
  end_index : Nat
deriving DecidableEq, Repr

/-- The Pango library function `pango_attr_list_insert` (not part of this
repository), as documented: the attribute is inserted after all other attributes
with a matching `start_index`, that is before the first entry whose
`start_index` is greater. -/
def pango_attr_list_insert : List PangoAttribute → PangoAttribute → List PangoAttribute
  | [], attr => [attr]
  | tmp :: rest, attr =>
    if attr.start_index < tmp.start_index then attr :: tmp :: rest
    else tmp :: pango_attr_list_insert rest attr

/-- `pango_attr_list_insert (list, end_attr)` called while a cursor stands on the
node `tmp` of `list = prev ++ tmp :: rest`: the new node lands among the nodes
already passed, right before the cursor, or among the nodes still ahead. The
result is the new pair of nodes before and after the cursor. -/
def insert_at_cursor (prev : List PangoAttribute) (tmp : PangoAttribute)
    (rest : List PangoAttribute) (end_attr : PangoAttribute) :
    List PangoAttribute × List PangoAttribute :=
  if prev.any (fun y => decide (end_attr.start_index < y.start_index)) then
    (pango_attr_list_insert prev end_attr, rest)
  else if end_attr.start_index < tmp.start_index then (prev ++ [end_attr], rest)
  else (prev, pango_attr_list_insert rest end_attr)

/-- How the first loop of `pjx_attr_list_change` ends. -/
inductive ScanResult where
  /-- The function returned: an equal attribute already covers the range. -/
  | covered (list : List PangoAttribute)
  /-- The loop was left by `break`: `prev` holds `attr`, the nodes before it are
  `before`, and `tmp_list` is `rest`. -/
  | placed (before : List PangoAttribute) (attr : PangoAttribute) (rest : List PangoAttribute)
deriving DecidableEq, Repr

/-- The first loop of `pjx_attr_list_change` (`while (1)`), with the nodes
already passed in `prev` and `tmp_list` as the second list. -/
def change_scan : Nat → PangoAttribute → List PangoAttribute → List PangoAttribute →
    Option ScanResult
  | 0, _, _, _ => none
  | _ + 1, attr, prev, [] => some (ScanResult.placed prev attr [])
  | fuel + 1, attr, prev, tmp :: rest =>
    if attr.start_index < tmp.start_index then
      some (ScanResult.placed prev attr (tmp :: rest))
    else if tmp.klass = attr.klass ∧ attr.start_index ≤ tmp.end_index then
      if tmp.value = attr.value then
        if attr.end_index ≤ tmp.end_index then
          some (ScanResult.covered (prev ++ tmp :: rest))
        else
          some (ScanResult.placed prev { tmp with end_index := attr.end_index } rest)
      else
        let split :=
          if attr.end_index < tmp.end_index then
            insert_at_cursor prev tmp rest { tmp with start_index := attr.end_index }
          else (prev, rest)
        if tmp.start_index = attr.start_index then
          some (ScanResult.placed split.1 attr split.2)
        else
          change_scan fuel attr (split.1 ++ [{ tmp with end_index := attr.start_index }]) split.2
    else
      change_scan fuel attr (prev ++ [tmp]) rest

/-- The second loop of `pjx_attr_list_change` (`while (tmp_list)`): the list is
`before ++ attr :: skipped ++ tmp_list`, `skipped` being the nodes between the
node of `attr` and `prev`; `end_index` is the local copy taken on entry. -/
def change_fixup : Nat → Nat → List PangoAttribute → PangoAttribute → List PangoAttribute →
    List PangoAttribute → Option (List PangoAttribute)
  | 0, _, _, _, _, _ => none
  | _ + 1, _, before, attr, skipped, [] => some (before ++ attr :: skipped)
  | fuel + 1, end_index, before, attr, skipped, tmp :: rest =>
    if end_index < tmp.start_index then
      some (before ++ attr :: (skipped ++ tmp :: rest))
    else if tmp.klass = attr.klass then
      if tmp.end_index ≤ attr.end_index ∨ tmp.value = attr.value then
        change_fixup fuel end_index before
          { attr with end_index := max end_index tmp.end_index } skipped rest
      else
        let tmp2 := { tmp with start_index := attr.end_index }
        let moved := rest.takeWhile (fun y => decide (y.start_index < tmp2.start_index))
        let tail := rest.dropWhile (fun y => decide (y.start_index < tmp2.start_index))
        if moved = [] then
          change_fixup fuel end_index before attr (skipped ++ [tmp2]) rest
        else
          change_fixup fuel end_index before attr skipped (moved ++ tmp2 :: tail)
    else
      change_fixup fuel end_index before attr (skipped ++ [tmp]) rest

/-- The function `pjx_attr_list_change (list, attr)`; `none` when `fuel` loop
iterations are not enough. -/
def pjx_attr_list_change (fuel : Nat) (list : List PangoAttribute) (attr : PangoAttribute) :
    Option (List PangoAttribute) :=
  if attr.start_index = attr.end_index then some list
  else
    match change_scan fuel attr [] list with
    | none => none
    | some (ScanResult.covered l) => some l
    | some (ScanResult.placed before attr2 rest) =>
      change_fixup fuel attr.end_index before attr2 [] rest

/-- A sequence of `pjx_attr_list_change` calls, starting from `list`. -/
def change_all (fuel : Nat) : List PangoAttribute → List PangoAttribute →
    Option (List PangoAttribute)
  | list, [] => some list
  | list, attr :: attrs =>
    match pjx_attr_list_change fuel list attr with
    | none => none
    | some list2 => change_all fuel list2 attrs

/-- The function `pjx_attr_get_from_list`: the first attribute of the given type. -/
def pjx_attr_get_from_list : List PangoAttribute → Nat → Option PangoAttribute
  | [], _ => none
  | attr :: a, attr_type =>
    if attr.klass = attr_type then some attr else pjx_attr_get_from_list a attr_type

/-! ### Properties of attribute lists -/

/-- Two list entries in list order: starts do not decrease, entries of the same
kind do not overlap, and entries of the same kind and payload do not touch. -/
def AttrRel (x y : PangoAttribute) : Prop :=
  x.start_index ≤ y.start_index ∧
    (x.klass = y.klass → x.end_index ≤ y.start_index ∧
      (x.value = y.value → x.end_index < y.start_index))

instance (x y : PangoAttribute) : Decidable (AttrRel x y) := by
  unfold AttrRel; infer_instance

/-- The list invariant: every entry is a non-empty range and any two entries, in
list order, satisfy `AttrRel`. -/
def WellFormed (l : List PangoAttribute) : Prop :=
  (∀ x ∈ l, x.start_index < x.end_index) ∧ l.Pairwise AttrRel

/-- The ranges `[start, end)` of the two entries share a byte. -/
def Overlap (x y : PangoAttribute) : Prop :=
  x.start_index < y.end_index ∧ y.start_index < x.end_index

/-- The ranges of the two entries share a byte or one ends where the other starts. -/
def TouchOrOverlap (x y : PangoAttribute) : Prop :=
  x.start_index ≤ y.end_index ∧ y.start_index ≤ x.end_index

/-- Entries are in non-decreasing order of start index. -/
def SortedByStart (l : List PangoAttribute) : Prop :=
  l.Pairwise (fun x y => x.start_index ≤ y.start_index)

/-- No two entries of the same kind overlap. -/
def NoSameKindOverlap (l : List PangoAttribute) : Prop :=
  l.Pairwise (fun x y => x.klass = y.klass → ¬ Overlap x y)

/-- No two entries of the same kind with equal payload touch or overlap. -/
def NoEqualTouch (l : List PangoAttribute) : Prop :=
  l.Pairwise (fun x y => x.klass = y.klass → x.value = y.value → ¬ TouchOrOverlap x y)

/-- Byte position `p` is covered, for kind `k`, by an entry with payload `v`. -/
def Covers (l : List PangoAttribute) (k p : Nat) (v : Int) : Prop :=
  ∃ x ∈ l, x.klass = k ∧ x.value = v ∧ x.start_index ≤ p ∧ p < x.end_index

/-- The pair (kind `k`, position `p`) lies outside the range and kind of `a`. -/
def Outside (a : PangoAttribute) (k p : Nat) : Prop :=
  k ≠ a.klass ∨ p < a.start_index ∨ a.end_index ≤ p

/-- Lists built from the empty list by `pjx_attr_list_change` calls whose
attributes have `start_index ≤ end_index`. -/
inductive BuiltByChange : List PangoAttribute → Prop where
  | empty : BuiltByChange []
  | change (fuel : Nat) (l l2 : List PangoAttribute) (attr : PangoAttribute) :
      BuiltByChange l → attr.start_index ≤ attr.end_index →
      pjx_attr_list_change fuel l attr = some l2 → BuiltByChange l2

/-- Lists built from the empty list by `pjx_attr_list_change` calls with any attributes. -/
inductive BuiltByAnyChange : List PangoAttribute → Prop where
  | empty : BuiltByAnyChange []
  | change (fuel : Nat) (l l2 : List PangoAttribute) (attr : PangoAttribute) :
      BuiltByAnyChange l →
      pjx_attr_list_change fuel l attr = some l2 → BuiltByAnyChange l2

/-- What `pjx_attr_list_change (l, a)` establishes when it returns `l2`. -/
def ChangePost (l : List PangoAttribute) (a : PangoAttribute) (l2 : List PangoAttribute) : Prop :=
  WellFormed l2 ∧
    (∀ p, a.start_index ≤ p → p < a.end_index → Covers l2 a.klass p a.value) ∧
    (∀ k p v, Outside a k p → (Covers l2 k p v ↔ Covers l k p v))

/-- Invariant of the first loop of `pjx_attr_list_change` on a well-formed list `l`. -/
structure ScanInv (l : List PangoAttribute) (a : PangoAttribute)
    (prev rest : List PangoAttribute) : Prop where
  wf : WellFormed (prev ++ rest)
  rel : ∀ u ∈ prev, AttrRel u a
  cov : ∀ k p v, Outside a k p → (Covers (prev ++ rest) k p v ↔ Covers l k p v)
  len : rest.length ≤ l.length

/-- Invariant of the second loop of `pjx_attr_list_change` on a well-formed list `l`. -/
structure FixInv (l : List PangoAttribute) (a : PangoAttribute)
    (before : List PangoAttribute) (attr : PangoAttribute)
    (skipped rest : List PangoAttribute) : Prop where
  kind : attr.klass = a.klass
  val : attr.value = a.value
  start_le : attr.start_index ≤ a.start_index
  end_ge : a.end_index ≤ attr.end_index
  wf_done : WellFormed (before ++ attr :: skipped)
  wf_rest : WellFormed rest
  cross : ∀ u ∈ before ++ skipped, ∀ y ∈ rest, AttrRel u y
  ahead : ∀ y ∈ rest, attr.start_index ≤ y.start_index ∧
    (y.klass = a.klass → a.start_index ≤ y.start_index)
  grown : a.end_index < attr.end_index → ∀ y ∈ rest, y.klass = a.klass →
    attr.end_index ≤ y.start_index ∧ (y.value = a.value → attr.end_index < y.start_index)
  cov : ∀ k p v, Outside a k p →
    (Covers (before ++ attr :: (skipped ++ rest)) k p v ↔ Covers l k p v)
  len : rest.length ≤ l.length

/-- What the first loop establishes. -/
def ScanPost (l : List PangoAttribute) (a : PangoAttribute) : ScanResult → Prop
  | ScanResult.covered l2 => ChangePost l a l2
  | ScanResult.placed before attr rest => FixInv l a before attr [] rest

/-- The number of nodes the first loop still has to pass. -/
def scanCount (a : PangoAttribute) (rest : List PangoAttribute) : Nat :=
  rest.countP (fun y => decide (y.start_index ≤ a.start_index))

/-- The number of nodes of the kind of `a` that start before its end. -/
def fixCount (a : PangoAttribute) (rest : List PangoAttribute) : Nat :=
  rest.countP (fun y => decide (y.klass = a.klass ∧ y.start_index < a.end_index))

/-- The nodes ahead of the cursor after the first loop has met an overlapping
entry `tmp` with a different payload: the part of `tmp` past the end of `a`, if
any, has been inserted. -/
def splitRest (a tmp : PangoAttribute) (rest : List PangoAttribute) : List PangoAttribute :=
  if a.end_index < tmp.end_index then
    pango_attr_list_insert rest { tmp with start_index := a.end_index }
  else rest

instance (l : List PangoAttribute) (k p : Nat) (v : Int) : Decidable (Covers l k p v) := by
  unfold Covers; infer_instance

instance (a : PangoAttribute) (k p : Nat) : Decidable (Outside a k p) := by
  unfold Outside; infer_instance

instance (x y : PangoAttribute) : Decidable (Overlap x y) := by
  unfold Overlap; infer_instance

instance (x y : PangoAttribute) : Decidable (TouchOrOverlap x y) := by
  unfold TouchOrOverlap; infer_instance

instance (l : List PangoAttribute) : Decidable (SortedByStart l) := by
  unfold SortedByStart; infer_instance

instance (l : List PangoAttribute) : Decidable (NoSameKindOverlap l) := by
  unfold NoSameKindOverlap; infer_instance

instance (l : List PangoAttribute) : Decidable (NoEqualTouch l) := by
  unfold NoEqualTouch; infer_instance

/-! ## Paragraph layout (`pjx/pjx-layout.c`): data -/

/-- The attribute type `PANGO_ATTR_UNDERLINE` of the Pango headers. -/
def PANGO_ATTR_UNDERLINE : Nat := 11
/-- The attribute type `PANGO_ATTR_RISE` of the Pango headers. -/
def PANGO_ATTR_RISE : Nat := 13
/-- The attribute type `PANGO_ATTR_SHAPE` of the Pango headers. -/
def PANGO_ATTR_SHAPE : Nat := 14
/-- The attribute type `PANGO_ATTR_LETTER_SPACING` of the Pango headers. -/
def PANGO_ATTR_LETTER_SPACING : Nat := 17
/-- The type registered as "ruby" by `pjx_attr_init` (`pango_attr_type_register`
hands out distinct values from `0x1000000` on). -/
def PJX_ATTR_RUBY : Nat := 0x1000000
/-- The type registered as "rb" by `pjx_attr_init`. -/
def PJX_ATTR_RB : Nat := 0x1000001
/-- The type registered as "rt" by `pjx_attr_init`. -/
def PJX_ATTR_RT : Nat := 0x1000002
/-- The constant `PANGO_SCALE`. -/
def PANGO_SCALE : Int := 1024

/-- The constant `G_MAXINT`. -/
def G_MAXINT : Nat := 2147483647

/-- The constant `G_MININT`. -/
def G_MININT : Int := -2147483648

/-- The value of an arithmetic expression of type `int`; `none` when the result is
outside the range of `int`, where the behaviour of the program is undefined. -/
def int_value (x : Int) : Option Int :=
  if G_MININT ≤ x ∧ x ≤ G_MAXINT then some x else none
/-- The code point `LINE_SEPARATOR` of `process_item`. -/
def LINE_SEPARATOR : Nat := 0x2028

inductive PangoDirection where
  | LTR | RTL | TTB_LTR | TTB_RTL | WEAK_LTR | WEAK_RTL | NEUTRAL
deriving DecidableEq, Repr

inductive PangoWrapMode where
  | WORD | CHAR | WORD_CHAR
deriving DecidableEq, Repr

/-- One glyph of a `PangoGlyphString`: `glyph`, `geometry.width`,
`geometry.x_offset`, `geometry.y_offset` and `attr.is_cluster_start`. -/
structure PangoGlyphInfo where
  glyph : Nat
  width : Int
  x_offset : Int
  y_offset : Int
  is_cluster_start : Bool
deriving DecidableEq, Repr

/-- A `PangoGlyphString`; `num_glyphs` is the length of `glyphs`. -/
structure PangoGlyphString where
  glyphs : List PangoGlyphInfo
  log_clusters : List Int
deriving DecidableEq, Repr

structure PangoAnalysis where
  level : Nat
  extra_attrs : List PangoAttribute
deriving DecidableEq, Repr

structure PangoItem where
  offset : Nat
  length : Nat
  num_chars : Nat
  analysis : PangoAnalysis
deriving DecidableEq, Repr

structure PangoLayoutRun where
  item : PangoItem
  glyphs : PangoGlyphString
deriving DecidableEq, Repr

structure PangoLayoutLine where
  start_index : Int
  length : Int
  runs : List PangoLayoutRun
  is_paragraph_start : Bool
  resolved_dir : PangoDirection
deriving DecidableEq, Repr

/-- The two flags of a `PangoLogAttr` that line breaking reads. -/
structure PangoLogAttr where
  is_line_break : Bool
  is_char_break : Bool
deriving DecidableEq, Repr

structure PangoTabArray where
  positions : List Int
  positions_in_pixels : Bool
deriving DecidableEq, Repr

/-- The fields of `PangoLayout` that line breaking reads. `text` is the byte
string, `ellipsize` stands for `layout->ellipsize != PANGO_ELLIPSIZE_NONE` and
`tab_width` is `-1` until measured. -/
structure PangoLayout where
  text : List Nat
  n_chars : Nat
  log_attrs : List PangoLogAttr
  width : Int
  indent : Int
  wrap : PangoWrapMode
  ellipsize : Bool
  tabs : Option PangoTabArray
  tab_width : Int
deriving DecidableEq, Repr

/-- The Pango library functions that line breaking calls and this repository does
not define; each is a function of its arguments (the text is fixed by the layout).
`spaces_width` is the total glyph width `ensure_tab_width` gets by shaping eight
spaces. -/
structure Collaborators where
  pango_shape : PangoItem → PangoGlyphString
  pango_glyph_item_letter_space : PangoItem → PangoGlyphString → Int → Int → PangoGlyphString
  pango_glyph_string_get_logical_widths : PangoGlyphString → PangoItem → List Int
  pango_layout_line_ellipsize : PangoLayoutLine → PangoLayoutLine
  spaces_width : Int

/-- The record `ItemProperties`; of the shape rectangles only the logical width,
the one field `imposed_shape` reads, is kept. -/
structure ItemProperties where
  uline : Int
  rise : Int
  letter_spacing : Int
  shape_set : Bool
  shape_logical_width : Int
deriving DecidableEq, Repr

inductive BreakResult where
  | BREAK_NONE_FIT | BREAK_SOME_FIT | BREAK_ALL_FIT | BREAK_EMPTY_FIT | BREAK_LINE_SEPARATOR
deriving DecidableEq, Repr

/-- The record `ParaBreakState`. A `NULL` glyph string is `none`; `log_widths` is
the empty list while it is `NULL` or freed. -/
structure ParaBreakState where
  items : List PangoItem
  base_dir : PangoDirection
  first_line : Bool
  last_line : Bool
  line_start_index : Int
  remaining_width : Int
  start_offset : Int
  glyphs : Option PangoGlyphString
  properties : ItemProperties
  log_widths : List Int
  log_widths_offset : Nat
deriving DecidableEq, Repr

/-! ### GLib UTF-8 helpers -/

/-- The GLib table `g_utf8_skip`: the length of a character from its first byte. -/
def g_utf8_skip (c : Nat) : Nat :=
  if c < 0xc0 then 1 else if c < 0xe0 then 2 else if c < 0xf0 then 3
  else if c < 0xf8 then 4 else if c < 0xfc then 5 else if c < 0xfe then 6 else 1

/-- The byte `text[i]`; the byte after the text is the terminating zero. -/
def text_byte (text : List Nat) (i : Nat) : Nat := text.getD i 0

/-- The continuation bytes read by `g_utf8_get_char`; `none` when one is not of
the form `10xxxxxx`. -/
def utf8_continue (text : List Nat) : Nat → Nat → Nat → Option Nat
  | 0, _, result => some result
  | n + 1, p, result =>
    if text_byte text p / 64 = 2 then
      utf8_continue text n (p + 1) (result * 64 + text_byte text p % 64)
    else none

/-- The GLib function `g_utf8_get_char` at byte offset `p`; `(gunichar)-1` is
`0xffffffff`. -/
def g_utf8_get_char (text : List Nat) (p : Nat) : Nat :=
  let c := text_byte text p
  if c < 0x80 then c
  else
    let len := g_utf8_skip c
    if c < 0xc0 ∨ 0xfe ≤ c then 0xffffffff
    else
      let mask := if len = 2 then 32 else if len = 3 then 16 else if len = 4 then 8
        else if len = 5 then 4 else 2
      (utf8_continue text (len - 1) (p + 1) (c % mask)).getD 0xffffffff

/-- The GLib function `g_utf8_offset_to_pointer` for a non-negative offset: the
byte position `offset` characters after byte position `p`. -/
def g_utf8_offset_to_pointer (text : List Nat) : Nat → Nat → Nat
  | p, 0 => p
  | p, offset + 1 => g_utf8_offset_to_pointer text (p + g_utf8_skip (text_byte text p)) offset

/-! ### Item properties and shaping -/

/-- The function `pjx_layout_get_item_properties`, as a loop over the attributes
with the record filled so far. For `PANGO_ATTR_SHAPE` the payload `value` is the
width of the logical rectangle. -/
def get_item_properties_loop : List PangoAttribute → ItemProperties → ItemProperties
  | [], properties => properties
  | attr :: tmp_list, properties =>
    get_item_properties_loop tmp_list
      (if attr.klass = PANGO_ATTR_UNDERLINE then { properties with uline := attr.value }
       else if attr.klass = PANGO_ATTR_RISE then { properties with rise := attr.value }
       else if attr.klass = PANGO_ATTR_LETTER_SPACING then
         { properties with letter_spacing := attr.value }
       else if attr.klass = PANGO_ATTR_SHAPE then
         { properties with shape_set := true, shape_logical_width := attr.value }
       else properties)

/-- The function `pjx_layout_get_item_properties`. -/
def pjx_layout_get_item_properties (item : PangoItem) : ItemProperties :=
  get_item_properties_loop item.analysis.extra_attrs
    { uline := 0, rise := 0, letter_spacing := 0, shape_set := false, shape_logical_width := 0 }

/-- The function `get_item_letter_spacing`. -/
def get_item_letter_spacing (item : PangoItem) : Int :=
  (pjx_layout_get_item_properties item).letter_spacing

/-- The sum of the glyph widths of a glyph string. -/
def glyphs_width (glyphs : List PangoGlyphInfo) : Int :=
  (glyphs.map (fun g => g.width)).sum

/-- The function `line_width`. -/
def line_width (line : PangoLayoutLine) : Int :=
  (line.runs.map (fun run => glyphs_width run.glyphs.glyphs)).sum

/-- The tab width after `ensure_tab_width`. -/
def ensure_tab_width (ext : Collaborators) (layout : PangoLayout) : Int :=
  if layout.tab_width = -1 then
    if ext.spaces_width ≤ 0 then 50 * PANGO_SCALE else ext.spaces_width
  else layout.tab_width

/-- The position of the tab stop `index` in unbounded integers: what `get_tab_pos`
computes when no arithmetic overflows (specification side). -/
def tab_stop (ext : Collaborators) (layout : PangoLayout) (index : Nat) : Int :=
  let n_tabs := match layout.tabs with
    | some tabs => tabs.positions.length
    | none => 0
  let in_pixels := match layout.tabs with
    | some tabs => tabs.positions_in_pixels
    | none => false
  let tab : Nat → Int := fun i => match layout.tabs with
    | some tabs => tabs.positions.getD i 0
    | none => 0
  if index < n_tabs then
    if in_pixels then tab index * PANGO_SCALE else tab index
  else if 0 < n_tabs then
    let last_pos : Int := if in_pixels then tab (n_tabs - 1) * PANGO_SCALE else tab (n_tabs - 1)
    let next_to_last : Int := if 1 < n_tabs then tab (n_tabs - 2) else 0
    let next_to_last_pos : Int :=
      if in_pixels then next_to_last * PANGO_SCALE else next_to_last
    let tab_width : Int :=
      if next_to_last_pos < last_pos then last_pos - next_to_last_pos
      else ensure_tab_width ext layout
    last_pos + tab_width * ((index : Int) - n_tabs + 1)
  else ensure_tab_width ext layout * index

/-- The function `get_tab_pos`, in `int` arithmetic: `none` when a product, a
difference or a sum leaves the range of `int`. -/
def get_tab_pos (ext : Collaborators) (layout : PangoLayout) (index : Nat) : Option Int :=
  let n_tabs := match layout.tabs with
    | some tabs => tabs.positions.length
    | none => 0
  let in_pixels := match layout.tabs with
    | some tabs => tabs.positions_in_pixels
    | none => false
  let tab : Nat → Int := fun i => match layout.tabs with
    | some tabs => tabs.positions.getD i 0
    | none => 0
  if index < n_tabs then
    if in_pixels then int_value (tab index * PANGO_SCALE) else int_value (tab index)
  else if 0 < n_tabs then
    let next_to_last : Int := if 1 < n_tabs then tab (n_tabs - 2) else 0
    match (if in_pixels then int_value (next_to_last * PANGO_SCALE)
           else int_value next_to_last) with
    | none => none
    | some next_to_last_pos =>
      match (if in_pixels then int_value (tab (n_tabs - 1) * PANGO_SCALE)
             else int_value (tab (n_tabs - 1))) with
      | none => none
      | some last_pos =>
        match (if next_to_last_pos < last_pos then int_value (last_pos - next_to_last_pos)
               else int_value (ensure_tab_width ext layout)) with
        | none => none
        | some tab_width =>
          match int_value ((index : Int) - n_tabs + 1) with
          | none => none
          | some count =>
            match int_value (tab_width * count) with
            | none => none
            | some gap => int_value (last_pos + gap)
  else
    match int_value (ensure_tab_width ext layout) with
    | none => none
    | some tab_width => int_value (tab_width * index)

/-- The search `for (i=0;;i++)` of `shape_tab` from index `i` on, tried `fuel`
times: the width of the glyph, `tab_pos - current_width` for the first tab position
that exceeds `current_width`. The result is `none` when `i` or a tab position or
the width leaves the range of `int`, and when the iterations are used up. -/
def shape_tab_search (ext : Collaborators) (layout : PangoLayout) (current_width : Int) :
    Nat → Nat → Option Int
  | 0, _ => none
  | fuel + 1, i =>
    if G_MAXINT < i then none
    else
      match get_tab_pos ext layout i with
      | none => none
      | some tab_pos =>
        if current_width < tab_pos then int_value (tab_pos - current_width)
        else shape_tab_search ext layout current_width fuel (i + 1)

/-- A number of iterations after which the search of `shape_tab` has found a stop
or left the range of `int`: past the explicit stops the tab positions grow by a
positive gap per index. -/
def shape_tab_bound (ext : Collaborators) (layout : PangoLayout) (current_width : Int) : Nat :=
  let n_tabs := match layout.tabs with
    | some tabs => tabs.positions.length
    | none => 0
  n_tabs + (current_width - tab_stop ext layout n_tabs).toNat + 2

/-- The function `shape_tab`; `none` when the search leaves the range of `int`. -/
def shape_tab (ext : Collaborators) (layout : PangoLayout) (line : PangoLayoutLine) :
    Option PangoGlyphString :=
  match shape_tab_search ext layout (line_width line)
      (shape_tab_bound ext layout (line_width line)) 0 with
  | none => none
  | some width =>
    some { glyphs := [{ glyph := 0, width := width, x_offset := 0, y_offset := 0,
                        is_cluster_start := true }],
           log_clusters := [0] }

/-- The loop of `imposed_shape`: one glyph per character, from byte position `p`. -/
def imposed_shape_loop (text : List Nat) (start : Nat) (width : Int) :
    Nat → Nat → List PangoGlyphInfo × List Int
  | 0, _ => ([], [])
  | n + 1, p =>
    let rest := imposed_shape_loop text start width n (p + g_utf8_skip (text_byte text p))
    ({ glyph := 0, width := width, x_offset := 0, y_offset := 0, is_cluster_start := true }
        :: rest.1,
     ((p : Int) - start) :: rest.2)

/-- The function `imposed_shape` for the text at byte offset `start`. -/
def imposed_shape (text : List Nat) (start n_chars : Nat) (shape_logical_width : Int) :
    PangoGlyphString :=
  let r := imposed_shape_loop text start shape_logical_width n_chars start
  { glyphs := r.1, log_clusters := r.2 }

/-- Adds `adjustment` to the width of the last glyph (`adjust_final_space`, and the
letter spacing step of `shape_run`); `none` when there is no glyph. -/
def adjust_final_space (glyphs : PangoGlyphString) (adjustment : Int) : Option PangoGlyphString :=
  match glyphs.glyphs.getLast? with
  | none => none
  | some last =>
    some { glyphs with
      glyphs := glyphs.glyphs.dropLast ++ [{ last with width := last.width + adjustment }] }

/-- The function `shape_run`. -/
def shape_run (ext : Collaborators) (layout : PangoLayout) (line : PangoLayoutLine)
    (state : ParaBreakState) (item : PangoItem) : Option PangoGlyphString :=
  if text_byte layout.text item.offset = 9 then shape_tab ext layout line
  else
    let glyphs :=
      if state.properties.shape_set then
        imposed_shape layout.text item.offset item.num_chars state.properties.shape_logical_width
      else ext.pango_shape item
    if state.properties.letter_spacing ≠ 0 then
      adjust_final_space
        (ext.pango_glyph_item_letter_space item glyphs state.start_offset
          state.properties.letter_spacing)
        state.properties.letter_spacing
    else some glyphs

/-! ### Line breaking: `process_item` -/

/-- The function `can_break_at`; `none` when `log_attrs[offset]` lies outside the array. -/
def can_break_at (layout : PangoLayout) (offset : Int) (always_wrap_char : Bool) :
    Option Bool :=
  let wrap :=
    if layout.wrap = PangoWrapMode.WORD_CHAR then
      (if always_wrap_char then PangoWrapMode.CHAR else PangoWrapMode.WORD)
    else layout.wrap
  if offset = layout.n_chars then some true
  else if offset < 0 then none
  else
    match layout.log_attrs[offset.toNat]? with
    | none => none
    | some log_attr =>
      if wrap = PangoWrapMode.WORD then some log_attr.is_line_break
      else if wrap = PangoWrapMode.CHAR then some log_attr.is_char_break
      else some true

/-- The loop of `can_break_in`: `count` more offsets from `i` on. -/
def can_break_in_loop (layout : PangoLayout) (start_offset : Int) : Nat → Nat → Option Bool
  | 0, _ => some false
  | count + 1, i =>
    match can_break_at layout (start_offset + i) false with
    | none => none
    | some true => some true
    | some false => can_break_in_loop layout start_offset count (i + 1)

/-- The function `can_break_in`. -/
def can_break_in (layout : PangoLayout) (start_offset : Int) (num_chars : Nat)
    (allow_break_at_start : Bool) : Option Bool :=
  if allow_break_at_start then can_break_in_loop layout start_offset num_chars 0
  else can_break_in_loop layout start_offset (num_chars - 1) 1

/-- The function `insert_run`. -/
def insert_run (ext : Collaborators) (layout : PangoLayout) (line : PangoLayoutLine)
    (state : ParaBreakState) (run_item : PangoItem) (last_run : Bool) :
    Option (PangoLayoutLine × ParaBreakState) :=
  match (if last_run ∧ state.log_widths_offset = 0 then state.glyphs
         else shape_run ext layout line state run_item) with
  | none => none
  | some glyphs =>
    some ({ line with runs := { item := run_item, glyphs := glyphs } :: line.runs,
                      length := line.length + run_item.length },
          if last_run then { state with glyphs := none, log_widths := [] } else state)

/-- The inner `for` of the grapheme cluster hack in `process_item`: the last glyph
of the cluster that starts at `g`. -/
def cluster_tail : PangoGlyphInfo → List PangoGlyphInfo → PangoGlyphInfo
  | g, [] => g
  | g, h :: rest => if h.is_cluster_start then g else cluster_tail h rest

/-- The `while (TRUE)` of the grapheme cluster hack in `process_item`: the last
glyph of the cluster number `num_chars`, `i` clusters having been counted; `none`
when the glyph string has fewer clusters. -/
def cluster_scan : List PangoGlyphInfo → Nat → Nat → Option PangoGlyphInfo
  | [], _, _ => none
  | g :: rest, i, num_chars =>
    if g.is_cluster_start then
      if i + 1 = num_chars then some (cluster_tail g rest)
      else cluster_scan rest (i + 1) num_chars
    else cluster_scan rest i num_chars

/-- The `end_width` the grapheme cluster hack gives for a break after `num_chars`
characters of width `width`. -/
def break_end_width (glyphs : List PangoGlyphInfo) (num_chars : Nat) (width : Int) :
    Option Int :=
  if num_chars = 0 then some width
  else
    match cluster_scan glyphs 0 num_chars with
    | none => none
    | some g => some (if g.glyph = 0 then width - g.width else width)

/-- The loop `while (--num_chars >= 0)` of `process_item`. The first number is the
value of `num_chars` before the decrement, the triple is `break_num_chars`,
`break_width`, `end_width`. `has_runs` is `line->runs != NULL`, `ruby` says whether
the item carries `PJX_ATTR_RUBY`. -/
def break_loop (layout : PangoLayout) (has_runs : Bool) (state : ParaBreakState)
    (glyphs : List PangoGlyphInfo) (ruby : Bool) (retrying_with_char_breaks : Bool) :
    Nat → Int → Nat × Int × Int → Option (Nat × Int × Int)
  | 0, _, acc => some acc
  | num_chars + 1, width, acc =>
    match state.log_widths[state.log_widths_offset + num_chars]? with
    | none => none
    | some w =>
      match can_break_at layout (state.start_offset + num_chars) retrying_with_char_breaks with
      | none => none
      | some can =>
        if can ∧ (0 < num_chars ∨ has_runs) ∧ ¬ ruby then
          match break_end_width glyphs num_chars (width - w) with
          | none => none
          | some end_width =>
            if end_width ≤ state.remaining_width ∨ (num_chars = 1 ∧ ¬ has_runs) then
              some (num_chars, width - w, end_width)
            else
              break_loop layout has_runs state glyphs ruby retrying_with_char_breaks
                num_chars (width - w) (num_chars, width - w, end_width)
        else
          break_loop layout has_runs state glyphs ruby retrying_with_char_breaks
            num_chars (width - w) acc

/-- The sum `log_widths[offset] + ... + log_widths[offset + n - 1]`; `none` when
the array is shorter. -/
def sum_log_widths (log_widths : List Int) (offset : Nat) : Nat → Option Int
  | 0 => some 0
  | n + 1 =>
    match sum_log_widths log_widths offset n, log_widths[offset + n]? with
    | some s, some w => some (s + w)
    | _, _ => none

/-- The assignment `a[i] += d`. -/
def add_at (a : List Int) (i : Nat) (d : Int) : List Int :=
  match a[i]? with
  | none => a
  | some x => a.set i (x + d)

/-- The library function `pango_item_split (orig, split_index, split_offset)`, as
documented: the result covers the text before `split_index`; `orig` is left
covering the text after it (second component). -/
def pango_item_split (orig : PangoItem) (split_index split_offset : Nat) :
    PangoItem × PangoItem :=
  ({ orig with length := split_index, num_chars := split_offset },
   { orig with offset := orig.offset + split_index, length := orig.length - split_index,
               num_chars := orig.num_chars - split_offset })

/-- The first part of `process_item`: shaping the item at the head of the queue
when `state->glyphs` is `NULL`. The result is the state, the glyph string
`state->glyphs` and `processing_new_item`. -/
def process_item_shape (ext : Collaborators) (layout : PangoLayout) (line : PangoLayoutLine)
    (state : ParaBreakState) (item : PangoItem) :
    Option (ParaBreakState × PangoGlyphString × Bool) :=
  match state.glyphs with
  | some glyphs => some (state, glyphs, false)
  | none =>
    match shape_run ext layout line
        { state with properties := pjx_layout_get_item_properties item } item with
    | none => none
    | some shaped =>
      match shaped.glyphs with
      | [] => none
      | g0 :: gs =>
        let glyphs : PangoGlyphString :=
          if g0.glyph = 0 then { glyphs := gs, log_clusters := shaped.log_clusters.drop 1 }
          else shaped
        some ({ state with properties := pjx_layout_get_item_properties item,
                           glyphs := some glyphs, log_widths := [], log_widths_offset := 0 },
              glyphs, true)

/-- The function `process_item`: the result, the line and the state after the call.
The item `state->items->data` is the head of `state.items`; after a split the head
is the rest of the item. -/
def process_item (ext : Collaborators) (layout : PangoLayout) (line : PangoLayoutLine)
    (state0 : ParaBreakState) (force_fit no_break_at_end : Bool) :
    Option (BreakResult × PangoLayoutLine × ParaBreakState) :=
  match state0.items with
  | [] => none
  | item :: items =>
    match process_item_shape ext layout line state0 item with
    | none => none
    | some (state, glyphs, processing_new_item) =>
      if g_utf8_get_char layout.text item.offset = LINE_SEPARATOR then
        match insert_run ext layout line state item true with
        | none => none
        | some (line1, state1) =>
          some (BreakResult.BREAK_LINE_SEPARATOR, line1,
            { state1 with log_widths_offset := state1.log_widths_offset + item.num_chars,
                          last_line := true })
      else if state.remaining_width < 0 ∧ ¬ no_break_at_end then
        match insert_run ext layout line state item true with
        | none => none
        | some (line1, state1) =>
          some (BreakResult.BREAK_ALL_FIT, line1, { state1 with last_line := true })
      else
        match (if processing_new_item then
                 some (glyphs_width glyphs.glyphs + state.properties.letter_spacing)
               else sum_log_widths state.log_widths state.log_widths_offset item.num_chars) with
        | none => none
        | some width0 =>
          let width : Int :=
            if (pjx_attr_get_from_list item.analysis.extra_attrs PJX_ATTR_RB).isSome then 0
            else width0
          match (if 0 < width then
                   match glyphs.glyphs.getLast? with
                   | none => none
                   | some last => some (if last.glyph = 0 then width - last.width else width)
                 else some width) with
          | none => none
          | some end_width =>
            if (end_width ≤ state.remaining_width ∨ (item.num_chars = 1 ∧ line.runs = [])) ∧
                ¬ no_break_at_end then
              match insert_run ext layout line
                  { state with remaining_width := max (state.remaining_width - width) 0 }
                  item true with
              | none => none
              | some (line1, state1) =>
                some (BreakResult.BREAK_ALL_FIT, line1, { state1 with last_line := true })
            else
              let log_widths : List Int :=
                if processing_new_item then
                  add_at (ext.pango_glyph_string_get_logical_widths glyphs item)
                    (item.num_chars - 1)
                    (if 0 < item.num_chars then state.properties.letter_spacing else 0)
                else state.log_widths
              let state2 : ParaBreakState :=
                { state with log_widths := log_widths, last_line := false }
              let ruby := (pjx_attr_get_from_list item.analysis.extra_attrs PJX_ATTR_RUBY).isSome
              let has_runs : Bool := decide (line.runs ≠ [])
              match break_loop layout has_runs state2 glyphs.glyphs ruby false
                  item.num_chars width (item.num_chars, width, end_width) with
              | none => none
              | some first =>
                match (if layout.wrap = PangoWrapMode.WORD_CHAR ∧ force_fit ∧
                          state2.remaining_width < first.2.2 then
                         break_loop layout has_runs state2 glyphs.glyphs ruby true
                           item.num_chars width (item.num_chars, width, width)
                       else some first) with
                | none => none
                | some (break_num_chars, break_width, end_width2) =>
                  if force_fit ∨ end_width2 ≤ state2.remaining_width then
                    let state3 : ParaBreakState :=
                      if 0 ≤ state2.remaining_width then
                        { state2 with
                          remaining_width := max (state2.remaining_width - break_width) 0 }
                      else state2
                    if break_num_chars = item.num_chars then
                      match insert_run ext layout line state3 item true with
                      | none => none
                      | some (line1, state4) => some (BreakResult.BREAK_ALL_FIT, line1, state4)
                    else if break_num_chars = 0 then
                      some (BreakResult.BREAK_EMPTY_FIT, line, state3)
                    else
                      let length :=
                        g_utf8_offset_to_pointer layout.text item.offset break_num_chars -
                          item.offset
                      let split := pango_item_split item length break_num_chars
                      match insert_run ext layout line { state3 with items := split.2 :: items }
                          split.1 false with
                      | none => none
                      | some (line1, state4) =>
                        some (BreakResult.BREAK_SOME_FIT, line1,
                          { state4 with
                            log_widths_offset := state4.log_widths_offset + break_num_chars })
                  else
                    some (BreakResult.BREAK_NONE_FIT, line,
                      { state2 with glyphs := none, log_widths := [] })

/-! ### Line post-processing -/

/-- The first loop of `reorder_runs_recurse`: the minimum level of the first
`n_items` runs, starting from `min_level`. -/
def min_level_loop : List PangoLayoutRun → Nat → Nat → Nat
  | _, 0, min_level => min_level
  | [], _ + 1, min_level => min_level
  | run :: tmp_list, n + 1, min_level =>
    min_level_loop tmp_list n (min min_level run.item.analysis.level)

/-- The second loop of `reorder_runs_recurse` and the code after it. `recurse` is
the recursive call, the first number counts the iterations left, `level_start_node`
is the node where the current stretch of runs above `min_level` starts and
`pending` is its length `i - level_start_i`. -/
def reorder_loop (recurse : List PangoLayoutRun → Nat → List PangoLayoutRun) (min_level : Nat) :
    List PangoLayoutRun → Nat → List PangoLayoutRun → Nat → List PangoLayoutRun →
    List PangoLayoutRun
  | _, 0, level_start_node, pending, result
  | [], _ + 1, level_start_node, pending, result =>
    if min_level % 2 = 1 then
      if 0 < pending then recurse level_start_node pending ++ result else result
    else
      if 0 < pending then result ++ recurse level_start_node pending else result
  | run :: tmp_list, n + 1, level_start_node, pending, result =>
    if run.item.analysis.level = min_level then
      if min_level % 2 = 1 then
        reorder_loop recurse min_level tmp_list n tmp_list 0
          (run :: (if 0 < pending then recurse level_start_node pending ++ result else result))
      else
        reorder_loop recurse min_level tmp_list n tmp_list 0
          ((if 0 < pending then result ++ recurse level_start_node pending else result) ++ [run])
    else
      reorder_loop recurse min_level tmp_list n level_start_node (pending + 1) result

/-- The function `reorder_runs_recurse (items, n_items)`; `fuel` bounds the depth
of the recursion. -/
def reorder_runs_recurse : Nat → List PangoLayoutRun → Nat → List PangoLayoutRun
  | 0, _, _ => []
  | fuel + 1, items, n_items =>
    if n_items = 0 then []
    else
      reorder_loop (fun l n => reorder_runs_recurse fuel l n)
        (min_level_loop items n_items G_MAXINT) items n_items items 0 []

/-- The function `pjx_layout_line_reorder`. Every recursive call is on fewer runs,
so a depth of `g_slist_length (logical_runs)` is never exceeded. -/
def pjx_layout_line_reorder (line : PangoLayoutLine) : PangoLayoutLine :=
  { line with runs := reorder_runs_recurse line.runs.length line.runs line.runs.length }

/-- The function `is_tab_run`. -/
def is_tab_run (layout : PangoLayout) (run : PangoLayoutRun) : Bool :=
  decide (text_byte layout.text run.item.offset = 9)

/-- The call `adjust_final_space (run->glyphs, adjustment)`. -/
def adjust_run_final_space (run : PangoLayoutRun) (adjustment : Int) : Option PangoLayoutRun :=
  match adjust_final_space run.glyphs adjustment with
  | none => none
  | some glyphs => some { run with glyphs := glyphs }

/-- The first adjustment of a non-tab run in `adjust_line_letter_spacing`: on the
run `visual_last_run`, which is the head of `done` (the runs already walked, last
first) or, on a reversed line, the head of `rest`. The result is the new `done`,
`rest` and `tab_adjustment`. -/
def letter_spacing_before (layout : PangoLayout) (reversed : Bool)
    (done rest : List PangoLayoutRun) (tab_adjustment adjustment : Int) :
    Option (List PangoLayoutRun × List PangoLayoutRun × Int) :=
  if reversed then
    match rest with
    | [] => some (done, rest, tab_adjustment + adjustment)
    | next_run :: rest2 =>
      if is_tab_run layout next_run then some (done, rest, tab_adjustment + adjustment)
      else
        match adjust_run_final_space next_run adjustment with
        | none => none
        | some r => some (done, r :: rest2, tab_adjustment)
  else
    match done with
    | [] => some (done, rest, tab_adjustment + adjustment)
    | last_run :: done2 =>
      if is_tab_run layout last_run then some (done, rest, tab_adjustment + adjustment)
      else
        match adjust_run_final_space last_run adjustment with
        | none => none
        | some r => some (r :: done2, rest, tab_adjustment)

/-- The main loop of `adjust_line_letter_spacing`: `done` holds the runs already
walked, last first, so that `last_run` is its head; the number counts the runs
still to walk. -/
def letter_spacing_loop (layout : PangoLayout) (reversed : Bool) :
    Nat → List PangoLayoutRun → List PangoLayoutRun → Int → Option (List PangoLayoutRun)
  | _, done, [], _ => some done.reverse
  | 0, done, rest, _ => some (done.reverse ++ rest)
  | n + 1, done, run :: rest, tab_adjustment =>
    if is_tab_run layout run then
      match adjust_run_final_space run tab_adjustment with
      | none => none
      | some r => letter_spacing_loop layout reversed n (r :: done) rest 0
    else
      let run_spacing := get_item_letter_spacing run.item
      let adjustment := run_spacing.tdiv 2
      match letter_spacing_before layout reversed done rest tab_adjustment adjustment with
      | none => none
      | some (done1, rest1, tab1) =>
        let visual_next_run := if reversed then done.head? else rest.head?
        if (match visual_next_run with
            | some next => !is_tab_run layout next
            | none => false) then
          match adjust_run_final_space run (- adjustment) with
          | none => none
          | some r => letter_spacing_loop layout reversed n (r :: done1) rest1 tab1
        else
          match adjust_run_final_space run (- run_spacing) with
          | none => none
          | some r =>
            letter_spacing_loop layout reversed n (r :: done1) rest1
              (tab1 + (run_spacing - adjustment))

/-- The function `adjust_line_letter_spacing`. -/
def adjust_line_letter_spacing (layout : PangoLayout) (line : PangoLayoutLine) :
    Option PangoLayoutLine :=
  let reversed : Bool :=
    decide (line.resolved_dir = PangoDirection.RTL) && line.runs.any (is_tab_run layout)
  let runs := if reversed then line.runs.reverse else line.runs
  match letter_spacing_loop layout reversed runs.length [] runs 0 with
  | none => none
  | some runs2 => some { line with runs := if reversed then runs2.reverse else runs2 }

/-- The array `widths` of `adjust_line_justify` with its fill index `width_i` and
the pointer `last_gi`. A pointer to a glyph is the pair of the position of its run
in the line and its position in the glyph string; `last_gi` is `none` while it is
not assigned. The array is taken to be large enough (it has `line->length`
entries). -/
structure JustifySlots where
  widths : List (Nat × Nat)
  width_i : Nat
  last_gi : Option (Nat × Nat)
deriving DecidableEq, Repr

/-- The assignment `widths[i] = p`, for `i` at most the number of entries written. -/
def array_write (widths : List (Nat × Nat)) (i : Nat) (p : Nat × Nat) : List (Nat × Nat) :=
  widths.take i ++ p :: widths.drop (i + 1)

/-- The inner loop of `adjust_line_justify` over the glyphs of run number `r`:
`n` glyphs from glyph `i` on. -/
def collect_glyphs (r : Nat) : Nat → Nat → JustifySlots → JustifySlots
  | 0, _, slots => slots
  | n + 1, i, slots =>
    collect_glyphs r n (i + 1)
      { widths := array_write slots.widths slots.width_i (r, i),
        width_i := slots.width_i + 1,
        last_gi := some (r, i) }

/-- The loop of `adjust_line_justify` over the runs, from run number `r` on. -/
def collect_runs (layout : PangoLayout) : List PangoLayoutRun → Nat → JustifySlots → JustifySlots
  | [], _, slots => slots
  | run :: l, r, slots =>
    let slots1 := if is_tab_run layout run then { slots with width_i := 0 } else slots
    if (pjx_attr_get_from_list run.item.analysis.extra_attrs PJX_ATTR_RB).isSome then
      collect_runs layout l (r + 1) slots1
    else if (pjx_attr_get_from_list run.item.analysis.extra_attrs PJX_ATTR_RT).isSome then
      collect_runs layout l (r + 1) slots1
    else
      collect_runs layout l (r + 1) (collect_glyphs r run.glyphs.glyphs.length 0 slots1)

/-- The glyph a pointer refers to. -/
def glyph_at (runs : List PangoLayoutRun) (p : Nat × Nat) : Option PangoGlyphInfo :=
  match runs[p.1]? with
  | none => none
  | some run => run.glyphs.glyphs[p.2]?

/-- The assignment `*p += delta` on a pointer to a glyph width. -/
def add_glyph_width (runs : List PangoLayoutRun) (p : Nat × Nat) (delta : Int) :
    Option (List PangoLayoutRun) :=
  match runs[p.1]? with
  | none => none
  | some run =>
    match run.glyphs.glyphs[p.2]? with
    | none => none
    | some g =>
      some (runs.set p.1
        { run with glyphs := { run.glyphs with
            glyphs := run.glyphs.glyphs.set p.2 { g with width := g.width + delta } } })

/-- The last loop of `adjust_line_justify`: the first number is `num_widths - i`,
the list holds `widths[i]`, `widths[i+1]`, ... -/
def justify_loop : Nat → List (Nat × Nat) → Int → List PangoLayoutRun →
    Option (List PangoLayoutRun)
  | 0, _, _, runs => some runs
  | _ + 1, [], _, _ => none
  | m + 1, p :: widths, remaining_width, runs =>
    match add_glyph_width runs p (remaining_width.tdiv (m + 1)) with
    | none => none
    | some runs2 =>
      justify_loop m widths (remaining_width - remaining_width.tdiv (m + 1)) runs2

/-- The deltas the last loop of `adjust_line_justify` adds, slot by slot, when it
distributes `remaining_width` over `m` slots. -/
def justify_deltas : Nat → Int → List Int
  | 0, _ => []
  | m + 1, remaining_width =>
    remaining_width.tdiv (m + 1) ::
      justify_deltas m (remaining_width - remaining_width.tdiv (m + 1))

/-- The amount `adjust_line_justify` distributes: `remaining_width`, plus the
width of the glyph `last_gi` when its ID is 0. -/
def justify_amount (last : PangoGlyphInfo) (remaining_width : Int) : Int :=
  if last.glyph = 0 then remaining_width + last.width else remaining_width

/-- The function `adjust_line_justify`; `none` when `last_gi` is read without
having been assigned. -/
def adjust_line_justify (layout : PangoLayout) (line : PangoLayoutLine)
    (remaining_width : Int) : Option PangoLayoutLine :=
  if line.resolved_dir = PangoDirection.RTL then some line
  else if remaining_width ≤ 0 then some line
  else
    let slots := collect_runs layout line.runs 0 { widths := [], width_i := 0, last_gi := none }
    match slots.last_gi with
    | none => none
    | some last_gi =>
      match glyph_at line.runs last_gi with
      | none => none
      | some last =>
        match justify_loop (slots.width_i - 1) slots.widths
            (justify_amount last remaining_width) line.runs with
        | none => none
        | some runs => some { line with runs := runs }

/-- The function `pjx_layout_line_postprocess`. -/
def pjx_layout_line_postprocess (ext : Collaborators) (layout : PangoLayout)
    (line : PangoLayoutLine) (state : ParaBreakState) : Option PangoLayoutLine :=
  let line1 := { line with runs := line.runs.reverse }
  let line2 := ext.pango_layout_line_ellipsize line1
  let line3 := pjx_layout_line_reorder line2
  match adjust_line_letter_spacing layout line3 with
  | none => none
  | some line4 =>
    if ¬ state.last_line then adjust_line_justify layout line4 state.remaining_width
    else some line4

/-! ### Line breaking: `process_line` -/

/-- The function `rewind_item`; `none` when the line has no run. -/
def rewind_item (line : PangoLayoutLine) (state : ParaBreakState) :
    Option (PangoLayoutLine × ParaBreakState) :=
  match line.runs with
  | [] => none
  | run :: runs =>
    some ({ line with runs := runs },
          { state with items := run.item :: state.items,
                       start_offset := state.start_offset - run.item.num_chars })

/-- The function `uninsert_run`: the line without its first run, and the item of
that run; `none` when the line has no run. -/
def uninsert_run (line : PangoLayoutLine) : Option (PangoLayoutLine × PangoItem) :=
  match line.runs with
  | [] => none
  | run :: runs =>
    some ({ line with runs := runs, length := line.length - run.item.length }, run.item)

/-- The loop `while (line->runs && line->runs != break_link)` of `process_line`.
Runs are only added and removed at the head of `line->runs`, so the node
`break_link` is identified by the number of runs from it on. -/
def back_up (break_link : Nat) : Nat → PangoLayoutLine → ParaBreakState →
    PangoLayoutLine × ParaBreakState
  | 0, line, state => (line, state)
  | n + 1, line, state =>
    if line.runs ≠ [] ∧ line.runs.length ≠ break_link then
      match uninsert_run line with
      | none => (line, state)
      | some (line1, item) => back_up break_link n line1 { state with items := item :: state.items }
    else (line, state)

/-- The sum `gs->glyphs[0].geometry.width + ... ` over the first `n` glyphs;
`none` when the glyph string is shorter. -/
def sum_glyph_widths (glyphs : List PangoGlyphInfo) : Nat → Option Int
  | 0 => some 0
  | n + 1 =>
    match sum_glyph_widths glyphs n, glyphs[n]? with
    | some s, some g => some (s + g.width)
    | _, _ => none

/-- The loop `for (i = 0; i < gs->num_glyphs - 1; i ++)` that ends the ruby
branch of `process_line`: `m` is `gs->num_glyphs - i`. -/
def ruby_spread : Nat → List PangoGlyphInfo → Int → List PangoGlyphInfo
  | _, [], _ => []
  | 0, glyphs, _ => glyphs
  | 1, glyphs, _ => glyphs
  | m + 2, g :: glyphs, diff =>
    { g with width := g.width + diff.tdiv (m + 2) } ::
      ruby_spread (m + 1) glyphs (diff - diff.tdiv (m + 2))

/-- The end of the ruby branch of `process_line` on the glyph string `gs`; `none`
when it has no glyph. -/
def ruby_adjust (gs : PangoGlyphString) (diff : Int) : Option PangoGlyphString :=
  match gs.glyphs with
  | [] => none
  | g0 :: rest =>
    let n : Nat := gs.glyphs.length
    let first := { g0 with width := g0.width + diff.tdiv (n * 2),
                           x_offset := g0.x_offset + diff.tdiv (n * 2) }
    some { gs with glyphs := ruby_spread n (first :: rest) diff }

/-- The assignment of a new glyph string to the run number `pos`, counted from the
end of `line->runs` (the runs are prepended, so this number stays the same). -/
def modify_run (runs : List PangoLayoutRun) (pos : Nat)
    (f : PangoGlyphString → Option PangoGlyphString) : Option (List PangoLayoutRun) :=
  if pos < runs.length then
    match runs[runs.length - 1 - pos]? with
    | none => none
    | some run =>
      match f run.glyphs with
      | none => none
      | some glyphs => some (runs.set (runs.length - 1 - pos) { run with glyphs := glyphs })
  else none

/-- The local variables of `process_line` that live across iterations. `break_link`
is the number of runs from the node `break_link` on; `rb_width` and `rb_gs` are
`none` while not assigned, and `rb_gs` is the position of the run whose glyph
string it points to, counted from the end of `line->runs`. -/
structure LineLocals where
  have_break : Bool
  break_remaining_width : Int
  break_start_offset : Int
  break_link : Nat
  rb_width : Option Int
  rb_gs : Option Nat
deriving DecidableEq, Repr

/-- How an iteration of the loop of `process_line` ends: with the next iteration
or with `goto done`. -/
inductive LineStep where
  | next (line : PangoLayoutLine) (state : ParaBreakState) (locals : LineLocals)
  | done (line : PangoLayoutLine) (state : ParaBreakState)

/-- The ruby part of an iteration of `process_line`, after `process_item` has
returned `result`; `item` is the item the iteration started with, as it is now.
The result is `Sum.inl` for `goto done`. -/
def process_line_ruby (line : PangoLayoutLine) (state : ParaBreakState)
    (locals : LineLocals) (item : PangoItem) (result : BreakResult) :
    Option ((PangoLayoutLine × ParaBreakState) ⊕ (PangoLayoutLine × ParaBreakState × LineLocals)) :=
  if (pjx_attr_get_from_list item.analysis.extra_attrs PJX_ATTR_RB).isSome then
    match line.runs with
    | [] => none
    | run :: _ =>
      match sum_glyph_widths run.glyphs.glyphs item.num_chars with
      | none => none
      | some rb_width =>
        some (Sum.inr (line, state,
          { locals with rb_width := some rb_width, rb_gs := some (line.runs.length - 1) }))
  else if (pjx_attr_get_from_list item.analysis.extra_attrs PJX_ATTR_RT).isSome then
    match line.runs with
    | [] => none
    | run :: runs =>
      if result ≠ BreakResult.BREAK_ALL_FIT then
        match rewind_item line state with
        | none => none
        | some r => some (Sum.inl r)
      else
        match sum_glyph_widths run.glyphs.glyphs item.num_chars, locals.rb_width with
        | some rt_width, some rb_width =>
          if rt_width < rb_width then
            if state.remaining_width < rb_width - rt_width then
              match rewind_item { line with runs := runs } state with
              | none => none
              | some (line1, state1) =>
                some (Sum.inl (line1,
                  { state1 with remaining_width := state1.remaining_width + rt_width,
                                last_line := false }))
            else
              match modify_run line.runs (line.runs.length - 1)
                  (fun gs => ruby_adjust gs (rb_width - rt_width)) with
              | none => none
              | some runs1 =>
                some (Sum.inr ({ line with runs := runs1 },
                  { state with remaining_width := state.remaining_width - (rb_width - rt_width) },
                  locals))
          else
            match locals.rb_gs with
            | none => none
            | some pos =>
              match modify_run line.runs pos (fun gs => ruby_adjust gs (rt_width - rb_width)) with
              | none => none
              | some runs1 => some (Sum.inr ({ line with runs := runs1 }, state, locals))
        | _, _ => none
  else some (Sum.inr (line, state, locals))

/-- One iteration of the loop `while (state->items)` of `process_line`. -/
def process_line_step (ext : Collaborators) (layout : PangoLayout) (line0 : PangoLayoutLine)
    (state0 : ParaBreakState) (locals0 : LineLocals) : Option LineStep :=
  match state0.items with
  | [] => none
  | item0 :: _ =>
    let old_num_chars := item0.num_chars
    let old_remaining_width := state0.remaining_width
    let first_item_in_line : Bool := decide (line0.runs ≠ [])
    match process_item ext layout line0 state0 (!locals0.have_break) false with
    | none => none
    | some (result, line1, state1) =>
      match state1.items with
      | [] => none
      | item :: items =>
        match process_line_ruby line1 state1 locals0 item result with
        | none => none
        | some (Sum.inl (line2, state2)) => some (LineStep.done line2 state2)
        | some (Sum.inr (line, state, locals)) =>
          match result with
          | BreakResult.BREAK_ALL_FIT =>
            match can_break_in layout state.start_offset old_num_chars first_item_in_line with
            | none => none
            | some can =>
              some (LineStep.next line
                { state with items := items, start_offset := state.start_offset + old_num_chars }
                (if can then
                  { locals with have_break := true,
                                break_remaining_width := old_remaining_width,
                                break_start_offset := state.start_offset,
                                break_link := line.runs.length - 1 }
                 else locals))
          | BreakResult.BREAK_EMPTY_FIT => some (LineStep.done line state)
          | BreakResult.BREAK_SOME_FIT =>
            some (LineStep.done line
              { state with
                start_offset := state.start_offset + ((old_num_chars : Int) - item.num_chars) })
          | BreakResult.BREAK_NONE_FIT =>
            let backed := back_up locals.break_link line.runs.length line state
            let state3 : ParaBreakState :=
              { backed.2 with start_offset := locals.break_start_offset,
                              remaining_width := locals.break_remaining_width }
            match state3.items with
            | [] => none
            | item3 :: _ =>
              match process_item ext layout backed.1 state3 true true with
              | some (BreakResult.BREAK_SOME_FIT, line4, state4)
              | some (BreakResult.BREAK_EMPTY_FIT, line4, state4) =>
                match state4.items with
                | [] => none
                | item4 :: _ =>
                  some (LineStep.done line4
                    { state4 with
                      start_offset :=
                        state4.start_offset + ((item3.num_chars : Int) - item4.num_chars) })
              | _ => none
          | BreakResult.BREAK_LINE_SEPARATOR =>
            some (LineStep.done line
              { state with items := items, start_offset := state.start_offset + old_num_chars })

/-- The loop `while (state->items)` of `process_line`, at most `fuel` iterations. -/
def process_line_loop (ext : Collaborators) (layout : PangoLayout) :
    Nat → PangoLayoutLine → ParaBreakState → LineLocals →
    Option (PangoLayoutLine × ParaBreakState)
  | 0, _, _, _ => none
  | fuel + 1, line, state, locals =>
    if state.items = [] then some (line, state)
    else
      match process_line_step ext layout line state locals with
      | none => none
      | some (LineStep.done line1 state1) => some (line1, state1)
      | some (LineStep.next line1 state1 locals1) =>
        process_line_loop ext layout fuel line1 state1 locals1

/-- The function `process_line`: the line it adds to `layout->lines` and the state
after it. An iteration that does not leave the loop takes one item off the queue,
so the loop runs at most `length + 1` times. -/
def process_line (ext : Collaborators) (layout : PangoLayout) (state : ParaBreakState) :
    Option (PangoLayoutLine × ParaBreakState) :=
  let line : PangoLayoutLine :=
    { start_index := state.line_start_index, length := 0, runs := [],
      is_paragraph_start := state.first_line, resolved_dir := state.base_dir }
  let remaining_width : Int :=
    if layout.ellipsize then -1
    else if state.first_line then
      (if 0 ≤ layout.indent then layout.width - layout.indent else layout.width)
    else (if 0 ≤ layout.indent then layout.width else layout.width + layout.indent)
  match process_line_loop ext layout (state.items.length + 1) line
      { state with remaining_width := remaining_width }
      { have_break := false, break_remaining_width := 0, break_start_offset := 0,
        break_link := 0, rb_width := none, rb_gs := none } with
  | none => none
  | some (line1, state1) =>
    match pjx_layout_line_postprocess ext layout line1 state1 with
    | none => none
    | some line2 =>
      some (line2, { state1 with first_line := false,
                                 line_start_index := state1.line_start_index + line2.length })

/-- The loop `while (state.items) process_line (layout, &state);` of
`pjx_layout_check_lines`, at most `fuel` lines; the lines are in reading order. -/
def process_lines (ext : Collaborators) (layout : PangoLayout) :
    Nat → ParaBreakState → Option (List PangoLayoutLine)
  | 0, state => if state.items = [] then some [] else none
  | fuel + 1, state =>
    if state.items = [] then some []
    else
      match process_line ext layout state with
      | none => none
      | some (line, state1) =>
        match process_lines ext layout fuel state1 with
        | none => none
        | some lines => some (line :: lines)

/-- The state `pjx_layout_check_lines` sets up for a paragraph that starts at byte
`start_index` and character `start_offset`. -/
def initial_state (items : List PangoItem) (base_dir : PangoDirection)
    (start_index start_offset : Int) : ParaBreakState :=
  { items := items, base_dir := base_dir, first_line := true, last_line := false,
    line_start_index := start_index, remaining_width := 0, start_offset := start_offset,
    glyphs := none,
    properties := { uline := 0, rise := 0, letter_spacing := 0, shape_set := false,
                    shape_logical_width := 0 },
    log_widths := [], log_widths_offset := 0 }

/-! ### Unicode bidi rule L2, as the specification words it -/

/-- The embedding level of a run. -/
def run_level (run : PangoLayoutRun) : Nat := run.item.analysis.level

/-- Reverses every maximal contiguous sequence of runs at level `lev` or higher;
`acc` holds the sequence being read, reversed. -/
def reverse_sequences (lev : Nat) : List PangoLayoutRun → List PangoLayoutRun →
    List PangoLayoutRun
  | acc, [] => acc
  | acc, run :: rest =>
    if lev ≤ run_level run then reverse_sequences lev (run :: acc) rest
    else acc ++ run :: reverse_sequences lev [] rest

/-- The highest level of the runs (0 for no run). -/
def highest_level (runs : List PangoLayoutRun) : Nat :=
  (runs.map run_level).foldr max 0

/-- The lowest odd level of the runs, if there is one. -/
def lowest_odd_level (runs : List PangoLayoutRun) : Option Nat :=
  ((runs.map run_level).filter (fun l => l % 2 = 1)).min?

/-- The levels `hi`, `hi - 1`, ..., `lo`. -/
def levels_down (hi lo : Nat) : List Nat :=
  (List.range' lo (hi + 1 - lo)).reverse

/-- Rule L2: for each level from the highest down to the lowest odd level, reverse
every maximal contiguous sequence of runs at that level or higher. -/
def bidi_rule_L2 (runs : List PangoLayoutRun) : List PangoLayoutRun :=
  match lowest_odd_level runs with
  | none => runs
  | some lo =>
    (levels_down (highest_level runs) lo).foldl
      (fun rs lev => reverse_sequences lev [] rs) runs

/-- The levels `lo`, `lo + 1`, ..., `lo + count - 1` applied from the highest down. -/
def reverse_levels (runs : List PangoLayoutRun) : Nat → Nat → List PangoLayoutRun
  | 0, _ => runs
  | count + 1, lo => reverse_sequences lo [] (reverse_levels runs count (lo + 1))

/-- What `reorder_runs_recurse` computes for an odd minimum level `min_level`,
given the result `f` of the recursive calls: `seg` is the stretch of runs above the
minimum level read so far. -/
def odd_go (f : List PangoLayoutRun → List PangoLayoutRun) (min_level : Nat) :
    List PangoLayoutRun → List PangoLayoutRun → List PangoLayoutRun
  | seg, [] => f seg
  | seg, run :: rest =>
    if run_level run = min_level then odd_go f min_level [] rest ++ run :: f seg
    else odd_go f min_level (seg ++ [run]) rest

/-- What `reorder_runs_recurse` computes for an even minimum level. -/
def even_go (f : List PangoLayoutRun → List PangoLayoutRun) (min_level : Nat) :
    List PangoLayoutRun → List PangoLayoutRun → List PangoLayoutRun
  | seg, [] => f seg
  | seg, run :: rest =>
    if run_level run = min_level then f seg ++ run :: even_go f min_level [] rest
    else even_go f min_level (seg ++ [run]) rest

/-- The levels from `k` up to, not including, `bound`, applied from the highest down. -/
def reverse_from (bound k : Nat) (runs : List PangoLayoutRun) : List PangoLayoutRun :=
  reverse_levels runs (bound - k) k

/-! ### Example data -/

/-- A run of one character at byte `offset` with embedding level `level`. -/
def level_run (offset level : Nat) : PangoLayoutRun :=
  { item := { offset := offset, length := 1, num_chars := 1,
              analysis := { level := level, extra_attrs := [] } },
    glyphs := { glyphs := [], log_clusters := [] } }

/-- Four runs with levels 0, 1, 1, 0, the run at position `i` starting at byte `i`. -/
def example_runs : List PangoLayoutRun :=
  [level_run 0 0, level_run 1 1, level_run 2 1, level_run 3 0]


/-- A shaper for the examples: one glyph of width 10 per character, each a cluster
of its own; letter spacing and ellipsizing leave their argument as it is. -/
def fixed_width_shaper : Collaborators where
  pango_shape := fun item =>
    { glyphs := List.replicate item.num_chars
        { glyph := 1, width := 10, x_offset := 0, y_offset := 0, is_cluster_start := true },
      log_clusters := (List.range item.num_chars).map (fun i => (i : Int)) }
  pango_glyph_item_letter_space := fun _ glyphs _ _ => glyphs
  pango_glyph_string_get_logical_widths := fun glyphs _ => glyphs.glyphs.map (fun g => g.width)
  pango_layout_line_ellipsize := fun line => line
  spaces_width := 80

/-- The attributes of `n_chars + 1` character positions with a line break
opportunity exactly at the positions in `breaks`, and a character break everywhere. -/
def break_attrs (n_chars : Nat) (breaks : List Nat) : List PangoLogAttr :=
  (List.range (n_chars + 1)).map
    (fun i => { is_line_break := decide (i ∈ breaks), is_char_break := true })

/-- A left-aligned layout of `text` with word wrap at `width`, no indent, no tabs
and no ellipsizing, for ASCII or other text of `n_chars` characters. -/
def word_wrap_layout (text : List Nat) (n_chars : Nat) (breaks : List Nat) (width : Int) :
    PangoLayout :=
  { text := text, n_chars := n_chars, log_attrs := break_attrs n_chars breaks,
    width := width, indent := 0, wrap := PangoWrapMode.WORD, ellipsize := false,
    tabs := none, tab_width := -1 }

/-- The bytes of an ASCII string. -/
def ascii_bytes (s : String) : List Nat := s.toList.map Char.toNat

/-- The bytes of "The quick brown fox". -/
def fox_text : List Nat :=
  [84, 104, 101, 32, 113, 117, 105, 99, 107, 32, 98, 114, 111, 119, 110, 32, 102, 111, 120]

/-- The one item of "The quick brown fox". -/
def fox_item : PangoItem :=
  { offset := 0, length := 19, num_chars := 19, analysis := { level := 0, extra_attrs := [] } }

/-- The layout of "The quick brown fox" at `width`, with a line break opportunity
after each space (before the characters 4, 10 and 16). -/
def fox_layout (width : Int) : PangoLayout := word_wrap_layout fox_text 19 [4, 10, 16] width

/-- The same layout with the line break opportunities on the spaces themselves
(characters 3, 9 and 15). -/
def fox_layout_at_spaces (width : Int) : PangoLayout :=
  word_wrap_layout fox_text 19 [3, 9, 15] width

/-- The text of a line: the bytes `start_index .. start_index + length` of the layout. -/
def line_text (layout : PangoLayout) (line : PangoLayoutLine) : List Nat :=
  (layout.text.drop line.start_index.toNat).take line.length.toNat

/-- The attribute of type `klass` as the markup parser attaches it to an item. -/
def void_attr (klass start_index end_index : Nat) : PangoAttribute :=
  { klass := klass, value := 0, start_index := start_index, end_index := end_index }

/-- The bytes of "ab 漢かん": three ASCII characters, then three characters of three
bytes each. -/
def ruby_text : List Nat :=
  [97, 98, 32, 0xe6, 0xbc, 0xa2, 0xe3, 0x81, 0x8b, 0xe3, 0x82, 0x93]

/-- The items of `ab <ruby><rb>漢</rb><rt>かん</rt></ruby>`: the plain "ab ", the ruby
base and the ruby text (which `rt_parse_func` also raises by 15000). -/
def ruby_items : List PangoItem :=
  [{ offset := 0, length := 3, num_chars := 3, analysis := { level := 0, extra_attrs := [] } },
   { offset := 3, length := 3, num_chars := 1,
     analysis := { level := 0,
                   extra_attrs := [void_attr PJX_ATTR_RUBY 3 12, void_attr PJX_ATTR_RB 3 6] } },
   { offset := 6, length := 6, num_chars := 2,
     analysis := { level := 0,
                   extra_attrs := [void_attr PJX_ATTR_RUBY 3 12, void_attr PJX_ATTR_RT 6 12,
                                   { klass := PANGO_ATTR_RISE, value := 15000,
                                     start_index := 6, end_index := 12 }] } }]

/-- The layout of `ruby_text` at width 40, with one line break opportunity, after
the space. -/
def ruby_layout : PangoLayout := word_wrap_layout ruby_text 6 [3] 40

/-- The total byte length of the items of the runs of a line. -/
def runs_length (line : PangoLayoutLine) : Int :=
  (line.runs.map (fun run => (run.item.length : Int))).sum

/-- Ten ASCII letters under one `<ruby>` tag: the text and its one item. -/
def ruby_word_text : List Nat := [97, 98, 99, 100, 101, 102, 103, 104, 105, 106]

/-- The one item of `ruby_word_text`, carrying the ruby attribute. -/
def ruby_word_item : PangoItem :=
  { offset := 0, length := 10, num_chars := 10,
    analysis := { level := 0, extra_attrs := [void_attr PJX_ATTR_RUBY 0 10] } }

/-- The layout of `ruby_word_text` at width 1; every position is a line break
opportunity. -/
def ruby_word_layout : PangoLayout :=
  word_wrap_layout ruby_word_text 10 (List.range 11) 1

/-- The line `process_line` starts with on the first line of a paragraph. -/
def first_line : PangoLayoutLine :=
  { start_index := 0, length := 0, runs := [], is_paragraph_start := true,
    resolved_dir := PangoDirection.LTR }

/-- The state in which `process_line` calls `process_item` for `ruby_word_item`:
the remaining width is the layout width 1. -/
def ruby_word_state : ParaBreakState :=
  { initial_state [ruby_word_item] PangoDirection.LTR 0 0 with remaining_width := 1 }

/-- The bytes of U+2028 followed by "ab". -/
def separator_text : List Nat := [0xe2, 0x80, 0xa8, 97, 98]

/-- The one item of `separator_text`, carrying the ruby attribute. -/
def separator_item : PangoItem :=
  { offset := 0, length := 5, num_chars := 3,
    analysis := { level := 0, extra_attrs := [void_attr PJX_ATTR_RUBY 0 5] } }

/-- The layout of `separator_text` at width 1. -/
def separator_layout : PangoLayout := word_wrap_layout separator_text 3 [] 1

/-- The state in which `process_line` calls `process_item` for `separator_item`. -/
def separator_state : ParaBreakState :=
  { initial_state [separator_item] PangoDirection.LTR 0 0 with remaining_width := 1 }
/-! ### Properties used for justification -/

/-- The total glyph width of a list of runs. -/
def runs_width (runs : List PangoLayoutRun) : Int :=
  (runs.map (fun run => glyphs_width run.glyphs.glyphs)).sum

/-- A line of one run of `n` glyphs, each 10 units wide with glyph ID 1, over a text
without tabs. -/
def plain_line (n : Nat) : PangoLayoutLine :=
  { start_index := 0, length := n,
    runs := [{ item := { offset := 0, length := n, num_chars := n,
                         analysis := { level := 0, extra_attrs := [] } },
               glyphs := { glyphs := List.replicate n { glyph := 1, width := 10, x_offset := 0,
                                                         y_offset := 0, is_cluster_start := true },
                           log_clusters := [] } }],
    is_paragraph_start := true, resolved_dir := PangoDirection.LTR }

/-- A layout whose text has no tab. -/
def plain_layout : PangoLayout :=
  { text := [97, 98, 99, 100], n_chars := 4, log_attrs := [], width := 0, indent := 0,
    wrap := PangoWrapMode.WORD, ellipsize := false, tabs := none, tab_width := -1 }

/-- Adds the deltas `ds`, in order, to the glyph widths the pointers `ps` refer to. -/
def add_deltas : List (Nat × Nat) → List Int → List PangoLayoutRun →
    Option (List PangoLayoutRun)
  | p :: ps, d :: ds, runs =>
    match add_glyph_width runs p d with
    | none => none
    | some runs2 => add_deltas ps ds runs2
  | _, _, runs => some runs

/-- The glyph widths of a line, run by run. -/
def line_glyph_widths (line : PangoLayoutLine) : List (List Int) :=
  line.runs.map (fun run => run.glyphs.glyphs.map (fun g => g.width))


/-- The initial value of the static variable `IS_INITIALIZED`. -/
def IS_INITIALIZED : Int := 0

/-- The function `SDLPangoDraw_Init` on the variable `IS_INITIALIZED`: the return
value and the new value of the variable (`g_type_init` does not touch it). -/
def SDLPangoDraw_Init (_is_initialized : Int) : Int × Int := (0, -1)

/-- The function `SDLPangoDraw_WasInit` on the variable `IS_INITIALIZED`. -/
def SDLPangoDraw_WasInit (is_initialized : Int) : Int := is_initialized

/-- The variable `IS_INITIALIZED` after `n` calls of `SDLPangoDraw_Init` since
program start. -/
def after_init_calls : Nat → Int
  | 0 => IS_INITIALIZED
  | n + 1 => (SDLPangoDraw_Init (after_init_calls n)).2

/-! ### Item properties, as the specification words them -/

/-- The constant `PANGO_UNDERLINE_NONE` of the Pango headers. -/
def PANGO_UNDERLINE_NONE : Int := 0

/-- The value of the last attribute of type `klass` in list order; `default` when
the list holds no attribute of that type. -/
def last_value (attrs : List PangoAttribute) (klass : Nat) (default : Int) : Int :=
  match (attrs.filter (fun attr => decide (attr.klass = klass))).getLast? with
  | some attr => attr.value
  | none => default

/-! ## Building the lines (`pjx_layout_check_lines`) -/

/-- The last step of the GLib function `g_utf8_strlen`: a character that ends
after `max` bytes is not counted. -/
def g_utf8_strlen_end (start max p len : Nat) : Nat :=
  if p - start ≤ max then len + 1 else len

/-- The loop of the GLib function `g_utf8_strlen (start, max)`, at byte position
`p` with `len` characters counted. -/
def g_utf8_strlen_loop (text : List Nat) (start max : Nat) : Nat → Nat → Nat → Nat
  | 0, p, len => g_utf8_strlen_end start max p len
  | fuel + 1, p, len =>
    if p - start < max ∧ text_byte text p ≠ 0 then
      g_utf8_strlen_loop text start max fuel (p + g_utf8_skip (text_byte text p)) (len + 1)
    else g_utf8_strlen_end start max p len

/-- The GLib function `g_utf8_strlen (text + start, max)` for `max ≥ 0`: the number
of characters in the `max` bytes from byte position `start` on. Every step moves
on by a byte or more, so `max` steps are enough. -/
def g_utf8_strlen (text : List Nat) (start max : Nat) : Nat :=
  if max = 0 ∨ text_byte text start = 0 then 0
  else g_utf8_strlen_loop text start max max (start + g_utf8_skip (text_byte text start)) 0

/-- The scan of `pango_find_paragraph_boundary` from byte position `p`, in the text
from `start` up to `stop`: the index of the first delimiter and the index after it,
both relative to `start`. -/
def paragraph_boundary_scan (text : List Nat) (start stop : Nat) : Nat → Nat → Nat × Nat
  | 0, _ => (stop - start, stop - start)
  | fuel + 1, p =>
    if stop ≤ p then (stop - start, stop - start)
    else if text_byte text p = 13 then
      if p + 1 < stop ∧ text_byte text (p + 1) = 10 then (p - start, p + 2 - start)
      else (p - start, p + 1 - start)
    else if text_byte text p = 10 then (p - start, p + 1 - start)
    else if text_byte text p = 0xe2 ∧ text_byte text (p + 1) = 0x80 ∧
        text_byte text (p + 2) = 0xa9 then (p - start, p + 3 - start)
    else paragraph_boundary_scan text start stop fuel (p + g_utf8_skip (text_byte text p))

/-- The Pango library function `pango_find_paragraph_boundary (text + start, length,
&paragraph_delimiter_index, &next_paragraph_start)` (not part of this repository),
as documented: a boundary is a newline, a carriage return, a carriage return and
newline pair, or U+2029; without a delimiter both results are `length`. -/
def pango_find_paragraph_boundary (text : List Nat) (start length : Nat) : Nat × Nat :=
  paragraph_boundary_scan text start (start + length) length start

/-- The fields of `PangoLayout` and the Pango library functions that
`pjx_layout_check_lines` uses besides those of line breaking. The library functions
take the byte position where their text argument starts; `no_shape_attrs` says
whether `filter_no_shape_attributes` finds an attribute, and
`pango_glyph_item_apply_attrs` then splits a run. -/
structure LayoutCollaborators where
  auto_dir : Bool
  single_paragraph : Bool
  pango_context_get_base_dir : PangoDirection
  pango_find_base_dir : Nat → Nat → PangoDirection
  pango_itemize_with_base_dir : PangoDirection → Nat → Nat → List PangoItem
  no_shape_attrs : Bool
  pango_glyph_item_apply_attrs : PangoLayoutRun → List PangoLayoutRun

/-- The function `apply_no_shape_attributes` on one line. -/
def apply_no_shape_attributes (lext : LayoutCollaborators) (line : PangoLayoutLine) :
    PangoLayoutLine :=
  { line with
    runs := line.runs.reverse.foldl
      (fun runs glyph_item => lext.pango_glyph_item_apply_attrs glyph_item ++ runs) [] }

/-- The loop `do ... while (!done)` of `pjx_layout_check_lines` over the
paragraphs: `start` is the byte position of the paragraph, `lines` is
`layout->lines` (last line first). The result is `none` when an assertion fails or
`fuel` paragraphs, or `fuel` lines of a paragraph, are not enough. -/
def paragraph_loop (ext : Collaborators) (lext : LayoutCollaborators) (layout : PangoLayout) :
    Nat → Nat → Int → PangoDirection → List PangoLayoutLine → Option (List PangoLayoutLine)
  | 0, _, _, _, _ => none
  | fuel + 1, start, start_offset, prev_base_dir, lines =>
    let boundary :=
      if lext.single_paragraph then (layout.text.length, layout.text.length)
      else pango_find_paragraph_boundary layout.text start (layout.text.length - start)
    let delimiter_index := boundary.1
    let next_para_index := boundary.2
    if next_para_index < delimiter_index then none
    else
      let found := lext.pango_find_base_dir start delimiter_index
      let base_dir :=
        if lext.auto_dir then
          (if found = PangoDirection.NEUTRAL then prev_base_dir else found)
        else lext.pango_context_get_base_dir
      let prev_base_dir1 :=
        if lext.auto_dir ∧ found ≠ PangoDirection.NEUTRAL then found else prev_base_dir
      let stop := start + delimiter_index
      let delim_len := next_para_index - delimiter_index
      let done : Bool := decide (stop = layout.text.length)
      if layout.text.length < stop ∨ layout.text.length < start ∨ 4 ≤ delim_len then none
      else
        let items := lext.pango_itemize_with_base_dir base_dir start (stop - start)
        match (if items ≠ [] then
                 process_lines ext layout (fuel + 1) (initial_state items base_dir start start_offset)
               else
                 some [{ start_index := start, length := 0, runs := [],
                         is_paragraph_start := true, resolved_dir := base_dir }]) with
        | none => none
        | some new_lines =>
          if done then some (new_lines.reverse ++ lines)
          else
            paragraph_loop ext lext layout fuel (stop + delim_len)
              (start_offset + g_utf8_strlen layout.text start (stop - start + delim_len))
              prev_base_dir1 (new_lines.reverse ++ lines)

/-- The function `pjx_layout_check_lines` on a layout whose lines are not built
yet: the list `layout->lines` it leaves. -/
def pjx_layout_check_lines (ext : Collaborators) (lext : LayoutCollaborators)
    (layout : PangoLayout) (fuel : Nat) : Option (List PangoLayoutLine) :=
  let found := lext.pango_find_base_dir 0 layout.text.length
  let prev_base_dir :=
    if lext.auto_dir then
      (if found = PangoDirection.NEUTRAL then lext.pango_context_get_base_dir else found)
    else PangoDirection.NEUTRAL
  match paragraph_loop ext lext layout fuel 0 0 prev_base_dir [] with
  | none => none
  | some lines =>
    some ((if lext.no_shape_attrs then lines.map (apply_no_shape_attributes lext)
           else lines).reverse)

/-- The function `pjx_layout_get_line_count` on a layout whose lines are not built
yet. -/
def pjx_layout_get_line_count (ext : Collaborators) (lext : LayoutCollaborators)
    (layout : PangoLayout) (fuel : Nat) : Option Nat :=
  match pjx_layout_check_lines ext lext layout fuel with
  | none => none
  | some lines => some lines.length

/-! ## Visual cursor motion (`pjx_layout_move_cursor_visually`) -/

/-- The GLib macro `g_utf8_next_char` at byte position `p`. -/
def g_utf8_next_char (text : List Nat) (p : Nat) : Nat := p + g_utf8_skip (text_byte text p)

/-- The GLib function `g_utf8_prev_char` at byte position `p`: the nearest position
before `p` whose byte is not of the form `10xxxxxx`; `none` when the scan leaves
the text at its start. -/
def g_utf8_prev_char (text : List Nat) : Nat → Option Nat
  | 0 => none
  | p + 1 => if text_byte text p / 64 ≠ 2 then some p else g_utf8_prev_char text p

/-- The loop of the GLib function `g_utf8_pointer_to_offset`: the characters
counted from `s` until `pos` is reached. -/
def pointer_to_offset_loop (text : List Nat) (pos : Nat) : Nat → Nat → Nat → Nat
  | 0, _, offset => offset
  | fuel + 1, s, offset =>
    if s < pos then pointer_to_offset_loop text pos fuel (g_utf8_next_char text s) (offset + 1)
    else offset

/-- The GLib function `g_utf8_pointer_to_offset (text + str, text + pos)`; `none`
when a pointer lies before the text. Every step moves on by a byte or more. -/
def g_utf8_pointer_to_offset (text : List Nat) (str pos : Int) : Option Int :=
  if str < 0 ∨ pos < 0 then none
  else if pos < str then
    some (- (pointer_to_offset_loop text str.toNat (str - pos).toNat pos.toNat 0 : Int))
  else some (pointer_to_offset_loop text pos.toNat (pos - str).toNat str.toNat 0 : Int)

/-- The loop of `g_utf8_strlen (p, max)` for a negative `max`: the characters up to
the terminating zero. -/
def g_utf8_strlen_nul (text : List Nat) : Nat → Nat → Nat → Nat
  | 0, _, len => len
  | fuel + 1, p, len =>
    if text_byte text p ≠ 0 then g_utf8_strlen_nul text fuel (g_utf8_next_char text p) (len + 1)
    else len

/-- The number of characters of a line: `g_utf8_strlen (text + start_index,
length)`; `none` when the line starts before the text. -/
def line_n_chars (layout : PangoLayout) (line : PangoLayoutLine) : Option Nat :=
  if line.start_index < 0 then none
  else if line.length < 0 then
    some (g_utf8_strlen_nul layout.text (layout.text.length + 1) line.start_index.toNat 0)
  else some (g_utf8_strlen layout.text line.start_index.toNat line.length.toNat)

/-- The assignment `result[i] = v` on an array whose entries are `none` until they
are written; `none` when `i` is outside the array. -/
def map_write (result : List (Option Int)) (i : Nat) (v : Int) : Option (List (Option Int)) :=
  if i < result.length then some (result.set i (some v)) else none

/-- The assignment `result[i] = v` when `cond` holds. -/
def map_write_if (cond : Bool) (result : List (Option Int)) (i : Nat) (v : Int) :
    Option (List (Option Int)) :=
  if cond then map_write result i v else some result

/-- The inner loop of `pjx_layout_line_get_vis2log_map` over the characters
`i = from, ..., run_n_chars - 1` of a run: `p` is the byte position of character
`i`, `start` the byte position of the line. The result is the array and the byte
position after the last character. -/
def vis2log_run_loop (text : List Nat) (start : Int) (pos run_n_chars : Nat) (ltr : Bool) :
    Nat → Nat → Nat → List (Option Int) → Option (List (Option Int) × Nat)
  | 0, _, p, result => some (result, p)
  | count + 1, i, p, result =>
    match map_write result (if ltr then pos + i else pos + run_n_chars - i) ((p : Int) - start) with
    | none => none
    | some result1 =>
      vis2log_run_loop text start pos run_n_chars ltr count (i + 1) (g_utf8_next_char text p)
        result1

/-- The direction of a run: `(run->item->analysis.level % 2) ? PANGO_DIRECTION_RTL :
PANGO_DIRECTION_LTR`. -/
def run_dir (run : PangoLayoutRun) : PangoDirection :=
  if run.item.analysis.level % 2 = 1 then PangoDirection.RTL else PangoDirection.LTR

/-- The body of the loop of `pjx_layout_line_get_vis2log_map` for one run that
starts at visual position `pos`. -/
def vis2log_run (text : List Nat) (start : Int) (cursor_dir prev_dir : PangoDirection)
    (run : PangoLayoutRun) (pos : Nat) (result : List (Option Int)) :
    Option (List (Option Int)) :=
  let run_n_chars := run.item.num_chars
  let p := run.item.offset
  if run_dir run = PangoDirection.LTR then
    match map_write_if (decide (cursor_dir = PangoDirection.LTR ∨ prev_dir = run_dir run))
        result pos ((p : Int) - start) with
    | none => none
    | some result1 =>
      match vis2log_run_loop text start pos run_n_chars true (run_n_chars - 1) 1
          (g_utf8_next_char text p) result1 with
      | none => none
      | some (result2, p2) =>
        map_write_if (decide (cursor_dir = PangoDirection.LTR)) result2 (pos + run_n_chars)
          ((p2 : Int) - start)
  else
    match map_write_if (decide (cursor_dir = PangoDirection.RTL)) result (pos + run_n_chars)
        ((p : Int) - start) with
    | none => none
    | some result1 =>
      match vis2log_run_loop text start pos run_n_chars false (run_n_chars - 1) 1
          (g_utf8_next_char text p) result1 with
      | none => none
      | some (result2, p2) =>
        map_write_if (decide (cursor_dir = PangoDirection.RTL ∨ prev_dir = run_dir run))
          result2 pos ((p2 : Int) - start)

/-- The loop of `pjx_layout_line_get_vis2log_map` over the runs and the assignment
of the last visual position after it. -/
def vis2log_runs (text : List Nat) (line : PangoLayoutLine) (cursor_dir : PangoDirection) :
    List PangoLayoutRun → PangoDirection → Nat → List (Option Int) → Option (List (Option Int))
  | [], prev_dir, pos, result =>
    map_write_if (decide (cursor_dir = line.resolved_dir ∨ prev_dir = line.resolved_dir))
      result pos (if line.resolved_dir = PangoDirection.LTR then line.length else 0)
  | run :: tmp_list, prev_dir, pos, result =>
    match vis2log_run text line.start_index cursor_dir prev_dir run pos result with
    | none => none
    | some result1 =>
      vis2log_runs text line cursor_dir tmp_list (run_dir run) (pos + run.item.num_chars) result1

/-- The function `pjx_layout_line_get_vis2log_map`: the array of `n_chars + 1`
entries, an entry being `none` when nothing was written to it; `none` when a
write falls outside the array. -/
def pjx_layout_line_get_vis2log_map (layout : PangoLayout) (line : PangoLayoutLine)
    (strong : Bool) : Option (List (Option Int)) :=
  match line_n_chars layout line with
  | none => none
  | some n_chars =>
    let cursor_dir :=
      if strong then line.resolved_dir
      else if line.resolved_dir = PangoDirection.LTR then PangoDirection.RTL
      else PangoDirection.LTR
    match map_write_if (decide (line.resolved_dir = cursor_dir))
        (List.replicate (n_chars + 1) none) 0
        (if line.resolved_dir = PangoDirection.LTR then 0 else line.length) with
    | none => none
    | some result =>
      vis2log_runs layout.text line cursor_dir line.runs line.resolved_dir 0 result

/-- The loop `for (i=0; i <= n_chars; i++) result[reverse_map[i]] = i` of
`pjx_layout_line_get_log2vis_map`, from `i` on; `none` when an entry of
`reverse_map` was never written or points outside `result`. -/
def log2vis_loop : List (Option Int) → Nat → List Int → Option (List Int)
  | [], _, result => some result
  | none :: _, _, _ => none
  | some v :: reverse_map, i, result =>
    if 0 ≤ v ∧ v.toNat < result.length then
      log2vis_loop reverse_map (i + 1) (result.set v.toNat i)
    else none

/-- The function `pjx_layout_line_get_log2vis_map`: an array of `length + 1`
entries, zero where nothing was written. -/
def pjx_layout_line_get_log2vis_map (layout : PangoLayout) (line : PangoLayoutLine)
    (strong : Bool) : Option (List Int) :=
  if line.length < 0 then none
  else
    match pjx_layout_line_get_vis2log_map layout line strong with
    | none => none
    | some reverse_map =>
      log2vis_loop reverse_map 0 (List.replicate (line.length.toNat + 1) 0)

/-- The loop of `pjx_layout_index_to_line`: the results are `prev_line`, `line` and
the list node `line_list`, as the list from that node on. -/
def index_to_line_loop (index : Int) :
    List PangoLayoutLine → Option PangoLayoutLine → Option PangoLayoutLine →
    List PangoLayoutLine → Option PangoLayoutLine × Option PangoLayoutLine × List PangoLayoutLine
  | [], prev_line, line, line_list => (prev_line, line, line_list)
  | tmp_line :: tmp_list, prev_line, line, line_list =>
    if index < tmp_line.start_index then (prev_line, line, line_list)
    else if index < tmp_line.start_index + tmp_line.length then
      (line, some tmp_line, tmp_line :: tmp_list)
    else index_to_line_loop index tmp_list line (some tmp_line) (tmp_line :: tmp_list)

/-- The function `pjx_layout_index_to_line (layout, index, NULL, &line_before,
&line_after)`: the line, `line_before` and `line_after`. -/
def pjx_layout_index_to_line (lines : List PangoLayoutLine) (index : Int) :
    Option PangoLayoutLine × Option PangoLayoutLine × Option PangoLayoutLine :=
  let r := index_to_line_loop index lines none none lines
  (r.2.1, r.1, match r.2.2 with
               | _ :: next :: _ => some next
               | _ => none)

/-- The loop `while (old_trailing--)` of `pjx_layout_move_cursor_visually`. -/
def skip_trailing (text : List Nat) : Nat → Nat → Nat
  | 0, old_index => old_index
  | old_trailing + 1, old_index => skip_trailing text old_trailing (g_utf8_next_char text old_index)

/-- The flag `layout->log_attrs[i].is_cursor_position`, the flags being given as a
list; `none` outside the array. -/
def cursor_position_at (is_cursor_position : List Bool) (i : Int) : Option Bool :=
  if i < 0 then none else is_cursor_position[i.toNat]?

/-- The first part of `pjx_layout_move_cursor_visually`, up to the assignment of
`vis_pos`: the line of the old cursor, the lines before and after it,
`start_offset`, `n_vis`, the clamped `old_index` and `vis_pos`. The result is `none`
when a guard of the function fails or a read is undefined. -/
def cursor_start (layout : PangoLayout) (lines : List PangoLayoutLine) (strong : Bool)
    (old_index old_trailing : Int) :
    Option (PangoLayoutLine × Option PangoLayoutLine × Option PangoLayoutLine ×
      Int × Nat × Int × Int) :=
  if old_index < 0 ∨ (layout.text.length : Int) < old_index ∨ old_trailing < 0 ∨
      ¬ (old_index < layout.text.length ∨ old_trailing = 0) then none
  else
    match pjx_layout_index_to_line lines old_index with
    | (none, _, _) => none
    | (some line, prev_line, next_line) =>
      match g_utf8_pointer_to_offset layout.text 0 line.start_index,
          pjx_layout_line_get_log2vis_map layout line strong, line_n_chars layout line with
      | some start_offset, some log2vis_map, some n_vis =>
        let old_index1 : Int := skip_trailing layout.text old_trailing.toNat old_index.toNat
        let old_index2 :=
          if line.start_index + line.length < old_index1 then line.start_index + line.length
          else old_index1
        if old_index2 - line.start_index < 0 then none
        else
          match log2vis_map[(old_index2 - line.start_index).toNat]? with
          | none => none
          | some vis_pos =>
            some (line, prev_line, next_line, start_offset, n_vis, old_index2, vis_pos)
      | _, _, _ => none

/-- The loop `do ... while (vis_pos > 0 && vis_pos < n_vis && ...)` of
`pjx_layout_move_cursor_visually`: the final `vis_pos` and `log_pos`. -/
def cursor_move_loop (layout : PangoLayout) (is_cursor_position : List Bool)
    (line : PangoLayoutLine) (vis2log_map : List (Option Int)) (start_offset : Int) (n_vis : Nat)
    (direction : Int) : Nat → Int → Option (Int × Int)
  | 0, _ => none
  | fuel + 1, vis_pos =>
    let vis_pos1 := vis_pos + (if 0 < direction then 1 else -1)
    if vis_pos1 < 0 then none
    else
      match vis2log_map[vis_pos1.toNat]? with
      | some (some v) =>
        match g_utf8_pointer_to_offset layout.text line.start_index (line.start_index + v) with
        | none => none
        | some log_pos =>
          if 0 < vis_pos1 ∧ vis_pos1 < n_vis then
            match cursor_position_at is_cursor_position (start_offset + log_pos) with
            | none => none
            | some true => some (vis_pos1, log_pos)
            | some false =>
              cursor_move_loop layout is_cursor_position line vis2log_map start_offset n_vis
                direction fuel vis_pos1
          else some (vis_pos1, log_pos)
      | _ => none

/-- The last loop of `pjx_layout_move_cursor_visually`, which moves the cursor
from the end of the line to the trailing edge of a character before it. -/
def cursor_trailing_loop (layout : PangoLayout) (is_cursor_position : List Bool)
    (start_offset : Int) : Nat → Int → Int → Int → Option (Int × Int)
  | 0, _, _, _ => none
  | fuel + 1, log_pos, new_index, new_trailing =>
    if new_index < 0 then none
    else
      match g_utf8_prev_char layout.text new_index.toNat with
      | none => none
      | some p =>
        if 0 < log_pos - 1 then
          match cursor_position_at is_cursor_position (start_offset + (log_pos - 1)) with
          | none => none
          | some true => some ((p : Int), new_trailing + 1)
          | some false =>
            cursor_trailing_loop layout is_cursor_position start_offset fuel (log_pos - 1) p
              (new_trailing + 1)
        else some ((p : Int), new_trailing + 1)

/-- The function `pjx_layout_move_cursor_visually` on a layout with the lines
`lines`: the pair `(*new_index, *new_trailing)`. The result is `none` when a guard
of the function fails or its behaviour is undefined (a read outside an array, of an
entry never written, or through a `NULL` line). -/
def pjx_layout_move_cursor_visually (layout : PangoLayout) (is_cursor_position : List Bool)
    (lines : List PangoLayoutLine) (strong : Bool) (old_index old_trailing direction : Int) :
    Option (Int × Int) :=
  match cursor_start layout lines strong old_index old_trailing with
  | none => none
  | some (line0, prev_line, next_line, start_offset, n_vis, old_index2, vis_pos0) =>
    let off_start : Bool :=
      if vis_pos0 = 0 ∧ direction < 0 then decide (line0.resolved_dir = PangoDirection.LTR)
      else if vis_pos0 = n_vis ∧ 0 < direction then
        decide (line0.resolved_dir ≠ PangoDirection.LTR)
      else false
    let off_end : Bool :=
      if vis_pos0 = 0 ∧ direction < 0 then decide (line0.resolved_dir ≠ PangoDirection.LTR)
      else if vis_pos0 = n_vis ∧ 0 < direction then
        decide (line0.resolved_dir = PangoDirection.LTR)
      else false
    if off_start ∧ prev_line = none then some (-1, 0)
    else if ¬ off_start ∧ off_end ∧ next_line = none then some ((G_MAXINT : Int), 0)
    else
      let line : PangoLayoutLine :=
        if off_start then prev_line.getD line0
        else if off_end then next_line.getD line0
        else line0
      let paragraph_boundary : Bool :=
        if off_start then decide (line.start_index + line.length ≠ old_index2)
        else decide (line.start_index ≠ old_index2)
      match line_n_chars layout line, pjx_layout_line_get_vis2log_map layout line strong with
      | some n_line, some vis2log_map =>
        let vis_pos : Int :=
          if off_start ∨ off_end then
            if vis_pos0 = 0 ∧ direction < 0 then
              (n_line : Int) + (if paragraph_boundary then 1 else 0)
            else 0 - (if paragraph_boundary then 1 else 0)
          else vis_pos0
        match cursor_move_loop layout is_cursor_position line vis2log_map start_offset n_vis
            direction (n_vis + 1) vis_pos with
        | none => none
        | some (vis_pos2, log_pos) =>
          match vis2log_map[vis_pos2.toNat]? with
          | some (some v) =>
            let new_index := line.start_index + v
            if new_index = line.start_index + line.length ∧ 0 < line.length then
              cursor_trailing_loop layout is_cursor_position start_offset (log_pos.toNat + 1)
                log_pos new_index 0
            else some (new_index, 0)
          | _ => none
      | _, _ => none

/-! ### More example data -/

/-- The bytes of "ab", U+2028, "cd". -/
def two_halves_text : List Nat := [97, 98, 0xe2, 0x80, 0xa8, 99, 100]

/-- The item of `length` bytes and `num_chars` characters at byte `offset`, with
the given attributes. -/
def plain_item (offset length num_chars : Nat) (extra_attrs : List PangoAttribute) : PangoItem :=
  { offset := offset, length := length, num_chars := num_chars,
    analysis := { level := 0, extra_attrs := extra_attrs } }

/-- The item that holds the U+2028 of `two_halves_text`, as plain text. -/
def separator_only_item : PangoItem := plain_item 2 3 1 []

/-- The item that holds the U+2028 of `two_halves_text`, as the ruby text of
`ab<ruby><rt>&#x2028;</rt></ruby>cd`. -/
def rt_separator_item : PangoItem :=
  plain_item 2 3 1
    [void_attr PJX_ATTR_RUBY 2 5, void_attr PJX_ATTR_RT 2 5,
     { klass := PANGO_ATTR_RISE, value := 15000, start_index := 2, end_index := 5 }]

/-- The three items of `two_halves_text`: "ab", the separator, "cd". -/
def two_halves_items : List PangoItem :=
  [plain_item 0 2 2 [], separator_only_item, plain_item 5 2 2 []]

/-- The three items of `two_halves_text` with the separator as ruby text. -/
def rt_separator_items : List PangoItem :=
  [plain_item 0 2 2 [], rt_separator_item, plain_item 5 2 2 []]

/-- The layout of `two_halves_text` at `width` (negative: unconstrained); the one
line break opportunity is after the separator. -/
def two_halves_layout (width : Int) : PangoLayout := word_wrap_layout two_halves_text 5 [3] width

/-- What the examples show of a line: `start_index`, `length` and the byte offsets
of the items of its runs. -/
def line_summary (line : PangoLayoutLine) : Int × Int × List Nat :=
  (line.start_index, line.length, line.runs.map (fun run => run.item.offset))

/-- The layout of "abc" at width 100, without a line break opportunity. -/
def no_break_layout : PangoLayout := word_wrap_layout [97, 98, 99] 3 [] 100

/-- The state in which `process_line` calls `process_item` for the one item of
`no_break_layout`. -/
def no_break_state : ParaBreakState :=
  { initial_state [plain_item 0 3 3 []] PangoDirection.LTR 0 0 with remaining_width := 100 }

/-- The state in which `process_line` calls `process_item` for `fox_item` at
width 40. -/
def fox_state : ParaBreakState :=
  { initial_state [fox_item] PangoDirection.LTR 0 0 with remaining_width := 40 }

/-- The bytes of "漢字かんじかな": seven characters of three bytes each. -/
def ruby_loop_text : List Nat :=
  [0xe6, 0xbc, 0xa2, 0xe5, 0xad, 0x97, 0xe3, 0x81, 0x8b, 0xe3, 0x82, 0x93, 0xe3, 0x81, 0x98,
   0xe3, 0x81, 0x8b, 0xe3, 0x81, 0xaa]

/-- The items of `<ruby><rb>漢字</rb><rt>かんじかな</rt></ruby>`: the ruby base of two
characters and the ruby text of five. -/
def ruby_loop_items : List PangoItem :=
  [plain_item 0 6 2 [void_attr PJX_ATTR_RUBY 0 21, void_attr PJX_ATTR_RB 0 6],
   plain_item 6 15 5
     [void_attr PJX_ATTR_RUBY 0 21, void_attr PJX_ATTR_RT 6 21,
      { klass := PANGO_ATTR_RISE, value := 15000, start_index := 6, end_index := 21 }]]

/-- The layout of `ruby_loop_text` at width 40, with a line break opportunity
between the two characters of the ruby base. -/
def ruby_loop_layout : PangoLayout := word_wrap_layout ruby_loop_text 7 [1] 40

/-- The state of the paragraph of `ruby_loop_items`, with base direction
right-to-left, after a call of `process_line` that started the line at byte
`line_start_index - 6`. -/
def ruby_loop_state (line_start_index : Int) : ParaBreakState :=
  { items := ruby_loop_items, base_dir := PangoDirection.RTL, first_line := false,
    last_line := false, line_start_index := line_start_index, remaining_width := 40,
    start_offset := 0, glyphs := none,
    properties := { uline := 0, rise := 15000, letter_spacing := 0, shape_set := false,
                    shape_logical_width := 0 },
    log_widths := [], log_widths_offset := 0 }

/-- The line `process_line` starts with in `state`. -/
def new_line (state : ParaBreakState) : PangoLayoutLine :=
  { start_index := state.line_start_index, length := 0, runs := [],
    is_paragraph_start := state.first_line, resolved_dir := state.base_dir }

/-- The local variables of `process_line` before its loop. -/
def initial_locals : LineLocals :=
  { have_break := false, break_remaining_width := 0, break_start_offset := 0,
    break_link := 0, rb_width := none, rb_gs := none }

/-- Collaborators of `pjx_layout_check_lines` for ASCII text in one font: the base
direction is left-to-right, a paragraph that is not empty is one item, and no
attribute is set. -/
def ascii_layout_collaborators : LayoutCollaborators where
  auto_dir := true
  single_paragraph := false
  pango_context_get_base_dir := PangoDirection.LTR
  pango_find_base_dir := fun _ length =>
    if length = 0 then PangoDirection.NEUTRAL else PangoDirection.LTR
  pango_itemize_with_base_dir := fun _ start length =>
    if length = 0 then [] else [plain_item start length length []]
  no_shape_attrs := false
  pango_glyph_item_apply_attrs := fun run => [run]

/-- The layout of the empty text at width 100. -/
def empty_layout : PangoLayout := word_wrap_layout [] 0 [] 100

/-- A run of `num_chars` characters in `length` bytes at byte `offset`, with
embedding level `level` and no glyphs (cursor motion does not read them). -/
def text_run (offset length num_chars level : Nat) : PangoLayoutRun :=
  { item := { offset := offset, length := length, num_chars := num_chars,
              analysis := { level := level, extra_attrs := [] } },
    glyphs := { glyphs := [], log_clusters := [] } }

/-- A layout of `text` of `n_chars` characters, for cursor motion. -/
def cursor_layout (text : List Nat) (n_chars : Nat) : PangoLayout :=
  word_wrap_layout text n_chars [] (-1)

/-- The flags `is_cursor_position` of a text of `n_chars` characters in which every
character is a cursor position. -/
def all_cursor_positions (n_chars : Nat) : List Bool := List.replicate (n_chars + 1) true

/-- The one line of the text "abc" in a right-to-left paragraph: resolved direction
RTL, one left-to-right run (embedding level 2). -/
def abc_rtl_line : PangoLayoutLine :=
  { start_index := 0, length := 3, runs := [text_run 0 3 3 2], is_paragraph_start := true,
    resolved_dir := PangoDirection.RTL }

/-- The bytes of "אבגabדה": three Hebrew letters, "ab", two Hebrew letters. -/
def hebrew_text : List Nat :=
  [0xd7, 0x90, 0xd7, 0x91, 0xd7, 0x92, 97, 98, 0xd7, 0x93, 0xd7, 0x94]

/-- The one line of `hebrew_text`: resolved direction RTL, the runs in visual
order: the last two Hebrew letters, the left-to-right run "ab", the first three
Hebrew letters. -/
def hebrew_line : PangoLayoutLine :=
  { start_index := 0, length := 12,
    runs := [text_run 8 4 2 1, text_run 6 2 2 2, text_run 0 6 3 1],
    is_paragraph_start := true, resolved_dir := PangoDirection.RTL }

/-- The bytes of "אבגabc": three Hebrew letters, then "abc". -/
def hebrew_abc_text : List Nat := [0xd7, 0x90, 0xd7, 0x91, 0xd7, 0x92, 97, 98, 99]

/-- The one line of `hebrew_abc_text`: resolved direction RTL, the runs in visual
order: the left-to-right run "abc", then the Hebrew letters. -/
def hebrew_abc_line : PangoLayoutLine :=
  { start_index := 0, length := 9, runs := [text_run 6 3 3 2, text_run 0 6 3 1],
    is_paragraph_start := true, resolved_dir := PangoDirection.RTL }

/-- The one line of the text "abc" in a left-to-right paragraph. -/
def abc_ltr_line : PangoLayoutLine :=
  { start_index := 0, length := 3, runs := [text_run 0 3 3 0], is_paragraph_start := true,
    resolved_dir := PangoDirection.LTR }

/-! ### Well-formed lines, for the claims about cursor motion -/

/-- The text of every run of the line lies inside the bytes of the line, and no
run is empty. -/
def RunsInLine (layout : PangoLayout) (line : PangoLayoutLine) : Prop :=
  ∀ run ∈ line.runs, 0 < run.item.num_chars ∧ line.start_index ≤ run.item.offset ∧
    (g_utf8_offset_to_pointer layout.text run.item.offset run.item.num_chars : Int) ≤
      line.start_index + line.length

/-- The `n` characters from byte position `start` on are well formed: each starts
with a byte that is not of the form `10xxxxxx` and goes on with bytes of that form
only. -/
def CharBoundaries (text : List Nat) (start n : Nat) : Prop :=
  ∀ j < n, text_byte text (g_utf8_offset_to_pointer text start j) / 64 ≠ 2 ∧
    ∀ i < g_utf8_offset_to_pointer text start (j + 1),
      g_utf8_offset_to_pointer text start j < i → text_byte text i / 64 = 2

/-- The bytes of the line are `n` well-formed characters. -/
def LineText (layout : PangoLayout) (line : PangoLayoutLine) (n : Nat) : Prop :=
  0 ≤ line.start_index ∧ 0 ≤ line.length ∧
    CharBoundaries layout.text line.start_index.toNat n ∧
    (g_utf8_offset_to_pointer layout.text line.start_index.toNat n : Int) =
      line.start_index + line.length

/-- Every entry written to the array lies between `lo` and `hi`. -/
def EntriesIn (result : List (Option Int)) (lo hi : Int) : Prop :=
  ∀ v, some v ∈ result → lo ≤ v ∧ v ≤ hi

instance (layout : PangoLayout) (line : PangoLayoutLine) : Decidable (RunsInLine layout line) := by
  unfold RunsInLine; infer_instance

instance (text : List Nat) (start n : Nat) : Decidable (CharBoundaries text start n) := by
  unfold CharBoundaries; infer_instance

instance (layout : PangoLayout) (line : PangoLayoutLine) (n : Nat) :
    Decidable (LineText layout line n) := by
  unfold LineText; infer_instance

/-! ## Blending a glyph bitmap into a surface (`src/SDL_PangoDraw.c`) -/

/-- The value of the expression `(Uint16)m[n][0] * (256 - g) + (Uint16)m[n][1] * g` in
`SDLPangoDraw_CopyFTBitmapToSurface`, computed in `int` before it is stored: `b` is
the matrix entry `m[n][0]`, `f` is `m[n][1]` and `g` the coverage byte `p_ft[k + x]`. -/
def blend_sum (b f g : Nat) : Nat := b * (256 - g) + f * g

/-- The channel `pixel[n]` of `SDLPangoDraw_CopyFTBitmapToSurface`: the sum is stored
in the `Uint16` variable `w`, and `(Uint8)(w >> 8)` is the channel. -/
def blend_channel (b f g : Nat) : Nat :=
  let w := blend_sum b f g % 65536
  (w / 256) % 256

/-! ### Names for the intermediate values of `process_item` -/

/-- The variable `width` of `process_item` when it reaches the test "does the whole
item fit": the sum of the glyph widths plus the letter spacing for a new item, the
sum of the logical widths for the rest of an item, and 0 for a ruby base. -/
def item_width (state : ParaBreakState) (glyphs : PangoGlyphString) (processing_new_item : Bool)
    (item : PangoItem) : Option Int :=
  match (if processing_new_item then
           some (glyphs_width glyphs.glyphs + state.properties.letter_spacing)
         else sum_log_widths state.log_widths state.log_widths_offset item.num_chars) with
  | none => none
  | some width0 =>
    some (if (pjx_attr_get_from_list item.analysis.extra_attrs PJX_ATTR_RB).isSome then 0
          else width0)

/-- The variable `end_width` of `process_item` at the same point: `width` without
the width of a last glyph of ID 0. -/
def item_end_width (glyphs : PangoGlyphString) (width : Int) : Option Int :=
  if 0 < width then
    match glyphs.glyphs.getLast? with
    | none => none
    | some last => some (if last.glyph = 0 then width - last.width else width)
  else some width

/-- The state in which `process_item` runs its break loop: `log_widths` is filled
for a new item and `last_line` is `FALSE`. -/
def break_state (ext : Collaborators) (state : ParaBreakState) (glyphs : PangoGlyphString)
    (processing_new_item : Bool) (item : PangoItem) : ParaBreakState :=
  { state with
    log_widths :=
      if processing_new_item then
        add_at (ext.pango_glyph_string_get_logical_widths glyphs item) (item.num_chars - 1)
          (if 0 < item.num_chars then state.properties.letter_spacing else 0)
      else state.log_widths,
    last_line := false }

/-- The value of `width` in the break loop of `process_item` when `num_chars` has
come down to `k`: the width of the item minus the logical widths of the
characters `k`, ..., `n - 1`. This is the width of the first `k` characters. -/
def prefix_width (state : ParaBreakState) (n : Nat) (width : Int) (k : Nat) : Option Int :=
  (sum_log_widths state.log_widths (state.log_widths_offset + k) (n - k)).map
    (fun s => width - s)

/-- The value `end_width` the break loop of `process_item` computes for a break
after `k` characters: the width of the first `k` characters, without the width of
a glyph of ID 0 that ends the cluster of character `k`. -/
def candidate_end_width (state : ParaBreakState) (glyphs : List PangoGlyphInfo) (n : Nat)
    (width : Int) (k : Nat) : Option Int :=
  match prefix_width state n width k with
  | none => none
  | some w => break_end_width glyphs k w

/-! ### Example data for the break loop -/

/-- The bytes of "ab cd". -/
def two_words_text : List Nat := [97, 98, 32, 99, 100]

/-- The two items of `two_words_text`: "ab " and "cd". -/
def two_words_items : List PangoItem := [plain_item 0 3 3 [], plain_item 3 2 2 []]

/-- The layout of `two_words_text` at `width`, with one line break opportunity,
before "cd". -/
def two_words_layout (width : Int) : PangoLayout := word_wrap_layout two_words_text 5 [3] width

/-- The line of `two_words_layout` after `process_line` has put the item "ab " on
it. -/
def two_words_line : PangoLayoutLine :=
  { first_line with
    length := 3,
    runs := [{ item := plain_item 0 3 3 [],
               glyphs := fixed_width_shaper.pango_shape (plain_item 0 3 3 []) }] }

/-- The state in which `process_line` then calls `process_item` for the item "cd",
at width 30: no width remains. -/
def two_words_state : ParaBreakState :=
  { initial_state [plain_item 3 2 2 []] PangoDirection.LTR 0 3 with
    last_line := true, remaining_width := 0 }

/-! ### Example data for the forced retry of `process_line` -/

/-- The line, the state and the local variables with which the loop of
`process_line` goes on after an iteration; `none` when the iteration ends the line
or has no defined result. -/
def step_next (step : Option LineStep) :
    Option (PangoLayoutLine × ParaBreakState × LineLocals) :=
  match step with
  | some (LineStep.next line state locals) => some (line, state, locals)
  | _ => none

/-- The bytes of "漢字かな.": four characters of three bytes each and a full stop. -/
def ruby_retry_text : List Nat :=
  [0xe6, 0xbc, 0xa2, 0xe5, 0xad, 0x97, 0xe3, 0x81, 0x8b, 0xe3, 0x81, 0xaa, 46]

/-- The items of `<ruby><rb>漢字</rb><rt>かな</rt></ruby>.`: the ruby base, the ruby
text and the full stop. -/
def ruby_retry_items : List PangoItem :=
  [plain_item 0 6 2 [void_attr PJX_ATTR_RUBY 0 12, void_attr PJX_ATTR_RB 0 6],
   plain_item 6 6 2
     [void_attr PJX_ATTR_RUBY 0 12, void_attr PJX_ATTR_RT 6 12,
      { klass := PANGO_ATTR_RISE, value := 15000, start_index := 6, end_index := 12 }],
   plain_item 12 1 1 []]

/-- The layout of `ruby_retry_text` at width 25, with one line break opportunity,
between the two characters of the ruby base. -/
def ruby_retry_layout : PangoLayout := word_wrap_layout ruby_retry_text 5 [1] 25

/-- The line, state and local variables of `process_line` on the paragraph of
`ruby_retry_items` after `n` iterations of its loop. -/
def ruby_retry_steps : Nat → Option (PangoLayoutLine × ParaBreakState × LineLocals)
  | 0 =>
    some (first_line,
      { initial_state ruby_retry_items PangoDirection.LTR 0 0 with remaining_width := 25 },
      initial_locals)
  | n + 1 =>
    (ruby_retry_steps n).bind
      (fun r => step_next (process_line_step fixed_width_shaper ruby_retry_layout r.1 r.2.1 r.2.2))

/-- The line and the state with which the third iteration calls `process_item` a
second time: after `process_item` has returned for the full stop, the loop
`while (line->runs && line->runs != break_link)` has backed the line up and
`start_offset` and `remaining_width` have been set back. -/
def ruby_retry_backed : Option (PangoLayoutLine × ParaBreakState) :=
  (ruby_retry_steps 2).bind (fun r =>
    (process_item fixed_width_shaper ruby_retry_layout r.1 r.2.1 (!r.2.2.have_break) false).map
      (fun x =>
        let backed := back_up r.2.2.break_link x.2.1.runs.length x.2.1 x.2.2
        (backed.1,
         { backed.2 with start_offset := r.2.2.break_start_offset,
                         remaining_width := r.2.2.break_remaining_width })))

/-! ## Extents of a layout (`pjx_layout_get_extents`) -/

/-- The run `run2` is the run `run`, or `run` after a call of `adjust_final_space`
on its glyph string: only the width of the last glyph differs. -/
def FinalSpaceChanged (run run2 : PangoLayoutRun) : Prop :=
  run2 = run ∨ ∃ adjustment : Int, adjust_run_final_space run adjustment = some run2

/-- A run of the glyph widths `widths` for an item at byte `offset` with the letter
spacing `letter_spacing`. -/
def spaced_run (offset : Nat) (letter_spacing : Int) (widths : List Int) : PangoLayoutRun :=
  { item := plain_item offset widths.length widths.length
      [{ klass := PANGO_ATTR_LETTER_SPACING, value := letter_spacing, start_index := offset,
         end_index := offset + widths.length }],
    glyphs :=
      { glyphs := widths.map (fun w =>
          { glyph := 1, width := w, x_offset := 0, y_offset := 0, is_cluster_start := true }),
        log_clusters := (List.range widths.length).map (fun i => (i : Int)) } }

/-- A line of "abcdef" in three runs with the letter spacings 5, 8 and 3, which
shaping has added to the last glyph of each run. -/
def spaced_line : PangoLayoutLine :=
  { first_line with
    length := 6,
    runs := [spaced_run 0 5 [10, 15], spaced_run 2 8 [10, 18], spaced_run 4 3 [10, 13]] }

/-- The layout of "abcdef" for `spaced_line`. -/
def spaced_layout : PangoLayout :=
  { plain_layout with text := [97, 98, 99, 100, 101, 102], n_chars := 6 }

/-- The bytes of "a", a tab and "b". -/
def tab_text : List Nat := [97, 9, 98]

/-- The three items of `tab_text`, the first with the letter spacing 4. -/
def tab_items : List PangoItem :=
  [plain_item 0 1 1
     [{ klass := PANGO_ATTR_LETTER_SPACING, value := 4, start_index := 0, end_index := 1 }],
   plain_item 1 1 1 [], plain_item 2 1 1 []]

/-- The layout of `tab_text` at the width 1000, with the default tab stops. -/
def tab_layout : PangoLayout := word_wrap_layout tab_text 3 [] 1000

/-- The layout of "a" and a tab with one tab stop, at 1073741824. -/
def far_tab_layout : PangoLayout :=
  { word_wrap_layout [97, 9] 2 [] 1000 with
    tabs := some { positions := [1073741824], positions_in_pixels := false } }

/-- A line of one glyph that is 1073741824 wide. -/
def wide_line : PangoLayoutLine :=
  { first_line with
    runs := [{ text_run 0 1 1 0 with
      glyphs := { glyphs := [{ glyph := 1, width := 1073741824, x_offset := 0, y_offset := 0,
                               is_cluster_start := true }],
                  log_clusters := [0] } }] }

/-- The layout of "a" and a tab with the tab stops 100 and 250. -/
def stops_layout : PangoLayout :=
  { word_wrap_layout [97, 9] 2 [] 1000 with
    tabs := some { positions := [100, 250], positions_in_pixels := false } }

/-- A line of one glyph that is 260 wide. -/
def long_line : PangoLayoutLine :=
  { first_line with
    runs := [{ text_run 0 1 1 0 with
      glyphs := { glyphs := [{ glyph := 1, width := 260, x_offset := 0, y_offset := 0,
                               is_cluster_start := true }],
                  log_clusters := [0] } }] }

/-! ### Example data for the last line of a paragraph -/

/-- The logical widths of the clusters of a glyph string: a glyph that starts a
cluster opens an entry, any other glyph adds its width to the last entry. -/
def cluster_widths : List PangoGlyphInfo → List Int → List Int
  | [], acc => acc
  | g :: gs, acc =>
    if g.is_cluster_start then cluster_widths gs (acc ++ [g.width])
    else cluster_widths gs (acc.dropLast ++ [acc.getLastD 0 + g.width])

/-- Letter spacing between clusters, as `pango_glyph_item_letter_space` of Pango
gives it to a left-to-right run whose characters are all cursor positions: for
every cluster but the first, `letter_spacing` is added to the width of the glyph
before the first glyph of the cluster. -/
def cluster_letter_space : List PangoGlyphInfo → Int → List PangoGlyphInfo
  | g :: h :: rest, letter_spacing =>
    (if h.is_cluster_start then { g with width := g.width + letter_spacing } else g) ::
      cluster_letter_space (h :: rest) letter_spacing
  | glyphs, _ => glyphs

/-- A shaper that gives one glyph of width 10 per character and ends the glyph
string with a space glyph of ID 0 and width 5 in the cluster of the last character,
as the JIS X 4051 shaper does after some characters. The logical widths are those
of the clusters, letter spacing is put between the clusters, and ellipsizing
leaves the line as it is. -/
def trailing_space_shaper : Collaborators where
  pango_shape := fun item =>
    { glyphs := List.replicate item.num_chars
        { glyph := 1, width := 10, x_offset := 0, y_offset := 0, is_cluster_start := true } ++
        [{ glyph := 0, width := 5, x_offset := 0, y_offset := 0, is_cluster_start := false }],
      log_clusters := (List.range item.num_chars).map (fun i => (i : Int)) ++
        [(item.num_chars : Int) - 1] }
  pango_glyph_item_letter_space := fun _ glyphs _ letter_spacing =>
    { glyphs with glyphs := cluster_letter_space glyphs.glyphs letter_spacing }
  pango_glyph_string_get_logical_widths := fun glyphs _ => cluster_widths glyphs.glyphs []
  pango_layout_line_ellipsize := fun line => line
  spaces_width := 80

/-- The layout of "ab" at the width 10, with no line break opportunity. -/
def tight_layout : PangoLayout := word_wrap_layout [97, 98] 2 [] 10

/-- The line `pjx_layout_line_postprocess` passes to `adjust_line_justify` when it
does: the line after the runs are reversed, ellipsized, reordered and their letter
spacing is adjusted. -/
def letter_spaced_line (ext : Collaborators) (layout : PangoLayout) (line : PangoLayoutLine) :
    Option PangoLayoutLine :=
  adjust_line_letter_spacing layout
    (pjx_layout_line_reorder
      (ext.pango_layout_line_ellipsize { line with runs := line.runs.reverse }))

/-- The locals of `process_line` before the first iteration. -/
def first_locals : LineLocals :=
  { have_break := false, break_remaining_width := 0, break_start_offset := 0,
    break_link := 0, rb_width := none, rb_gs := none }

/-- Whether the glyph string ends with a glyph of ID 0 and negative width. -/
def negative_trailing_space (glyphs : PangoGlyphString) : Bool :=
  match glyphs.glyphs.getLast? with
  | some g => decide (g.glyph = 0 ∧ g.width < 0)
  | none => false

/-- The glyph strings `state->glyphs` that the calls of `process_item` in the main
loop of `process_line` work with, one per iteration, in order. -/
def loop_glyphs (ext : Collaborators) (layout : PangoLayout) :
    Nat → PangoLayoutLine → ParaBreakState → LineLocals → List PangoGlyphString
  | 0, _, _, _ => []
  | fuel + 1, line, state, locals =>
    match state.items with
    | [] => []
    | item :: _ =>
      (match process_item_shape ext layout line state item with
       | some (_, glyphs, _) => [glyphs]
       | none => []) ++
      (match process_line_step ext layout line state locals with
       | some (LineStep.next line1 state1 locals1) => loop_glyphs ext layout fuel line1 state1 locals1
       | _ => [])

/-- The state in which `process_line` enters its loop for the paragraph "ab" without
letter spacing, at the width 10. -/
def loose_state : ParaBreakState :=
  { initial_state [plain_item 0 2 2 []] PangoDirection.LTR 0 0 with remaining_width := 10 }

/-- The line the loop of `process_line` ends with for `loose_state` and
`trailing_space_shaper`: the item "ab" of width 25 is forced on the line. -/
def forced_line : PangoLayoutLine :=
  { first_line with
    length := 2,
    runs := [{ item := plain_item 0 2 2 [],
               glyphs := trailing_space_shaper.pango_shape (plain_item 0 2 2 []) }] }

/-- The state the loop of `process_line` ends with for `loose_state`: no item and
no width is left, and `last_line` is not set. -/
def forced_state : ParaBreakState :=
  { initial_state [] PangoDirection.LTR 0 2 with remaining_width := 0 }

/-! ### What the visual-to-logical map of a line should be -/

/-- The byte offset in the line of its character boundary number `k`. -/
def boundary_offset (text : List Nat) (line : PangoLayoutLine) (k : Nat) : Int :=
  (g_utf8_offset_to_pointer text line.start_index.toNat k : Int) - line.start_index

/-- Whether the loop body of `pjx_layout_line_get_vis2log_map` assigns the visual
position at the start of the run. -/
def run_writes_start (cursor_dir prev_dir : PangoDirection) (run : PangoLayoutRun) : Bool :=
  decide (cursor_dir = run_dir run ∨ prev_dir = run_dir run)

/-- Whether the loop body assigns the visual position at the end of the run. -/
def run_writes_end (cursor_dir : PangoDirection) (run : PangoLayoutRun) : Bool :=
  decide (cursor_dir = run_dir run)

/-- Whether what follows the visual position between the runs done and the runs
`rest` assigns that position: the next run at its start, or the code after the
loop. -/
def next_writes (cursor_dir resolved_dir prev_dir : PangoDirection)
    (rest : List PangoLayoutRun) : Bool :=
  match rest with
  | [] => decide (cursor_dir = resolved_dir ∨ prev_dir = resolved_dir)
  | run :: _ => run_writes_start cursor_dir prev_dir run

/-- The character boundary at the visual position `i` of a run that holds the
characters from number `s` on: counted from the start of the run for a
left-to-right run, from its end for a right-to-left one. -/
def run_char (run : PangoLayoutRun) (s i : Nat) : Nat :=
  if run_dir run = PangoDirection.LTR then s + i else s + run.item.num_chars - i

/-- The map `G` from visual positions to character boundaries agrees with what the
loop of `pjx_layout_line_get_vis2log_map` assigns last to each position, for the
runs `runs` from the visual position `pos` on, after a run of direction
`prev_dir`: each run holds characters of the line, from some number `s` on, and
`G` is `run_char` inside the run, at its start when the run assigns it, and at its
end when nothing after the run does. -/
def MapSpec (text : List Nat) (line : PangoLayoutLine) (n : Nat) (cursor_dir : PangoDirection)
    (G : Nat → Nat) : List PangoLayoutRun → PangoDirection → Nat → Prop
  | [], prev_dir, pos =>
    pos = n ∧
      ((cursor_dir = line.resolved_dir ∨ prev_dir = line.resolved_dir) →
        G n = if line.resolved_dir = PangoDirection.LTR then n else 0)
  | run :: rest, prev_dir, pos =>
    (∃ s, 0 < run.item.num_chars ∧ pos + run.item.num_chars ≤ n ∧
      s + run.item.num_chars ≤ n ∧
      run.item.offset = g_utf8_offset_to_pointer text line.start_index.toNat s ∧
      (run_writes_start cursor_dir prev_dir run = true → G pos = run_char run s 0) ∧
      (∀ i, 0 < i → i < run.item.num_chars → G (pos + i) = run_char run s i) ∧
      (next_writes cursor_dir line.resolved_dir (run_dir run) rest = false →
        run_writes_end cursor_dir run = true ∧
          G (pos + run.item.num_chars) = run_char run s run.item.num_chars)) ∧
    MapSpec text line n cursor_dir G rest (run_dir run) (pos + run.item.num_chars)

/-- The direction of the cursor `pjx_layout_line_get_vis2log_map` works with. -/
def map_cursor_dir (line : PangoLayoutLine) (strong : Bool) : PangoDirection :=
  if strong then line.resolved_dir
  else if line.resolved_dir = PangoDirection.LTR then PangoDirection.RTL
  else PangoDirection.LTR

/-! ### Lines with two embedding levels -/

/-- The number of characters in the runs at the head of the list that do not have
the direction `dir`. -/
def opposite_chars (dir : PangoDirection) : List PangoLayoutRun → Nat
  | [] => 0
  | run :: rest =>
    if run_dir run = dir then 0 else run.item.num_chars + opposite_chars dir rest

/-- The runs, in visual order from the visual position `pos` on, are those of a
line of `n` characters with two embedding levels: a run of the direction `dir` of
the line holds the characters at its visual positions, counted in the direction of
the line, and a maximal group of adjacent runs of the other direction, at the
visual positions `a` to `b`, holds the characters of these positions in the
opposite order. Inside such a group `blk` is `(a, b)`. -/
def two_level_runs (text : List Nat) (st n : Nat) (dir : PangoDirection) :
    List PangoLayoutRun → Option (Nat × Nat) → Nat → Bool
  | [], _, pos => decide (pos = n)
  | run :: rest, blk, pos =>
    if run_dir run = dir then
      decide (0 < run.item.num_chars ∧ pos + run.item.num_chars ≤ n ∧
        run.item.offset = g_utf8_offset_to_pointer text st
          (if dir = PangoDirection.LTR then pos else n - pos - run.item.num_chars)) &&
        two_level_runs text st n dir rest none (pos + run.item.num_chars)
    else
      let ab := blk.getD (pos, pos + opposite_chars dir (run :: rest))
      decide (0 < run.item.num_chars ∧ ab.2 ≤ n ∧
        run.item.offset = g_utf8_offset_to_pointer text st
          (if dir = PangoDirection.LTR then ab.1 + ab.2 - pos - run.item.num_chars
           else n + pos - ab.1 - ab.2)) &&
        two_level_runs text st n dir rest (some ab) (pos + run.item.num_chars)

/-- The visual position `v`, at or after `pos`, mirrored inside its group of runs of
the other direction when the position is assigned by a run of such a group, and
as it is otherwise. -/
def reflect_pos (cursor_dir dir : PangoDirection) :
    List PangoLayoutRun → Option (Nat × Nat) → Nat → Nat → Nat
  | [], _, _, v => v
  | run :: rest, blk, pos, v =>
    if run_dir run = dir then
      if v < pos + run.item.num_chars ∨
          (v = pos + run.item.num_chars ∧ next_writes cursor_dir dir (run_dir run) rest = false)
      then v
      else reflect_pos cursor_dir dir rest none (pos + run.item.num_chars) v
    else
      let ab := blk.getD (pos, pos + opposite_chars dir (run :: rest))
      if v < pos + run.item.num_chars ∨
          (v = pos + run.item.num_chars ∧ next_writes cursor_dir dir (run_dir run) rest = false)
      then ab.1 + ab.2 - v
      else reflect_pos cursor_dir dir rest (some ab) (pos + run.item.num_chars) v

/-- The character boundary at the visual position `v` of a line of `n` characters
whose runs all have the direction of the line. -/
def line_base (dir : PangoDirection) (n v : Nat) : Nat :=
  if dir = PangoDirection.LTR then v else n - v

/-- The character boundary of the visual position `v` in a line of `n` characters
with two embedding levels. -/
def expected_boundary (line : PangoLayoutLine) (n : Nat) (cursor_dir : PangoDirection)
    (v : Nat) : Nat :=
  if v = 0 ∧ next_writes cursor_dir line.resolved_dir line.resolved_dir line.runs = false then
    line_base line.resolved_dir n 0
  else line_base line.resolved_dir n (reflect_pos cursor_dir line.resolved_dir line.runs none 0 v)

/-! ### Example lines for the maps -/

/-- The text "abcdef" of the example lines, one byte per character; which
characters are right-to-left is given by the levels of the runs. -/
def mixed_layout : PangoLayout := cursor_layout [97, 98, 99, 100, 101, 102] 6

/-- A line of `mixed_layout` in logical order: "ab" at level 0, "cd" at level 2 (as
for Arabic digits in a left-to-right paragraph) and "ef" at level 1. -/
def three_level_logical : PangoLayoutLine :=
  { start_index := 0, length := 6,
    runs := [text_run 0 2 2 0, text_run 2 2 2 2, text_run 4 2 2 1],
    is_paragraph_start := true, resolved_dir := PangoDirection.LTR }

/-- The line `three_level_logical` in visual order. -/
def three_level_line : PangoLayoutLine := pjx_layout_line_reorder three_level_logical

/-- A line of `mixed_layout` in logical order: "a" at level 0, "bc" and "de" at level
1, and "f" at level 0. -/
def two_level_logical : PangoLayoutLine :=
  { start_index := 0, length := 6,
    runs := [text_run 0 1 1 0, text_run 1 2 2 1, text_run 3 2 2 1, text_run 5 1 1 0],
    is_paragraph_start := true, resolved_dir := PangoDirection.LTR }

/-- The line `two_level_logical` in visual order. -/
def two_level_line : PangoLayoutLine := pjx_layout_line_reorder two_level_logical

/-! ### Example data for the rest of a split item -/

/-- A shaper that gives one glyph of width 10 per character and, after the
character at byte 5, a space glyph of ID 0 and width 5 in the cluster of that
character, as the JIS X 4051 shaper does after some characters. The text is ASCII,
one byte per character. -/
def space_after_shaper : Collaborators where
  pango_shape := fun item =>
    { glyphs := ((List.range item.num_chars).map (fun i =>
        { glyph := 1, width := 10, x_offset := 0, y_offset := 0, is_cluster_start := true } ::
          (if item.offset + i = 5 then
            [{ glyph := 0, width := 5, x_offset := 0, y_offset := 0, is_cluster_start := false }]
           else []))).flatten,
      log_clusters := ((List.range item.num_chars).map (fun i =>
        (i : Int) :: (if item.offset + i = 5 then [(i : Int)] else []))).flatten }
  pango_glyph_item_letter_space := fun _ glyphs _ letter_spacing =>
    { glyphs with glyphs := cluster_letter_space glyphs.glyphs letter_spacing }
  pango_glyph_string_get_logical_widths := fun glyphs _ => cluster_widths glyphs.glyphs []
  pango_layout_line_ellipsize := fun line => line
  spaces_width := 80

/-- The bytes of "xxabcdef". -/
def split_text : List Nat := [120, 120, 97, 98, 99, 100, 101, 102]

/-- The two items of `split_text`: "xx" and "abcdef". -/
def split_items : List PangoItem := [plain_item 0 2 2 [], plain_item 2 6 6 []]

/-- The layout of `split_text` at the width 30, with line break opportunities
before "b", before "d" and before "e". -/
def split_layout : PangoLayout := word_wrap_layout split_text 8 [3, 5, 6] 30

/-- The width of the first `k` characters of `item` without a trailing glyph of
ID 0: the glyphs the shaper gives the item of these characters, less the last
glyph when its ID is 0 (specification side; the text is one byte per character). -/
def prefix_fit_width (ext : Collaborators) (item : PangoItem) (k : Nat) : Int :=
  let glyphs := (ext.pango_shape (pango_item_split item k k).1).glyphs
  glyphs_width glyphs -
    (match glyphs.getLast? with
     | some last => if last.glyph = 0 then last.width else 0
     | none => 0)

/-- The rest of the item "abcdef" after "a" has been put on the first line. -/
def split_rest_item : PangoItem := plain_item 3 5 5 []

/-- The line `process_line` starts for the second line of `split_layout`. -/
def split_rest_line : PangoLayoutLine :=
  { start_index := 3, length := 0, runs := [], is_paragraph_start := false,
    resolved_dir := PangoDirection.LTR }

/-- The state in which `process_line` calls `process_item` for the second line of
`split_layout`: the glyph string and the logical widths are those of the whole item
"abcdef", and `log_widths_offset` is 1. -/
def split_rest_state : ParaBreakState :=
  { initial_state [split_rest_item] PangoDirection.LTR 3 3 with
    first_line := false, remaining_width := 30,
    glyphs := some (space_after_shaper.pango_shape (plain_item 2 6 6 [])),
    log_widths := [10, 10, 10, 15, 10, 10], log_widths_offset := 1 }

/-! ### Where the strong cursor lands from the visual start of a right-to-left line -/

/-- The number of the character on which the strong cursor lands when it moves
right from the visual start of a right-to-left line of `n` characters with two
embedding levels: the last character, `n - 1`, unless the left-to-right runs at the
visual start of the line hold `b` characters with `b` at least 3; then it is the
second character of these runs, `n - b + 1`. -/
def landing_char (line : PangoLayoutLine) (n : Nat) : Nat :=
  if 3 ≤ opposite_chars PangoDirection.RTL line.runs then
    n + 1 - opposite_chars PangoDirection.RTL line.runs
  else n - 1

/-- The bytes of "אבגa": three Hebrew letters, then "a". -/
def hebrew_a_text : List Nat := [0xd7, 0x90, 0xd7, 0x91, 0xd7, 0x92, 97]

/-- The one line of `hebrew_a_text`: resolved direction RTL, the runs in visual
order: the left-to-right run "a", then the Hebrew letters. -/
def hebrew_a_line : PangoLayoutLine :=
  { start_index := 0, length := 7, runs := [text_run 6 1 1 2, text_run 0 6 3 1],
    is_paragraph_start := true, resolved_dir := PangoDirection.RTL }
/-! ## Theorems: attribute lists -/

theorem covers_nil (k p : Nat) (v : Int) : ¬ Covers [] k p v := by
  simp [Covers]

theorem covers_cons (x : PangoAttribute) (l : List PangoAttribute) (k p : Nat) (v : Int) :
    Covers (x :: l) k p v ↔
      (x.klass = k ∧ x.value = v ∧ x.start_index ≤ p ∧ p < x.end_index) ∨ Covers l k p v := by
  simp [Covers]

theorem covers_append (l1 l2 : List PangoAttribute) (k p : Nat) (v : Int) :
    Covers (l1 ++ l2) k p v ↔ Covers l1 k p v ∨ Covers l2 k p v := by
  simp only [Covers, List.mem_append]
  constructor
  · rintro ⟨x, hx | hx, h⟩
    · exact Or.inl ⟨x, hx, h⟩
    · exact Or.inr ⟨x, hx, h⟩
  · rintro (⟨x, hx, h⟩ | ⟨x, hx, h⟩)
    · exact ⟨x, Or.inl hx, h⟩
    · exact ⟨x, Or.inr hx, h⟩

theorem mem_insert (l : List PangoAttribute) (e y : PangoAttribute) :
    y ∈ pango_attr_list_insert l e ↔ y = e ∨ y ∈ l := by
  induction l with
  | nil => simp [pango_attr_list_insert]
  | cons x xs ih =>
    simp only [pango_attr_list_insert]
    split
    · simp
    · simp only [List.mem_cons, ih]
      tauto

theorem length_insert (l : List PangoAttribute) (e : PangoAttribute) :
    (pango_attr_list_insert l e).length = l.length + 1 := by
  induction l with
  | nil => simp [pango_attr_list_insert]
  | cons x xs ih =>
    simp only [pango_attr_list_insert]
    split <;> simp [ih]

theorem covers_insert (l : List PangoAttribute) (e : PangoAttribute) (k p : Nat) (v : Int) :
    Covers (pango_attr_list_insert l e) k p v ↔
      (e.klass = k ∧ e.value = v ∧ e.start_index ≤ p ∧ p < e.end_index) ∨ Covers l k p v := by
  simp only [Covers, mem_insert]
  constructor
  · rintro ⟨x, rfl | hx, h⟩
    · exact Or.inl h
    · exact Or.inr ⟨x, hx, h⟩
  · rintro (h | ⟨x, hx, h⟩)
    · exact ⟨e, Or.inl rfl, h⟩
    · exact ⟨x, Or.inr hx, h⟩

theorem pairwise_insert (l : List PangoAttribute) (e : PangoAttribute)
    (hl : l.Pairwise AttrRel)
    (hle : ∀ y ∈ l, y.start_index ≤ e.start_index → AttrRel y e)
    (hgt : ∀ y ∈ l, e.start_index < y.start_index → AttrRel e y) :
    (pango_attr_list_insert l e).Pairwise AttrRel := by
  induction l with
  | nil => simp [pango_attr_list_insert]
  | cons x xs ih =>
    simp only [pango_attr_list_insert]
    rw [List.pairwise_cons] at hl
    split
    · rename_i hlt
      rw [List.pairwise_cons]
      refine ⟨?_, List.pairwise_cons.mpr hl⟩
      intro y hy
      rcases List.mem_cons.mp hy with rfl | hy
      · exact hgt _ (List.mem_cons_self _ _) hlt
      · have := (hl.1 y hy).1
        exact hgt y (List.mem_cons_of_mem _ hy) (by omega)
    · rename_i hge
      rw [List.pairwise_cons]
      refine ⟨?_, ih hl.2 (fun y hy => hle y (List.mem_cons_of_mem _ hy))
        (fun y hy => hgt y (List.mem_cons_of_mem _ hy))⟩
      intro y hy
      rcases (mem_insert xs e y).mp hy with rfl | hy
      · exact hle x (List.mem_cons_self _ _) (by omega)
      · exact hl.1 y hy

theorem countP_insert (l : List PangoAttribute) (e : PangoAttribute) (q : PangoAttribute → Bool)
    (hq : q e = false) :
    (pango_attr_list_insert l e).countP q = l.countP q := by
  induction l with
  | nil => simp [pango_attr_list_insert, List.countP_cons, hq]
  | cons x xs ih =>
    simp only [pango_attr_list_insert]
    split
    · simp [List.countP_cons, hq]
    · simp [List.countP_cons, ih]

theorem insert_at_cursor_eq (prev rest : List PangoAttribute) (tmp e : PangoAttribute) :
    (insert_at_cursor prev tmp rest e).1 ++ tmp :: (insert_at_cursor prev tmp rest e).2 =
      pango_attr_list_insert (prev ++ tmp :: rest) e := by
  induction prev with
  | nil =>
    simp only [insert_at_cursor, List.any_nil, List.nil_append]
    by_cases h : e.start_index < tmp.start_index <;> simp [h, pango_attr_list_insert]
  | cons x xs ih =>
    simp only [insert_at_cursor, List.any_cons, List.cons_append, pango_attr_list_insert] at ih ⊢
    by_cases hx : e.start_index < x.start_index
    · simp [hx]
    · simp only [hx, decide_False, Bool.false_or, if_false, List.append_eq]
      rw [← ih]
      by_cases h1 : (xs.any fun y => decide (e.start_index < y.start_index)) = true
      · simp [h1]
      · by_cases h2 : e.start_index < tmp.start_index <;> simp [h1, h2]

theorem attrRel_same (u x x2 : PangoAttribute) (h : AttrRel u x)
    (hs : x.start_index ≤ x2.start_index) (hk : x2.klass = x.klass) (hv : x2.value = x.value) :
    AttrRel u x2 := by
  unfold AttrRel at *
  rw [hk, hv]
  refine ⟨by omega, fun hk2 => ?_⟩
  have := h.2 hk2
  exact ⟨by omega, fun hv2 => by have := this.2 hv2; omega⟩

theorem wf_nil : WellFormed [] := by
  simp [WellFormed]

theorem wf_append (p r : List PangoAttribute) :
    WellFormed (p ++ r) ↔
      WellFormed p ∧ WellFormed r ∧ ∀ u ∈ p, ∀ y ∈ r, AttrRel u y := by
  simp only [WellFormed, List.pairwise_append, List.mem_append]
  constructor
  · rintro ⟨h1, h2, h3, h4⟩
    exact ⟨⟨fun x hx => h1 x (Or.inl hx), h2⟩, ⟨fun x hx => h1 x (Or.inr hx), h3⟩, h4⟩
  · rintro ⟨⟨h1, h2⟩, ⟨h3, h4⟩, h5⟩
    exact ⟨fun x hx => hx.elim (h1 x) (h3 x), h2, h4, h5⟩

theorem wf_cons (x : PangoAttribute) (r : List PangoAttribute) :
    WellFormed (x :: r) ↔
      x.start_index < x.end_index ∧ WellFormed r ∧ ∀ y ∈ r, AttrRel x y := by
  simp only [WellFormed, List.pairwise_cons, List.mem_cons]
  constructor
  · rintro ⟨h1, h2, h3⟩
    exact ⟨h1 x (Or.inl rfl), ⟨fun y hy => h1 y (Or.inr hy), h3⟩, h2⟩
  · rintro ⟨h1, ⟨h2, h3⟩, h4⟩
    refine ⟨fun y hy => ?_, h4, h3⟩
    rcases hy with rfl | hy
    · exact h1
    · exact h2 y hy

theorem wf_append_cons (p r : List PangoAttribute) (x : PangoAttribute) :
    WellFormed (p ++ x :: r) ↔
      WellFormed p ∧ WellFormed r ∧ x.start_index < x.end_index ∧
        (∀ u ∈ p, AttrRel u x) ∧ (∀ y ∈ r, AttrRel x y) ∧ (∀ u ∈ p, ∀ y ∈ r, AttrRel u y) := by
  rw [wf_append, wf_cons]
  constructor
  · rintro ⟨h1, ⟨h2, h3, h4⟩, h5⟩
    exact ⟨h1, h3, h2, fun u hu => h5 u hu x (List.mem_cons_self _ _), h4,
      fun u hu y hy => h5 u hu y (List.mem_cons_of_mem _ hy)⟩
  · rintro ⟨h1, h2, h3, h4, h5, h6⟩
    refine ⟨h1, ⟨h3, h2, h5⟩, fun u hu y hy => ?_⟩
    rcases List.mem_cons.mp hy with rfl | hy
    · exact h4 u hu
    · exact h6 u hu y hy

theorem wf_snoc (p : List PangoAttribute) (x : PangoAttribute) :
    WellFormed (p ++ [x]) ↔
      WellFormed p ∧ x.start_index < x.end_index ∧ ∀ u ∈ p, AttrRel u x := by
  rw [wf_append_cons]
  simp [wf_nil]

/-- In a well-formed list every later entry starts at or after an earlier one. -/
theorem wf_head_le (x : PangoAttribute) (r : List PangoAttribute) (h : WellFormed (x :: r)) :
    ∀ y ∈ r, x.start_index ≤ y.start_index := fun y hy =>
  (((wf_cons x r).mp h).2.2 y hy).1

theorem scan_placed_new (l : List PangoAttribute) (a : PangoAttribute)
    (prev rest : List PangoAttribute) (ha : a.start_index < a.end_index)
    (inv : ScanInv l a prev rest)
    (hgt : ∀ y ∈ rest, a.start_index < y.start_index) :
    FixInv l a prev a [] rest := by
  obtain ⟨hp, hr, hpr⟩ := (wf_append prev rest).mp inv.wf
  refine ⟨rfl, rfl, le_refl _, le_refl _, ?_, hr, ?_, ?_, ?_, ?_, inv.len⟩
  · exact (wf_snoc prev a).mpr ⟨hp, ha, inv.rel⟩
  · simpa using hpr
  · intro y hy
    have := hgt y hy
    exact ⟨by omega, fun _ => by omega⟩
  · intro h
    omega
  · intro k p v ho
    rw [← inv.cov k p v ho]
    simp only [List.nil_append, covers_append, covers_cons]
    unfold Outside at ho
    constructor
    · rintro (h | ⟨h1, -, h2, h3⟩ | h)
      · exact Or.inl h
      · exfalso
        rcases ho with ho | ho | ho
        · exact ho h1.symm
        · omega
        · omega
      · exact Or.inr h
    · rintro (h | h)
      · exact Or.inl h
      · exact Or.inr (Or.inr h)

theorem scan_covered (l : List PangoAttribute) (a tmp : PangoAttribute)
    (prev rest : List PangoAttribute)
    (inv : ScanInv l a prev (tmp :: rest))
    (hk : tmp.klass = a.klass) (hv : tmp.value = a.value)
    (hs : ¬ a.start_index < tmp.start_index) (he : a.end_index ≤ tmp.end_index) :
    ChangePost l a (prev ++ tmp :: rest) := by
  refine ⟨inv.wf, fun p h1 h2 => ?_, inv.cov⟩
  rw [covers_append, covers_cons]
  exact Or.inr (Or.inl ⟨hk, hv, by omega, by omega⟩)

theorem scan_placed_merge (l : List PangoAttribute) (a tmp : PangoAttribute)
    (prev rest : List PangoAttribute)
    (inv : ScanInv l a prev (tmp :: rest))
    (hk : tmp.klass = a.klass) (hv : tmp.value = a.value)
    (hs : ¬ a.start_index < tmp.start_index) (hov : a.start_index ≤ tmp.end_index)
    (he : ¬ a.end_index ≤ tmp.end_index) :
    FixInv l a prev { tmp with end_index := a.end_index } [] rest := by
  obtain ⟨hp, hr, hne, hpt, htr, hpr⟩ := (wf_append_cons prev rest tmp).mp inv.wf
  refine ⟨hk, hv, by simp; omega, by simp, ?_, hr, ?_, ?_, ?_, ?_, ?_⟩
  · refine (wf_snoc prev _).mpr ⟨hp, by simp; omega, fun u hu => ?_⟩
    exact attrRel_same u tmp _ (hpt u hu) (le_refl _) rfl rfl
  · simpa using hpr
  · intro y hy
    have h := htr y hy
    refine ⟨h.1, fun hky => ?_⟩
    have := (h.2 (by rw [hk, hky])).1
    omega
  · intro h
    simp at h
  · intro k p v ho
    rw [← inv.cov k p v ho]
    simp only [List.nil_append, covers_append, covers_cons]
    unfold Outside at ho
    constructor
    · rintro (h | ⟨h1, h2, h3, h4⟩ | h)
      · exact Or.inl h
      · refine Or.inr (Or.inl ⟨h1, h2, h3, ?_⟩)
        rcases ho with ho | ho | ho
        · exact absurd (h1.symm.trans hk) ho
        · omega
        · omega
      · exact Or.inr (Or.inr h)
    · rintro (h | ⟨h1, h2, h3, h4⟩ | h)
      · exact Or.inl h
      · exact Or.inr (Or.inl ⟨h1, h2, h3, by omega⟩)
      · exact Or.inr (Or.inr h)
  · have := inv.len
    simp only [List.length_cons] at this
    omega

theorem split_eq (a tmp : PangoAttribute) (prev rest : List PangoAttribute)
    (ha : a.start_index < a.end_index) (hrel : ∀ u ∈ prev, AttrRel u a)
    (hs : ¬ a.start_index < tmp.start_index) :
    (if a.end_index < tmp.end_index then
        insert_at_cursor prev tmp rest { tmp with start_index := a.end_index }
      else (prev, rest)) = (prev, splitRest a tmp rest) := by
  unfold splitRest
  split
  · have h1 : prev.any (fun y => decide (a.end_index < y.start_index)) = false := by
      rw [List.any_eq_false]
      intro u hu
      have := (hrel u hu).1
      simp only [decide_eq_true_eq]
      omega
    have h2 : ¬ a.end_index < tmp.start_index := by omega
    simp [insert_at_cursor, h1, h2]
  · rfl

theorem mem_splitRest (a tmp y : PangoAttribute) (rest : List PangoAttribute)
    (hy : y ∈ splitRest a tmp rest) :
    y ∈ rest ∨ (a.end_index < tmp.end_index ∧ y = { tmp with start_index := a.end_index }) := by
  unfold splitRest at hy
  split at hy
  · rcases (mem_insert _ _ _).mp hy with h | h
    · exact Or.inr ⟨by assumption, h⟩
    · exact Or.inl h
  · exact Or.inl hy

theorem covers_splitRest (a tmp : PangoAttribute) (rest : List PangoAttribute) (k p : Nat) (v : Int) :
    Covers (splitRest a tmp rest) k p v ↔
      (a.end_index < tmp.end_index ∧ tmp.klass = k ∧ tmp.value = v ∧ a.end_index ≤ p ∧
        p < tmp.end_index) ∨ Covers rest k p v := by
  unfold splitRest
  split
  · rename_i h
    rw [covers_insert]
    simp [h]
  · rename_i h
    simp [h]

theorem length_splitRest (a tmp : PangoAttribute) (rest : List PangoAttribute) :
    (splitRest a tmp rest).length ≤ rest.length + 1 := by
  unfold splitRest
  split
  · rw [length_insert]
  · omega

theorem scanCount_splitRest (a tmp : PangoAttribute) (rest : List PangoAttribute)
    (ha : a.start_index < a.end_index) :
    scanCount a (splitRest a tmp rest) = scanCount a rest := by
  unfold splitRest scanCount
  split
  · apply countP_insert
    simp only [decide_eq_false_iff_not]
    omega
  · rfl

theorem wf_splitRest (a tmp : PangoAttribute) (rest : List PangoAttribute)
    (hwf : WellFormed (tmp :: rest)) :
    WellFormed (splitRest a tmp rest) := by
  obtain ⟨hne, hr, htr⟩ := (wf_cons tmp rest).mp hwf
  unfold splitRest
  split
  · rename_i hlt
    refine ⟨fun y hy => ?_, ?_⟩
    · rcases (mem_insert _ _ _).mp hy with rfl | hy
      · exact hlt
      · exact hr.1 y hy
    · apply pairwise_insert _ _ hr.2
      · intro y hy hle
        have h := htr y hy
        refine ⟨hle, fun hk => ?_⟩
        have := (h.2 hk.symm).1
        simp only at hle
        omega
      · intro y hy hgt
        have h := htr y hy
        exact ⟨by simp only at hgt ⊢; omega, fun hk => h.2 hk⟩
  · exact hr

theorem scan_placed_replace (l : List PangoAttribute) (a tmp : PangoAttribute)
    (prev rest : List PangoAttribute) (ha : a.start_index < a.end_index)
    (inv : ScanInv l a prev (tmp :: rest))
    (hk : tmp.klass = a.klass) (hs : tmp.start_index = a.start_index) :
    FixInv l a prev a [] (splitRest a tmp rest) := by
  obtain ⟨hp, hr, hne, hpt, htr, hpr⟩ := (wf_append_cons prev rest tmp).mp inv.wf
  have hwf2 : WellFormed (tmp :: rest) := (wf_cons tmp rest).mpr ⟨hne, hr, htr⟩
  refine ⟨rfl, rfl, le_refl _, le_refl _, ?_, wf_splitRest a tmp rest hwf2, ?_, ?_, ?_, ?_, ?_⟩
  · exact (wf_snoc prev a).mpr ⟨hp, ha, inv.rel⟩
  · intro u hu y hy
    simp only [List.append_nil] at hu
    rcases mem_splitRest a tmp y rest hy with hy | ⟨hlt, rfl⟩
    · exact hpr u hu y hy
    · have h := inv.rel u hu
      have h1 := h.1
      refine ⟨by simp only; omega, fun hku => ?_⟩
      have h2 := (h.2 (hku.trans hk)).1
      exact ⟨by simp only; omega, fun _ => by simp only; omega⟩
  · intro y hy
    rcases mem_splitRest a tmp y rest hy with hy | ⟨hlt, rfl⟩
    · have := (htr y hy).1
      exact ⟨by omega, fun _ => by omega⟩
    · exact ⟨by simp only; omega, fun _ => by simp only; omega⟩
  · intro h
    omega
  · intro k p v ho
    rw [← inv.cov k p v ho]
    simp only [List.nil_append, covers_append, covers_cons, covers_splitRest]
    unfold Outside at ho
    constructor
    · rintro (h | ⟨h1, -, h2, h3⟩ | ⟨h0, h1, h2, h3, h4⟩ | h)
      · exact Or.inl h
      · exfalso
        rcases ho with ho | ho | ho
        · exact ho h1.symm
        · omega
        · omega
      · exact Or.inr (Or.inl ⟨h1, h2, by omega, h4⟩)
      · exact Or.inr (Or.inr h)
    · rintro (h | ⟨h1, h2, h3, h4⟩ | h)
      · exact Or.inl h
      · refine Or.inr (Or.inr (Or.inl ⟨?_, h1, h2, ?_, h4⟩))
        · rcases ho with ho | ho | ho
          · exact absurd (h1.symm.trans hk) ho
          · omega
          · omega
        · rcases ho with ho | ho | ho
          · exact absurd (h1.symm.trans hk) ho
          · omega
          · omega
      · exact Or.inr (Or.inr (Or.inr h))
  · have h1 := inv.len
    have h2 := length_splitRest a tmp rest
    simp only [List.length_cons] at h1
    omega

theorem scan_truncate (l : List PangoAttribute) (a tmp : PangoAttribute)
    (prev rest : List PangoAttribute) (ha : a.start_index < a.end_index)
    (inv : ScanInv l a prev (tmp :: rest))
    (hk : tmp.klass = a.klass) (hv : ¬ tmp.value = a.value)
    (hov : a.start_index ≤ tmp.end_index)
    (hs : ¬ a.start_index < tmp.start_index) (hne2 : ¬ tmp.start_index = a.start_index) :
    ScanInv l a (prev ++ [{ tmp with end_index := a.start_index }]) (splitRest a tmp rest) := by
  obtain ⟨hp, hr, hne, hpt, htr, hpr⟩ := (wf_append_cons prev rest tmp).mp inv.wf
  have hwf2 : WellFormed (tmp :: rest) := (wf_cons tmp rest).mpr ⟨hne, hr, htr⟩
  refine ⟨?_, ?_, ?_, ?_⟩
  · rw [List.append_assoc, List.singleton_append, wf_append_cons]
    refine ⟨hp, wf_splitRest a tmp rest hwf2, by simp only; omega, ?_, ?_, ?_⟩
    · intro u hu
      exact attrRel_same u tmp _ (hpt u hu) (le_refl _) rfl rfl
    · intro y hy
      rcases mem_splitRest a tmp y rest hy with hy | ⟨hlt, rfl⟩
      · have h := htr y hy
        refine ⟨h.1, fun hky => ?_⟩
        have h2 := h.2 hky
        exact ⟨by simp only; omega, fun hvy => by have := h2.2 hvy; simp only; omega⟩
      · exact ⟨by simp only; omega, fun _ => ⟨by simp only; omega, fun _ => by simp only; omega⟩⟩
    · intro u hu y hy
      rcases mem_splitRest a tmp y rest hy with hy | ⟨hlt, rfl⟩
      · exact hpr u hu y hy
      · have h := inv.rel u hu
        have h1 := h.1
        refine ⟨by simp only; omega, fun hku => ?_⟩
        have h2 := (h.2 (hku.trans hk)).1
        exact ⟨by simp only; omega, fun _ => by simp only; omega⟩
  · intro u hu
    rcases List.mem_append.mp hu with hu | hu
    · exact inv.rel u hu
    · rw [List.mem_singleton] at hu
      subst hu
      exact ⟨by simp only; omega, fun _ => ⟨by simp only; omega, fun h => absurd h hv⟩⟩
  · intro k p v ho
    rw [← inv.cov k p v ho]
    simp only [covers_append, covers_cons, covers_splitRest, covers_nil, or_false]
    unfold Outside at ho
    constructor
    · rintro ((h | ⟨h1, h2, h3, h4⟩) | ⟨h0, h1, h2, h3, h4⟩ | h)
      · exact Or.inl h
      · exact Or.inr (Or.inl ⟨h1, h2, h3, by omega⟩)
      · exact Or.inr (Or.inl ⟨h1, h2, by omega, h4⟩)
      · exact Or.inr (Or.inr h)
    · rintro (h | ⟨h1, h2, h3, h4⟩ | h)
      · exact Or.inl (Or.inl h)
      · have hka : k = a.klass := h1.symm.trans hk
        rcases ho with ho | ho | ho
        · exact absurd hka ho
        · exact Or.inl (Or.inr ⟨h1, h2, h3, ho⟩)
        · exact Or.inr (Or.inl ⟨by omega, h1, h2, ho, h4⟩)
      · exact Or.inr (Or.inr h)
  · have h1 := inv.len
    have h2 := length_splitRest a tmp rest
    simp only [List.length_cons] at h1
    omega

theorem scan_skip (l : List PangoAttribute) (a tmp : PangoAttribute)
    (prev rest : List PangoAttribute)
    (inv : ScanInv l a prev (tmp :: rest))
    (hs : ¬ a.start_index < tmp.start_index)
    (hno : ¬ (tmp.klass = a.klass ∧ a.start_index ≤ tmp.end_index)) :
    ScanInv l a (prev ++ [tmp]) rest := by
  refine ⟨?_, ?_, ?_, ?_⟩
  · rw [List.append_assoc, List.singleton_append]
    exact inv.wf
  · intro u hu
    rcases List.mem_append.mp hu with hu | hu
    · exact inv.rel u hu
    · rw [List.mem_singleton] at hu
      subst hu
      refine ⟨by omega, fun hk => ?_⟩
      have : ¬ a.start_index ≤ u.end_index := fun h => hno ⟨hk, h⟩
      exact ⟨by omega, fun _ => by omega⟩
  · intro k p v ho
    rw [← inv.cov k p v ho, List.append_assoc, List.singleton_append]
  · have h1 := inv.len
    simp only [List.length_cons] at h1
    omega

theorem scanCount_cons (a tmp : PangoAttribute) (rest : List PangoAttribute)
    (hs : ¬ a.start_index < tmp.start_index) :
    scanCount a (tmp :: rest) = scanCount a rest + 1 := by
  unfold scanCount
  rw [List.countP_cons]
  have : decide (tmp.start_index ≤ a.start_index) = true := by
    simp only [decide_eq_true_eq]
    omega
  simp [this]

/-- On a well-formed list the first loop ends within `scanCount + 1` iterations
and establishes `ScanPost`. -/
theorem change_scan_ok (l : List PangoAttribute) (a : PangoAttribute)
    (ha : a.start_index < a.end_index) :
    ∀ (fuel : Nat) (prev rest : List PangoAttribute), ScanInv l a prev rest →
      scanCount a rest < fuel →
      ∃ r, change_scan fuel a prev rest = some r ∧ ScanPost l a r := by
  intro fuel
  induction fuel with
  | zero => intro prev rest _ h; omega
  | succ fuel ih =>
    intro prev rest inv hf
    cases rest with
    | nil =>
      refine ⟨ScanResult.placed prev a [], rfl, ?_⟩
      exact scan_placed_new l a prev [] ha inv (fun y hy => by simp at hy)
    | cons tmp rest =>
      have hwf2 : WellFormed (tmp :: rest) := ((wf_append prev (tmp :: rest)).mp inv.wf).2.1
      by_cases hs : a.start_index < tmp.start_index
      · refine ⟨ScanResult.placed prev a (tmp :: rest), by simp [change_scan, hs], ?_⟩
        apply scan_placed_new l a prev (tmp :: rest) ha inv
        intro y hy
        rcases List.mem_cons.mp hy with rfl | hy
        · exact hs
        · have := wf_head_le tmp rest hwf2 y hy
          omega
      · have hcnt := scanCount_cons a tmp rest hs
        by_cases hsame : tmp.klass = a.klass ∧ a.start_index ≤ tmp.end_index
        · by_cases hv : tmp.value = a.value
          · by_cases he : a.end_index ≤ tmp.end_index
            · refine ⟨ScanResult.covered (prev ++ tmp :: rest),
                by simp [change_scan, hs, hsame, hv, he], ?_⟩
              exact scan_covered l a tmp prev rest inv hsame.1 hv hs he
            · refine ⟨ScanResult.placed prev { tmp with end_index := a.end_index } rest,
                by simp [change_scan, hs, hsame, hv, he], ?_⟩
              exact scan_placed_merge l a tmp prev rest inv hsame.1 hv hs hsame.2 he
          · have hsp := split_eq a tmp prev rest ha inv.rel hs
            by_cases hst : tmp.start_index = a.start_index
            · refine ⟨ScanResult.placed prev a (splitRest a tmp rest), ?_, ?_⟩
              · simp only [change_scan]
                rw [if_neg hs, if_pos hsame, if_neg hv, hsp, if_pos hst]
              · exact scan_placed_replace l a tmp prev rest ha inv hsame.1 hst
            · have inv2 := scan_truncate l a tmp prev rest ha inv hsame.1 hv hsame.2 hs hst
              have hc2 := scanCount_splitRest a tmp rest ha
              obtain ⟨r, hr, hpost⟩ := ih _ _ inv2 (by omega)
              refine ⟨r, ?_, hpost⟩
              simp only [change_scan]
              rw [if_neg hs, if_pos hsame, if_neg hv, hsp, if_neg hst]
              exact hr
        · have inv2 := scan_skip l a tmp prev rest inv hs hsame
          obtain ⟨r, hr, hpost⟩ := ih _ _ inv2 (by omega)
          refine ⟨r, ?_, hpost⟩
          simp only [change_scan]
          rw [if_neg hs, if_neg hsame]
          exact hr

/-- When the second loop meets a node of the kind of `attr` that starts at or
before `end_index`, no node of that kind has been skipped and `attr` still ends
at `end_index`. -/
theorem fix_same_kind (l : List PangoAttribute) (a attr tmp : PangoAttribute)
    (before skipped rest : List PangoAttribute)
    (inv : FixInv l a before attr skipped (tmp :: rest))
    (hk : tmp.klass = attr.klass) (hx : ¬ a.end_index < tmp.start_index) :
    (∀ m ∈ skipped, m.klass ≠ a.klass) ∧ attr.end_index = a.end_index := by
  obtain ⟨-, hsk, -, -, hask, -⟩ := (wf_append_cons before skipped attr).mp inv.wf_done
  have hend := inv.end_ge
  constructor
  · intro m hm hmk
    have h1 := ((hask m hm).2 (inv.kind.trans hmk.symm)).1
    have h2 := hsk.1 m hm
    have h3 := ((inv.cross m (List.mem_append_right _ hm) tmp (List.mem_cons_self _ _)).2
      (hmk.trans (hk.trans inv.kind).symm)).1
    omega
  · by_contra hne
    have h1 := (inv.grown (by omega) tmp (List.mem_cons_self _ _) (hk.trans inv.kind)).1
    omega

theorem fix_exit (l : List PangoAttribute) (a attr : PangoAttribute)
    (before skipped rest : List PangoAttribute)
    (inv : FixInv l a before attr skipped rest)
    (hx : ∀ y ∈ rest, a.end_index < y.start_index) :
    ChangePost l a (before ++ attr :: (skipped ++ rest)) := by
  obtain ⟨hb, hsk, hne, hba, hask, hbs⟩ := (wf_append_cons before skipped attr).mp inv.wf_done
  refine ⟨?_, ?_, inv.cov⟩
  · rw [wf_append_cons, wf_append]
    refine ⟨hb, ⟨hsk, inv.wf_rest, fun u hu y hy =>
      inv.cross u (List.mem_append_right _ hu) y hy⟩, hne, hba, ?_, ?_⟩
    · intro y hy
      rcases List.mem_append.mp hy with hy | hy
      · exact hask y hy
      · refine ⟨(inv.ahead y hy).1, fun hky => ?_⟩
        have hky2 : y.klass = a.klass := hky.symm.trans inv.kind
        have h1 := hx y hy
        have h2 := inv.end_ge
        by_cases hg : a.end_index < attr.end_index
        · have h3 := inv.grown hg y hy hky2
          exact ⟨h3.1, fun hv => h3.2 (hv.symm.trans inv.val)⟩
        · exact ⟨by omega, fun _ => by omega⟩
    · intro u hu y hy
      rcases List.mem_append.mp hy with hy | hy
      · exact hbs u hu y hy
      · exact inv.cross u (List.mem_append_left _ hu) y hy
  · intro p h1 h2
    rw [covers_append, covers_cons]
    have h3 := inv.start_le
    have h4 := inv.end_ge
    exact Or.inr (Or.inl ⟨inv.kind, inv.val, by omega, by omega⟩)

theorem fix_merge (l : List PangoAttribute) (a attr tmp : PangoAttribute)
    (before skipped rest : List PangoAttribute) (ha : a.start_index < a.end_index)
    (inv : FixInv l a before attr skipped (tmp :: rest))
    (hk : tmp.klass = attr.klass) (hx : ¬ a.end_index < tmp.start_index)
    (hm : tmp.end_index ≤ attr.end_index ∨ tmp.value = attr.value) :
    FixInv l a before { attr with end_index := max a.end_index tmp.end_index } skipped rest := by
  obtain ⟨hnk, hE⟩ := fix_same_kind l a attr tmp before skipped rest inv hk hx
  obtain ⟨hb, hsk, hne, hba, hask, hbs⟩ := (wf_append_cons before skipped attr).mp inv.wf_done
  obtain ⟨htne, hr, htr⟩ := (wf_cons tmp rest).mp inv.wf_rest
  have hst := inv.start_le
  have hahead := inv.ahead tmp (List.mem_cons_self _ _)
  have hka : tmp.klass = a.klass := hk.trans inv.kind
  refine ⟨inv.kind, inv.val, inv.start_le, by simp only; omega, ?_, hr, ?_, ?_, ?_, ?_, ?_⟩
  · rw [wf_append_cons]
    refine ⟨hb, hsk, by simp only; omega, ?_, ?_, hbs⟩
    · intro u hu
      exact attrRel_same u attr _ (hba u hu) (le_refl _) rfl rfl
    · intro y hy
      refine ⟨(hask y hy).1, fun hky => ?_⟩
      exact absurd (hky.symm.trans inv.kind) (hnk y hy)
  · intro u hu y hy
    exact inv.cross u hu y (List.mem_cons_of_mem _ hy)
  · intro y hy
    exact inv.ahead y (List.mem_cons_of_mem _ hy)
  · intro hg y hy hky
    simp only at hg ⊢
    have hv : tmp.value = attr.value := by
      rcases hm with hm | hm
      · omega
      · exact hm
    have h1 := (htr y hy).2 (hka.trans hky.symm)
    have h2 := h1.1
    refine ⟨by omega, fun hvy => ?_⟩
    have h3 := h1.2 (hv.trans (inv.val.trans hvy.symm))
    omega
  · intro k p v ho
    rw [← inv.cov k p v ho]
    simp only [covers_append, covers_cons]
    unfold Outside at ho
    have hkk := inv.kind
    have hvv := inv.val
    constructor
    · rintro (h | ⟨h1, h2, h3, h4⟩ | h | h)
      · exact Or.inl h
      · rcases ho with ho | ho | ho
        · exact absurd (h1.symm.trans hkk) ho
        · exact Or.inr (Or.inl ⟨h1, h2, h3, by omega⟩)
        · have hv : tmp.value = attr.value := by
            rcases hm with hm | hm
            · omega
            · exact hm
          exact Or.inr (Or.inr (Or.inr (Or.inl ⟨hk.trans h1, hv.trans h2, by omega, by omega⟩)))
      · exact Or.inr (Or.inr (Or.inl h))
      · exact Or.inr (Or.inr (Or.inr (Or.inr h)))
    · rintro (h | ⟨h1, h2, h3, h4⟩ | h | ⟨h1, h2, h3, h4⟩ | h)
      · exact Or.inl h
      · exact Or.inr (Or.inl ⟨h1, h2, h3, by omega⟩)
      · exact Or.inr (Or.inr (Or.inl h))
      · have h5 := hahead.2 hka
        rcases ho with ho | ho | ho
        · exact absurd (h1.symm.trans hka) ho
        · omega
        · have hv : tmp.value = attr.value := by
            rcases hm with hm | hm
            · omega
            · exact hm
          exact Or.inr (Or.inl ⟨hk.symm.trans h1, hv.symm.trans h2, by omega,
            by omega⟩)
      · exact Or.inr (Or.inr (Or.inr h))
  · have := inv.len
    simp only [List.length_cons] at this
    omega

theorem fix_skip (l : List PangoAttribute) (a attr tmp : PangoAttribute)
    (before skipped rest : List PangoAttribute)
    (inv : FixInv l a before attr skipped (tmp :: rest))
    (hk : ¬ tmp.klass = attr.klass) :
    FixInv l a before attr (skipped ++ [tmp]) rest := by
  obtain ⟨hb, hsk, hne, hba, hask, hbs⟩ := (wf_append_cons before skipped attr).mp inv.wf_done
  obtain ⟨htne, hr, htr⟩ := (wf_cons tmp rest).mp inv.wf_rest
  refine ⟨inv.kind, inv.val, inv.start_le, inv.end_ge, ?_, hr, ?_, ?_, ?_, ?_, ?_⟩
  · rw [wf_append_cons, wf_snoc]
    refine ⟨hb, ⟨hsk, htne, fun u hu =>
      inv.cross u (List.mem_append_right _ hu) tmp (List.mem_cons_self _ _)⟩, hne, hba, ?_, ?_⟩
    · intro y hy
      rcases List.mem_append.mp hy with hy | hy
      · exact hask y hy
      · rw [List.mem_singleton] at hy
        subst hy
        exact ⟨(inv.ahead y (List.mem_cons_self _ _)).1, fun h => absurd h.symm hk⟩
    · intro u hu y hy
      rcases List.mem_append.mp hy with hy | hy
      · exact hbs u hu y hy
      · rw [List.mem_singleton] at hy
        subst hy
        exact inv.cross u (List.mem_append_left _ hu) y (List.mem_cons_self _ _)
  · intro u hu y hy
    rw [← List.append_assoc] at hu
    rcases List.mem_append.mp hu with hu | hu
    · exact inv.cross u hu y (List.mem_cons_of_mem _ hy)
    · rw [List.mem_singleton] at hu
      subst hu
      exact htr y hy
  · intro y hy
    exact inv.ahead y (List.mem_cons_of_mem _ hy)
  · intro hg y hy hky
    exact inv.grown hg y (List.mem_cons_of_mem _ hy) hky
  · intro k p v ho
    rw [← inv.cov k p v ho, List.append_assoc, List.singleton_append]
  · have := inv.len
    simp only [List.length_cons] at this
    omega

theorem dropWhile_ge (s : Nat) (rest : List PangoAttribute) (hwf : WellFormed rest) :
    ∀ t ∈ rest.dropWhile (fun y => decide (y.start_index < s)), s ≤ t.start_index := by
  induction rest with
  | nil => intro t ht; simp at ht
  | cons x xs ih =>
    intro t ht
    by_cases hx : x.start_index < s
    · have : (x :: xs).dropWhile (fun y => decide (y.start_index < s)) =
          xs.dropWhile (fun y => decide (y.start_index < s)) := by
        simp [List.dropWhile, hx]
      rw [this] at ht
      exact ih ((wf_cons x xs).mp hwf).2.1 t ht
    · have : (x :: xs).dropWhile (fun y => decide (y.start_index < s)) = x :: xs := by
        simp [List.dropWhile, hx]
      rw [this] at ht
      rcases List.mem_cons.mp ht with rfl | ht
      · omega
      · have := wf_head_le x xs hwf t ht
        omega

theorem takeWhile_lt (s : Nat) (rest : List PangoAttribute) :
    ∀ m ∈ rest.takeWhile (fun y => decide (y.start_index < s)), m.start_index < s := by
  induction rest with
  | nil => intro m hm; simp at hm
  | cons x xs ih =>
    intro m hm
    by_cases hx : x.start_index < s
    · have : (x :: xs).takeWhile (fun y => decide (y.start_index < s)) =
          x :: xs.takeWhile (fun y => decide (y.start_index < s)) := by
        simp [List.takeWhile, hx]
      rw [this] at hm
      rcases List.mem_cons.mp hm with rfl | hm
      · exact hx
      · exact ih m hm
    · have : (x :: xs).takeWhile (fun y => decide (y.start_index < s)) = [] := by
        simp [List.takeWhile, hx]
      rw [this] at hm
      simp at hm

theorem fix_trim_stay (l : List PangoAttribute) (a attr tmp : PangoAttribute)
    (before skipped rest : List PangoAttribute)
    (inv : FixInv l a before attr skipped (tmp :: rest))
    (hk : tmp.klass = attr.klass) (hx : ¬ a.end_index < tmp.start_index)
    (hm : ¬ (tmp.end_index ≤ attr.end_index ∨ tmp.value = attr.value))
    (hge : ∀ y ∈ rest, attr.end_index ≤ y.start_index) :
    FixInv l a before attr (skipped ++ [{ tmp with start_index := attr.end_index }]) rest := by
  obtain ⟨hnk, hE⟩ := fix_same_kind l a attr tmp before skipped rest inv hk hx
  obtain ⟨hb, hsk, hne, hba, hask, hbs⟩ := (wf_append_cons before skipped attr).mp inv.wf_done
  obtain ⟨htne, hr, htr⟩ := (wf_cons tmp rest).mp inv.wf_rest
  have hahead := inv.ahead tmp (List.mem_cons_self _ _)
  have hka : tmp.klass = a.klass := hk.trans inv.kind
  have hm1 : ¬ tmp.end_index ≤ attr.end_index := fun h => hm (Or.inl h)
  have hm2 : ¬ tmp.value = attr.value := fun h => hm (Or.inr h)
  have hmono : ∀ u, AttrRel u tmp → AttrRel u { tmp with start_index := attr.end_index } :=
    fun u hu => attrRel_same u tmp _ hu (by simp only; omega) rfl rfl
  refine ⟨inv.kind, inv.val, inv.start_le, inv.end_ge, ?_, hr, ?_, ?_, ?_, ?_, ?_⟩
  · rw [wf_append_cons, wf_snoc]
    refine ⟨hb, ⟨hsk, by simp only; omega, fun u hu => hmono u
      (inv.cross u (List.mem_append_right _ hu) tmp (List.mem_cons_self _ _))⟩, hne, hba, ?_, ?_⟩
    · intro y hy
      rcases List.mem_append.mp hy with hy | hy
      · exact hask y hy
      · rw [List.mem_singleton] at hy
        subst hy
        exact ⟨by simp only; omega, fun _ => ⟨by simp only; omega,
          fun hv => absurd hv.symm hm2⟩⟩
    · intro u hu y hy
      rcases List.mem_append.mp hy with hy | hy
      · exact hbs u hu y hy
      · rw [List.mem_singleton] at hy
        subst hy
        exact hmono u (inv.cross u (List.mem_append_left _ hu) tmp (List.mem_cons_self _ _))
  · intro u hu y hy
    rw [← List.append_assoc] at hu
    rcases List.mem_append.mp hu with hu | hu
    · exact inv.cross u hu y (List.mem_cons_of_mem _ hy)
    · rw [List.mem_singleton] at hu
      subst hu
      have h1 := htr y hy
      have h2 := hge y hy
      exact ⟨by simp only; omega, fun hky => h1.2 hky⟩
  · intro y hy
    exact inv.ahead y (List.mem_cons_of_mem _ hy)
  · intro hg
    omega
  · intro k p v ho
    rw [← inv.cov k p v ho]
    simp only [covers_append, covers_cons, covers_nil, or_false]
    unfold Outside at ho
    have h5 := hahead.2 hka
    constructor
    · rintro (h | h | (h | ⟨h1, h2, h3, h4⟩) | h)
      · exact Or.inl h
      · exact Or.inr (Or.inl h)
      · exact Or.inr (Or.inr (Or.inl h))
      · exact Or.inr (Or.inr (Or.inr (Or.inl ⟨h1, h2, by omega, h4⟩)))
      · exact Or.inr (Or.inr (Or.inr (Or.inr h)))
    · rintro (h | h | h | ⟨h1, h2, h3, h4⟩ | h)
      · exact Or.inl h
      · exact Or.inr (Or.inl h)
      · exact Or.inr (Or.inr (Or.inl (Or.inl h)))
      · refine Or.inr (Or.inr (Or.inl (Or.inr ⟨h1, h2, ?_, h4⟩)))
        rcases ho with ho | ho | ho
        · exact absurd (h1.symm.trans hka) ho
        · omega
        · omega
      · exact Or.inr (Or.inr (Or.inr h))
  · have := inv.len
    simp only [List.length_cons] at this
    omega

theorem fix_trim_move (l : List PangoAttribute) (a attr tmp : PangoAttribute)
    (before skipped moved tail : List PangoAttribute) (ha : a.start_index < a.end_index)
    (inv : FixInv l a before attr skipped (tmp :: (moved ++ tail)))
    (hk : tmp.klass = attr.klass) (hx : ¬ a.end_index < tmp.start_index)
    (hm : ¬ (tmp.end_index ≤ attr.end_index ∨ tmp.value = attr.value))
    (hlt : ∀ y ∈ moved, y.start_index < attr.end_index)
    (hge : ∀ y ∈ tail, attr.end_index ≤ y.start_index) :
    FixInv l a before attr skipped
      (moved ++ { tmp with start_index := attr.end_index } :: tail) := by
  obtain ⟨hnk, hE⟩ := fix_same_kind l a attr tmp before skipped (moved ++ tail) inv hk hx
  obtain ⟨htne, hr, htr⟩ := (wf_cons tmp (moved ++ tail)).mp inv.wf_rest
  obtain ⟨hmv, htl, hmt⟩ := (wf_append moved tail).mp hr
  have hahead := inv.ahead tmp (List.mem_cons_self _ _)
  have hka : tmp.klass = a.klass := hk.trans inv.kind
  have hm1 : ¬ tmp.end_index ≤ attr.end_index := fun h => hm (Or.inl h)
  have hm2 : ¬ tmp.value = attr.value := fun h => hm (Or.inr h)
  have hst := inv.start_le
  have hmono : ∀ u, AttrRel u tmp → AttrRel u { tmp with start_index := attr.end_index } :=
    fun u hu => attrRel_same u tmp _ hu (by simp only; omega) rfl rfl
  refine ⟨inv.kind, inv.val, inv.start_le, inv.end_ge, inv.wf_done, ?_, ?_, ?_, ?_, ?_, ?_⟩
  · rw [wf_append_cons]
    refine ⟨hmv, htl, by simp only; omega, ?_, ?_, hmt⟩
    · intro u hu
      have h1 := hlt u hu
      have h2 := htr u (List.mem_append_left _ hu)
      refine ⟨by simp only; omega, fun hku => ?_⟩
      have h3 := (h2.2 hku.symm).1
      omega
    · intro y hy
      have h1 := hge y hy
      have h2 := htr y (List.mem_append_right _ hy)
      exact ⟨by simp only; omega, fun hky => h2.2 hky⟩
  · intro u hu y hy
    rcases List.mem_append.mp hy with hy | hy
    · exact inv.cross u hu y (List.mem_cons_of_mem _ (List.mem_append_left _ hy))
    · rcases List.mem_cons.mp hy with rfl | hy
      · exact hmono u (inv.cross u hu tmp (List.mem_cons_self _ _))
      · exact inv.cross u hu y (List.mem_cons_of_mem _ (List.mem_append_right _ hy))
  · intro y hy
    rcases List.mem_append.mp hy with hy | hy
    · exact inv.ahead y (List.mem_cons_of_mem _ (List.mem_append_left _ hy))
    · rcases List.mem_cons.mp hy with rfl | hy
      · exact ⟨by simp only; omega, fun _ => by simp only; omega⟩
      · exact inv.ahead y (List.mem_cons_of_mem _ (List.mem_append_right _ hy))
  · intro hg
    omega
  · intro k p v ho
    rw [← inv.cov k p v ho]
    simp only [covers_append, covers_cons]
    unfold Outside at ho
    have h5 := hahead.2 hka
    constructor
    · rintro (h | h | h | h | ⟨h1, h2, h3, h4⟩ | h)
      · exact Or.inl h
      · exact Or.inr (Or.inl h)
      · exact Or.inr (Or.inr (Or.inl h))
      · exact Or.inr (Or.inr (Or.inr (Or.inr (Or.inl h))))
      · exact Or.inr (Or.inr (Or.inr (Or.inl ⟨h1, h2, by omega, h4⟩)))
      · exact Or.inr (Or.inr (Or.inr (Or.inr (Or.inr h))))
    · rintro (h | h | h | ⟨h1, h2, h3, h4⟩ | h | h)
      · exact Or.inl h
      · exact Or.inr (Or.inl h)
      · exact Or.inr (Or.inr (Or.inl h))
      · refine Or.inr (Or.inr (Or.inr (Or.inr (Or.inl ⟨h1, h2, ?_, h4⟩))))
        rcases ho with ho | ho | ho
        · exact absurd (h1.symm.trans hka) ho
        · omega
        · omega
      · exact Or.inr (Or.inr (Or.inr (Or.inl h)))
      · exact Or.inr (Or.inr (Or.inr (Or.inr (Or.inr h))))
  · have := inv.len
    simp only [List.length_cons, List.length_append] at this ⊢
    omega

theorem fixCount_cons_le (a tmp : PangoAttribute) (rest : List PangoAttribute) :
    fixCount a rest ≤ fixCount a (tmp :: rest) := by
  unfold fixCount
  rw [List.countP_cons]
  omega

theorem fixCount_move (a attr tmp : PangoAttribute) (moved tail : List PangoAttribute)
    (hE : attr.end_index = a.end_index) (hk : tmp.klass = a.klass)
    (hs : tmp.start_index < a.end_index) :
    fixCount a (moved ++ { tmp with start_index := attr.end_index } :: tail) + 1 =
      fixCount a (tmp :: (moved ++ tail)) := by
  unfold fixCount
  have h1 : decide (tmp.klass = a.klass ∧ tmp.start_index < a.end_index) = true := by
    simp only [decide_eq_true_eq]
    exact ⟨hk, hs⟩
  have h2 : decide (tmp.klass = a.klass ∧ attr.end_index < a.end_index) = false := by
    simp only [decide_eq_false_iff_not]
    omega
  simp only [List.countP_cons, List.countP_append, h1, h2]
  simp

/-- On the state left by the first loop the second loop ends within
`length + fixCount + 1` iterations and establishes `ChangePost`. -/
theorem change_fixup_ok (l : List PangoAttribute) (a : PangoAttribute)
    (ha : a.start_index < a.end_index) :
    ∀ (fuel : Nat) (before : List PangoAttribute) (attr : PangoAttribute)
      (skipped rest : List PangoAttribute), FixInv l a before attr skipped rest →
      rest.length + fixCount a rest < fuel →
      ∃ l2, change_fixup fuel a.end_index before attr skipped rest = some l2 ∧
        ChangePost l a l2 := by
  intro fuel
  induction fuel with
  | zero => intro _ _ _ rest _ h; omega
  | succ fuel ih =>
    intro before attr skipped rest inv hf
    cases rest with
    | nil =>
      refine ⟨before ++ attr :: skipped, rfl, ?_⟩
      have := fix_exit l a attr before skipped [] inv (fun y hy => by simp at hy)
      simpa using this
    | cons tmp rest =>
      have hcl := fixCount_cons_le a tmp rest
      simp only [List.length_cons] at hf
      by_cases hx : a.end_index < tmp.start_index
      · refine ⟨before ++ attr :: (skipped ++ tmp :: rest), by simp [change_fixup, hx], ?_⟩
        apply fix_exit l a attr before skipped (tmp :: rest) inv
        intro y hy
        rcases List.mem_cons.mp hy with rfl | hy
        · exact hx
        · have := wf_head_le tmp rest inv.wf_rest y hy
          omega
      · by_cases hk : tmp.klass = attr.klass
        · by_cases hm : tmp.end_index ≤ attr.end_index ∨ tmp.value = attr.value
          · have inv2 := fix_merge l a attr tmp before skipped rest ha inv hk hx hm
            obtain ⟨l2, h2, hpost⟩ := ih _ _ _ _ inv2 (by omega)
            refine ⟨l2, ?_, hpost⟩
            simp only [change_fixup]
            rw [if_neg hx, if_pos hk, if_pos hm]
            exact h2
          · obtain ⟨-, hE⟩ := fix_same_kind l a attr tmp before skipped rest inv hk hx
            have hsplit := List.takeWhile_append_dropWhile
              (fun y : PangoAttribute => decide (y.start_index < attr.end_index)) rest
            have hlt := takeWhile_lt attr.end_index rest
            have hge := dropWhile_ge attr.end_index rest ((wf_cons tmp rest).mp inv.wf_rest).2.1
            by_cases hmv : rest.takeWhile
                (fun y : PangoAttribute => decide (y.start_index < attr.end_index)) = []
            · rw [hmv, List.nil_append] at hsplit
              rw [hsplit] at hge
              have inv2 := fix_trim_stay l a attr tmp before skipped rest inv hk hx hm hge
              obtain ⟨l2, h2, hpost⟩ := ih _ _ _ _ inv2 (by omega)
              refine ⟨l2, ?_, hpost⟩
              simp only [change_fixup]
              rw [if_neg hx, if_pos hk, if_neg hm, if_pos hmv]
              exact h2
            · rw [← hsplit] at inv hf
              have inv2 := fix_trim_move l a attr tmp before skipped _ _ ha inv hk hx hm hlt hge
              have hts : tmp.start_index < a.end_index := by
                obtain ⟨m, hmem⟩ := List.exists_mem_of_ne_nil _ hmv
                have h1 := hlt m hmem
                have h2 := wf_head_le tmp _ inv.wf_rest m (List.mem_append_left _ hmem)
                omega
              have hc := fixCount_move a attr tmp
                (rest.takeWhile (fun y => decide (y.start_index < attr.end_index)))
                (rest.dropWhile (fun y => decide (y.start_index < attr.end_index)))
                hE (hk.trans inv.kind) hts
              obtain ⟨l2, h2, hpost⟩ := ih _ _ _ _ inv2 (by
                simp only [List.length_append, List.length_cons] at hf ⊢
                have : fixCount a (tmp :: (List.takeWhile
                  (fun y => decide (y.start_index < attr.end_index)) rest ++ List.dropWhile
                  (fun y => decide (y.start_index < attr.end_index)) rest)) =
                  fixCount a (tmp :: rest) := by rw [hsplit]
                omega)
              refine ⟨l2, ?_, hpost⟩
              simp only [change_fixup]
              rw [if_neg hx, if_pos hk, if_neg hm, if_neg hmv]
              exact h2
        · have inv2 := fix_skip l a attr tmp before skipped rest inv hk
          obtain ⟨l2, h2, hpost⟩ := ih _ _ _ _ inv2 (by omega)
          refine ⟨l2, ?_, hpost⟩
          simp only [change_fixup]
          rw [if_neg hx, if_neg hk]
          exact h2

theorem change_scan_mono (a : PangoAttribute) :
    ∀ (fuel : Nat) (prev rest : List PangoAttribute) (r : ScanResult),
      change_scan fuel a prev rest = some r → change_scan (fuel + 1) a prev rest = some r := by
  intro fuel
  induction fuel with
  | zero => intro prev rest r h; simp [change_scan] at h
  | succ fuel ih =>
    intro prev rest r h
    cases rest with
    | nil => simpa [change_scan] using h
    | cons tmp rest =>
      rw [change_scan] at h ⊢
      simp only at h ⊢
      split at h
      · split
        · exact h
        · contradiction
      · rename_i h1
        rw [if_neg h1]
        split at h
        · rename_i h2
          rw [if_pos h2]
          split at h
          · rename_i h3
            rw [if_pos h3]
            exact h
          · rename_i h3
            rw [if_neg h3]
            split at h
            · rename_i h4
              rw [if_pos h4]
              exact h
            · rename_i h4
              rw [if_neg h4]
              exact ih _ _ _ h
        · rename_i h2
          rw [if_neg h2]
          exact ih _ _ _ h

theorem change_fixup_mono (e0 : Nat) :
    ∀ (fuel : Nat) (before : List PangoAttribute) (attr : PangoAttribute)
      (skipped rest l2 : List PangoAttribute),
      change_fixup fuel e0 before attr skipped rest = some l2 →
      change_fixup (fuel + 1) e0 before attr skipped rest = some l2 := by
  intro fuel
  induction fuel with
  | zero => intro _ _ _ _ _ h; simp [change_fixup] at h
  | succ fuel ih =>
    intro before attr skipped rest l2 h
    cases rest with
    | nil => simpa [change_fixup] using h
    | cons tmp rest =>
      rw [change_fixup] at h ⊢
      simp only at h ⊢
      split at h
      · rename_i h1
        rw [if_pos h1]
        exact h
      · rename_i h1
        rw [if_neg h1]
        split at h
        · rename_i h2
          rw [if_pos h2]
          split at h
          · rename_i h3
            rw [if_pos h3]
            exact ih _ _ _ _ _ h
          · rename_i h3
            rw [if_neg h3]
            split at h
            · rename_i h4
              rw [if_pos h4]
              exact ih _ _ _ _ _ h
            · rename_i h4
              rw [if_neg h4]
              exact ih _ _ _ _ _ h
        · rename_i h2
          rw [if_neg h2]
          exact ih _ _ _ _ _ h

theorem change_scan_mono_le (a : PangoAttribute) (f1 f2 : Nat) (hle : f1 ≤ f2)
    (prev rest : List PangoAttribute) (r : ScanResult)
    (h : change_scan f1 a prev rest = some r) : change_scan f2 a prev rest = some r := by
  induction hle with
  | refl => exact h
  | step _ ih => exact change_scan_mono a _ _ _ _ ih

theorem change_fixup_mono_le (e0 f1 f2 : Nat) (hle : f1 ≤ f2)
    (before : List PangoAttribute) (attr : PangoAttribute)
    (skipped rest l2 : List PangoAttribute)
    (h : change_fixup f1 e0 before attr skipped rest = some l2) :
    change_fixup f2 e0 before attr skipped rest = some l2 := by
  induction hle with
  | refl => exact h
  | step _ ih => exact change_fixup_mono e0 _ _ _ _ _ _ ih

/-- More fuel does not change the result of `pjx_attr_list_change`. -/
theorem change_mono (f1 f2 : Nat) (hle : f1 ≤ f2) (l l2 : List PangoAttribute)
    (a : PangoAttribute) (h : pjx_attr_list_change f1 l a = some l2) :
    pjx_attr_list_change f2 l a = some l2 := by
  unfold pjx_attr_list_change at h ⊢
  split at h
  · rename_i h1
    rw [if_pos h1]
    exact h
  · rename_i h1
    rw [if_neg h1]
    cases hs : change_scan f1 a [] l with
    | none => simp [hs] at h
    | some r =>
      rw [change_scan_mono_le a f1 f2 hle [] l r hs]
      rw [hs] at h
      cases r with
      | covered l3 => exact h
      | placed before attr2 rest => exact change_fixup_mono_le _ f1 f2 hle _ _ _ _ _ h

theorem fixCount_le_length (a : PangoAttribute) (rest : List PangoAttribute) :
    fixCount a rest ≤ rest.length := List.countP_le_length _

theorem scanCount_le_length (a : PangoAttribute) (rest : List PangoAttribute) :
    scanCount a rest ≤ rest.length := List.countP_le_length _

/-- Total correctness of one call on a well-formed list. -/
theorem change_ok (l : List PangoAttribute) (a : PangoAttribute) (fuel : Nat)
    (hwf : WellFormed l) (ha : a.start_index < a.end_index) (hf : 2 * l.length + 1 ≤ fuel) :
    ∃ l2, pjx_attr_list_change fuel l a = some l2 ∧ ChangePost l a l2 := by
  have inv : ScanInv l a [] l :=
    ⟨by simpa using hwf, fun u hu => by simp at hu, fun k p v _ => by simp, le_refl _⟩
  have h1 := scanCount_le_length a l
  obtain ⟨r, hr, hpost⟩ := change_scan_ok l a ha fuel [] l inv (by omega)
  have hne : ¬ a.start_index = a.end_index := by omega
  cases r with
  | covered l2 =>
    refine ⟨l2, ?_, hpost⟩
    simp [pjx_attr_list_change, hne, hr]
  | placed before attr2 rest =>
    have inv2 : FixInv l a before attr2 [] rest := hpost
    have h2 := inv2.len
    have h3 := fixCount_le_length a rest
    obtain ⟨l2, hl2, hpost2⟩ := change_fixup_ok l a ha fuel before attr2 [] rest inv2 (by omega)
    refine ⟨l2, ?_, hpost2⟩
    simp [pjx_attr_list_change, hne, hr, hl2]

/-- Any returned result of a call with `start_index ≤ end_index` on a
well-formed list is well formed. -/
theorem change_wf (l l2 : List PangoAttribute) (a : PangoAttribute) (fuel : Nat)
    (hwf : WellFormed l) (ha : a.start_index ≤ a.end_index)
    (h : pjx_attr_list_change fuel l a = some l2) : WellFormed l2 := by
  by_cases he : a.start_index = a.end_index
  · simp only [pjx_attr_list_change, he, if_true, Option.some.injEq] at h
    rw [← h]
    exact hwf
  · obtain ⟨l3, h3, hpost⟩ := change_ok l a (max fuel (2 * l.length + 1)) hwf (by omega)
      (le_max_right _ _)
    have h4 := change_mono fuel (max fuel (2 * l.length + 1)) (le_max_left _ _) l l2 a h
    rw [h3] at h4
    cases h4
    exact hpost.1

theorem built_wf (l : List PangoAttribute) (h : BuiltByChange l) : WellFormed l := by
  induction h with
  | empty => exact wf_nil
  | change fuel l l2 attr _ ha hc ih => exact change_wf l l2 attr fuel ih ha hc

theorem wf_props (l : List PangoAttribute) (h : WellFormed l) :
    SortedByStart l ∧ NoSameKindOverlap l ∧ NoEqualTouch l := by
  refine ⟨h.2.imp (fun hr => hr.1), h.2.imp (fun hr hk ho => ?_), h.2.imp (fun hr hk hv ht => ?_)⟩
  · have := (hr.2 hk).1
    unfold Overlap at ho
    omega
  · have := (hr.2 hk).2 hv
    unfold TouchOrOverlap at ht
    omega

theorem change_all_ok (attrs : List PangoAttribute)
    (hv : ∀ a ∈ attrs, a.start_index ≤ a.end_index) :
    ∀ l0, WellFormed l0 → ∃ fuel0 l, (∀ fuel, fuel0 ≤ fuel → change_all fuel l0 attrs = some l) ∧
      WellFormed l := by
  induction attrs with
  | nil => intro l0 h0; exact ⟨0, l0, fun _ _ => rfl, h0⟩
  | cons a attrs ih =>
    intro l0 h0
    have ha := hv a (List.mem_cons_self _ _)
    have hv2 : ∀ b ∈ attrs, b.start_index ≤ b.end_index :=
      fun b hb => hv b (List.mem_cons_of_mem _ hb)
    by_cases he : a.start_index = a.end_index
    · obtain ⟨f1, l, h1, hwf⟩ := ih hv2 l0 h0
      refine ⟨f1, l, fun fuel hf => ?_, hwf⟩
      simp only [change_all, pjx_attr_list_change, he, if_true]
      exact h1 fuel hf
    · obtain ⟨l1, hl1, hpost⟩ := change_ok l0 a (2 * l0.length + 1) h0 (by omega) (le_refl _)
      obtain ⟨f1, l, h1, hwf⟩ := ih hv2 l1 hpost.1
      refine ⟨max (2 * l0.length + 1) f1, l, fun fuel hf => ?_, hwf⟩
      have h2 := change_mono _ fuel (le_trans (le_max_left _ _) hf) l0 l1 a hl1
      simp only [change_all, h2]
      exact h1 fuel (le_trans (le_max_right _ _) hf)

/-! ### Claims about `pjx_attr_list_change` -/

/-- C1, as stated, fails: the list `[2,6) [3,4) [4,2)` is built from the empty list
by the calls `[3,6)` (payload 1) and `[4,2)` (payload 0, start above end); the call
with `[0,3)` (payload 1) then leaves `[0,4) [4,2)`, so position 4, outside `[0,3)`,
was covered by payload 1 before the call and is covered by nothing after it. -/
theorem attr_change_covers_counterexample :
    pjx_attr_list_change 3 [] ⟨1, 1, 3, 6⟩ = some [⟨1, 1, 3, 6⟩] ∧
    pjx_attr_list_change 3 [⟨1, 1, 3, 6⟩] ⟨1, 0, 4, 2⟩ =
      some [⟨1, 1, 2, 6⟩, ⟨1, 1, 3, 4⟩, ⟨1, 0, 4, 2⟩] ∧
    BuiltByAnyChange [⟨1, 1, 2, 6⟩, ⟨1, 1, 3, 4⟩, ⟨1, 0, 4, 2⟩] ∧
    pjx_attr_list_change 7 [⟨1, 1, 2, 6⟩, ⟨1, 1, 3, 4⟩, ⟨1, 0, 4, 2⟩] ⟨1, 1, 0, 3⟩ =
      some [⟨1, 1, 0, 4⟩, ⟨1, 0, 4, 2⟩] ∧
    Outside ⟨1, 1, 0, 3⟩ 1 4 ∧
    Covers [⟨1, 1, 2, 6⟩, ⟨1, 1, 3, 4⟩, ⟨1, 0, 4, 2⟩] 1 4 1 ∧
    ¬ Covers [⟨1, 1, 0, 4⟩, ⟨1, 0, 4, 2⟩] 1 4 1 := by
  refine ⟨by decide, by decide, ?_, by decide, by decide, by decide, by decide⟩
  exact BuiltByAnyChange.change 3 [⟨1, 1, 3, 6⟩] _ ⟨1, 0, 4, 2⟩
    (BuiltByAnyChange.change 3 [] _ ⟨1, 1, 3, 6⟩ BuiltByAnyChange.empty (by decide)) (by decide)

/-- C1, amended: for every attribute list `l` built from the empty list by
`pjx_attr_list_change` calls whose attributes have `start_index ≤ end_index`, and
every attribute `a` with `a.start_index < a.end_index`, the call
`pjx_attr_list_change (l, a)` returns (within `2 * length + 1` loop iterations) a
list in which every position of `[a.start_index, a.end_index)` is covered, for the
kind of `a`, by an entry carrying the payload of `a`, and in which every position
outside that range, and every position for any other kind, is covered by exactly
the payloads that covered it before the call. -/
theorem attr_change_covers (l : List PangoAttribute) (a : PangoAttribute) (fuel : Nat)
    (hl : BuiltByChange l) (ha : a.start_index < a.end_index)
    (hf : 2 * l.length + 1 ≤ fuel) :
    ∃ l2, pjx_attr_list_change fuel l a = some l2 ∧
      (∀ p, a.start_index ≤ p → p < a.end_index → Covers l2 a.klass p a.value) ∧
      (∀ k p v, Outside a k p → (Covers l2 k p v ↔ Covers l k p v)) := by
  obtain ⟨l2, h, hpost⟩ := change_ok l a fuel (built_wf l hl) ha hf
  exact ⟨l2, h, hpost.2⟩

/-- Witness for C1: the change `[2,6)` applied to the built list `[0,10)`. -/
theorem attr_change_covers_witness :
    BuiltByChange [⟨0, 7, 0, 10⟩] ∧ (2 : Nat) < 6 ∧ 2 * 1 + 1 ≤ 3 ∧
    ∃ l2, pjx_attr_list_change 3 [⟨0, 7, 0, 10⟩] ⟨0, 9, 2, 6⟩ = some l2 ∧
      (∀ p, 2 ≤ p → p < 6 → Covers l2 0 p 9) ∧
      (∀ k p v, Outside ⟨0, 9, 2, 6⟩ k p → (Covers l2 k p v ↔ Covers [⟨0, 7, 0, 10⟩] k p v)) :=
  have hb : BuiltByChange [⟨0, 7, 0, 10⟩] :=
    BuiltByChange.change 1 [] _ ⟨0, 7, 0, 10⟩ BuiltByChange.empty (by decide) (by decide)
  ⟨hb, by decide, by decide,
    attr_change_covers [⟨0, 7, 0, 10⟩] ⟨0, 9, 2, 6⟩ 3 hb (by decide) (by decide)⟩

/-- C2, as stated, fails: after the calls `[5,6)` and `[6,3)` (start above end) of
one kind, the list is `[3,6) [5,6) [6,3)`, whose first two entries have the same
kind and overlap. -/
theorem attr_list_well_formed_counterexample :
    change_all 3 [] [⟨1, 0, 5, 6⟩, ⟨1, 1, 6, 3⟩] =
      some [⟨1, 0, 3, 6⟩, ⟨1, 0, 5, 6⟩, ⟨1, 1, 6, 3⟩] ∧
    ¬ NoSameKindOverlap [⟨1, 0, 3, 6⟩, ⟨1, 0, 5, 6⟩, ⟨1, 1, 6, 3⟩] := by
  constructor <;> decide

/-- C2, amended: starting from the empty list, every sequence of
`pjx_attr_list_change` calls whose attributes have `start_index ≤ end_index` runs
to completion, and the resulting list is well formed: entries are in
non-decreasing order of start index, no two entries of the same kind overlap, and
no two entries of the same kind with equal payload touch or overlap. -/
theorem attr_list_well_formed (attrs : List PangoAttribute)
    (hv : ∀ a ∈ attrs, a.start_index ≤ a.end_index) :
    ∃ fuel0 l, (∀ fuel, fuel0 ≤ fuel → change_all fuel [] attrs = some l) ∧
      SortedByStart l ∧ NoSameKindOverlap l ∧ NoEqualTouch l := by
  obtain ⟨fuel0, l, h, hwf⟩ := change_all_ok attrs hv [] wf_nil
  exact ⟨fuel0, l, h, wf_props l hwf⟩

/-- Witness for C2: the calls `[0,10)`, `[2,6)`, `[4,4)`. -/
theorem attr_list_well_formed_witness :
    (∀ a ∈ [(⟨0, 7, 0, 10⟩ : PangoAttribute), ⟨0, 9, 2, 6⟩, ⟨1, 1, 4, 4⟩],
      a.start_index ≤ a.end_index) ∧
    ∃ fuel0 l, (∀ fuel, fuel0 ≤ fuel →
        change_all fuel [] [⟨0, 7, 0, 10⟩, ⟨0, 9, 2, 6⟩, ⟨1, 1, 4, 4⟩] = some l) ∧
      SortedByStart l ∧ NoSameKindOverlap l ∧ NoEqualTouch l :=
  ⟨by decide, attr_list_well_formed _ (by decide)⟩

/-- C3: two attributes of the same kind with equal payload whose ranges overlap or
touch, inserted into the empty list in either order, give exactly one entry, which
covers the union of the two ranges. -/
theorem attr_merge_equal (fuel k : Nat) (v : Int) (s1 e1 s2 e2 : Nat) (hf : 2 ≤ fuel)
    (h1 : s1 < e1) (h2 : s2 < e2) (h12 : s1 ≤ e2) (h21 : s2 ≤ e1) :
    change_all fuel [] [⟨k, v, s1, e1⟩, ⟨k, v, s2, e2⟩] =
      some [⟨k, v, min s1 s2, max e1 e2⟩] ∧
    change_all fuel [] [⟨k, v, s2, e2⟩, ⟨k, v, s1, e1⟩] =
      some [⟨k, v, min s1 s2, max e1 e2⟩] := by
  have key : ∀ a1 b1 a2 b2 : Nat, a1 < b1 → a2 < b2 → a1 ≤ b2 → a2 ≤ b1 →
      change_all fuel [] [⟨k, v, a1, b1⟩, ⟨k, v, a2, b2⟩] =
        some [⟨k, v, min a1 a2, max b1 b2⟩] := by
    intro a1 b1 a2 b2 g1 g2 g12 g21
    obtain ⟨f, rfl⟩ : ∃ f, fuel = f + 2 := ⟨fuel - 2, by omega⟩
    have n1 : ¬ a1 = b1 := by omega
    have n2 : ¬ a2 = b2 := by omega
    simp only [change_all, pjx_attr_list_change, n1, n2, if_false, change_scan, change_fixup]
    by_cases c1 : a2 < a1
    · have m1 : min a1 a2 = a2 := by omega
      have c2 : ¬ b2 < a1 := by omega
      simp [c1, m1, c2, change_fixup, max_comm]
    · have m1 : min a1 a2 = a1 := by omega
      simp only [c1, if_false, true_and, g21, if_true]
      by_cases c3 : b2 ≤ b1
      · have m2 : max b1 b2 = b1 := by omega
        simp [c3, m1, m2]
      · have m2 : max b1 b2 = b2 := by omega
        simp [c3, m1, m2, change_fixup]
  refine ⟨key s1 e1 s2 e2 h1 h2 h12 h21, ?_⟩
  rw [key s2 e2 s1 e1 h2 h1 h21 h12, min_comm, max_comm]

/-- Witness for C3: `[0,5)` then `[3,8)` yields the single entry `[0,8)`, and so
does the other order. -/
theorem attr_merge_equal_witness :
    (2 ≤ 2 ∧ 0 < 5 ∧ 3 < 8 ∧ 0 ≤ 8 ∧ 3 ≤ 5) ∧
    change_all 2 [] [⟨0, 0, 0, 5⟩, ⟨0, 0, 3, 8⟩] = some [⟨0, 0, min 0 3, max 5 8⟩] ∧
    change_all 2 [] [⟨0, 0, 3, 8⟩, ⟨0, 0, 0, 5⟩] = some [⟨0, 0, min 0 3, max 5 8⟩] :=
  ⟨by decide,
    attr_merge_equal 2 0 0 0 5 3 8 (by decide) (by decide) (by decide) (by decide) (by decide)⟩

/-- C4: for `s < a < b < e`, changing a list that holds the single entry `[s,e)`
with an attribute `[a,b)` of the same kind and a different payload yields exactly
the three entries `[s,a)` (old payload), `[a,b)` (new payload), `[b,e)` (old
payload), in this order. -/
theorem attr_split (fuel k : Nat) (p q : Int) (s a b e : Nat) (hf : 2 ≤ fuel) (hsa : s < a)
    (hab : a < b)
    (hbe : b < e) (hpq : p ≠ q) :
    pjx_attr_list_change fuel [⟨k, p, s, e⟩] ⟨k, q, a, b⟩ =
      some [⟨k, p, s, a⟩, ⟨k, q, a, b⟩, ⟨k, p, b, e⟩] := by
  obtain ⟨f, rfl⟩ : ∃ f, fuel = f + 2 := ⟨fuel - 2, by omega⟩
  have h1 : ¬ a < s := by omega
  have h2 : a ≤ e := by omega
  have h3 : ¬ a = b := by omega
  have h4 : ¬ s = a := by omega
  have h5 : ¬ b < b := by omega
  have h6 : ¬ e ≤ b := by omega
  have h7 : ¬ b < s := by omega
  simp [pjx_attr_list_change, change_scan, change_fixup, insert_at_cursor,
    pango_attr_list_insert, h1, h2, h3, h4, h5, h6, h7, hab, hbe, hpq, Ne.symm hpq]

/-- Witness for C4: `[2,6)` into `[0,10)` gives `[0,2)`, `[2,6)`, `[6,10)`. -/
theorem attr_split_witness :
    (2 ≤ 2 ∧ 0 < 2 ∧ 2 < 6 ∧ 6 < 10 ∧ 7 ≠ 9) ∧
    pjx_attr_list_change 2 [⟨0, 7, 0, 10⟩] ⟨0, 9, 2, 6⟩ =
      some [⟨0, 7, 0, 2⟩, ⟨0, 9, 2, 6⟩, ⟨0, 7, 6, 10⟩] :=
  ⟨by decide,
    attr_split 2 0 7 9 0 2 6 10 (by decide) (by decide) (by decide) (by decide) (by decide)⟩

/-! ## Theorems: bidi reordering -/

theorem rs_all (k : Nat) (xs : List PangoLayoutRun) (h : ∀ x ∈ xs, k ≤ run_level x) :
    ∀ acc, reverse_sequences k acc xs = xs.reverse ++ acc := by
  induction xs with
  | nil => intro acc; simp [reverse_sequences]
  | cons x xs ih =>
    intro acc
    have hx := h x (List.mem_cons_self _ _)
    simp only [reverse_sequences, hx, if_true]
    rw [ih (fun y hy => h y (List.mem_cons_of_mem _ hy))]
    simp

theorem rs_id (k : Nat) (xs : List PangoLayoutRun) (h : ∀ x ∈ xs, run_level x < k) :
    ∀ acc, reverse_sequences k acc xs = acc ++ xs := by
  induction xs with
  | nil => intro acc; simp [reverse_sequences]
  | cons x xs ih =>
    intro acc
    have hx : ¬ k ≤ run_level x := by
      have := h x (List.mem_cons_self _ _)
      omega
    simp only [reverse_sequences, hx, if_false]
    rw [ih (fun y hy => h y (List.mem_cons_of_mem _ hy))]
    simp

theorem rs_split (k : Nat) (m : PangoLayoutRun) (hm : run_level m < k)
    (as bs : List PangoLayoutRun) :
    ∀ acc, reverse_sequences k acc (as ++ m :: bs) =
      reverse_sequences k acc as ++ m :: reverse_sequences k [] bs := by
  induction as with
  | nil =>
    intro acc
    have hx : ¬ k ≤ run_level m := by omega
    simp [reverse_sequences, hx]
  | cons a as ih =>
    intro acc
    by_cases ha : k ≤ run_level a
    · simp only [List.cons_append, reverse_sequences, ha, if_true]
      exact ih _
    · simp only [List.cons_append, reverse_sequences, ha, if_false, List.append_eq]
      rw [ih []]
      simp

theorem rs_perm (k : Nat) (xs : List PangoLayoutRun) :
    ∀ acc, (reverse_sequences k acc xs).Perm (acc ++ xs) := by
  induction xs with
  | nil => intro acc; simp [reverse_sequences]
  | cons x xs ih =>
    intro acc
    by_cases hx : k ≤ run_level x
    · simp only [reverse_sequences, hx, if_true]
      refine (ih (x :: acc)).trans ?_
      simp only [List.cons_append]
      exact (List.perm_middle).symm
    · simp only [reverse_sequences, hx, if_false]
      have := ih []
      simp only [List.nil_append] at this
      exact List.Perm.append_left acc (List.Perm.cons x this)

theorem rs_mem (k : Nat) (xs : List PangoLayoutRun) (x : PangoLayoutRun) :
    x ∈ reverse_sequences k [] xs ↔ x ∈ xs := by
  have := (rs_perm k xs []).mem_iff (a := x)
  simpa using this

theorem rs_absent (k : Nat) (xs : List PangoLayoutRun) (h : ∀ x ∈ xs, run_level x ≠ k) :
    ∀ acc, reverse_sequences k acc xs = reverse_sequences (k + 1) acc xs := by
  induction xs with
  | nil => intro acc; simp [reverse_sequences]
  | cons x xs ih =>
    intro acc
    have hx := h x (List.mem_cons_self _ _)
    have ih2 := ih (fun y hy => h y (List.mem_cons_of_mem _ hy))
    by_cases hk : k ≤ run_level x
    · have hk1 : k + 1 ≤ run_level x := by omega
      simp only [reverse_sequences, hk, hk1, if_true]
      exact ih2 _
    · have hk1 : ¬ k + 1 ≤ run_level x := by omega
      simp only [reverse_sequences, hk, hk1, if_false]
      rw [ih2 []]

theorem rs_invol (k : Nat) (xs : List PangoLayoutRun) :
    ∀ acc, (∀ a ∈ acc, k ≤ run_level a) →
      reverse_sequences k [] (reverse_sequences k acc xs) = acc.reverse ++ xs := by
  induction xs with
  | nil =>
    intro acc hacc
    simp only [reverse_sequences, List.append_nil]
    rw [rs_all k acc hacc []]
    simp
  | cons x xs ih =>
    intro acc hacc
    by_cases hx : k ≤ run_level x
    · simp only [reverse_sequences, hx, if_true]
      rw [ih (x :: acc)]
      · simp
      · intro a ha
        rcases List.mem_cons.mp ha with rfl | ha
        · exact hx
        · exact hacc a ha
    · simp only [reverse_sequences, hx, if_false]
      rw [rs_split k x (by omega) acc _ [], rs_all k acc hacc [], ih [] (by simp)]
      simp

theorem rl_nil : ∀ (c lo : Nat), reverse_levels [] c lo = [] := by
  intro c
  induction c with
  | zero => intro lo; rfl
  | succ c ih => intro lo; simp [reverse_levels, ih, reverse_sequences]

theorem rl_mem (xs : List PangoLayoutRun) (x : PangoLayoutRun) :
    ∀ (c lo : Nat), x ∈ reverse_levels xs c lo ↔ x ∈ xs := by
  intro c
  induction c with
  | zero => intro lo; rfl
  | succ c ih => intro lo; simp only [reverse_levels, rs_mem, ih]

theorem rl_split (m : PangoLayoutRun) (as bs : List PangoLayoutRun) :
    ∀ (c lo : Nat), run_level m < lo →
      reverse_levels (as ++ m :: bs) c lo =
        reverse_levels as c lo ++ m :: reverse_levels bs c lo := by
  intro c
  induction c with
  | zero => intro lo _; rfl
  | succ c ih =>
    intro lo hm
    simp only [reverse_levels]
    rw [ih (lo + 1) (by omega), rs_split lo m hm]

theorem rl_above (xs : List PangoLayoutRun) :
    ∀ (c lo : Nat), (∀ x ∈ xs, run_level x < lo) → reverse_levels xs c lo = xs := by
  intro c
  induction c with
  | zero => intro lo _; rfl
  | succ c ih =>
    intro lo h
    simp only [reverse_levels]
    rw [ih (lo + 1) (fun x hx => by have := h x hx; omega), rs_id lo xs h []]
    simp

theorem rl_extend (xs : List PangoLayoutRun) (d : Nat) :
    ∀ (c lo : Nat), (∀ x ∈ xs, run_level x < lo + c) →
      reverse_levels xs (c + d) lo = reverse_levels xs c lo := by
  intro c
  induction c with
  | zero =>
    intro lo h
    simp only [Nat.zero_add, reverse_levels]
    exact rl_above xs d lo (by simpa using h)
  | succ c ih =>
    intro lo h
    have : c + 1 + d = (c + d) + 1 := by omega
    rw [this]
    simp only [reverse_levels]
    rw [ih (lo + 1) (fun x hx => by have := h x hx; omega)]

theorem rf_nil (bound k : Nat) : reverse_from bound k [] = [] := rl_nil _ _

theorem rf_mem (bound k : Nat) (xs : List PangoLayoutRun) (x : PangoLayoutRun) :
    x ∈ reverse_from bound k xs ↔ x ∈ xs := rl_mem xs x _ _

theorem rf_ge (bound k : Nat) (xs : List PangoLayoutRun) (h : bound ≤ k) :
    reverse_from bound k xs = xs := by
  unfold reverse_from
  have : bound - k = 0 := by omega
  rw [this]
  rfl

theorem rf_step (bound k : Nat) (xs : List PangoLayoutRun) (h : k < bound) :
    reverse_from bound k xs = reverse_sequences k [] (reverse_from bound (k + 1) xs) := by
  unfold reverse_from
  have : bound - k = (bound - (k + 1)) + 1 := by omega
  rw [this]
  rfl

theorem rf_split (bound k : Nat) (m : PangoLayoutRun) (as bs : List PangoLayoutRun)
    (hm : run_level m < k) :
    reverse_from bound k (as ++ m :: bs) =
      reverse_from bound k as ++ m :: reverse_from bound k bs :=
  rl_split m as bs _ _ hm

/-- Reversing at a level no run has, and at the next one, cancels out. -/
theorem rf_skip (bound j : Nat) (xs : List PangoLayoutRun)
    (hb : ∀ x ∈ xs, run_level x < bound) (hj : ∀ x ∈ xs, run_level x ≠ j) :
    reverse_from bound j xs = reverse_from bound (j + 2) xs := by
  by_cases h1 : bound ≤ j
  · rw [rf_ge bound j xs h1, rf_ge bound (j + 2) xs (by omega)]
  · by_cases h2 : bound = j + 1
    · rw [rf_step bound j xs (by omega), rf_ge bound (j + 1) xs (by omega),
        rf_ge bound (j + 2) xs (by omega)]
      rw [rs_id j xs (fun x hx => by have := hb x hx; have := hj x hx; omega) []]
      simp
    · rw [rf_step bound j xs (by omega), rf_step bound (j + 1) xs (by omega)]
      rw [rs_absent j _ (fun x hx => hj x ((rf_mem _ _ _ x).mp ((rs_mem _ _ x).mp hx))) []]
      rw [rs_invol (j + 1) _ [] (by simp)]
      simp

theorem rf_skip_many (bound j : Nat) (xs : List PangoLayoutRun)
    (hb : ∀ x ∈ xs, run_level x < bound) :
    ∀ d : Nat, (∀ x ∈ xs, ∀ i, i < d → run_level x ≠ j + 2 * i) →
      reverse_from bound j xs = reverse_from bound (j + 2 * d) xs := by
  intro d
  induction d with
  | zero => intro _; rfl
  | succ d ih =>
    intro h
    rw [ih (fun x hx i hi => h x hx i (by omega))]
    have : j + 2 * (d + 1) = (j + 2 * d) + 2 := by omega
    rw [this]
    exact rf_skip bound (j + 2 * d) xs hb (fun x hx => h x hx d (by omega))

/-- On runs all at level `k` or higher, the reversal at level `k` reverses the
whole list. -/
theorem rf_rev (bound k : Nat) (xs : List PangoLayoutRun)
    (hk : ∀ x ∈ xs, k ≤ run_level x) (hb : ∀ x ∈ xs, run_level x < bound) :
    reverse_from bound k xs = (reverse_from bound (k + 1) xs).reverse := by
  cases xs with
  | nil => simp [rf_nil]
  | cons x xs =>
    have h1 := hk x (List.mem_cons_self _ _)
    have h2 := hb x (List.mem_cons_self _ _)
    rw [rf_step bound k _ (by omega)]
    rw [rs_all k _ (fun y hy => hk y ((rf_mem _ _ _ y).mp hy)) []]
    simp

theorem min_level_loop_spec (rest : List PangoLayoutRun) :
    ∀ (xs : List PangoLayoutRun) (m0 : Nat),
      (∀ x ∈ xs, min_level_loop (xs ++ rest) xs.length m0 ≤ run_level x) ∧
      min_level_loop (xs ++ rest) xs.length m0 ≤ m0 ∧
      (min_level_loop (xs ++ rest) xs.length m0 = m0 ∨
        ∃ x ∈ xs, run_level x = min_level_loop (xs ++ rest) xs.length m0) := by
  intro xs
  induction xs with
  | nil =>
    intro m0
    have : min_level_loop ([] ++ rest) ([] : List PangoLayoutRun).length m0 = m0 := by
      simp [min_level_loop]
    rw [this]
    simp
  | cons x xs ih =>
    intro m0
    have hstep : min_level_loop (x :: xs ++ rest) (x :: xs).length m0 =
        min_level_loop (xs ++ rest) xs.length (min m0 (run_level x)) := by
      simp [min_level_loop, run_level]
    rw [hstep]
    obtain ⟨h1, h2, h3⟩ := ih (min m0 (run_level x))
    refine ⟨fun y hy => ?_, by omega, ?_⟩
    · rcases List.mem_cons.mp hy with rfl | hy
      · omega
      · exact h1 y hy
    · rcases h3 with h3 | ⟨y, hy, hy2⟩
      · by_cases hm : m0 ≤ run_level x
        · left
          omega
        · right
          exact ⟨x, List.mem_cons_self _ _, by omega⟩
      · right
        exact ⟨y, List.mem_cons_of_mem _ hy, hy2⟩

theorem reorder_loop_odd (recurse : List PangoLayoutRun → Nat → List PangoLayoutRun)
    (f : List PangoLayoutRun → List PangoLayoutRun) (mn bound cap : Nat)
    (hodd : mn % 2 = 1) (hf0 : f [] = [])
    (hrec : ∀ seg rest, seg.length ≤ cap →
      (∀ x ∈ seg, mn < run_level x ∧ run_level x < bound) →
      recurse (seg ++ rest) seg.length = f seg) :
    ∀ (xs rest seg result : List PangoLayoutRun),
      (∀ x ∈ seg, mn < run_level x ∧ run_level x < bound) →
      (∀ x ∈ xs, mn ≤ run_level x ∧ run_level x < bound) →
      (((∃ x ∈ xs, run_level x = mn) ∧ seg.length + xs.length ≤ cap + 1) ∨
        seg.length + xs.length ≤ cap) →
      reorder_loop recurse mn (xs ++ rest) xs.length (seg ++ (xs ++ rest)) seg.length result =
        odd_go f mn seg xs ++ result := by
  intro xs
  induction xs with
  | nil =>
    intro rest seg result hseg _ hcap
    have hlen : seg.length ≤ cap := by
      rcases hcap with ⟨⟨x, hx, _⟩, _⟩ | h
      · simp at hx
      · simpa using h
    simp only [List.length_nil, reorder_loop, hodd, if_true, odd_go, List.nil_append]
    split
    · rw [hrec seg rest hlen hseg]
    · have : seg = [] := List.eq_nil_of_length_eq_zero (by omega)
      subst this
      simp [hf0]
  | cons x xs ih =>
    intro rest seg result hseg hxs hcap
    have hx := hxs x (List.mem_cons_self _ _)
    have hxs2 : ∀ y ∈ xs, mn ≤ run_level y ∧ run_level y < bound :=
      fun y hy => hxs y (List.mem_cons_of_mem _ hy)
    have hlenseg : seg.length + (xs.length + 1) ≤ cap + 1 := by
      rcases hcap with ⟨_, h⟩ | h
      · simpa using h
      · simp only [List.length_cons] at h
        omega
    by_cases hlv : run_level x = mn
    · have hlv2 : x.item.analysis.level = mn := hlv
      simp only [List.cons_append, List.length_cons, List.append_eq, reorder_loop, hlv2, hodd, if_true, odd_go,
        hlv]
      have key := ih rest [] (x :: (if 0 < seg.length then
          recurse (seg ++ x :: (xs ++ rest)) seg.length ++ result else result))
        (by simp) hxs2 (Or.inr (by simp; omega))
      simp only [List.nil_append, List.length_nil] at key
      rw [key]
      split
      · rw [hrec seg (x :: (xs ++ rest)) (by omega) hseg]
        simp
      · have : seg = [] := List.eq_nil_of_length_eq_zero (by omega)
        subst this
        simp [hf0]
    · have hlv2 : ¬ x.item.analysis.level = mn := hlv
      simp only [List.cons_append, List.length_cons, List.append_eq, reorder_loop, hlv2, if_false, odd_go, hlv]
      have hseg2 : ∀ y ∈ seg ++ [x], mn < run_level y ∧ run_level y < bound := by
        intro y hy
        rcases List.mem_append.mp hy with hy | hy
        · exact hseg y hy
        · rw [List.mem_singleton] at hy
          subst hy
          exact ⟨by omega, hx.2⟩
      have hcap2 : ((∃ y ∈ xs, run_level y = mn) ∧ (seg ++ [x]).length + xs.length ≤ cap + 1) ∨
          (seg ++ [x]).length + xs.length ≤ cap := by
        rcases hcap with ⟨⟨y, hy, hy2⟩, h⟩ | h
        · left
          refine ⟨?_, by simp; omega⟩
          rcases List.mem_cons.mp hy with rfl | hy
          · exact absurd hy2 hlv
          · exact ⟨y, hy, hy2⟩
        · right
          simp only [List.length_cons] at h
          simp
          omega
      have key := ih rest (seg ++ [x]) result hseg2 hxs2 hcap2
      simp only [List.append_assoc, List.singleton_append, List.length_append,
        List.length_singleton] at key
      exact key

theorem reorder_loop_even (recurse : List PangoLayoutRun → Nat → List PangoLayoutRun)
    (f : List PangoLayoutRun → List PangoLayoutRun) (mn bound cap : Nat)
    (heven : ¬ mn % 2 = 1) (hf0 : f [] = [])
    (hrec : ∀ seg rest, seg.length ≤ cap →
      (∀ x ∈ seg, mn < run_level x ∧ run_level x < bound) →
      recurse (seg ++ rest) seg.length = f seg) :
    ∀ (xs rest seg result : List PangoLayoutRun),
      (∀ x ∈ seg, mn < run_level x ∧ run_level x < bound) →
      (∀ x ∈ xs, mn ≤ run_level x ∧ run_level x < bound) →
      (((∃ x ∈ xs, run_level x = mn) ∧ seg.length + xs.length ≤ cap + 1) ∨
        seg.length + xs.length ≤ cap) →
      reorder_loop recurse mn (xs ++ rest) xs.length (seg ++ (xs ++ rest)) seg.length result =
        result ++ even_go f mn seg xs := by
  intro xs
  induction xs with
  | nil =>
    intro rest seg result hseg _ hcap
    have hlen : seg.length ≤ cap := by
      rcases hcap with ⟨⟨x, hx, _⟩, _⟩ | h
      · simp at hx
      · simpa using h
    simp only [List.length_nil, reorder_loop, heven, if_false, even_go, List.nil_append]
    split
    · rw [hrec seg rest hlen hseg]
    · have : seg = [] := List.eq_nil_of_length_eq_zero (by omega)
      subst this
      simp [hf0]
  | cons x xs ih =>
    intro rest seg result hseg hxs hcap
    have hx := hxs x (List.mem_cons_self _ _)
    have hxs2 : ∀ y ∈ xs, mn ≤ run_level y ∧ run_level y < bound :=
      fun y hy => hxs y (List.mem_cons_of_mem _ hy)
    have hlenseg : seg.length + (xs.length + 1) ≤ cap + 1 := by
      rcases hcap with ⟨_, h⟩ | h
      · simpa using h
      · simp only [List.length_cons] at h
        omega
    by_cases hlv : run_level x = mn
    · have hlv2 : x.item.analysis.level = mn := hlv
      simp only [List.cons_append, List.length_cons, List.append_eq, reorder_loop, hlv2, heven, if_true,
        if_false, even_go, hlv]
      have key := ih rest [] ((if 0 < seg.length then
          result ++ recurse (seg ++ x :: (xs ++ rest)) seg.length else result) ++ [x])
        (by simp) hxs2 (Or.inr (by simp; omega))
      simp only [List.nil_append, List.length_nil] at key
      rw [key]
      split
      · rw [hrec seg (x :: (xs ++ rest)) (by omega) hseg]
        simp
      · have : seg = [] := List.eq_nil_of_length_eq_zero (by omega)
        subst this
        simp [hf0]
    · have hlv2 : ¬ x.item.analysis.level = mn := hlv
      simp only [List.cons_append, List.length_cons, List.append_eq, reorder_loop, hlv2, if_false, even_go, hlv]
      have hseg2 : ∀ y ∈ seg ++ [x], mn < run_level y ∧ run_level y < bound := by
        intro y hy
        rcases List.mem_append.mp hy with hy | hy
        · exact hseg y hy
        · rw [List.mem_singleton] at hy
          subst hy
          exact ⟨by omega, hx.2⟩
      have hcap2 : ((∃ y ∈ xs, run_level y = mn) ∧ (seg ++ [x]).length + xs.length ≤ cap + 1) ∨
          (seg ++ [x]).length + xs.length ≤ cap := by
        rcases hcap with ⟨⟨y, hy, hy2⟩, h⟩ | h
        · left
          refine ⟨?_, by simp; omega⟩
          rcases List.mem_cons.mp hy with rfl | hy
          · exact absurd hy2 hlv
          · exact ⟨y, hy, hy2⟩
        · right
          simp only [List.length_cons] at h
          simp
          omega
      have key := ih rest (seg ++ [x]) result hseg2 hxs2 hcap2
      simp only [List.append_assoc, List.singleton_append, List.length_append,
        List.length_singleton] at key
      exact key

theorem even_go_eq (bound mn : Nat) :
    ∀ (xs seg : List PangoLayoutRun),
      even_go (reverse_from bound (mn + 1)) mn seg xs = reverse_from bound (mn + 1) (seg ++ xs) := by
  intro xs
  induction xs with
  | nil => intro seg; simp [even_go]
  | cons x xs ih =>
    intro seg
    by_cases hlv : run_level x = mn
    · simp only [even_go, hlv, if_true]
      rw [ih [], rf_split bound (mn + 1) x seg xs (by omega)]
      simp
    · simp only [even_go, hlv, if_false]
      rw [ih (seg ++ [x])]
      simp

theorem odd_go_eq (bound mn : Nat) :
    ∀ (xs seg : List PangoLayoutRun),
      (∀ x ∈ seg, mn < run_level x ∧ run_level x < bound) →
      (∀ x ∈ xs, mn ≤ run_level x ∧ run_level x < bound) →
      odd_go (reverse_from bound (mn + 2)) mn seg xs =
        (reverse_from bound (mn + 1) (seg ++ xs)).reverse := by
  intro xs
  induction xs with
  | nil =>
    intro seg hseg _
    simp only [odd_go, List.append_nil]
    rw [rf_rev bound (mn + 1) seg (fun x hx => (hseg x hx).1) (fun x hx => (hseg x hx).2)]
    simp
  | cons x xs ih =>
    intro seg hseg hxs
    have hx := hxs x (List.mem_cons_self _ _)
    have hxs2 : ∀ y ∈ xs, mn ≤ run_level y ∧ run_level y < bound :=
      fun y hy => hxs y (List.mem_cons_of_mem _ hy)
    by_cases hlv : run_level x = mn
    · simp only [odd_go, hlv, if_true]
      rw [ih [] (by simp) hxs2, rf_split bound (mn + 1) x seg xs (by omega)]
      rw [rf_rev bound (mn + 1) seg (fun x hx => (hseg x hx).1) (fun x hx => (hseg x hx).2)]
      simp
    · simp only [odd_go, hlv, if_false]
      rw [ih (seg ++ [x]) ?_ hxs2]
      · simp
      · intro y hy
        rcases List.mem_append.mp hy with hy | hy
        · exact hseg y hy
        · rw [List.mem_singleton] at hy
          subst hy
          exact ⟨by omega, hx.2⟩

/-- The function `reorder_runs_recurse` on the first `length xs` runs of a list,
with enough fuel: the reversals of rule L2 from any odd level `j` that is at most
one above every level. -/
theorem reorder_main (bound : Nat) (hbound : bound ≤ G_MAXINT) :
    ∀ (fuel : Nat) (xs rest : List PangoLayoutRun) (j : Nat), xs.length ≤ fuel →
      j % 2 = 1 → (∀ x ∈ xs, j ≤ run_level x + 1 ∧ run_level x < bound) →
      reorder_runs_recurse fuel (xs ++ rest) xs.length = reverse_from bound j xs := by
  intro fuel
  induction fuel with
  | zero =>
    intro xs rest j hlen _ _
    have : xs = [] := List.eq_nil_of_length_eq_zero (by omega)
    subst this
    simp [reorder_runs_recurse, rf_nil]
  | succ fuel ih =>
    intro xs rest j hlen hj hxs
    cases xs with
    | nil => simp [reorder_runs_recurse, rf_nil]
    | cons x0 xs0 =>
      have hne : ¬ (x0 :: xs0).length = 0 := by simp
      simp only [reorder_runs_recurse, hne, if_false]
      obtain ⟨hmin1, hmin2, hmin3⟩ := min_level_loop_spec rest (x0 :: xs0) G_MAXINT
      generalize min_level_loop (x0 :: xs0 ++ rest) (x0 :: xs0).length G_MAXINT = mn
        at hmin1 hmin2 hmin3
      have hx0 := hxs x0 (List.mem_cons_self _ _)
      have hm0 := hmin1 x0 (List.mem_cons_self _ _)
      have hex : ∃ x ∈ x0 :: xs0, run_level x = mn := by
        rcases hmin3 with h | h
        · omega
        · exact h
      have hall : ∀ x ∈ x0 :: xs0, mn ≤ run_level x ∧ run_level x < bound :=
        fun x hx => ⟨hmin1 x hx, (hxs x hx).2⟩
      have hjm : j ≤ mn + 1 := by
        obtain ⟨x, hx, hx2⟩ := hex
        have := (hxs x hx).1
        omega
      have hcap : ((∃ x ∈ x0 :: xs0, run_level x = mn) ∧
          ([] : List PangoLayoutRun).length + (x0 :: xs0).length ≤ fuel + 1) ∨
          ([] : List PangoLayoutRun).length + (x0 :: xs0).length ≤ fuel :=
        Or.inl ⟨hex, by simpa using hlen⟩
      by_cases hodd : mn % 2 = 1
      · have hrec : ∀ seg rest2, seg.length ≤ fuel →
            (∀ x ∈ seg, mn < run_level x ∧ run_level x < bound) →
            (fun l n => reorder_runs_recurse fuel l n) (seg ++ rest2) seg.length =
              reverse_from bound (mn + 2) seg := by
          intro seg rest2 hl hseg
          exact ih seg rest2 (mn + 2) hl (by omega)
            (fun x hx => ⟨by have := (hseg x hx).1; omega, (hseg x hx).2⟩)
        have key := reorder_loop_odd _ _ mn bound fuel hodd (rf_nil _ _) hrec
          (x0 :: xs0) rest [] [] (by simp) hall hcap
        simp only [List.nil_append, List.length_nil, List.append_nil] at key
        rw [key, odd_go_eq bound mn (x0 :: xs0) [] (by simp) hall]
        simp only [List.nil_append]
        rw [← rf_rev bound mn (x0 :: xs0) (fun x hx => (hall x hx).1) (fun x hx => (hall x hx).2)]
        obtain ⟨d, hd⟩ : ∃ d, mn = j + 2 * d := ⟨(mn - j) / 2, by omega⟩
        rw [hd]
        refine (rf_skip_many bound j (x0 :: xs0) (fun x hx => (hall x hx).2) d ?_).symm
        intro x hx i hi
        have := (hall x hx).1
        omega
      · have hrec : ∀ seg rest2, seg.length ≤ fuel →
            (∀ x ∈ seg, mn < run_level x ∧ run_level x < bound) →
            (fun l n => reorder_runs_recurse fuel l n) (seg ++ rest2) seg.length =
              reverse_from bound (mn + 1) seg := by
          intro seg rest2 hl hseg
          exact ih seg rest2 (mn + 1) hl (by omega)
            (fun x hx => ⟨by have := (hseg x hx).1; omega, (hseg x hx).2⟩)
        have key := reorder_loop_even _ _ mn bound fuel hodd (rf_nil _ _) hrec
          (x0 :: xs0) rest [] [] (by simp) hall hcap
        simp only [List.nil_append, List.length_nil, List.append_nil] at key
        rw [key, even_go_eq bound mn (x0 :: xs0) []]
        simp only [List.nil_append]
        obtain ⟨d, hd⟩ : ∃ d, mn + 1 = j + 2 * d := ⟨(mn + 1 - j) / 2, by omega⟩
        rw [hd]
        refine (rf_skip_many bound j (x0 :: xs0) (fun x hx => (hall x hx).2) d ?_).symm
        intro x hx i hi
        have := (hall x hx).1
        omega

theorem le_highest_level (xs : List PangoLayoutRun) :
    ∀ x ∈ xs, run_level x ≤ highest_level xs := by
  induction xs with
  | nil => intro x hx; simp at hx
  | cons y ys ih =>
    intro x hx
    have hstep : highest_level (y :: ys) = max (run_level y) (highest_level ys) := by
      simp [highest_level]
    rw [hstep]
    rcases List.mem_cons.mp hx with rfl | hx
    · exact le_max_left _ _
    · exact le_trans (ih x hx) (le_max_right _ _)

theorem highest_level_lt (xs : List PangoLayoutRun) (b : Nat) (hb : 0 < b)
    (h : ∀ x ∈ xs, run_level x < b) : highest_level xs < b := by
  induction xs with
  | nil => simpa [highest_level] using hb
  | cons y ys ih =>
    have hstep : highest_level (y :: ys) = max (run_level y) (highest_level ys) := by
      simp [highest_level]
    rw [hstep]
    exact max_lt (h y (List.mem_cons_self _ _)) (ih (fun x hx => h x (List.mem_cons_of_mem _ hx)))

theorem foldr_range_eq (xs : List PangoLayoutRun) :
    ∀ (c lo : Nat),
      (List.range' lo c).foldr (fun lev rs => reverse_sequences lev [] rs) xs =
        reverse_levels xs c lo := by
  intro c
  induction c with
  | zero => intro lo; rfl
  | succ c ih =>
    intro lo
    rw [List.range'_succ, List.foldr_cons, ih (lo + 1)]
    rfl

/-- Rule L2 as worded is the chain of reversals from level 1 up to the highest level. -/
theorem rule_L2_eq (xs : List PangoLayoutRun) :
    bidi_rule_L2 xs = reverse_from (highest_level xs + 1) 1 xs := by
  have hb : ∀ x ∈ xs, run_level x < highest_level xs + 1 := fun x hx => by
    have := le_highest_level xs x hx
    omega
  unfold bidi_rule_L2
  cases hlo : lowest_odd_level xs with
  | none =>
    simp only
    have hnone : ∀ x ∈ xs, run_level x % 2 ≠ 1 := by
      intro x hx hodd
      unfold lowest_odd_level at hlo
      rw [List.min?_eq_none_iff] at hlo
      have : run_level x ∈ (xs.map run_level).filter (fun l => l % 2 = 1) := by
        simp only [List.mem_filter, List.mem_map, decide_eq_true_eq]
        exact ⟨⟨x, hx, rfl⟩, hodd⟩
      rw [hlo] at this
      simp at this
    rw [rf_skip_many (highest_level xs + 1) 1 xs hb (highest_level xs + 1)
      (fun x hx i _ h => hnone x hx (by omega))]
    rw [rf_ge _ _ _ (by omega)]
  | some lo =>
    simp only
    unfold lowest_odd_level at hlo
    have hmem := List.min?_mem (fun a b => by omega) hlo
    simp only [List.mem_filter, List.mem_map, decide_eq_true_eq] at hmem
    obtain ⟨⟨x0, hx0, hx0l⟩, hlodd⟩ := hmem
    have hle : ∀ x ∈ xs, run_level x % 2 = 1 → lo ≤ run_level x := by
      intro x hx hodd
      have h := (List.le_min?_iff (fun a b c => by omega) hlo (x := lo)).mp (le_refl _)
      apply h
      simp only [List.mem_filter, List.mem_map, decide_eq_true_eq]
      exact ⟨⟨x, hx, rfl⟩, hodd⟩
    unfold levels_down
    rw [List.foldl_reverse, foldr_range_eq]
    obtain ⟨d, hd⟩ : ∃ d, lo = 1 + 2 * d := ⟨(lo - 1) / 2, by omega⟩
    rw [rf_skip_many (highest_level xs + 1) 1 xs hb d ?_, ← hd]
    · rfl
    · intro x hx i hi h
      have := hle x hx (by omega)
      omega

/-- C5: for every list of runs (levels are `guint8`), `reorder_runs_recurse`, called
as `pjx_layout_line_reorder` calls it or with any greater recursion depth, returns
the runs in the order of Unicode bidi rule L2: for each level from the highest down
to the lowest odd level, every maximal contiguous sequence of runs at that level or
higher is reversed. -/
theorem reorder_runs_is_rule_L2 (runs : List PangoLayoutRun) (fuel : Nat)
    (hf : runs.length ≤ fuel) (hl : ∀ run ∈ runs, run_level run < 256) :
    reorder_runs_recurse fuel runs runs.length = bidi_rule_L2 runs := by
  have hhi : highest_level runs < 256 := highest_level_lt runs 256 (by decide) hl
  have h := reorder_main (highest_level runs + 1) (by unfold G_MAXINT; omega) fuel runs [] 1 hf
    rfl (fun x hx => ⟨by omega, by have := le_highest_level runs x hx; omega⟩)
  rw [List.append_nil] at h
  rw [h, rule_L2_eq]

/-- Witness for C5: runs with levels `[0,1,1,0]` come out as the runs at input
positions `[0,2,1,3]`. -/
theorem reorder_runs_is_rule_L2_witness :
    (example_runs.length ≤ 4 ∧ ∀ run ∈ example_runs, run_level run < 256) ∧
    reorder_runs_recurse 4 example_runs example_runs.length = bidi_rule_L2 example_runs ∧
    reorder_runs_recurse 4 example_runs 4 =
      [level_run 0 0, level_run 2 1, level_run 1 1, level_run 3 0] ∧
    (pjx_layout_line_reorder
      { start_index := 0, length := 4, runs := example_runs, is_paragraph_start := true,
        resolved_dir := PangoDirection.LTR }).runs =
      [level_run 0 0, level_run 2 1, level_run 1 1, level_run 3 0] :=
  ⟨by decide, reorder_runs_is_rule_L2 example_runs 4 (by decide) (by decide), by decide,
    by decide⟩


/-! ## Line breaking -/

/-- More fuel does not change the lines `process_lines` returns. -/
theorem process_lines_mono (ext : Collaborators) (layout : PangoLayout) :
    ∀ (fuel : Nat) (state : ParaBreakState) (lines : List PangoLayoutLine),
      process_lines ext layout fuel state = some lines →
      process_lines ext layout (fuel + 1) state = some lines := by
  intro fuel
  induction fuel with
  | zero =>
    intro state lines h
    simp only [process_lines] at h ⊢
    by_cases hi : state.items = []
    · simpa [hi] using h
    · simp [hi] at h
  | succ n ih =>
    intro state lines h
    rw [process_lines] at h ⊢
    by_cases hi : state.items = []
    · simpa [hi] using h
    · rw [if_neg hi] at h ⊢
      cases hl : process_line ext layout state with
      | none => rw [hl] at h; simp at h
      | some r =>
        rw [hl] at h
        simp only at h ⊢
        cases hr : process_lines ext layout n r.2 with
        | none => rw [hr] at h; simp at h
        | some ls =>
          rw [hr] at h
          rw [ih r.2 ls hr]
          exact h

/-- Any amount of extra fuel does not change the lines `process_lines` returns. -/
theorem process_lines_mono_add (ext : Collaborators) (layout : PangoLayout) (fuel : Nat)
    (state : ParaBreakState) (lines : List PangoLayoutLine)
    (h : process_lines ext layout fuel state = some lines) (k : Nat) :
    process_lines ext layout (fuel + k) state = some lines := by
  induction k with
  | zero => exact h
  | succ k ih => exact process_lines_mono ext layout (fuel + k) state lines ih

/-- A state `process_item_shape` has shaped the item for is the state it was given
with the item properties, the new glyph string and no logical widths. -/
theorem process_item_shape_fresh (ext : Collaborators) (layout : PangoLayout)
    (line : PangoLayoutLine) (state st : ParaBreakState) (item : PangoItem)
    (gs : PangoGlyphString)
    (h : process_item_shape ext layout line state item = some (st, gs, true)) :
    st = { state with properties := pjx_layout_get_item_properties item,
                      glyphs := some gs, log_widths := [], log_widths_offset := 0 } := by
  unfold process_item_shape at h
  split at h
  · simp at h
  · split at h
    · simp at h
    · split at h
      · simp at h
      · simp only [Option.some.injEq, Prod.mk.injEq, and_true] at h
        rw [← h.1, ← h.2]

/-- Inside the text `can_break_at` reads an entry of `log_attrs`. -/
theorem can_break_at_isSome (layout : PangoLayout) (offset : Int) (always_wrap_char : Bool)
    (h0 : 0 ≤ offset) (h1 : offset < layout.log_attrs.length) :
    ∃ can, can_break_at layout offset always_wrap_char = some can := by
  unfold can_break_at
  by_cases hn : offset = layout.n_chars
  · exact ⟨true, by simp [hn]⟩
  · have hlt : offset.toNat < layout.log_attrs.length := by omega
    have hneg : ¬ offset < 0 := by omega
    simp only [if_neg hn, if_neg hneg, List.getElem?_eq_getElem hlt]
    repeat' split
    all_goals exact ⟨_, rfl⟩

/-- On an item that carries the ruby attribute the loop `while (--num_chars >= 0)`
never records a break position. -/
theorem break_loop_ruby (layout : PangoLayout) (has_runs : Bool) (state : ParaBreakState)
    (glyphs : List PangoGlyphInfo) (retrying : Bool)
    (h0 : 0 ≤ state.start_offset) :
    ∀ (num_chars : Nat) (width : Int) (acc : Nat × Int × Int),
      state.log_widths_offset + num_chars ≤ state.log_widths.length →
      state.start_offset + num_chars ≤ layout.log_attrs.length →
      break_loop layout has_runs state glyphs true retrying num_chars width acc = some acc := by
  intro num_chars
  induction num_chars with
  | zero => intro width acc _ _; simp [break_loop]
  | succ n ih =>
    intro width acc hlw hla
    have hlt : state.log_widths_offset + n < state.log_widths.length := by omega
    have hla1 : state.start_offset + (n : Int) < layout.log_attrs.length := by
      push_cast at hla; omega
    obtain ⟨can, hcan⟩ := can_break_at_isSome layout (state.start_offset + n) retrying
      (by omega) hla1
    rw [break_loop]
    simp only [List.getElem?_eq_getElem hlt, hcan]
    simp only [not_true_eq_false, and_false, if_false]
    exact ih _ acc (by omega) (by push_cast at hla ⊢; omega)

/-- The call `insert_run (line, state, item, TRUE)` right after the item was shaped
prepends a run with the glyph string of the state. -/
theorem insert_run_last (ext : Collaborators) (layout : PangoLayout) (line : PangoLayoutLine)
    (state : ParaBreakState) (item : PangoItem) (gs : PangoGlyphString)
    (hg : state.glyphs = some gs) (ho : state.log_widths_offset = 0) :
    insert_run ext layout line state item true =
      some ({ line with runs := { item := item, glyphs := gs } :: line.runs,
                        length := line.length + item.length },
            { state with glyphs := none, log_widths := [] }) := by
  simp [insert_run, hg, ho]

/-- The `end_width` of the whole item is defined when the glyph string has a glyph. -/
theorem end_width_isSome (glyphs : List PangoGlyphInfo) (width : Int) (h : glyphs ≠ []) :
    ∃ end_width,
      (if 0 < width then
         match glyphs.getLast? with
         | none => none
         | some last => some (if last.glyph = 0 then width - last.width else width)
       else some width) = some end_width := by
  by_cases hw : 0 < width
  · rw [if_pos hw]
    cases hl : glyphs.getLast? with
    | none => exact absurd (List.getLast?_eq_none_iff.mp hl) h
    | some last => exact ⟨_, rfl⟩
  · exact ⟨width, by rw [if_neg hw]⟩

/-- The assignment `a[i] += d` keeps the length of the array. -/
theorem add_at_length (a : List Int) (i : Nat) (d : Int) : (add_at a i d).length = a.length := by
  unfold add_at
  split <;> simp

/-- With `force_fit`, `process_item` puts an item that carries the ruby attribute
and does not start with U+2028 on the line as one run and returns `BREAK_ALL_FIT`. -/
theorem process_item_ruby (ext : Collaborators) (layout : PangoLayout) (line : PangoLayoutLine)
    (state st : ParaBreakState) (item : PangoItem) (items : List PangoItem)
    (gs : PangoGlyphString) (no_break_at_end : Bool)
    (hitems : state.items = item :: items)
    (hruby : (pjx_attr_get_from_list item.analysis.extra_attrs PJX_ATTR_RUBY).isSome = true)
    (hsep : g_utf8_get_char layout.text item.offset ≠ LINE_SEPARATOR)
    (hshape : process_item_shape ext layout line state item = some (st, gs, true))
    (hgs : gs.glyphs ≠ [])
    (hlw : item.num_chars ≤ (ext.pango_glyph_string_get_logical_widths gs item).length)
    (h0 : 0 ≤ state.start_offset)
    (hla : state.start_offset + item.num_chars ≤ layout.log_attrs.length) :
    ∃ state1, process_item ext layout line state true no_break_at_end =
        some (BreakResult.BREAK_ALL_FIT,
              { line with runs := { item := item, glyphs := gs } :: line.runs,
                          length := line.length + item.length }, state1) ∧
      state1.items = item :: items := by
  have hst := process_item_shape_fresh ext layout line state st item gs hshape
  have hg : st.glyphs = some gs := by rw [hst]
  have ho : st.log_widths_offset = 0 := by rw [hst]
  have hit : st.items = item :: items := by rw [hst]; exact hitems
  have hso : st.start_offset = state.start_offset := by rw [hst]
  unfold process_item
  rw [hitems]
  simp only
  rw [hshape]
  simp only [if_neg hsep]
  by_cases hneg : st.remaining_width < 0 ∧ ¬ no_break_at_end = true
  · rw [if_pos hneg, insert_run_last ext layout line st item gs hg ho]
    exact ⟨_, rfl, hit⟩
  · rw [if_neg hneg]
    simp only [if_true]
    generalize hw : (if (pjx_attr_get_from_list item.analysis.extra_attrs PJX_ATTR_RB).isSome = true
      then (0 : Int) else glyphs_width gs.glyphs + st.properties.letter_spacing) = width
    obtain ⟨ew, hew⟩ := end_width_isSome gs.glyphs width hgs
    rw [hew]
    simp only
    by_cases hfit : (ew ≤ st.remaining_width ∨ item.num_chars = 1 ∧ line.runs = []) ∧
        ¬ no_break_at_end = true
    · rw [if_pos hfit, insert_run_last ext layout line
        { st with remaining_width := max (st.remaining_width - width) 0 } item gs hg ho]
      exact ⟨_, rfl, hit⟩
    · rw [if_neg hfit, hruby]
      have hbl : ∀ (retry : Bool) (acc : Nat × Int × Int),
          break_loop layout (decide (line.runs ≠ []))
            { st with
              log_widths := add_at (ext.pango_glyph_string_get_logical_widths gs item)
                (item.num_chars - 1) (if 0 < item.num_chars then st.properties.letter_spacing else 0),
              last_line := false }
            gs.glyphs true retry item.num_chars width acc = some acc := by
        intro retry acc
        apply break_loop_ruby
        · simpa [hso] using h0
        · simp only [ho, add_at_length]
          omega
        · simpa [hso] using hla
      simp only [hbl]
      have key : ∀ s : ParaBreakState, s.glyphs = some gs → s.log_widths_offset = 0 →
          s.items = item :: items →
          ∃ state1,
            (match insert_run ext layout line s item true with
              | none => none
              | some (line1, state4) => some (BreakResult.BREAK_ALL_FIT, line1, state4)) =
              some (BreakResult.BREAK_ALL_FIT,
                ({ line with runs := { item := item, glyphs := gs } :: line.runs,
                             length := line.length + item.length } : PangoLayoutLine), state1) ∧
            state1.items = item :: items := by
        intro s h1 h2 h3
        rw [insert_run_last ext layout line s item gs h1 h2]
        exact ⟨_, rfl, h3⟩
      by_cases hc : layout.wrap = PangoWrapMode.WORD_CHAR ∧ True ∧ st.remaining_width < ew
      · rw [if_pos hc]
        simp only [true_or, if_true]
        by_cases hr : 0 ≤ st.remaining_width
        · rw [if_pos hr]
          refine key _ ?_ ?_ ?_
          · exact hg
          · exact ho
          · exact hit
        · rw [if_neg hr]
          refine key _ ?_ ?_ ?_
          · exact hg
          · exact ho
          · exact hit
      · rw [if_neg hc]
        simp only [true_or, if_true]
        by_cases hr : 0 ≤ st.remaining_width
        · rw [if_pos hr]
          refine key _ ?_ ?_ ?_
          · exact hg
          · exact ho
          · exact hit
        · rw [if_neg hr]
          refine key _ ?_ ?_ ?_
          · exact hg
          · exact ho
          · exact hit

/-- C6 (code bug): on the paragraph "ab 漢かん" with ruby base 漢 and ruby text かん,
laid out at width 40 with 10 units per glyph, the line breaker produces two lines.
The first has `length` 6 though its only run holds 3 bytes, the second starts at
byte 6 though its first run starts at byte 3, and the lengths add up to 15 while
the items hold 12 bytes: `rewind_item` takes the ruby base off the line and puts
it back on the queue without taking its bytes off `line->length`. -/
theorem rewind_item_keeps_line_length :
    (process_lines fixed_width_shaper ruby_layout 2
        (initial_state ruby_items PangoDirection.LTR 0 0)).map
      (List.map
        (fun line => (line.start_index, line.length, runs_length line,
          line.runs.map (fun run => run.item.offset)))) =
      some [(0, 6, 3, [0]), (6, 9, 9, [3, 6])] ∧
    (ruby_items.map (fun item => (item.length : Int))).sum = 12 := by
  decide

/-- C7 (counterexample): the item `separator_item` carries the ruby attribute and
is the first item on its line, yet `process_item`, called as `process_line` calls
it, returns `BREAK_LINE_SEPARATOR` and not `BREAK_ALL_FIT`: the item starts with
U+2028, which `process_item` checks before anything else. -/
theorem ruby_item_all_fit_counterexample :
    (pjx_attr_get_from_list separator_item.analysis.extra_attrs PJX_ATTR_RUBY).isSome = true ∧
    first_line.runs = [] ∧ separator_state.items = [separator_item] ∧
    (process_item fixed_width_shaper separator_layout first_line separator_state true false).map
      (fun r => r.1) = some BreakResult.BREAK_LINE_SEPARATOR := by
  decide

/-- C7 (amended): let the head of the queue be an item that carries the ruby
attribute, does not start with U+2028 and has just been shaped into the non-empty
glyph string `gs`, with one logical width per character and `log_attrs` covering
its characters. Then `process_item` called with `force_fit` (as `process_line`
calls it for the first item of a line) puts the whole item on the line as one run
and returns `BREAK_ALL_FIT`, whatever the remaining width and the runs already on
the line, and leaves the item unsplit at the head of the queue. And the paragraph
made of the one 10-character ruby item `ruby_word_item`, laid out at width 1,
yields exactly one line, of length 10, whose only run holds the whole item. -/
theorem ruby_item_is_placed_whole (ext : Collaborators) (layout : PangoLayout)
    (line : PangoLayoutLine) (state st : ParaBreakState) (item : PangoItem)
    (items : List PangoItem) (gs : PangoGlyphString) (no_break_at_end : Bool) (k : Nat)
    (hitems : state.items = item :: items)
    (hruby : (pjx_attr_get_from_list item.analysis.extra_attrs PJX_ATTR_RUBY).isSome = true)
    (hsep : g_utf8_get_char layout.text item.offset ≠ LINE_SEPARATOR)
    (hshape : process_item_shape ext layout line state item = some (st, gs, true))
    (hgs : gs.glyphs ≠ [])
    (hlw : item.num_chars ≤ (ext.pango_glyph_string_get_logical_widths gs item).length)
    (h0 : 0 ≤ state.start_offset)
    (hla : state.start_offset + item.num_chars ≤ layout.log_attrs.length) :
    (∃ state1, process_item ext layout line state true no_break_at_end =
        some (BreakResult.BREAK_ALL_FIT,
              { line with runs := { item := item, glyphs := gs } :: line.runs,
                          length := line.length + item.length }, state1) ∧
      state1.items = item :: items) ∧
    (process_lines fixed_width_shaper ruby_word_layout (1 + k)
        (initial_state [ruby_word_item] PangoDirection.LTR 0 0)).map
      (List.map
        (fun line => (line.start_index, line.length, line.runs.map (fun run => run.item)))) =
      some [(0, 10, [ruby_word_item])] := by
  refine ⟨process_item_ruby ext layout line state st item items gs no_break_at_end hitems hruby
    hsep hshape hgs hlw h0 hla, ?_⟩
  cases h : process_lines fixed_width_shaper ruby_word_layout 1
      (initial_state [ruby_word_item] PangoDirection.LTR 0 0) with
  | none => exact absurd h (by decide)
  | some lines =>
    rw [process_lines_mono_add _ _ _ _ _ h k]
    have h1 : (process_lines fixed_width_shaper ruby_word_layout 1
        (initial_state [ruby_word_item] PangoDirection.LTR 0 0)).map
      (List.map
        (fun line => (line.start_index, line.length, line.runs.map (fun run => run.item)))) =
      some [(0, 10, [ruby_word_item])] := by decide
    rw [h] at h1
    exact h1

/-- Witness for C7: `ruby_word_item` on the empty first line with remaining width 1
is placed whole by `process_item`. -/
theorem ruby_item_is_placed_whole_witness :
    (∃ state1, process_item fixed_width_shaper ruby_word_layout first_line ruby_word_state
        true false =
        some (BreakResult.BREAK_ALL_FIT,
              { first_line with
                runs := { item := ruby_word_item,
                          glyphs := fixed_width_shaper.pango_shape ruby_word_item } ::
                        first_line.runs,
                length := first_line.length + ruby_word_item.length }, state1) ∧
      state1.items = ruby_word_item :: []) ∧
    (process_lines fixed_width_shaper ruby_word_layout (1 + 0)
        (initial_state [ruby_word_item] PangoDirection.LTR 0 0)).map
      (List.map
        (fun line => (line.start_index, line.length, line.runs.map (fun run => run.item)))) =
      some [(0, 10, [ruby_word_item])] :=
  ruby_item_is_placed_whole fixed_width_shaper ruby_word_layout first_line ruby_word_state
    { ruby_word_state with
      properties := pjx_layout_get_item_properties ruby_word_item,
      glyphs := some (fixed_width_shaper.pango_shape ruby_word_item),
      log_widths := [], log_widths_offset := 0 }
    ruby_word_item [] (fixed_width_shaper.pango_shape ruby_word_item) false 0
    (by decide) (by decide) (by decide) (by decide) (by decide) (by decide) (by decide)
    (by decide)
/-! ## Theorems: justification -/

theorem justify_loop_eq_add_deltas :
    ∀ (m : Nat) (ps : List (Nat × Nat)) (a : Int) (runs : List PangoLayoutRun),
      m ≤ ps.length → justify_loop m ps a runs = add_deltas ps (justify_deltas m a) runs := by
  intro m
  induction m with
  | zero =>
    intro ps a runs _
    cases ps <;> simp [justify_loop, justify_deltas, add_deltas]
  | succ m ih =>
    intro ps a runs hlen
    cases ps with
    | nil => simp at hlen
    | cons p ps =>
      simp only [justify_loop, justify_deltas, add_deltas]
      cases add_glyph_width runs p (a.tdiv (↑m + 1)) with
      | none => rfl
      | some runs2 => exact ih ps _ runs2 (by simpa using hlen)

theorem justify_deltas_bounds :
    ∀ (m : Nat) (a q : Int), 0 ≤ a → q * m ≤ a → a ≤ (q + 1) * m →
      (∀ d ∈ justify_deltas m a, q ≤ d ∧ d ≤ q + 1) ∧
      (justify_deltas m a).Pairwise (fun d1 d2 => d1 ≤ d2) := by
  intro m
  induction m with
  | zero => intro a q _ _ _; simp [justify_deltas]
  | succ m ih =>
    intro a q ha hlo hhi
    have hm : (0 : Int) < (m : Int) + 1 := by omega
    have hdiv : a.tdiv ((m : Int) + 1) = a / ((m : Int) + 1) :=
      Int.tdiv_eq_ediv ha (by omega)
    have h1 : a / ((m : Int) + 1) * ((m : Int) + 1) ≤ a := Int.ediv_mul_le a (by omega)
    have h2 : a < (a / ((m : Int) + 1) + 1) * ((m : Int) + 1) :=
      Int.lt_ediv_add_one_mul_self a hm
    have hq1 : q ≤ a / ((m : Int) + 1) := by
      rw [Int.le_ediv_iff_mul_le hm]
      push_cast at hlo
      exact hlo
    have hq2 : a / ((m : Int) + 1) ≤ q + 1 := by
      have : a / ((m : Int) + 1) < q + 2 := by
        rw [Int.ediv_lt_iff_lt_mul hm]
        push_cast at hhi
        nlinarith
      omega
    have hd0 : 0 ≤ a / ((m : Int) + 1) := Int.ediv_nonneg ha (by omega)
    have ha2 : 0 ≤ a - a / ((m : Int) + 1) := by nlinarith
    simp only [justify_deltas, List.mem_cons, List.pairwise_cons, hdiv]
    rcases (show a / ((m : Int) + 1) = q ∨ a / ((m : Int) + 1) = q + 1 by omega) with hd | hd
    · rw [hd] at h1 h2 ⊢
      obtain ⟨hb, hs⟩ := ih (a - q) q (by rw [hd] at ha2; exact ha2) (by nlinarith)
        (by nlinarith)
      refine ⟨fun d hdm => ?_, fun d hdm => (hb d hdm).1, hs⟩
      rcases hdm with rfl | hdm
      · exact ⟨le_refl _, by omega⟩
      · exact hb d hdm
    · rw [hd] at h1 h2 ⊢
      push_cast at hhi
      obtain ⟨hb, hs⟩ := ih (a - (q + 1)) (q + 1) (by rw [hd] at ha2; exact ha2)
        (by nlinarith) (by nlinarith)
      obtain ⟨hb2, -⟩ := ih (a - (q + 1)) q (by rw [hd] at ha2; exact ha2)
        (by nlinarith) (by nlinarith)
      refine ⟨fun d hdm => ?_, fun d hdm => (hb d hdm).1, hs⟩
      rcases hdm with rfl | hdm
      · exact ⟨by omega, le_refl _⟩
      · have := hb d hdm
        have := hb2 d hdm
        exact ⟨by omega, by omega⟩

/-- C9, as stated, fails: `remaining_width = 10` over 3 glyph slots adds the deltas
`[3,3,4]`, which are not non-increasing. On a line of four glyphs of width 10 (three
slots, the last glyph is not a slot) the widths become 13, 13, 14, 10; on a line of
three glyphs they become 15, 15, 10. -/
theorem justify_deltas_counterexample :
    justify_deltas 3 10 = [3, 3, 4] ∧
    ¬ (justify_deltas 3 10).Pairwise (fun d1 d2 => d2 ≤ d1) ∧
    (adjust_line_justify plain_layout (plain_line 4) 10).map line_glyph_widths =
      some [[13, 13, 14, 10]] ∧
    (adjust_line_justify plain_layout (plain_line 3) 10).map line_glyph_widths =
      some [[15, 15, 10]] := by
  refine ⟨by decide, by decide, by decide, by decide⟩

/-- C9, amended: the last loop of `adjust_line_justify` adds to the glyph slots
`widths[0]`, `widths[1]`, ... exactly the deltas `justify_deltas`; when the amount
it distributes is not negative these are non-decreasing from left to right, later
slots getting at most one unit more than earlier ones; distributing
`remaining_width = 10` over 3 glyph slots adds the deltas `[3,3,4]`. -/
theorem justify_deltas_nondecreasing (m : Nat) (a : Int) (ha : 0 ≤ a) :
    (∀ ps runs, m ≤ ps.length →
      justify_loop m ps a runs = add_deltas ps (justify_deltas m a) runs) ∧
    (justify_deltas m a).Pairwise (fun d1 d2 => d1 ≤ d2 ∧ d2 ≤ d1 + 1) ∧
    justify_deltas 3 10 = [3, 3, 4] := by
  refine ⟨fun ps runs h => justify_loop_eq_add_deltas m ps a runs h, ?_, by decide⟩
  cases m with
  | zero => simp [justify_deltas]
  | succ m =>
    have hm : (0 : Int) < ((m + 1 : Nat) : Int) := by omega
    obtain ⟨hb, hs⟩ := justify_deltas_bounds (m + 1) a (a / ((m + 1 : Nat) : Int)) ha
      (Int.ediv_mul_le a (by omega))
      (le_of_lt (Int.lt_ediv_add_one_mul_self a hm))
    have hall : ∀ d ∈ justify_deltas (m + 1) a, a / ((m + 1 : Nat) : Int) ≤ d ∧
        d ≤ a / ((m + 1 : Nat) : Int) + 1 := hb
    rw [List.pairwise_iff_forall_sublist] at hs ⊢
    intro d1 d2 hsub
    have h1 := hall d1 (hsub.subset (by simp))
    have h2 := hall d2 (hsub.subset (by simp))
    exact ⟨hs hsub, by omega⟩

/-- Witness for C9: the amount 10 over 3 slots. -/
theorem justify_deltas_nondecreasing_witness :
    ((0 : Int) ≤ 10) ∧
    (∀ ps runs, 3 ≤ ps.length →
      justify_loop 3 ps 10 runs = add_deltas ps (justify_deltas 3 10) runs) ∧
    (justify_deltas 3 10).Pairwise (fun d1 d2 => d1 ≤ d2 ∧ d2 ≤ d1 + 1) ∧
    justify_deltas 3 10 = [3, 3, 4] :=
  ⟨by decide, justify_deltas_nondecreasing 3 10 (by decide)⟩


/-- C10 (counterexample): at width 40 with 10 units per glyph, "The quick brown
fox" is laid out in 4 lines, not 2, whether the line break opportunities stand
after the spaces or on them. -/
theorem fox_two_lines_counterexample :
    (process_lines fixed_width_shaper (fox_layout 40) 4
        (initial_state [fox_item] PangoDirection.LTR 0 0)).map List.length = some 4 ∧
    (process_lines fixed_width_shaper (fox_layout_at_spaces 40) 4
        (initial_state [fox_item] PangoDirection.LTR 0 0)).map List.length = some 4 := by
  decide

/-- C10 (amended): with word wrap, every glyph 10 units wide and line break
opportunities after the spaces, laying out the single-item text "The quick brown
fox" at width 40 produces exactly 4 lines, "The ", "quick ", "brown " and "fox"
(a word wider than the line is placed whole); at width 100 it produces exactly 2
lines, "The quick " and "brown fox". -/
theorem fox_lines (k : Nat) :
    (process_lines fixed_width_shaper (fox_layout 40) (4 + k)
        (initial_state [fox_item] PangoDirection.LTR 0 0)).map
      (List.map (line_text (fox_layout 40))) =
      some [ascii_bytes "The ", ascii_bytes "quick ", ascii_bytes "brown ", ascii_bytes "fox"] ∧
    (process_lines fixed_width_shaper (fox_layout 100) (2 + k)
        (initial_state [fox_item] PangoDirection.LTR 0 0)).map
      (List.map (line_text (fox_layout 100))) =
      some [ascii_bytes "The quick ", ascii_bytes "brown fox"] := by
  constructor
  · cases h : process_lines fixed_width_shaper (fox_layout 40) 4
        (initial_state [fox_item] PangoDirection.LTR 0 0) with
    | none => exact absurd h (by decide)
    | some lines =>
      rw [process_lines_mono_add _ _ _ _ _ h k]
      have h1 : (process_lines fixed_width_shaper (fox_layout 40) 4
          (initial_state [fox_item] PangoDirection.LTR 0 0)).map
        (List.map (line_text (fox_layout 40))) =
        some [ascii_bytes "The ", ascii_bytes "quick ", ascii_bytes "brown ",
          ascii_bytes "fox"] := by decide
      rw [h] at h1
      exact h1
  · cases h : process_lines fixed_width_shaper (fox_layout 100) 2
        (initial_state [fox_item] PangoDirection.LTR 0 0) with
    | none => exact absurd h (by decide)
    | some lines =>
      rw [process_lines_mono_add _ _ _ _ _ h k]
      have h1 : (process_lines fixed_width_shaper (fox_layout 100) 2
          (initial_state [fox_item] PangoDirection.LTR 0 0)).map
        (List.map (line_text (fox_layout 100))) =
        some [ascii_bytes "The quick ", ascii_bytes "brown fox"] := by decide
      rw [h] at h1
      exact h1

/-! ## Claims about redundant changes, item properties and initialisation -/

/-- C16: for every attribute list and every attribute whose start index equals its
end index, `pjx_attr_list_change` returns (with any fuel, so also without entering
a loop) and leaves the list exactly as it was. -/
theorem attr_change_empty_range (fuel : Nat) (list : List PangoAttribute)
    (attr : PangoAttribute) (h : attr.start_index = attr.end_index) :
    pjx_attr_list_change fuel list attr = some list := by
  unfold pjx_attr_list_change
  rw [if_pos h]

/-- Witness for C16: the empty range `[4,4)` on a list of two entries, one of them
of the same kind and around position 4. -/
theorem attr_change_empty_range_witness :
    (4 : Nat) = 4 ∧
    pjx_attr_list_change 0 [⟨1, 7, 0, 10⟩, ⟨2, 5, 3, 6⟩] ⟨1, 9, 4, 4⟩ =
      some [⟨1, 7, 0, 10⟩, ⟨2, 5, 3, 6⟩] :=
  ⟨rfl, attr_change_empty_range 0 [⟨1, 7, 0, 10⟩, ⟨2, 5, 3, 6⟩] ⟨1, 9, 4, 4⟩ rfl⟩

theorem last_value_cons (attr : PangoAttribute) (attrs : List PangoAttribute) (klass : Nat)
    (default : Int) :
    last_value (attr :: attrs) klass default =
      if attr.klass = klass then last_value attrs klass attr.value
      else last_value attrs klass default := by
  unfold last_value
  by_cases h : attr.klass = klass
  · rw [if_pos h, List.filter_cons_of_pos (by simpa using h)]
    cases hf : attrs.filter (fun attr => decide (attr.klass = klass)) with
    | nil => simp
    | cons b t => simp only [List.getLast?_cons_cons, List.getLast?_eq_getLast _ (List.cons_ne_nil b t)]
  · rw [if_neg h, List.filter_cons_of_neg (by simpa using h)]

/-- The loop of `pjx_layout_get_item_properties` from any record filled so far. -/
theorem get_item_properties_loop_eq :
    ∀ (attrs : List PangoAttribute) (p : ItemProperties),
      get_item_properties_loop attrs p =
        { uline := last_value attrs PANGO_ATTR_UNDERLINE p.uline,
          rise := last_value attrs PANGO_ATTR_RISE p.rise,
          letter_spacing := last_value attrs PANGO_ATTR_LETTER_SPACING p.letter_spacing,
          shape_set := p.shape_set || attrs.any (fun attr => decide (attr.klass = PANGO_ATTR_SHAPE)),
          shape_logical_width := last_value attrs PANGO_ATTR_SHAPE p.shape_logical_width } := by
  intro attrs
  induction attrs with
  | nil => intro p; simp [get_item_properties_loop, last_value]
  | cons attr attrs ih =>
    intro p
    rw [get_item_properties_loop, ih]
    simp only [last_value_cons, List.any_cons]
    unfold PANGO_ATTR_UNDERLINE PANGO_ATTR_RISE PANGO_ATTR_LETTER_SPACING PANGO_ATTR_SHAPE
    by_cases h1 : attr.klass = 11
    · simp [h1]
    · by_cases h2 : attr.klass = 13
      · simp [h2]
      · by_cases h3 : attr.klass = 17
        · simp [h3]
        · by_cases h4 : attr.klass = 14
          · simp [h4]
          · simp [h1, h2, h3, h4]

/-- C17: for every item, `pjx_layout_get_item_properties` returns for underline,
rise and letter spacing the value of the last attribute of that kind in the item's
attribute list, whatever attributes of other kinds stand around it, and the
defaults `PANGO_UNDERLINE_NONE`, 0 and 0 when the list holds no attribute of that
kind; the shape is set exactly when the list holds a shape attribute, and then the
rectangle is that of the last one. -/
theorem item_properties_last_value (item : PangoItem) :
    pjx_layout_get_item_properties item =
      { uline := last_value item.analysis.extra_attrs PANGO_ATTR_UNDERLINE PANGO_UNDERLINE_NONE,
        rise := last_value item.analysis.extra_attrs PANGO_ATTR_RISE 0,
        letter_spacing := last_value item.analysis.extra_attrs PANGO_ATTR_LETTER_SPACING 0,
        shape_set :=
          item.analysis.extra_attrs.any (fun attr => decide (attr.klass = PANGO_ATTR_SHAPE)),
        shape_logical_width := last_value item.analysis.extra_attrs PANGO_ATTR_SHAPE 0 } := by
  unfold pjx_layout_get_item_properties
  rw [get_item_properties_loop_eq]
  simp [PANGO_UNDERLINE_NONE]

/-- C18 (code bug): the doc comment of `SDLPangoDraw_WasInit` promises zero when the
library is already initialized and non-zero when it is not. After
`SDLPangoDraw_Init` the function returns -1, which is not zero, and before any call
of `SDLPangoDraw_Init` it returns 0. -/
theorem was_init_counterexample :
    SDLPangoDraw_WasInit (SDLPangoDraw_Init IS_INITIALIZED).2 = -1 ∧
    SDLPangoDraw_WasInit (SDLPangoDraw_Init IS_INITIALIZED).2 ≠ 0 ∧
    ¬ SDLPangoDraw_WasInit IS_INITIALIZED ≠ 0 := by
  decide

/-- What the code does instead: `SDLPangoDraw_WasInit` returns -1 after one or more
calls of `SDLPangoDraw_Init` and zero before the first; `SDLPangoDraw_Init` itself
always returns 0. -/
theorem was_init_nonzero_after_init (n : Nat) :
    SDLPangoDraw_WasInit (after_init_calls (n + 1)) = -1 ∧
    SDLPangoDraw_WasInit (after_init_calls (n + 1)) ≠ 0 ∧
    SDLPangoDraw_WasInit (after_init_calls 0) = 0 ∧
    (SDLPangoDraw_Init (after_init_calls n)).1 = 0 := by
  refine ⟨rfl, ?_, rfl, rfl⟩
  show (-1 : Int) ≠ 0
  decide

/-- The first loop of `pjx_attr_list_change` on a well-formed tail that holds an
entry `E` of the kind and payload of `a` around the range of `a`: the loop reaches
`E` and the function returns, the list being as it was. -/
theorem change_scan_redundant (a E : PangoAttribute) (hk : E.klass = a.klass)
    (hv : E.value = a.value) (hs : E.start_index ≤ a.start_index)
    (ha : a.start_index < a.end_index) (he : a.end_index ≤ E.end_index) :
    ∀ (rest prev : List PangoAttribute) (fuel : Nat), WellFormed rest → E ∈ rest →
      rest.length ≤ fuel →
      change_scan fuel a prev rest = some (ScanResult.covered (prev ++ rest)) := by
  intro rest
  induction rest with
  | nil => intro prev fuel _ hE _; simp at hE
  | cons tmp rest ih =>
    intro prev fuel hwf hE hf
    obtain ⟨f, rfl⟩ : ∃ f, fuel = f + 1 := ⟨fuel - 1, by simp at hf; omega⟩
    obtain ⟨htmp, hwf2, hrel⟩ := (wf_cons tmp rest).mp hwf
    have hlen : rest.length ≤ f := by simp at hf; omega
    rw [change_scan]
    by_cases hEq : E = tmp
    · subst hEq
      have h1 : ¬ a.start_index < E.start_index := by omega
      have h2 : E.klass = a.klass ∧ a.start_index ≤ E.end_index := ⟨hk, by omega⟩
      rw [if_neg h1, if_pos h2, if_pos hv, if_pos he]
    · have hE2 : E ∈ rest := by
        rcases List.mem_cons.mp hE with h | h
        · exact absurd h hEq
        · exact h
      have hr := hrel E hE2
      have hr1 := hr.1
      have h1 : ¬ a.start_index < tmp.start_index := by omega
      rw [if_neg h1]
      by_cases hc : tmp.klass = a.klass ∧ a.start_index ≤ tmp.end_index
      · rw [if_pos hc]
        have hkk : tmp.klass = E.klass := by rw [hc.1, hk]
        have hr2 := (hr.2 hkk).1
        have hc2 := hc.2
        have hne : ¬ tmp.value = a.value := by
          intro hval
          have := (hr.2 hkk).2 (by rw [hval, hv])
          omega
        have h3 : ¬ a.end_index < tmp.end_index := by omega
        have h4 : ¬ tmp.start_index = a.start_index := by omega
        have h5 : ({ tmp with end_index := a.start_index } : PangoAttribute) = tmp := by
          cases tmp
          simp only [PangoAttribute.mk.injEq, true_and]
          simp only at hr2 hc2
          omega
        rw [if_neg hne]
        simp only [if_neg h3, if_neg h4, h5]
        rw [ih (prev ++ [tmp]) f hwf2 hE2 hlen, List.append_assoc]
        rfl
      · rw [if_neg hc, ih (prev ++ [tmp]) f hwf2 hE2 hlen, List.append_assoc]
        rfl

/-- A call whose range lies inside an entry of the same kind and payload of a
well-formed list leaves the list as it is. -/
theorem change_redundant (l : List PangoAttribute) (a E : PangoAttribute) (fuel : Nat)
    (hwf : WellFormed l) (hE : E ∈ l) (hk : E.klass = a.klass) (hv : E.value = a.value)
    (hs : E.start_index ≤ a.start_index) (ha : a.start_index < a.end_index)
    (he : a.end_index ≤ E.end_index) (hf : l.length ≤ fuel) :
    pjx_attr_list_change fuel l a = some l := by
  have hne : ¬ a.start_index = a.end_index := by omega
  unfold pjx_attr_list_change
  rw [if_neg hne, change_scan_redundant a E hk hv hs ha he l [] fuel hwf hE hf]
  rfl

/-- In a well-formed list, the positions of a range that are all covered for one
kind by one payload are covered by one entry. -/
theorem covered_by_one (l : List PangoAttribute) (a : PangoAttribute) (hwf : WellFormed l)
    (ha : a.start_index < a.end_index)
    (hcov : ∀ p, a.start_index ≤ p → p < a.end_index → Covers l a.klass p a.value) :
    ∃ E ∈ l, E.klass = a.klass ∧ E.value = a.value ∧ E.start_index ≤ a.start_index ∧
      a.end_index ≤ E.end_index := by
  obtain ⟨E, hE, hk, hv, hs, hlt⟩ := hcov a.start_index (le_refl _) ha
  refine ⟨E, hE, hk, hv, hs, ?_⟩
  by_contra hnot
  obtain ⟨F, hF, hk2, hv2, hs2, hlt2⟩ := hcov E.end_index (by omega) (by omega)
  have hFE : F ≠ E := by
    intro h
    rw [h] at hlt2
    omega
  have hpair := hwf.2
  obtain ⟨l1, l2, rfl⟩ := List.append_of_mem hE
  rw [List.pairwise_append, List.pairwise_cons] at hpair
  rcases List.mem_append.mp hF with h1 | h2
  · have hr := hpair.2.2 F h1 E (List.mem_cons_self _ _)
    have := (hr.2 (by rw [hk2, hk])).1
    omega
  · rcases List.mem_cons.mp h2 with h3 | h3
    · exact hFE h3
    · have hr := hpair.2.1.1 F h3
      have := (hr.2 (by rw [hk2, hk])).2 (by rw [hv2, hv])
      omega

/-- A change of a well-formed list, applied again to its result, leaves that
result as it is. -/
theorem change_idempotent (l : List PangoAttribute) (a : PangoAttribute) (fuel : Nat)
    (hwf : WellFormed l) (ha : a.start_index < a.end_index)
    (hf : 2 * l.length + 1 ≤ fuel) :
    ∃ l2, pjx_attr_list_change fuel l a = some l2 ∧
      ∀ fuel2, l2.length ≤ fuel2 → pjx_attr_list_change fuel2 l2 a = some l2 := by
  obtain ⟨l2, h, hpost⟩ := change_ok l a fuel hwf ha hf
  obtain ⟨E, hE, hk, hv, hs, he⟩ := covered_by_one l2 a hpost.1 ha hpost.2.1
  exact ⟨l2, h, fun fuel2 hf2 => change_redundant l2 a E fuel2 hpost.1 hE hk hv hs ha he hf2⟩

/-- C15: for every well-formed attribute list `l` (every list built by valid
`pjx_attr_list_change` calls is one) that holds an entry `E`, and every attribute
`a` of the kind of `E` with the payload of `E` and
`E.start_index ≤ a.start_index < a.end_index ≤ E.end_index`, the call
`pjx_attr_list_change (l, a)` returns and leaves the list unchanged, so applying
the change twice gives the same list as applying it once. More generally, for every
well-formed list `l1` and every `b` with `b.start_index < b.end_index`, a second
application of the change `b` leaves the result of the first one unchanged. -/
theorem attr_change_redundant (l : List PangoAttribute) (a E : PangoAttribute) (fuel : Nat)
    (hwf : WellFormed l) (hE : E ∈ l) (hk : E.klass = a.klass) (hv : E.value = a.value)
    (hs : E.start_index ≤ a.start_index) (ha : a.start_index < a.end_index)
    (he : a.end_index ≤ E.end_index) (hf : l.length ≤ fuel) :
    pjx_attr_list_change fuel l a = some l ∧
    change_all fuel l [a, a] = change_all fuel l [a] ∧
    (∀ l0, BuiltByChange l0 → WellFormed l0) ∧
    (∀ (l1 : List PangoAttribute) (b : PangoAttribute) (fuel1 : Nat), WellFormed l1 →
      b.start_index < b.end_index → 2 * l1.length + 1 ≤ fuel1 →
      ∃ l2, pjx_attr_list_change fuel1 l1 b = some l2 ∧
        ∀ fuel2, l2.length ≤ fuel2 → pjx_attr_list_change fuel2 l2 b = some l2) := by
  have h := change_redundant l a E fuel hwf hE hk hv hs ha he hf
  refine ⟨h, ?_, built_wf, fun l1 b fuel1 h1 h2 h3 => change_idempotent l1 b fuel1 h1 h2 h3⟩
  simp [change_all, h]

/-- Witness for C15: `[2,6)` with payload 7 on the list `[0,10)` (payload 7),
`[3,5)` (another kind). -/
theorem attr_change_redundant_witness :
    pjx_attr_list_change 2 [⟨1, 7, 0, 10⟩, ⟨2, 5, 3, 5⟩] ⟨1, 7, 2, 6⟩ =
      some [⟨1, 7, 0, 10⟩, ⟨2, 5, 3, 5⟩] ∧
    change_all 2 [⟨1, 7, 0, 10⟩, ⟨2, 5, 3, 5⟩] [⟨1, 7, 2, 6⟩, ⟨1, 7, 2, 6⟩] =
      change_all 2 [⟨1, 7, 0, 10⟩, ⟨2, 5, 3, 5⟩] [⟨1, 7, 2, 6⟩] ∧
    (∀ l0, BuiltByChange l0 → WellFormed l0) ∧
    (∀ (l1 : List PangoAttribute) (b : PangoAttribute) (fuel1 : Nat), WellFormed l1 →
      b.start_index < b.end_index → 2 * l1.length + 1 ≤ fuel1 →
      ∃ l2, pjx_attr_list_change fuel1 l1 b = some l2 ∧
        ∀ fuel2, l2.length ≤ fuel2 → pjx_attr_list_change fuel2 l2 b = some l2) :=
  attr_change_redundant [⟨1, 7, 0, 10⟩, ⟨2, 5, 3, 5⟩] ⟨1, 7, 2, 6⟩ ⟨1, 7, 0, 10⟩ 2
    (by unfold WellFormed; decide) (by decide) (by decide) (by decide) (by decide) (by decide)
    (by decide) (by decide)

/-! ## Line separators -/

/-- An item that starts with U+2028 and has just been shaped is put on the line
whole by `process_item`, which returns `BREAK_LINE_SEPARATOR`, whatever the
remaining width and the two flags are. -/
theorem process_item_line_separator (ext : Collaborators) (layout : PangoLayout)
    (line : PangoLayoutLine) (state st : ParaBreakState) (item : PangoItem)
    (items : List PangoItem) (gs : PangoGlyphString) (force_fit no_break_at_end : Bool)
    (hitems : state.items = item :: items)
    (hsep : g_utf8_get_char layout.text item.offset = LINE_SEPARATOR)
    (hshape : process_item_shape ext layout line state item = some (st, gs, true)) :
    process_item ext layout line state force_fit no_break_at_end =
      some (BreakResult.BREAK_LINE_SEPARATOR,
        { line with runs := { item := item, glyphs := gs } :: line.runs,
                    length := line.length + item.length },
        { state with properties := pjx_layout_get_item_properties item, glyphs := none,
                     log_widths := [], log_widths_offset := 0 + item.num_chars,
                     last_line := true }) := by
  have hst := process_item_shape_fresh ext layout line state st item gs hshape
  have hg : st.glyphs = some gs := by rw [hst]
  have ho : st.log_widths_offset = 0 := by rw [hst]
  unfold process_item
  rw [hitems]
  simp only
  rw [hshape]
  simp only [if_pos hsep]
  rw [insert_run_last ext layout line st item gs hg ho]
  simp only [hst, hitems]

/-- The iteration of the loop of `process_line` on an item that starts with U+2028,
has just been shaped and is neither ruby base nor ruby text: the item is put on
the line whole, taken off the queue, and the line ends (`goto done`). -/
theorem process_line_step_separator (ext : Collaborators) (layout : PangoLayout)
    (line : PangoLayoutLine) (state st : ParaBreakState) (locals : LineLocals)
    (item : PangoItem) (items : List PangoItem) (gs : PangoGlyphString)
    (hitems : state.items = item :: items)
    (hsep : g_utf8_get_char layout.text item.offset = LINE_SEPARATOR)
    (hshape : process_item_shape ext layout line state item = some (st, gs, true))
    (hrb : pjx_attr_get_from_list item.analysis.extra_attrs PJX_ATTR_RB = none)
    (hrt : pjx_attr_get_from_list item.analysis.extra_attrs PJX_ATTR_RT = none) :
    process_line_step ext layout line state locals =
      some (LineStep.done
        { line with runs := { item := item, glyphs := gs } :: line.runs,
                    length := line.length + item.length }
        { state with items := items, start_offset := state.start_offset + item.num_chars,
                     properties := pjx_layout_get_item_properties item, glyphs := none,
                     log_widths := [], log_widths_offset := 0 + item.num_chars,
                     last_line := true }) := by
  unfold process_line_step
  rw [hitems]
  simp only
  rw [process_item_line_separator ext layout line state st item items gs _ false hitems hsep
    hshape]
  simp [hitems, process_line_ruby, hrb, hrt]

/-- The iteration of the loop of `process_line` on a ruby text item that starts
with U+2028 and has just been shaped: `rewind_item` takes the run of the item off
the line again and puts the item on the queue a second time, the line keeps the
bytes of the item in its `length`, and the line ends. -/
theorem process_line_step_separator_rt (ext : Collaborators) (layout : PangoLayout)
    (line : PangoLayoutLine) (state st : ParaBreakState) (locals : LineLocals)
    (item : PangoItem) (items : List PangoItem) (gs : PangoGlyphString)
    (hitems : state.items = item :: items)
    (hsep : g_utf8_get_char layout.text item.offset = LINE_SEPARATOR)
    (hshape : process_item_shape ext layout line state item = some (st, gs, true))
    (hrb : pjx_attr_get_from_list item.analysis.extra_attrs PJX_ATTR_RB = none)
    (hrt : (pjx_attr_get_from_list item.analysis.extra_attrs PJX_ATTR_RT).isSome = true) :
    process_line_step ext layout line state locals =
      some (LineStep.done
        { line with length := line.length + item.length }
        { state with items := item :: item :: items,
                     start_offset := state.start_offset - item.num_chars,
                     properties := pjx_layout_get_item_properties item, glyphs := none,
                     log_widths := [], log_widths_offset := 0 + item.num_chars,
                     last_line := true }) := by
  unfold process_line_step
  rw [hitems]
  simp only
  rw [process_item_line_separator ext layout line state st item items gs _ false hitems hsep
    hshape]
  simp [hitems, process_line_ruby, hrb, hrt, rewind_item]

/-- Shaping `rt_separator_item` in any state that holds no glyph string. -/
theorem rt_separator_shape (width : Int) (line : PangoLayoutLine) (state : ParaBreakState)
    (hg : state.glyphs = none) :
    process_item_shape fixed_width_shaper (two_halves_layout width) line state
        rt_separator_item =
      some ({ state with properties := pjx_layout_get_item_properties rt_separator_item,
                         glyphs := some (fixed_width_shaper.pango_shape rt_separator_item),
                         log_widths := [], log_widths_offset := 0 },
            fixed_width_shaper.pango_shape rt_separator_item, true) := by
  unfold process_item_shape
  rw [hg]
  have hs : shape_run fixed_width_shaper (two_halves_layout width) line
      { state with properties := pjx_layout_get_item_properties rt_separator_item }
      rt_separator_item = some (fixed_width_shaper.pango_shape rt_separator_item) := by
    unfold shape_run
    have h9 : ¬ text_byte (two_halves_layout width).text rt_separator_item.offset = 9 := by
      show ¬ text_byte two_halves_text rt_separator_item.offset = 9
      decide
    have hp : pjx_layout_get_item_properties rt_separator_item =
        { uline := 0, rise := 15000, letter_spacing := 0, shape_set := false,
          shape_logical_width := 0 } := by decide
    rw [if_neg h9]
    simp only [hp]
    rfl
  simp only [hs]
  rfl

/-- Post-processing a line without runs that is the last of its paragraph leaves
it as it is. -/
theorem postprocess_no_runs (layout : PangoLayout) (line : PangoLayoutLine)
    (state : ParaBreakState) (hr : line.runs = []) (hl : state.last_line = true) :
    pjx_layout_line_postprocess fixed_width_shaper layout line state = some line := by
  cases line with
  | mk start_index length runs is_paragraph_start resolved_dir =>
    simp only at hr
    subst hr
    simp [pjx_layout_line_postprocess, fixed_width_shaper, pjx_layout_line_reorder,
      reorder_runs_recurse, adjust_line_letter_spacing, letter_spacing_loop, hl]

/-- The iteration of the loop of `process_line` with `rt_separator_item` at the
head of the queue, in any state that holds no glyph string. -/
theorem rt_separator_step (width : Int) (line : PangoLayoutLine) (state : ParaBreakState)
    (locals : LineLocals) (rest : List PangoItem)
    (hitems : state.items = rt_separator_item :: rest) (hg : state.glyphs = none) :
    process_line_step fixed_width_shaper (two_halves_layout width) line state locals =
      some (LineStep.done
        { line with length := line.length + rt_separator_item.length }
        { state with items := rt_separator_item :: rt_separator_item :: rest,
                     start_offset := state.start_offset - rt_separator_item.num_chars,
                     properties := pjx_layout_get_item_properties rt_separator_item,
                     glyphs := none, log_widths := [],
                     log_widths_offset := 0 + rt_separator_item.num_chars,
                     last_line := true }) := by
  have hsep : g_utf8_get_char (two_halves_layout width).text rt_separator_item.offset =
      LINE_SEPARATOR := by
    show g_utf8_get_char two_halves_text rt_separator_item.offset = LINE_SEPARATOR
    decide
  exact process_line_step_separator_rt fixed_width_shaper (two_halves_layout width) line state _
    locals rt_separator_item rest (fixed_width_shaper.pango_shape rt_separator_item) hitems hsep
    (rt_separator_shape width line state hg) (by decide) (by decide)

/-- A call of `process_line` with `rt_separator_item` at the head of the queue
returns a line without runs and leaves the queue longer by one item. -/
theorem rt_separator_line (width : Int) (state : ParaBreakState) (rest : List PangoItem)
    (hitems : state.items = rt_separator_item :: rest) (hg : state.glyphs = none) :
    ∃ line state1,
      process_line fixed_width_shaper (two_halves_layout width) state = some (line, state1) ∧
      line.runs = [] ∧ state1.items = rt_separator_item :: rt_separator_item :: rest ∧
      state1.glyphs = none := by
  have hfuel : state.items.length + 1 = (rest.length + 1) + 1 := by rw [hitems]; rfl
  unfold process_line
  simp only
  rw [hfuel, process_line_loop]
  rw [if_neg (by simp [hitems]), rt_separator_step width _ _ _ rest]
  · simp only
    rw [postprocess_no_runs _ _ _ rfl rfl]
    exact ⟨_, _, rfl, rfl, rfl, rfl⟩
  · exact hitems
  · exact hg

/-- With `rt_separator_item` at the head of the queue the loop
`while (state.items) process_line (layout, &state)` does not end: no amount of
fuel gives a result. -/
theorem rt_separator_diverges (width : Int) :
    ∀ (fuel : Nat) (state : ParaBreakState) (rest : List PangoItem),
      state.items = rt_separator_item :: rest → state.glyphs = none →
      process_lines fixed_width_shaper (two_halves_layout width) fuel state = none := by
  intro fuel
  induction fuel with
  | zero =>
    intro state rest hitems _
    simp [process_lines, hitems]
  | succ n ih =>
    intro state rest hitems hg
    obtain ⟨line, state1, h1, _, h3, h4⟩ := rt_separator_line width state rest hitems hg
    rw [process_lines, if_neg (by simp [hitems]), h1]
    simp only [ih state1 _ h3 h4]

/-- C11 (code bug): a paragraph with U+2028 between two other items is laid out as
two lines, at width 1000 and at unconstrained width, when the separator is plain
text: "ab" and the separator on the first line, "cd" on the second. When the
separator is a ruby text item, the first call of `process_line` ends the line after
the separator but `rewind_item` takes the separator off the line again and queues
it a second time (the queue holds the separator, the separator, "cd"), and the
paragraph loop never ends: every further call adds the separator to the queue once
more. -/
theorem rt_separator_never_laid_out :
    (process_lines fixed_width_shaper (two_halves_layout 1000) 2
        (initial_state two_halves_items PangoDirection.LTR 0 0)).map (List.map line_summary) =
      some [(0, 5, [0, 2]), (5, 2, [5])] ∧
    (process_lines fixed_width_shaper (two_halves_layout (-1)) 2
        (initial_state two_halves_items PangoDirection.LTR 0 0)).map (List.map line_summary) =
      some [(0, 5, [0, 2]), (5, 2, [5])] ∧
    (process_line fixed_width_shaper (two_halves_layout 1000)
        (initial_state rt_separator_items PangoDirection.LTR 0 0)).map
      (fun r => (line_summary r.1, r.2.items)) =
      some ((0, 5, [0]), [rt_separator_item, rt_separator_item, plain_item 5 2 2 []]) ∧
    ∀ fuel, process_lines fixed_width_shaper (two_halves_layout 1000) fuel
      (initial_state rt_separator_items PangoDirection.LTR 0 0) = none := by
  refine ⟨by decide, by decide, by decide, fun fuel => ?_⟩
  cases fuel with
  | zero => decide
  | succ n =>
    cases h : process_line fixed_width_shaper (two_halves_layout 1000)
        (initial_state rt_separator_items PangoDirection.LTR 0 0) with
    | none => rw [process_lines, if_neg (by decide), h]
    | some r =>
      have h1 : (process_line fixed_width_shaper (two_halves_layout 1000)
          (initial_state rt_separator_items PangoDirection.LTR 0 0)).map
          (fun r => (r.2.items, r.2.glyphs)) =
          some ([rt_separator_item, rt_separator_item, plain_item 5 2 2 []], none) := by
        decide
      rw [h] at h1
      simp only [Option.map_some', Option.some.injEq, Prod.mk.injEq] at h1
      rw [process_lines, if_neg (by decide), h]
      simp only [rt_separator_diverges 1000 n r.2 _ h1.1 h1.2]

/-! ## `process_item` with `no_break_at_end` -/

/-- The loop `while (--num_chars >= 0)` either leaves the triple it was given or
records a break before `num_chars`. -/
theorem break_loop_acc (layout : PangoLayout) (has_runs : Bool) (state : ParaBreakState)
    (glyphs : List PangoGlyphInfo) (ruby retrying : Bool) :
    ∀ (n : Nat) (width : Int) (acc res : Nat × Int × Int),
      break_loop layout has_runs state glyphs ruby retrying n width acc = some res →
      res = acc ∨ res.1 < n := by
  intro n
  induction n with
  | zero =>
    intro width acc res h
    simp only [break_loop, Option.some.injEq] at h
    exact Or.inl h.symm
  | succ n ih =>
    intro width acc res h
    rw [break_loop] at h
    split at h
    · simp at h
    · split at h
      · simp at h
      · split at h
        · split at h
          · simp at h
          · split at h
            · simp only [Option.some.injEq] at h
              right
              rw [← h]
              exact Nat.lt_succ_self n
            · rcases ih _ _ _ h with h1 | h1
              · right
                rw [h1]
                exact Nat.lt_succ_self n
              · right
                omega
        · rcases ih _ _ _ h with h1 | h1
          · exact Or.inl h1
          · right
            omega

/-- When some position before `num_chars` is a break position the loop may use,
the loop records a break before `num_chars`. -/
theorem break_loop_finds (layout : PangoLayout) (has_runs : Bool) (state : ParaBreakState)
    (glyphs : List PangoGlyphInfo) (retrying : Bool) :
    ∀ (n : Nat) (width : Int) (acc res : Nat × Int × Int),
      (∃ k, k < n ∧ can_break_at layout (state.start_offset + k) retrying = some true ∧
        (0 < k ∨ has_runs = true)) →
      break_loop layout has_runs state glyphs false retrying n width acc = some res →
      res.1 < n := by
  intro n
  induction n with
  | zero =>
    intro width acc res hk _
    obtain ⟨k, hk, _⟩ := hk
    omega
  | succ n ih =>
    intro width acc res hk h
    rw [break_loop] at h
    split at h
    · simp at h
    · split at h
      · simp at h
      · rename_i can hcan
        split at h
        · split at h
          · simp at h
          · split at h
            · simp only [Option.some.injEq] at h
              rw [← h]
              exact Nat.lt_succ_self n
            · rcases break_loop_acc _ _ _ _ _ _ _ _ _ _ h with h1 | h1
              · rw [h1]
                exact Nat.lt_succ_self n
              · omega
        · rename_i hcond
          obtain ⟨k, hkn, hkc, hkr⟩ := hk
          have hne : k ≠ n := by
            intro hkn2
            subst hkn2
            rw [hcan] at hkc
            simp only [Option.some.injEq] at hkc
            apply hcond
            refine ⟨hkc, ?_, by simp⟩
            rcases hkr with h3 | h3
            · exact Or.inl h3
            · exact Or.inr h3
          have := ih _ _ _ ⟨k, by omega, hkc, hkr⟩ h
          omega

/-- Shaping does not move the character offset of the state. -/
theorem process_item_shape_start_offset (ext : Collaborators) (layout : PangoLayout)
    (line : PangoLayoutLine) (state st : ParaBreakState) (item : PangoItem)
    (gs : PangoGlyphString) (fresh : Bool)
    (h : process_item_shape ext layout line state item = some (st, gs, fresh)) :
    st.start_offset = state.start_offset := by
  unfold process_item_shape at h
  split at h
  · simp only [Option.some.injEq, Prod.mk.injEq] at h
    rw [← h.1]
  · split at h
    · simp at h
    · split at h
      · simp at h
      · simp only [Option.some.injEq, Prod.mk.injEq] at h
        rw [← h.1]

/-- C19 (code bug): the doc comment of `process_item` promises that with
`no_break_at_end = TRUE` the result is never `BREAK_ALL_FIT`. The function returns
`BREAK_ALL_FIT` with `no_break_at_end = TRUE` for the item "abc", which has no
break position, both with `force_fit` and without it (the item fits), and for the
ruby item `ruby_word_item` at width 1, whose break positions `process_item` does
not use. -/
theorem no_break_at_end_counterexample :
    (process_item fixed_width_shaper no_break_layout first_line no_break_state true true).map
      (fun r => r.1) = some BreakResult.BREAK_ALL_FIT ∧
    (process_item fixed_width_shaper no_break_layout first_line no_break_state false true).map
      (fun r => r.1) = some BreakResult.BREAK_ALL_FIT ∧
    (process_item fixed_width_shaper ruby_word_layout first_line ruby_word_state true true).map
      (fun r => r.1) = some BreakResult.BREAK_ALL_FIT := by
  decide

/-- Where the promise of the doc comment holds: let the head of the queue be an
item that does not start with U+2028, does not carry the ruby attribute and has a
break position before its end: a character count `k < item->num_chars` at which
`can_break_at` holds, with `k > 0` or the line not empty. Then `process_item`
called with `no_break_at_end = TRUE` never returns `BREAK_ALL_FIT` (nor
`BREAK_LINE_SEPARATOR`), whatever `force_fit` and the widths are: what it returns
is `BREAK_SOME_FIT`, `BREAK_EMPTY_FIT` or `BREAK_NONE_FIT`. -/
theorem process_item_no_break_at_end (ext : Collaborators) (layout : PangoLayout)
    (line : PangoLayoutLine) (state : ParaBreakState) (item : PangoItem)
    (items : List PangoItem) (force_fit : Bool) (k : Nat)
    (hitems : state.items = item :: items)
    (hsep : g_utf8_get_char layout.text item.offset ≠ LINE_SEPARATOR)
    (hruby : pjx_attr_get_from_list item.analysis.extra_attrs PJX_ATTR_RUBY = none)
    (hk : k < item.num_chars)
    (hbreak : ∀ retrying, can_break_at layout (state.start_offset + k) retrying = some true)
    (hrun : 0 < k ∨ line.runs ≠ []) :
    ∀ result line1 state1,
      process_item ext layout line state force_fit true = some (result, line1, state1) →
      result = BreakResult.BREAK_SOME_FIT ∨ result = BreakResult.BREAK_EMPTY_FIT ∨
        result = BreakResult.BREAK_NONE_FIT := by
  intro result line1 state1 h
  unfold process_item at h
  rw [hitems] at h
  simp only at h
  cases hshape : process_item_shape ext layout line state item with
  | none => rw [hshape] at h; simp at h
  | some r =>
    obtain ⟨st, gs, fresh⟩ := r
    have hso := process_item_shape_start_offset ext layout line state st item gs fresh hshape
    rw [hshape] at h
    simp only [if_neg hsep, hruby, Option.isSome_none, not_true_eq_false, and_false, if_false]
      at h
    have hex : ∀ (s2 : ParaBreakState) (retrying : Bool), s2.start_offset = st.start_offset →
        ∃ k, k < item.num_chars ∧
        can_break_at layout (s2.start_offset + k) retrying = some true ∧
        (0 < k ∨ decide (line.runs ≠ []) = true) := by
      intro s2 retrying hs2
      refine ⟨k, hk, by rw [hs2, hso]; exact hbreak retrying, ?_⟩
      rcases hrun with h1 | h1
      · exact Or.inl h1
      · exact Or.inr (by simpa using h1)
    split at h
    · simp at h
    · split at h
      · simp at h
      · split at h
        · simp at h
        · rename_i first hfirst
          have h1 : first.1 < item.num_chars := by
            refine break_loop_finds layout _ _ gs.glyphs false item.num_chars _ _ first ?_ hfirst
            exact hex _ false rfl
          split at h
          · simp at h
          · rename_i bnc bw ew2 heq
            have hb : bnc < item.num_chars := by
              split at heq
              · refine break_loop_finds layout _ _ gs.glyphs true item.num_chars _ _ _ ?_ heq
                exact hex _ true rfl
              · simp only [Option.some.injEq] at heq
                rw [heq] at h1
                exact h1
            have hne : ¬ bnc = item.num_chars := by omega
            split at h
            · split at h
              · simp only [Option.some.injEq, Prod.mk.injEq] at h
                exact Or.inr (Or.inl h.1.symm)
              · split at h
                · simp at h
                · simp only [Option.some.injEq, Prod.mk.injEq] at h
                  exact Or.inl h.1.symm
            · simp only [Option.some.injEq, Prod.mk.injEq] at h
              exact Or.inr (Or.inr h.1.symm)

/-- An instance: "The quick brown fox" at width 40 has a break position after
"The "; `process_item` with `no_break_at_end` returns `BREAK_SOME_FIT`. -/
theorem process_item_no_break_at_end_witness :
    (process_item fixed_width_shaper (fox_layout 40) first_line fox_state true true).map
      (fun r => r.1) = some BreakResult.BREAK_SOME_FIT ∧
    ∀ result line1 state1,
      process_item fixed_width_shaper (fox_layout 40) first_line fox_state true true =
        some (result, line1, state1) →
      result = BreakResult.BREAK_SOME_FIT ∨ result = BreakResult.BREAK_EMPTY_FIT ∨
        result = BreakResult.BREAK_NONE_FIT :=
  ⟨by decide,
    process_item_no_break_at_end fixed_width_shaper (fox_layout 40) first_line fox_state fox_item
      [] true 4 (by decide) (by decide) (by decide) (by decide) (by decide) (by decide)⟩

/-! ## Progress of `process_line` -/

/-- A call of `process_line` in the state `ruby_loop_state i` returns a line
without runs and the state `ruby_loop_state (i + 6)`: the queue is as it was. -/
theorem ruby_loop_line (i : Int) :
    process_line fixed_width_shaper ruby_loop_layout (ruby_loop_state i) =
      some ({ start_index := i, length := 6, runs := [], is_paragraph_start := false,
              resolved_dir := PangoDirection.RTL },
            ruby_loop_state (i + 6)) := by
  rfl

/-- From the state `ruby_loop_state i` the loop
`while (state.items) process_line (layout, &state)` does not end: no amount of
fuel gives a result. -/
theorem ruby_loop_diverges :
    ∀ (fuel : Nat) (i : Int),
      process_lines fixed_width_shaper ruby_loop_layout fuel (ruby_loop_state i) = none := by
  intro fuel
  induction fuel with
  | zero => intro i; rfl
  | succ n ih =>
    intro i
    have hne : ¬ (ruby_loop_state i).items = [] := by
      show ¬ ruby_loop_items = []
      decide
    rw [process_lines, if_neg hne, ruby_loop_line]
    simp only [ih (i + 6)]

/-- C20 (code bug): on the paragraph `<ruby><rb>漢字</rb><rt>かんじかな</rt></ruby>` at
width 40 (10 units per glyph, a break opportunity inside the base) the loop of
`process_line` puts the base on the line, finds that the ruby text does not fit,
and `rewind_item` puts the base back: the loop ends with no run on the line and the
queue as it was, no character removed. On a left-to-right paragraph
`adjust_line_justify` then reads the pointer `last_gi`, which was never assigned
(no result in the model). On a right-to-left paragraph `process_line` returns with
the queue unchanged, and the paragraph loop never ends. -/
theorem process_line_makes_no_progress :
    (process_line_loop fixed_width_shaper ruby_loop_layout 3
        (new_line (initial_state ruby_loop_items PangoDirection.LTR 0 0))
        { initial_state ruby_loop_items PangoDirection.LTR 0 0 with remaining_width := 40 }
        initial_locals).map (fun r => (line_summary r.1, r.2.items)) =
      some ((0, 6, []), ruby_loop_items) ∧
    process_line fixed_width_shaper ruby_loop_layout
      (initial_state ruby_loop_items PangoDirection.LTR 0 0) = none ∧
    process_line fixed_width_shaper ruby_loop_layout
      (initial_state ruby_loop_items PangoDirection.RTL 0 0) =
      some ({ start_index := 0, length := 6, runs := [], is_paragraph_start := true,
              resolved_dir := PangoDirection.RTL },
            ruby_loop_state 6) ∧
    (ruby_loop_state 6).items = (initial_state ruby_loop_items PangoDirection.RTL 0 0).items ∧
    ∀ fuel, process_lines fixed_width_shaper ruby_loop_layout fuel
      (initial_state ruby_loop_items PangoDirection.RTL 0 0) = none := by
  have h3 : process_line fixed_width_shaper ruby_loop_layout
      (initial_state ruby_loop_items PangoDirection.RTL 0 0) =
      some ({ start_index := 0, length := 6, runs := [], is_paragraph_start := true,
              resolved_dir := PangoDirection.RTL },
            ruby_loop_state 6) := by decide
  refine ⟨by decide, by decide, h3, rfl, fun fuel => ?_⟩
  cases fuel with
  | zero => decide
  | succ n =>
    rw [process_lines, if_neg (by decide), h3]
    simp only [ruby_loop_diverges n 6]

/-! ## The empty layout -/

/-- C12: for a layout whose text is empty and whose itemization yields no item,
`pjx_layout_check_lines` builds exactly one line, at byte 0, of length 0, without
runs and marked as paragraph start, so `pjx_layout_get_line_count` returns 1. -/
theorem empty_text_one_line (ext : Collaborators) (lext : LayoutCollaborators)
    (layout : PangoLayout) (fuel : Nat) (htext : layout.text = [])
    (hitems : ∀ base_dir, lext.pango_itemize_with_base_dir base_dir 0 0 = [])
    (hf : 1 ≤ fuel) :
    (∃ base_dir, pjx_layout_check_lines ext lext layout fuel =
      some [{ start_index := 0, length := 0, runs := [], is_paragraph_start := true,
              resolved_dir := base_dir }]) ∧
    pjx_layout_get_line_count ext lext layout fuel = some 1 := by
  obtain ⟨f, rfl⟩ : ∃ f, fuel = f + 1 := ⟨fuel - 1, by omega⟩
  have hb : pango_find_paragraph_boundary [] 0 0 = (0, 0) := rfl
  have hloop : ∀ prev, ∃ base_dir,
      paragraph_loop ext lext layout (f + 1) 0 0 prev [] =
        some [{ start_index := 0, length := 0, runs := [], is_paragraph_start := true,
                resolved_dir := base_dir }] := by
    intro prev
    refine ⟨if lext.auto_dir then
        (if lext.pango_find_base_dir 0 0 = PangoDirection.NEUTRAL then prev
         else lext.pango_find_base_dir 0 0)
      else lext.pango_context_get_base_dir, ?_⟩
    rw [paragraph_loop]
    simp only [htext, List.length_nil, Nat.sub_self, hb, ite_self, Nat.add_zero, hitems]
    simp
  obtain ⟨base_dir, hl⟩ := hloop
    (if lext.auto_dir then
      (if lext.pango_find_base_dir 0 layout.text.length = PangoDirection.NEUTRAL then
        lext.pango_context_get_base_dir
       else lext.pango_find_base_dir 0 layout.text.length)
     else PangoDirection.NEUTRAL)
  have hc : pjx_layout_check_lines ext lext layout (f + 1) =
      some [{ start_index := 0, length := 0, runs := [], is_paragraph_start := true,
              resolved_dir := base_dir }] := by
    unfold pjx_layout_check_lines
    simp only [hl]
    by_cases hn : lext.no_shape_attrs = true
    · simp [hn, apply_no_shape_attributes]
    · simp [hn]
  refine ⟨⟨base_dir, hc⟩, ?_⟩
  unfold pjx_layout_get_line_count
  rw [hc]
  rfl

/-- Witness for C12: the empty ASCII layout has one line. -/
theorem empty_text_one_line_witness :
    (∃ base_dir, pjx_layout_check_lines fixed_width_shaper ascii_layout_collaborators
        empty_layout 1 =
      some [{ start_index := 0, length := 0, runs := [], is_paragraph_start := true,
              resolved_dir := base_dir }]) ∧
    pjx_layout_get_line_count fixed_width_shaper ascii_layout_collaborators empty_layout 1 =
      some 1 :=
  empty_text_one_line fixed_width_shaper ascii_layout_collaborators empty_layout 1 rfl
    (fun _ => rfl) (le_refl 1)

/-! ## Visual cursor motion -/

/-- In a layout of one line, `pjx_layout_index_to_line` finds that line for every
index at or after its start, with no line before it and none after it. -/
theorem index_to_line_single (line : PangoLayoutLine) (index : Int) :
    pjx_layout_index_to_line [line] index =
      if index < line.start_index then (none, none, none) else (some line, none, none) := by
  unfold pjx_layout_index_to_line
  simp only [index_to_line_loop]
  by_cases h1 : index < line.start_index
  · simp [h1]
  · by_cases h2 : index < line.start_index + line.length
    · simp [h1, h2]
    · simp [h1, h2]

/-- In a layout of one line, the first part of `pjx_layout_move_cursor_visually`
finds that line, with no line before it and none after it. -/
theorem cursor_start_single (layout : PangoLayout) (line l : PangoLayoutLine) (strong : Bool)
    (old_index old_trailing : Int) (p nx : Option PangoLayoutLine) (so : Int) (n_vis : Nat)
    (oi2 vis_pos : Int)
    (h : cursor_start layout [line] strong old_index old_trailing =
      some (l, p, nx, so, n_vis, oi2, vis_pos)) :
    l = line ∧ p = none ∧ nx = none ∧ line_n_chars layout line = some n_vis := by
  unfold cursor_start at h
  rw [index_to_line_single] at h
  split at h
  · simp at h
  · by_cases h1 : old_index < line.start_index
    · simp [h1] at h
    · simp only [if_neg h1] at h
      cases hso : g_utf8_pointer_to_offset layout.text 0 line.start_index with
      | none => simp [hso] at h
      | some so2 =>
        cases hmap : pjx_layout_line_get_log2vis_map layout line strong with
        | none => simp [hso, hmap] at h
        | some m =>
          cases hn : line_n_chars layout line with
          | none => simp [hso, hmap, hn] at h
          | some n2 =>
            simp only [hso, hmap, hn] at h
            have key : ∀ (oi : Int),
                (if oi - line.start_index < 0 then none
                 else
                  match m[(oi - line.start_index).toNat]? with
                  | none => none
                  | some vp => some (line, (none : Option PangoLayoutLine),
                      (none : Option PangoLayoutLine), so2, n2, oi, vp)) =
                  some (l, p, nx, so, n_vis, oi2, vis_pos) →
                l = line ∧ p = none ∧ nx = none ∧ some n2 = some n_vis := by
              intro oi hk
              by_cases hlt : oi - line.start_index < 0
              · simp [hlt] at hk
              · rw [if_neg hlt] at hk
                cases hm : m[(oi - line.start_index).toNat]? with
                | none => simp [hm] at hk
                | some vp =>
                  simp only [hm, Option.some.injEq, Prod.mk.injEq] at hk
                  obtain ⟨h1, h2, h3, _, h5, _⟩ := hk
                  exact ⟨h1.symm, h2.symm, h3.symm, by rw [h5]⟩
            exact key _ h

/-- The sentinels of `pjx_layout_move_cursor_visually` in a layout of one line. -/
theorem move_cursor_sentinels (layout : PangoLayout) (is_cursor_position : List Bool)
    (line l : PangoLayoutLine) (strong : Bool) (old_index old_trailing direction : Int)
    (p nx : Option PangoLayoutLine) (so : Int) (n_vis : Nat) (oi2 vis_pos : Int)
    (h : cursor_start layout [line] strong old_index old_trailing =
      some (l, p, nx, so, n_vis, oi2, vis_pos)) :
    (vis_pos = 0 → direction < 0 →
      pjx_layout_move_cursor_visually layout is_cursor_position [line] strong old_index
        old_trailing direction =
        some (if line.resolved_dir = PangoDirection.LTR then -1 else (G_MAXINT : Int), 0)) ∧
    (vis_pos = n_vis → 0 < direction →
      pjx_layout_move_cursor_visually layout is_cursor_position [line] strong old_index
        old_trailing direction =
        some (if line.resolved_dir = PangoDirection.LTR then (G_MAXINT : Int) else -1, 0)) := by
  obtain ⟨rfl, rfl, rfl, _⟩ := cursor_start_single layout line l strong old_index old_trailing
    p nx so n_vis oi2 vis_pos h
  constructor
  · intro hv hd
    unfold pjx_layout_move_cursor_visually
    rw [h]
    by_cases hdir : l.resolved_dir = PangoDirection.LTR
    · simp [hv, hd, hdir]
    · simp [hv, hd, hdir]
  · intro hv hd
    have hnd : ¬ direction < 0 := by omega
    unfold pjx_layout_move_cursor_visually
    rw [h]
    by_cases hdir : l.resolved_dir = PangoDirection.LTR
    · simp [hv, hd, hnd, hdir]
    · simp [hv, hd, hnd, hdir]

/-! ### The entries of the visual-to-logical map -/

theorem otp_le (text : List Nat) : ∀ (k p : Nat), p ≤ g_utf8_offset_to_pointer text p k := by
  intro k
  induction k with
  | zero => intro p; simp [g_utf8_offset_to_pointer]
  | succ k ih =>
    intro p
    rw [g_utf8_offset_to_pointer]
    exact le_trans (Nat.le_add_right _ _) (ih _)

theorem otp_succ (text : List Nat) (p k : Nat) :
    g_utf8_offset_to_pointer text p (k + 1) =
      g_utf8_offset_to_pointer text (g_utf8_next_char text p) k := by
  rw [g_utf8_offset_to_pointer]
  rfl

theorem otp_succ_right (text : List Nat) : ∀ (k p : Nat),
    g_utf8_offset_to_pointer text p (k + 1) =
      g_utf8_next_char text (g_utf8_offset_to_pointer text p k) := by
  intro k
  induction k with
  | zero => intro p; simp [g_utf8_offset_to_pointer, g_utf8_next_char]
  | succ k ih =>
    intro p
    rw [otp_succ, ih, ← otp_succ]

theorem g_utf8_skip_pos (c : Nat) : 0 < g_utf8_skip c := by
  unfold g_utf8_skip
  repeat' split
  all_goals omega

theorem next_char_gt (text : List Nat) (p : Nat) : p < g_utf8_next_char text p := by
  unfold g_utf8_next_char
  have := g_utf8_skip_pos (text_byte text p)
  omega

theorem otp_lt_succ (text : List Nat) (p k : Nat) :
    g_utf8_offset_to_pointer text p k < g_utf8_offset_to_pointer text p (k + 1) := by
  rw [otp_succ_right]
  exact next_char_gt _ _

theorem otp_mono (text : List Nat) (p : Nat) : ∀ (k j : Nat), j ≤ k →
    g_utf8_offset_to_pointer text p j ≤ g_utf8_offset_to_pointer text p k := by
  intro k
  induction k with
  | zero => intro j hj; have : j = 0 := by omega
            subst this; exact le_refl _
  | succ k ih =>
    intro j hj
    by_cases h : j = k + 1
    · subst h; exact le_refl _
    · exact le_trans (ih j (by omega)) (le_of_lt (otp_lt_succ text p k))

theorem entriesIn_write (result r : List (Option Int)) (i : Nat) (v lo hi : Int)
    (h : map_write result i v = some r) (hin : EntriesIn result lo hi) (hv : lo ≤ v ∧ v ≤ hi) :
    EntriesIn r lo hi := by
  unfold map_write at h
  split at h
  · simp only [Option.some.injEq] at h
    intro x hx
    rw [← h] at hx
    rcases List.mem_or_eq_of_mem_set hx with h1 | h1
    · exact hin x h1
    · simp only [Option.some.injEq] at h1
      rw [h1]
      exact hv
  · simp at h

theorem entriesIn_write_if (cond : Bool) (result r : List (Option Int)) (i : Nat) (v lo hi : Int)
    (h : map_write_if cond result i v = some r) (hin : EntriesIn result lo hi)
    (hv : lo ≤ v ∧ v ≤ hi) : EntriesIn r lo hi := by
  unfold map_write_if at h
  split at h
  · exact entriesIn_write result r i v lo hi h hin hv
  · simp only [Option.some.injEq] at h
    rw [← h]
    exact hin

/-- The inner loop of `pjx_layout_line_get_vis2log_map` writes byte offsets inside
the line and ends after the last character of the run. -/
theorem vis2log_run_loop_entries (text : List Nat) (start hi : Int) (pos m : Nat) (ltr : Bool) :
    ∀ (count i p : Nat) (result r : List (Option Int)) (p2 : Nat),
      vis2log_run_loop text start pos m ltr count i p result = some (r, p2) →
      EntriesIn result 0 hi → start ≤ p →
      (0 < count → (g_utf8_offset_to_pointer text p (count - 1) : Int) ≤ start + hi) →
      EntriesIn r 0 hi ∧ p2 = g_utf8_offset_to_pointer text p count := by
  intro count
  induction count with
  | zero =>
    intro i p result r p2 h hin _ _
    simp only [vis2log_run_loop, Option.some.injEq, Prod.mk.injEq] at h
    rw [← h.1, ← h.2]
    exact ⟨hin, rfl⟩
  | succ count ih =>
    intro i p result r p2 h hin hp hlast
    rw [vis2log_run_loop] at h
    split at h
    · simp at h
    · rename_i result1 hw
      have hle := otp_le text count p
      have hl := hlast (Nat.succ_pos _)
      simp only [Nat.add_sub_cancel] at hl
      have hin1 := entriesIn_write_if true _ _ _ _ 0 hi
        (by simpa [map_write_if] using hw) hin ⟨by omega, by omega⟩
      have hnext := le_of_lt (next_char_gt text p)
      obtain ⟨h1, h2⟩ := ih (i + 1) (g_utf8_next_char text p) result1 r p2 h hin1 (by omega)
        (fun hc => by
          have hs := otp_succ text p (count - 1)
          rw [Nat.sub_add_cancel hc] at hs
          rw [← hs]
          exact hl)
      exact ⟨h1, by rw [h2, otp_succ]⟩

/-- The body of the loop of `pjx_layout_line_get_vis2log_map` writes byte offsets
inside the line when the text of the run lies inside the line. -/
theorem vis2log_run_entries (text : List Nat) (start hi : Int) (cursor_dir prev_dir : PangoDirection)
    (run : PangoLayoutRun) (pos : Nat) (result r : List (Option Int))
    (h : vis2log_run text start cursor_dir prev_dir run pos result = some r)
    (hin : EntriesIn result 0 hi) (hm : 0 < run.item.num_chars) (hlo : start ≤ run.item.offset)
    (hhi : (g_utf8_offset_to_pointer text run.item.offset run.item.num_chars : Int) ≤
      start + hi) :
    EntriesIn r 0 hi := by
  obtain ⟨m, hm2⟩ : ∃ m, run.item.num_chars = m + 1 := ⟨run.item.num_chars - 1, by omega⟩
  have hle := otp_le text run.item.num_chars run.item.offset
  have hnext := le_of_lt (next_char_gt text run.item.offset)
  have hlast : 0 < m →
      (g_utf8_offset_to_pointer text (g_utf8_next_char text run.item.offset) (m - 1) : Int) ≤
        start + hi := by
    intro hc
    have hs := otp_succ text run.item.offset (m - 1)
    rw [Nat.sub_add_cancel hc] at hs
    rw [← hs]
    have := otp_mono text run.item.offset run.item.num_chars m (by omega)
    omega
  have hend : g_utf8_offset_to_pointer text (g_utf8_next_char text run.item.offset) m =
      g_utf8_offset_to_pointer text run.item.offset run.item.num_chars := by
    rw [hm2, otp_succ]
  unfold vis2log_run at h
  simp only [hm2, Nat.add_sub_cancel] at h
  split at h
  · split at h
    · simp at h
    · rename_i r1 h1
      have hin1 := entriesIn_write_if _ _ _ _ _ 0 hi h1 hin ⟨by omega, by omega⟩
      split at h
      · simp at h
      · rename_i r2 p2 h2
        obtain ⟨hin2, hp2⟩ := vis2log_run_loop_entries text start hi pos (m + 1) true m 1 _ r1 r2
          p2 h2 hin1 (by omega) hlast
        rw [hend] at hp2
        exact entriesIn_write_if _ _ _ _ _ 0 hi h hin2 ⟨by omega, by omega⟩
  · split at h
    · simp at h
    · rename_i r1 h1
      have hin1 := entriesIn_write_if _ _ _ _ _ 0 hi h1 hin ⟨by omega, by omega⟩
      split at h
      · simp at h
      · rename_i r2 p2 h2
        obtain ⟨hin2, hp2⟩ := vis2log_run_loop_entries text start hi pos (m + 1) false m 1 _ r1
          r2 p2 h2 hin1 (by omega) hlast
        rw [hend] at hp2
        exact entriesIn_write_if _ _ _ _ _ 0 hi h hin2 ⟨by omega, by omega⟩

/-- The loop over the runs writes byte offsets inside the line. -/
theorem vis2log_runs_entries (text : List Nat) (line : PangoLayoutLine)
    (cursor_dir : PangoDirection) (hlen : 0 ≤ line.length) :
    ∀ (runs : List PangoLayoutRun) (prev_dir : PangoDirection) (pos : Nat)
      (result r : List (Option Int)),
      vis2log_runs text line cursor_dir runs prev_dir pos result = some r →
      EntriesIn result 0 line.length →
      (∀ run ∈ runs, 0 < run.item.num_chars ∧ line.start_index ≤ run.item.offset ∧
        (g_utf8_offset_to_pointer text run.item.offset run.item.num_chars : Int) ≤
          line.start_index + line.length) →
      EntriesIn r 0 line.length := by
  intro runs
  induction runs with
  | nil =>
    intro prev_dir pos result r h hin _
    rw [vis2log_runs] at h
    refine entriesIn_write_if _ _ _ _ _ 0 line.length h hin ?_
    split <;> omega
  | cons run runs ih =>
    intro prev_dir pos result r h hin hruns
    rw [vis2log_runs] at h
    split at h
    · simp at h
    · rename_i r1 h1
      obtain ⟨hm, hlo, hhi⟩ := hruns run (List.mem_cons_self _ _)
      have hin1 := vis2log_run_entries text line.start_index line.length cursor_dir prev_dir run
        pos result r1 h1 hin hm hlo hhi
      exact ih _ _ _ r h hin1 (fun x hx => hruns x (List.mem_cons_of_mem _ hx))

/-- Every entry the function `pjx_layout_line_get_vis2log_map` writes is a byte
offset inside the line, when the runs of the line lie inside the line. -/
theorem vis2log_map_entries (layout : PangoLayout) (line : PangoLayoutLine) (strong : Bool)
    (m : List (Option Int)) (h : pjx_layout_line_get_vis2log_map layout line strong = some m)
    (hlen : 0 ≤ line.length) (hruns : RunsInLine layout line) :
    EntriesIn m 0 line.length := by
  unfold pjx_layout_line_get_vis2log_map at h
  split at h
  · simp at h
  · rename_i n_chars _
    simp only at h
    generalize (if strong = true then line.resolved_dir
      else if line.resolved_dir = PangoDirection.LTR then PangoDirection.RTL
      else PangoDirection.LTR) = cursor_dir at h
    cases h0 : map_write_if (decide (line.resolved_dir = cursor_dir))
        (List.replicate (n_chars + 1) none) 0
        (if line.resolved_dir = PangoDirection.LTR then 0 else line.length) with
    | none => rw [h0] at h; simp at h
    | some r0 =>
      rw [h0] at h
      have hin0 : EntriesIn r0 0 line.length := by
        refine entriesIn_write_if _ _ _ _ _ 0 line.length h0 ?_ ?_
        · intro v hv
          simp [List.mem_replicate] at hv
        · split <;> omega
      exact vis2log_runs_entries layout.text line _ hlen line.runs _ 0 r0 m h hin0 hruns

/-! ### Stepping back over characters -/

/-- The function `g_utf8_prev_char` goes back to the start of the character that
ends at `q`. -/
theorem prev_char_of_boundaries (text : List Nat) (p : Nat) (hstart : text_byte text p / 64 ≠ 2) :
    ∀ (d : Nat), (∀ i < p + d + 1, p < i → text_byte text i / 64 = 2) →
      g_utf8_prev_char text (p + d + 1) = some p := by
  intro d
  induction d with
  | zero =>
    intro _
    rw [g_utf8_prev_char]
    simp [hstart]
  | succ d ih =>
    intro hcont
    have hc := hcont (p + d + 1) (by omega) (by omega)
    have h2 : p + (d + 1) + 1 = (p + d + 1) + 1 := by omega
    rw [h2, g_utf8_prev_char]
    simp only [hc, ne_eq, not_true_eq_false, if_false]
    exact ih (fun i hi hpi => hcont i (by omega) hpi)

/-- In well-formed text `g_utf8_prev_char` goes from the start of a character to
the start of the character before it. -/
theorem prev_char_otp (text : List Nat) (start n j : Nat) (hcb : CharBoundaries text start n)
    (hj : j < n) :
    g_utf8_prev_char text (g_utf8_offset_to_pointer text start (j + 1)) =
      some (g_utf8_offset_to_pointer text start j) := by
  obtain ⟨h1, h2⟩ := hcb j hj
  have hlt := otp_lt_succ text start j
  obtain ⟨d, hd⟩ : ∃ d, g_utf8_offset_to_pointer text start (j + 1) =
      g_utf8_offset_to_pointer text start j + d + 1 :=
    ⟨g_utf8_offset_to_pointer text start (j + 1) - g_utf8_offset_to_pointer text start j - 1,
      by omega⟩
  rw [hd]
  exact prev_char_of_boundaries text _ h1 d (fun i hi hpi => h2 i (by omega) hpi)

/-- The loop of `g_utf8_pointer_to_offset` counts at most `k` characters when the
position `k` characters on is at or after `pos`. -/
theorem pointer_to_offset_loop_le (text : List Nat) (pos : Nat) :
    ∀ (fuel s offset k : Nat), pos ≤ g_utf8_offset_to_pointer text s k →
      pointer_to_offset_loop text pos fuel s offset ≤ offset + k := by
  intro fuel
  induction fuel with
  | zero => intro s offset k _; simp [pointer_to_offset_loop]
  | succ fuel ih =>
    intro s offset k hk
    rw [pointer_to_offset_loop]
    split
    · rename_i hs
      cases k with
      | zero => simp [g_utf8_offset_to_pointer] at hk; omega
      | succ k =>
        rw [otp_succ] at hk
        have := ih (g_utf8_next_char text s) (offset + 1) k hk
        omega
    · omega

/-- The last loop of `pjx_layout_move_cursor_visually`, started at the start of
character `j` of well-formed text with `log_pos ≤ j`, ends at the start of an
earlier character. -/
theorem cursor_trailing_loop_range (layout : PangoLayout) (is_cursor_position : List Bool)
    (start_offset : Int) (start n : Nat) (hcb : CharBoundaries layout.text start n) :
    ∀ (fuel j : Nat) (log_pos new_trailing : Int) (res : Int × Int),
      1 ≤ j → j ≤ n → log_pos ≤ j →
      cursor_trailing_loop layout is_cursor_position start_offset fuel log_pos
        (g_utf8_offset_to_pointer layout.text start j : Nat) new_trailing = some res →
      (start : Int) ≤ res.1 ∧ res.1 < (g_utf8_offset_to_pointer layout.text start j : Nat) := by
  intro fuel
  induction fuel with
  | zero => intro j log_pos t res _ _ _ h; simp [cursor_trailing_loop] at h
  | succ fuel ih =>
    intro j log_pos t res hj1 hjn hlp h
    obtain ⟨i, rfl⟩ : ∃ i, j = i + 1 := ⟨j - 1, by omega⟩
    have hprev := prev_char_otp layout.text start n i hcb (by omega)
    have hlt := otp_lt_succ layout.text start i
    have hle := otp_le layout.text i start
    rw [cursor_trailing_loop] at h
    have hneg : ¬ ((g_utf8_offset_to_pointer layout.text start (i + 1) : Nat) : Int) < 0 := by
      omega
    rw [if_neg hneg, Int.toNat_ofNat, hprev] at h
    simp only at h
    split at h
    · rename_i hpos
      split at h
      · simp at h
      · simp only [Option.some.injEq] at h
        rw [← h]
        exact ⟨by simp only; omega, by simp only; omega⟩
      · have := ih i (log_pos - 1) (t + 1) res (by push_cast at hlp; omega) (by omega)
          (by push_cast at hlp ⊢; omega) h
        exact ⟨this.1, by omega⟩
    · simp only [Option.some.injEq] at h
      rw [← h]
      exact ⟨by simp only; omega, by simp only; omega⟩

/-- What the loop `do ... while` of `pjx_layout_move_cursor_visually` returns: a
visual position whose entry of the map was written, and the character offset of
that entry. -/
theorem cursor_move_loop_result (layout : PangoLayout) (is_cursor_position : List Bool)
    (line : PangoLayoutLine) (vis2log_map : List (Option Int)) (start_offset : Int) (n_vis : Nat)
    (direction : Int) :
    ∀ (fuel : Nat) (vis_pos : Int) (res : Int × Int),
      cursor_move_loop layout is_cursor_position line vis2log_map start_offset n_vis direction
        fuel vis_pos = some res →
      0 ≤ res.1 ∧ ∃ v, vis2log_map[res.1.toNat]? = some (some v) ∧
        g_utf8_pointer_to_offset layout.text line.start_index (line.start_index + v) =
          some res.2 := by
  intro fuel
  induction fuel with
  | zero => intro vis_pos res h; simp [cursor_move_loop] at h
  | succ fuel ih =>
    intro vis_pos res h
    rw [cursor_move_loop] at h
    generalize vis_pos + (if 0 < direction then 1 else -1) = vp1 at h
    split at h
    · simp at h
    · rename_i hneg
      split at h
      · rename_i v hv
        split at h
        · simp at h
        · rename_i log_pos hlp
          split at h
          · split at h
            · simp at h
            · simp only [Option.some.injEq] at h
              rw [← h]
              exact ⟨by simp only; omega, v, hv, hlp⟩
            · exact ih _ res h
          · simp only [Option.some.injEq] at h
            rw [← h]
            exact ⟨by simp only; omega, v, hv, hlp⟩
      · simp at h

/-- Away from the two ends, `pjx_layout_move_cursor_visually` on a well-formed line
returns an index inside the line. -/
theorem move_cursor_in_line (layout : PangoLayout) (is_cursor_position : List Bool)
    (line l : PangoLayoutLine) (strong : Bool) (old_index old_trailing direction : Int)
    (p nx : Option PangoLayoutLine) (so : Int) (n_vis : Nat) (oi2 vis_pos : Int) (n : Nat)
    (hs : cursor_start layout [line] strong old_index old_trailing =
      some (l, p, nx, so, n_vis, oi2, vis_pos))
    (htext : LineText layout line n) (hruns : RunsInLine layout line)
    (hn1 : ¬ (vis_pos = 0 ∧ direction < 0)) (hn2 : ¬ (vis_pos = n_vis ∧ 0 < direction))
    (new_index new_trailing : Int)
    (hres : pjx_layout_move_cursor_visually layout is_cursor_position [line] strong old_index
      old_trailing direction = some (new_index, new_trailing)) :
    line.start_index ≤ new_index ∧ new_index ≤ line.start_index + line.length ∧
      (0 < line.length → new_index < line.start_index + line.length) := by
  obtain ⟨rfl, rfl, rfl, hnv⟩ := cursor_start_single layout line l strong old_index old_trailing
    p nx so n_vis oi2 vis_pos hs
  obtain ⟨hst, hlen, hcb, hend⟩ := htext
  unfold pjx_layout_move_cursor_visually at hres
  rw [hs] at hres
  simp only [hn1, hn2, if_false, Bool.false_eq_true, false_and, not_false_eq_true, false_or,
    and_false] at hres
  rw [hnv] at hres
  cases hmap : pjx_layout_line_get_vis2log_map layout l strong with
  | none => rw [hmap] at hres; simp at hres
  | some m =>
    rw [hmap] at hres
    simp only at hres
    have hent := vis2log_map_entries layout l strong m hmap hlen hruns
    cases hloop : cursor_move_loop layout is_cursor_position l m so n_vis direction (n_vis + 1)
        vis_pos with
    | none => rw [hloop] at hres; simp at hres
    | some r =>
      obtain ⟨vp2, lp⟩ := r
      rw [hloop] at hres
      simp only at hres
      obtain ⟨_, v, hv, hlp⟩ := cursor_move_loop_result layout is_cursor_position l m so n_vis
        direction (n_vis + 1) vis_pos (vp2, lp) hloop
      simp only at hv hlp
      rw [hv] at hres
      simp only at hres
      have hvr := hent v (List.mem_iff_getElem?.mpr ⟨_, hv⟩)
      by_cases hc : l.start_index + v = l.start_index + l.length ∧ 0 < l.length
      · rw [if_pos hc] at hres
        have hvl : v = l.length := by omega
        have hn0 : 1 ≤ n := by
          rcases Nat.eq_zero_or_pos n with h0 | h0
          · subst h0
            simp only [g_utf8_offset_to_pointer] at hend
            omega
          · exact h0
        have hlpn : lp ≤ (n : Int) := by
          unfold g_utf8_pointer_to_offset at hlp
          have h1 : ¬ (l.start_index < 0 ∨ l.start_index + v < 0) := by omega
          have h2 : ¬ l.start_index + v < l.start_index := by omega
          rw [if_neg h1, if_neg h2] at hlp
          simp only [Option.some.injEq] at hlp
          have h3 := pointer_to_offset_loop_le layout.text (l.start_index + v).toNat
            (l.start_index + v - l.start_index).toNat l.start_index.toNat 0 n (by omega)
          omega
        have hidx : l.start_index + v =
            ((g_utf8_offset_to_pointer layout.text l.start_index.toNat n : Nat) : Int) := by
          omega
        rw [hidx] at hres
        have hr := cursor_trailing_loop_range layout is_cursor_position so l.start_index.toNat n hcb
          (lp.toNat + 1) n lp 0 (new_index, new_trailing) hn0 (le_refl _) hlpn hres
        simp only at hr
        refine ⟨by omega, by omega, fun _ => by omega⟩
      · rw [if_neg hc] at hres
        simp only [Option.some.injEq, Prod.mk.injEq] at hres
        rw [← hres.1]
        refine ⟨by omega, by omega, fun hpos => ?_⟩
        have : ¬ v = l.length := fun h => hc ⟨by rw [h], hpos⟩
        omega

/-! ### The maps behind the start of a cursor motion -/

/-- An assignment to the array keeps its length. -/
theorem map_write_length (result r : List (Option Int)) (i : Nat) (v : Int)
    (h : map_write result i v = some r) : r.length = result.length := by
  unfold map_write at h
  split at h
  · simp only [Option.some.injEq] at h
    rw [← h, List.length_set]
  · simp at h

/-- A conditional assignment to the array keeps its length. -/
theorem map_write_if_length (cond : Bool) (result r : List (Option Int)) (i : Nat) (v : Int)
    (h : map_write_if cond result i v = some r) : r.length = result.length := by
  unfold map_write_if at h
  split at h
  · exact map_write_length result r i v h
  · simp only [Option.some.injEq] at h
    rw [← h]

/-- The inner loop of `pjx_layout_line_get_vis2log_map` keeps the length of the
array. -/
theorem vis2log_run_loop_length (text : List Nat) (start : Int) (pos m : Nat) (ltr : Bool) :
    ∀ (count i p : Nat) (result r : List (Option Int)) (p2 : Nat),
      vis2log_run_loop text start pos m ltr count i p result = some (r, p2) →
      r.length = result.length := by
  intro count
  induction count with
  | zero =>
    intro i p result r p2 h
    simp only [vis2log_run_loop, Option.some.injEq, Prod.mk.injEq] at h
    rw [← h.1]
  | succ count ih =>
    intro i p result r p2 h
    rw [vis2log_run_loop] at h
    split at h
    · simp at h
    · rename_i r1 h1
      rw [ih _ _ _ _ _ h, map_write_length _ _ _ _ h1]

/-- The body of the loop over the runs keeps the length of the array. -/
theorem vis2log_run_length (text : List Nat) (start : Int) (cursor_dir prev_dir : PangoDirection)
    (run : PangoLayoutRun) (pos : Nat) (result r : List (Option Int))
    (h : vis2log_run text start cursor_dir prev_dir run pos result = some r) :
    r.length = result.length := by
  unfold vis2log_run at h
  simp only at h
  split at h
  · split at h
    · simp at h
    · rename_i r1 h1
      split at h
      · simp at h
      · rename_i r2 p2 h2
        rw [map_write_if_length _ _ _ _ _ h, vis2log_run_loop_length _ _ _ _ _ _ _ _ _ _ _ h2,
          map_write_if_length _ _ _ _ _ h1]
  · split at h
    · simp at h
    · rename_i r1 h1
      split at h
      · simp at h
      · rename_i r2 p2 h2
        rw [map_write_if_length _ _ _ _ _ h, vis2log_run_loop_length _ _ _ _ _ _ _ _ _ _ _ h2,
          map_write_if_length _ _ _ _ _ h1]

/-- The loop over the runs keeps the length of the array. -/
theorem vis2log_runs_length (text : List Nat) (line : PangoLayoutLine)
    (cursor_dir : PangoDirection) :
    ∀ (runs : List PangoLayoutRun) (prev_dir : PangoDirection) (pos : Nat)
      (result r : List (Option Int)),
      vis2log_runs text line cursor_dir runs prev_dir pos result = some r →
      r.length = result.length := by
  intro runs
  induction runs with
  | nil =>
    intro prev_dir pos result r h
    rw [vis2log_runs] at h
    exact map_write_if_length _ _ _ _ _ h
  | cons run rest ih =>
    intro prev_dir pos result r h
    rw [vis2log_runs] at h
    split at h
    · simp at h
    · rename_i r1 h1
      rw [ih _ _ _ _ h, vis2log_run_length _ _ _ _ _ _ _ _ h1]

/-- The array of `pjx_layout_line_get_vis2log_map` has one entry more than the line
has characters. -/
theorem vis2log_map_length (layout : PangoLayout) (line : PangoLayoutLine) (strong : Bool)
    (m : List (Option Int)) (n_chars : Nat)
    (h : pjx_layout_line_get_vis2log_map layout line strong = some m)
    (hn : line_n_chars layout line = some n_chars) : m.length = n_chars + 1 := by
  unfold pjx_layout_line_get_vis2log_map at h
  rw [hn] at h
  simp only at h
  split at h
  · simp at h
  · rename_i r0 h0
    rw [vis2log_runs_length _ _ _ _ _ _ _ _ h, map_write_if_length _ _ _ _ _ h0,
      List.length_replicate]

/-- When the loop of `pjx_layout_line_get_log2vis_map` ends, every entry of the
reverse map had been written, and the entries of the result are positions of the
reverse map. -/
theorem log2vis_loop_result : ∀ (reverse_map : List (Option Int)) (i : Nat) (result r : List Int)
    (bound : Int), log2vis_loop reverse_map i result = some r →
    (∀ x ∈ result, 0 ≤ x ∧ x ≤ bound) → ((i : Int) + reverse_map.length ≤ bound + 1) →
    (∀ x ∈ reverse_map, ∃ v, x = some v) ∧ ∀ x ∈ r, 0 ≤ x ∧ x ≤ bound := by
  intro reverse_map
  induction reverse_map with
  | nil =>
    intro i result r bound h hres _
    simp only [log2vis_loop, Option.some.injEq] at h
    subst h
    exact ⟨by simp, hres⟩
  | cons e rest ih =>
    intro i result r bound h hres hb
    cases e with
    | none => simp [log2vis_loop] at h
    | some v =>
      rw [log2vis_loop] at h
      split at h
      · simp only [List.length_cons] at hb
        have hres2 : ∀ x ∈ result.set v.toNat (i : Int), 0 ≤ x ∧ x ≤ bound := by
          intro x hx
          rcases List.mem_or_eq_of_mem_set hx with hx | hx
          · exact hres x hx
          · subst hx
            push_cast at hb
            omega
        obtain ⟨h1, h2⟩ := ih (i + 1) _ r bound h hres2 (by push_cast at hb ⊢; omega)
        refine ⟨?_, h2⟩
        intro x hx
        rcases List.mem_cons.mp hx with hx | hx
        · exact ⟨v, hx⟩
        · exact h1 x hx
      · simp at h

/-- What the first part of `pjx_layout_move_cursor_visually` has computed when it
succeeds: the number of characters of the line it found, a reverse map whose
entries are all written, and a visual position inside that map. -/
theorem cursor_start_maps (layout : PangoLayout) (lines : List PangoLayoutLine) (strong : Bool)
    (old_index old_trailing : Int) (l : PangoLayoutLine) (p nx : Option PangoLayoutLine)
    (so : Int) (n_vis : Nat) (oi2 vis_pos : Int)
    (h : cursor_start layout lines strong old_index old_trailing =
      some (l, p, nx, so, n_vis, oi2, vis_pos)) :
    line_n_chars layout l = some n_vis ∧
      ∃ m, pjx_layout_line_get_vis2log_map layout l strong = some m ∧
        m.length = n_vis + 1 ∧ (∀ x ∈ m, ∃ v, x = some v) ∧ 0 ≤ vis_pos ∧ vis_pos ≤ n_vis := by
  unfold cursor_start at h
  split at h
  · simp at h
  · generalize pjx_layout_index_to_line lines old_index = r at h
    obtain ⟨ol, pl, nl⟩ := r
    cases ol with
    | none => simp at h
    | some line =>
      simp only at h
      cases hso : g_utf8_pointer_to_offset layout.text 0 line.start_index with
      | none => simp [hso] at h
      | some so2 =>
        cases hmap : pjx_layout_line_get_log2vis_map layout line strong with
        | none => simp [hso, hmap] at h
        | some lv =>
          cases hn : line_n_chars layout line with
          | none => simp [hso, hmap, hn] at h
          | some n2 =>
            simp only [hso, hmap, hn] at h
            have key : ∀ (oi : Int),
                (if oi - line.start_index < 0 then none
                 else
                  match lv[(oi - line.start_index).toNat]? with
                  | none => none
                  | some vp => some (line, pl, nl, so2, n2, oi, vp)) =
                  some (l, p, nx, so, n_vis, oi2, vis_pos) →
                l = line ∧ n2 = n_vis ∧ vis_pos ∈ lv := by
              intro oi hk
              by_cases hlt : oi - line.start_index < 0
              · simp [hlt] at hk
              · rw [if_neg hlt] at hk
                cases hm : lv[(oi - line.start_index).toNat]? with
                | none => simp [hm] at hk
                | some vp =>
                  simp only [hm, Option.some.injEq, Prod.mk.injEq] at hk
                  obtain ⟨h1, _, _, _, h5, _, h7⟩ := hk
                  refine ⟨h1.symm, h5, ?_⟩
                  rw [← h7]
                  exact List.mem_iff_getElem?.mpr ⟨_, hm⟩
            obtain ⟨rfl, rfl, hmem⟩ := key _ h
            unfold pjx_layout_line_get_log2vis_map at hmap
            split at hmap
            · simp at hmap
            · cases hv : pjx_layout_line_get_vis2log_map layout l strong with
              | none => simp [hv] at hmap
              | some m =>
                simp only [hv] at hmap
                have hlen := vis2log_map_length layout l strong m n2 hv hn
                obtain ⟨h1, h2⟩ := log2vis_loop_result m 0 _ lv (n2 : Int) hmap
                  (by intro x hx; rw [List.eq_of_mem_replicate hx]; omega)
                  (by rw [hlen]; push_cast; omega)
                exact ⟨hn, m, rfl, hlen, h1, h2 vis_pos hmem⟩

/-! ### The loops of the cursor motion end -/

/-- A position inside well-formed text of `n` characters is at most `n` characters
from its start. -/
theorem pointer_to_offset_some (layout : PangoLayout) (line : PangoLayoutLine) (n : Nat)
    (htext : LineText layout line n) (v : Int) (hv : 0 ≤ v ∧ v ≤ line.length) :
    ∃ lp : Nat, g_utf8_pointer_to_offset layout.text line.start_index (line.start_index + v) =
      some (lp : Int) ∧ lp ≤ n := by
  obtain ⟨hst, hlen, _, hend⟩ := htext
  unfold g_utf8_pointer_to_offset
  have h1 : ¬ (line.start_index < 0 ∨ line.start_index + v < 0) := by omega
  have h2 : ¬ line.start_index + v < line.start_index := by omega
  rw [if_neg h1, if_neg h2]
  refine ⟨_, rfl, ?_⟩
  have h3 := pointer_to_offset_loop_le layout.text (line.start_index + v).toNat
    (line.start_index + v - line.start_index).toNat line.start_index.toNat 0 n (by omega)
  omega

/-- The loop `do ... while` of `pjx_layout_move_cursor_visually` ends within the
fuel it is given when it starts inside the line and every entry of the map it
reads was written. -/
theorem cursor_move_loop_total (layout : PangoLayout) (is_cursor_position : List Bool)
    (line : PangoLayoutLine) (vis2log_map : List (Option Int)) (start_offset : Int)
    (n_vis : Nat) (direction : Int) (n : Nat) (htext : LineText layout line n)
    (hmap : ∀ k : Nat, k ≤ n_vis → ∃ v, vis2log_map[k]? = some (some v) ∧ 0 ≤ v ∧
      v ≤ line.length)
    (hflags : ∀ k : Nat, k ≤ n →
      (cursor_position_at is_cursor_position (start_offset + k)).isSome) :
    ∀ (fuel : Nat) (vis_pos : Int),
      (0 < direction → 0 ≤ vis_pos + 1 ∧ vis_pos + 1 ≤ n_vis ∧ (n_vis : Int) - vis_pos ≤ fuel) →
      (¬ 0 < direction → 0 ≤ vis_pos - 1 ∧ vis_pos - 1 ≤ n_vis ∧ vis_pos ≤ fuel) →
      (cursor_move_loop layout is_cursor_position line vis2log_map start_offset n_vis direction
        fuel vis_pos).isSome := by
  intro fuel
  induction fuel with
  | zero =>
    intro vis_pos h1 h2
    by_cases hd : 0 < direction
    · have := h1 hd; omega
    · have := h2 hd; omega
  | succ fuel ih =>
    intro vis_pos h1 h2
    rw [cursor_move_loop]
    have hvp : ∃ vp1 : Int, vis_pos + (if 0 < direction then 1 else -1) = vp1 ∧ 0 ≤ vp1 ∧
        vp1 ≤ n_vis ∧ (0 < direction → (n_vis : Int) - vp1 ≤ fuel) ∧
        (¬ 0 < direction → vp1 ≤ fuel) := by
      by_cases hd : 0 < direction
      · have := h1 hd
        exact ⟨_, rfl, by simp only [hd, if_true]; omega, by simp only [hd, if_true]; omega,
          fun _ => by simp only [hd, if_true]; push_cast at this ⊢; omega, fun h => absurd hd h⟩
      · have := h2 hd
        exact ⟨_, rfl, by simp only [hd, if_false]; omega, by simp only [hd, if_false]; omega,
          fun h => absurd h hd, fun _ => by simp only [hd, if_false]; push_cast at this ⊢; omega⟩
    obtain ⟨vp1, hvp1, hlo, hhi, hf1, hf2⟩ := hvp
    rw [hvp1]
    rw [if_neg (by omega)]
    obtain ⟨v, hv, hv0, hv1⟩ := hmap vp1.toNat (by omega)
    rw [hv]
    simp only
    obtain ⟨lp, hlp, hlpn⟩ := pointer_to_offset_some layout line n htext v ⟨hv0, hv1⟩
    rw [hlp]
    simp only
    split
    · rename_i hin
      have hfl := hflags lp hlpn
      cases hc : cursor_position_at is_cursor_position (start_offset + (lp : Int)) with
      | none => rw [hc] at hfl; simp at hfl
      | some b =>
        cases b with
        | true => simp
        | false =>
          simp only
          exact ih vp1 (fun hd => ⟨by omega, by omega, by have := hf1 hd; omega⟩)
            (fun hd => ⟨by omega, by omega, by have := hf2 hd; omega⟩)
    · simp

/-- The last loop of `pjx_layout_move_cursor_visually` ends within the fuel it is
given when it starts at the start of character `j` of well-formed text. -/
theorem cursor_trailing_loop_total (layout : PangoLayout) (is_cursor_position : List Bool)
    (start_offset : Int) (start n : Nat) (hcb : CharBoundaries layout.text start n)
    (hflags : ∀ k : Nat, k ≤ n →
      (cursor_position_at is_cursor_position (start_offset + k)).isSome) :
    ∀ (fuel j : Nat) (log_pos new_trailing : Int),
      1 ≤ j → j ≤ n → log_pos ≤ j → log_pos < fuel → 1 ≤ fuel →
      (cursor_trailing_loop layout is_cursor_position start_offset fuel log_pos
        (g_utf8_offset_to_pointer layout.text start j : Nat) new_trailing).isSome := by
  intro fuel
  induction fuel with
  | zero => intro j log_pos t _ _ _ _ h; omega
  | succ fuel ih =>
    intro j log_pos t hj1 hjn hlp hfuel _
    obtain ⟨i, rfl⟩ : ∃ i, j = i + 1 := ⟨j - 1, by omega⟩
    have hprev := prev_char_otp layout.text start n i hcb (by omega)
    rw [cursor_trailing_loop]
    have hneg : ¬ ((g_utf8_offset_to_pointer layout.text start (i + 1) : Nat) : Int) < 0 := by
      omega
    rw [if_neg hneg, Int.toNat_ofNat, hprev]
    simp only
    split
    · rename_i hpos
      have hfl := hflags (log_pos - 1).toNat (by push_cast at hlp; omega)
      have hcast : (((log_pos - 1).toNat : Nat) : Int) = log_pos - 1 := by omega
      rw [hcast] at hfl
      cases hc : cursor_position_at is_cursor_position (start_offset + (log_pos - 1)) with
      | none => rw [hc] at hfl; simp at hfl
      | some b =>
        cases b with
        | true => simp
        | false =>
          simp only
          exact ih i (log_pos - 1) (t + 1) (by push_cast at hlp; omega) (by omega)
            (by push_cast at hlp ⊢; omega) (by push_cast at hfuel; omega)
            (by push_cast at hfuel; omega)
    · simp

/-- Away from the two ends, `pjx_layout_move_cursor_visually` on a well-formed
single line returns a position: no read is undefined and both loops end. -/
theorem move_cursor_returns (layout : PangoLayout) (is_cursor_position : List Bool)
    (line l : PangoLayoutLine) (strong : Bool) (old_index old_trailing direction : Int)
    (p nx : Option PangoLayoutLine) (so : Int) (n_vis : Nat) (oi2 vis_pos : Int) (n : Nat)
    (hs : cursor_start layout [line] strong old_index old_trailing =
      some (l, p, nx, so, n_vis, oi2, vis_pos))
    (htext : LineText layout line n) (hruns : RunsInLine layout line)
    (hflags : ∀ k : Nat, k ≤ n → (cursor_position_at is_cursor_position (so + k)).isSome)
    (hn1 : ¬ (vis_pos = 0 ∧ direction < 0)) (hn2 : ¬ (vis_pos = n_vis ∧ 0 < direction))
    (hdir : vis_pos = 0 → direction ≠ 0) :
    (pjx_layout_move_cursor_visually layout is_cursor_position [line] strong old_index
      old_trailing direction).isSome := by
  obtain ⟨rfl, rfl, rfl, hnv⟩ := cursor_start_single layout line l strong old_index old_trailing
    p nx so n_vis oi2 vis_pos hs
  obtain ⟨_, m, hmap, hmlen, hall, hvp0, hvpn⟩ := cursor_start_maps layout [l] strong old_index
    old_trailing l none none so n_vis oi2 vis_pos hs
  have htext2 := htext
  obtain ⟨hst, hlen, hcb, hend⟩ := htext
  have hent := vis2log_map_entries layout l strong m hmap hlen hruns
  have hmapk : ∀ k : Nat, k ≤ n_vis → ∃ v, m[k]? = some (some v) ∧ 0 ≤ v ∧ v ≤ l.length := by
    intro k hk
    have hkl : k < m.length := by omega
    have hmem : m[k] ∈ m := List.getElem_mem hkl
    obtain ⟨v, hv⟩ := hall _ hmem
    refine ⟨v, ?_, ?_⟩
    · rw [List.getElem?_eq_getElem hkl, hv]
    · exact hent v (by rw [← hv]; exact hmem)
  unfold pjx_layout_move_cursor_visually
  rw [hs]
  simp only [hn1, hn2, if_false, Bool.false_eq_true, false_and, not_false_eq_true, false_or,
    and_false]
  rw [hnv, hmap]
  simp only
  have hloop := cursor_move_loop_total layout is_cursor_position l m so n_vis direction n htext2
    hmapk hflags (n_vis + 1) vis_pos
    (fun hd => ⟨by omega, by
      have : vis_pos ≠ n_vis := fun h => hn2 ⟨h, hd⟩
      omega, by push_cast; omega⟩)
    (fun hd => ⟨by
      have : vis_pos ≠ 0 := fun h => by
        have h1 := hdir h
        have h2 : ¬ direction < 0 := fun h3 => hn1 ⟨h, h3⟩
        omega
      omega, by omega, by push_cast; omega⟩)
  cases hl : cursor_move_loop layout is_cursor_position l m so n_vis direction (n_vis + 1)
      vis_pos with
  | none => rw [hl] at hloop; simp at hloop
  | some r =>
    obtain ⟨vp2, lp⟩ := r
    simp only
    obtain ⟨_, v, hv, hlp⟩ := cursor_move_loop_result layout is_cursor_position l m so n_vis
      direction (n_vis + 1) vis_pos (vp2, lp) hl
    simp only at hv hlp
    rw [hv]
    simp only
    have hvr := hent v (List.mem_iff_getElem?.mpr ⟨_, hv⟩)
    by_cases hc : l.start_index + v = l.start_index + l.length ∧ 0 < l.length
    · rw [if_pos hc]
      have hvl : v = l.length := by omega
      have hn0 : 1 ≤ n := by
        rcases Nat.eq_zero_or_pos n with h0 | h0
        · subst h0
          simp only [g_utf8_offset_to_pointer] at hend
          omega
        · exact h0
      obtain ⟨lp2, hlp2, hlpn⟩ := pointer_to_offset_some layout l n htext2 v hvr
      rw [hlp] at hlp2
      simp only [Option.some.injEq] at hlp2
      have hidx : l.start_index + v =
          ((g_utf8_offset_to_pointer layout.text l.start_index.toNat n : Nat) : Int) := by
        omega
      rw [hidx]
      exact cursor_trailing_loop_total layout is_cursor_position so l.start_index.toNat n hcb
        hflags (lp.toNat + 1) n lp 0 hn0 (le_refl _) (by omega) (by omega) (by omega)
    · rw [if_neg hc]
      simp

/-! ### C14: the sentinels of `pjx_layout_move_cursor_visually` -/

/-- C14: in a layout of one well-formed line of `n` characters, a motion
(`direction ≠ 0`) that starts at visual position `vis_pos` of the line returns
`(-1, 0)` when it goes left from visual position 0 of a left-to-right line or right
from visual position `n` of a right-to-left line, `(G_MAXINT, 0)` when it goes right
from visual position `n` of a left-to-right line or left from visual position 0 of
a right-to-left line, and in every other case it returns a `new_index` inside
the bytes of the line. -/
theorem move_cursor_single_line (layout : PangoLayout) (is_cursor_position : List Bool)
    (line l : PangoLayoutLine) (strong : Bool) (old_index old_trailing direction : Int)
    (p nx : Option PangoLayoutLine) (so : Int) (n : Nat) (oi2 vis_pos : Int)
    (hs : cursor_start layout [line] strong old_index old_trailing =
      some (l, p, nx, so, n, oi2, vis_pos))
    (htext : LineText layout line n) (hruns : RunsInLine layout line)
    (hflags : ∀ k : Nat, k ≤ n → (cursor_position_at is_cursor_position (so + k)).isSome)
    (hdir : direction ≠ 0) :
    (vis_pos = 0 → direction < 0 →
      pjx_layout_move_cursor_visually layout is_cursor_position [line] strong old_index
        old_trailing direction =
        some (if line.resolved_dir = PangoDirection.LTR then -1 else (G_MAXINT : Int), 0)) ∧
    (vis_pos = n → 0 < direction →
      pjx_layout_move_cursor_visually layout is_cursor_position [line] strong old_index
        old_trailing direction =
        some (if line.resolved_dir = PangoDirection.LTR then (G_MAXINT : Int) else -1, 0)) ∧
    (¬ (vis_pos = 0 ∧ direction < 0) → ¬ (vis_pos = n ∧ 0 < direction) →
      ∃ new_index new_trailing,
        pjx_layout_move_cursor_visually layout is_cursor_position [line] strong old_index
          old_trailing direction = some (new_index, new_trailing) ∧
        line.start_index ≤ new_index ∧ new_index ≤ line.start_index + line.length ∧
        (0 < line.length → new_index < line.start_index + line.length)) := by
  obtain ⟨h1, h2⟩ := move_cursor_sentinels layout is_cursor_position line l strong old_index
    old_trailing direction p nx so n oi2 vis_pos hs
  refine ⟨h1, h2, fun hn1 hn2 => ?_⟩
  have hsome := move_cursor_returns layout is_cursor_position line l strong old_index
    old_trailing direction p nx so n oi2 vis_pos n hs htext hruns hflags hn1 hn2
    (fun _ => hdir)
  cases hres : pjx_layout_move_cursor_visually layout is_cursor_position [line] strong old_index
      old_trailing direction with
  | none => rw [hres] at hsome; simp at hsome
  | some r =>
    obtain ⟨new_index, new_trailing⟩ := r
    exact ⟨new_index, new_trailing, rfl,
      move_cursor_in_line layout is_cursor_position line l strong old_index old_trailing
        direction p nx so n oi2 vis_pos n hs htext hruns hn1 hn2 new_index new_trailing hres⟩

/-- Witness for C14: on the one left-to-right line of "abc", going left from byte 0
gives `(-1, 0)`, going right from byte 3 gives `(G_MAXINT, 0)`, and going right from
byte 2 gives byte 2 with one trailing character, inside the line. -/
theorem move_cursor_single_line_witness :
    pjx_layout_move_cursor_visually (cursor_layout [97, 98, 99] 3) (all_cursor_positions 3)
      [abc_ltr_line] true 0 0 (-1) = some (-1, 0) ∧
    pjx_layout_move_cursor_visually (cursor_layout [97, 98, 99] 3) (all_cursor_positions 3)
      [abc_ltr_line] true 3 0 1 = some ((G_MAXINT : Int), 0) ∧
    pjx_layout_move_cursor_visually (cursor_layout [97, 98, 99] 3) (all_cursor_positions 3)
      [abc_ltr_line] true 2 0 1 = some (2, 1) ∧
    ∃ new_index new_trailing,
      pjx_layout_move_cursor_visually (cursor_layout [97, 98, 99] 3) (all_cursor_positions 3)
        [abc_ltr_line] true 2 0 1 = some (new_index, new_trailing) ∧
      abc_ltr_line.start_index ≤ new_index ∧
      new_index ≤ abc_ltr_line.start_index + abc_ltr_line.length ∧
      (0 < abc_ltr_line.length → new_index < abc_ltr_line.start_index + abc_ltr_line.length) :=
  ⟨by decide, by decide, by decide,
    (move_cursor_single_line (cursor_layout [97, 98, 99] 3) (all_cursor_positions 3)
      abc_ltr_line abc_ltr_line true 2 0 1 none none 0 3 2 2 rfl (by decide)
      (by decide) (by decide) (by decide)).2.2 (by decide) (by decide)⟩

/-! ### The second entry of the map from visual to logical positions -/

/-- An assignment to the array is read back at its index. -/
theorem map_write_get (result r : List (Option Int)) (i : Nat) (v : Int)
    (h : map_write result i v = some r) : r[i]? = some (some v) := by
  unfold map_write at h
  split at h
  · rename_i hi
    simp only [Option.some.injEq] at h
    rw [← h, List.getElem?_set_self hi]
  · simp at h

/-- An assignment to the array leaves the other entries as they were. -/
theorem map_write_frame (result r : List (Option Int)) (i j : Nat) (v : Int)
    (h : map_write result i v = some r) (hj : i ≠ j) : r[j]? = result[j]? := by
  unfold map_write at h
  split at h
  · simp only [Option.some.injEq] at h
    rw [← h, List.getElem?_set_ne hj]
  · simp at h

/-- A conditional assignment to the array leaves the other entries as they were. -/
theorem map_write_if_frame (cond : Bool) (result r : List (Option Int)) (i j : Nat) (v : Int)
    (h : map_write_if cond result i v = some r) (hj : i ≠ j) : r[j]? = result[j]? := by
  unfold map_write_if at h
  split at h
  · exact map_write_frame result r i j v h hj
  · simp only [Option.some.injEq] at h
    rw [← h]

/-- The inner loop of `pjx_layout_line_get_vis2log_map` leaves the entries before
the run as they were. -/
theorem vis2log_run_loop_frame (text : List Nat) (start : Int) (pos m : Nat) (ltr : Bool)
    (j : Nat) (hj : j < pos) :
    ∀ (count i p : Nat) (result r : List (Option Int)) (p2 : Nat),
      vis2log_run_loop text start pos m ltr count i p result = some (r, p2) →
      (count = 0 ∨ i + count ≤ m) → r[j]? = result[j]? := by
  intro count
  induction count with
  | zero =>
    intro i p result r p2 h _
    simp only [vis2log_run_loop, Option.some.injEq, Prod.mk.injEq] at h
    rw [← h.1]
  | succ count ih =>
    intro i p result r p2 h hc
    rw [vis2log_run_loop] at h
    split at h
    · simp at h
    · rename_i r1 h1
      rw [ih _ _ _ _ _ h (by omega)]
      refine map_write_frame _ _ _ j _ h1 ?_
      split
      · omega
      · omega

/-- The body of the loop over the runs leaves the entries before the run as they
were. -/
theorem vis2log_run_frame (text : List Nat) (start : Int) (cursor_dir prev_dir : PangoDirection)
    (run : PangoLayoutRun) (pos : Nat) (result r : List (Option Int)) (j : Nat) (hj : j < pos)
    (h : vis2log_run text start cursor_dir prev_dir run pos result = some r) :
    r[j]? = result[j]? := by
  unfold vis2log_run at h
  simp only at h
  split at h
  · split at h
    · simp at h
    · rename_i r1 h1
      split at h
      · simp at h
      · rename_i r2 p2 h2
        rw [map_write_if_frame _ _ _ _ j _ h (by omega),
          vis2log_run_loop_frame _ _ _ _ _ j hj _ _ _ _ _ _ h2 (by omega),
          map_write_if_frame _ _ _ _ j _ h1 (by omega)]
  · split at h
    · simp at h
    · rename_i r1 h1
      split at h
      · simp at h
      · rename_i r2 p2 h2
        rw [map_write_if_frame _ _ _ _ j _ h (by omega),
          vis2log_run_loop_frame _ _ _ _ _ j hj _ _ _ _ _ _ h2 (by omega),
          map_write_if_frame _ _ _ _ j _ h1 (by omega)]

/-- The loop over the runs from visual position `pos` on leaves the entries before
`pos` as they were. -/
theorem vis2log_runs_frame (text : List Nat) (line : PangoLayoutLine)
    (cursor_dir : PangoDirection) (j : Nat) :
    ∀ (runs : List PangoLayoutRun) (prev_dir : PangoDirection) (pos : Nat)
      (result r : List (Option Int)), j < pos →
      vis2log_runs text line cursor_dir runs prev_dir pos result = some r →
      r[j]? = result[j]? := by
  intro runs
  induction runs with
  | nil =>
    intro prev_dir pos result r hj h
    rw [vis2log_runs] at h
    exact map_write_if_frame _ _ _ _ j _ h (by omega)
  | cons run rest ih =>
    intro prev_dir pos result r hj h
    rw [vis2log_runs] at h
    split at h
    · simp at h
    · rename_i r1 h1
      rw [ih _ _ _ _ (by omega) h, vis2log_run_frame _ _ _ _ _ _ _ _ j hj h1]

/-- The inner loop for a right-to-left run ends by writing the entry after the
first visual position of the run: the byte offset of the last character of the
run. -/
theorem vis2log_run_loop_rtl_last (text : List Nat) (start : Int) (pos m : Nat) :
    ∀ (count i p : Nat) (result r : List (Option Int)) (p2 : Nat),
      vis2log_run_loop text start pos m false (count + 1) i p result = some (r, p2) →
      i + (count + 1) = m →
      r[pos + 1]? = some (some ((g_utf8_offset_to_pointer text p count : Nat) - start)) := by
  intro count
  induction count with
  | zero =>
    intro i p result r p2 h hi
    rw [vis2log_run_loop] at h
    split at h
    · simp at h
    · rename_i r1 h1
      simp only [vis2log_run_loop, Option.some.injEq, Prod.mk.injEq] at h
      rw [← h.1]
      have hidx : pos + m - i = pos + 1 := by omega
      simp only [Bool.false_eq_true, if_false, hidx] at h1
      rw [map_write_get _ _ _ _ h1]
      rfl
  | succ count ih =>
    intro i p result r p2 h hi
    rw [vis2log_run_loop] at h
    split at h
    · simp at h
    · rename_i r1 h1
      rw [ih _ _ _ _ _ h (by omega), otp_succ]

/-- For a right-to-left run of two characters or more, the body of the loop over
the runs writes the byte offset of the last character of the run to the entry
after the first visual position of the run. -/
theorem vis2log_run_rtl_last (text : List Nat) (start : Int) (cursor_dir prev_dir : PangoDirection)
    (run : PangoLayoutRun) (pos : Nat) (result r : List (Option Int))
    (h : vis2log_run text start cursor_dir prev_dir run pos result = some r)
    (hrtl : run_dir run = PangoDirection.RTL) (hm : 2 ≤ run.item.num_chars) :
    r[pos + 1]? = some (some
      ((g_utf8_offset_to_pointer text run.item.offset (run.item.num_chars - 1) : Nat) -
        start)) := by
  unfold vis2log_run at h
  simp only at h
  have hne : ¬ run_dir run = PangoDirection.LTR := by rw [hrtl]; decide
  rw [if_neg hne] at h
  split at h
  · simp at h
  · rename_i r1 h1
    split at h
    · simp at h
    · rename_i r2 p2 h2
      obtain ⟨c, hc⟩ : ∃ c, run.item.num_chars = c + 2 := ⟨run.item.num_chars - 2, by omega⟩
      rw [hc] at h2 ⊢
      have h3 := vis2log_run_loop_rtl_last text start pos (c + 2) c 1
        (g_utf8_next_char text run.item.offset) r1 r2 p2 h2 (by omega)
      rw [map_write_if_frame _ _ _ _ (pos + 1) _ h (by omega), h3]
      have h4 : c + 2 - 1 = c + 1 := by omega
      rw [h4, otp_succ]

/-- When the visually first run of a line is right-to-left and has two characters
or more, the entry for visual position 1 is the byte offset of the last
character of that run. -/
theorem vis2log_map_second (layout : PangoLayout) (line : PangoLayoutLine) (strong : Bool)
    (m : List (Option Int)) (run : PangoLayoutRun) (rest : List PangoLayoutRun)
    (h : pjx_layout_line_get_vis2log_map layout line strong = some m)
    (hruns : line.runs = run :: rest) (hrtl : run_dir run = PangoDirection.RTL)
    (hm : 2 ≤ run.item.num_chars) :
    m[1]? = some (some
      ((g_utf8_offset_to_pointer layout.text run.item.offset (run.item.num_chars - 1) : Nat) -
        line.start_index)) := by
  unfold pjx_layout_line_get_vis2log_map at h
  split at h
  · simp at h
  · simp only at h
    generalize (if strong = true then line.resolved_dir
      else if line.resolved_dir = PangoDirection.LTR then PangoDirection.RTL
      else PangoDirection.LTR) = cursor_dir at h
    cases h0 : map_write_if (decide (line.resolved_dir = cursor_dir))
        (List.replicate (_ + 1) none) 0
        (if line.resolved_dir = PangoDirection.LTR then 0 else line.length) with
    | none => rw [h0] at h; simp at h
    | some r0 =>
      rw [h0] at h
      simp only [hruns] at h
      rw [vis2log_runs] at h
      split at h
      · simp at h
      · rename_i r1 h1
        rw [vis2log_runs_frame _ _ _ 1 _ _ _ _ _ (by omega) h]
        exact vis2log_run_rtl_last _ _ _ _ _ 0 _ _ h1 hrtl hm

/-! ### C30: the blended channel -/

/-- C30: for a coverage `g` and matrix entries `b` (background) and `f` (foreground)
that are bytes, the sum `b * (256 - g) + f * g` of
`SDLPangoDraw_CopyFTBitmapToSurface` fits in 16 bits, the channel
`(b * (256 - g) + f * g) >> 8` lies between `min b f` and `max b f`, and it is `b`
when `g = 0`. -/
theorem blend_channel_bounds (b f g : Nat) (hb : b ≤ 255) (hf : f ≤ 255) (hg : g ≤ 255) :
    blend_sum b f g < 65536 ∧
    blend_channel b f g = blend_sum b f g / 256 ∧
    min b f ≤ blend_channel b f g ∧ blend_channel b f g ≤ max b f ∧
    (g = 0 → blend_channel b f g = b) := by
  have hsum : blend_sum b f g ≤ 255 * 256 := by
    unfold blend_sum
    have h1 : b * (256 - g) ≤ 255 * (256 - g) := Nat.mul_le_mul_right _ hb
    have h2 : f * g ≤ 255 * g := Nat.mul_le_mul_right _ hf
    have h3 : 255 * (256 - g) + 255 * g = 255 * 256 := by
      rw [← Nat.mul_add]
      congr 1
      omega
    omega
  have hlo : min b f * 256 ≤ blend_sum b f g := by
    unfold blend_sum
    have h1 : min b f * (256 - g) ≤ b * (256 - g) := Nat.mul_le_mul_right _ (Nat.min_le_left b f)
    have h2 : min b f * g ≤ f * g := Nat.mul_le_mul_right _ (Nat.min_le_right b f)
    have h3 : min b f * (256 - g) + min b f * g = min b f * 256 := by
      rw [← Nat.mul_add]
      congr 1
      omega
    omega
  have hhi : blend_sum b f g ≤ max b f * 256 := by
    unfold blend_sum
    have h1 : b * (256 - g) ≤ max b f * (256 - g) := Nat.mul_le_mul_right _ (Nat.le_max_left b f)
    have h2 : f * g ≤ max b f * g := Nat.mul_le_mul_right _ (Nat.le_max_right b f)
    have h3 : max b f * (256 - g) + max b f * g = max b f * 256 := by
      rw [← Nat.mul_add]
      congr 1
      omega
    omega
  have hch : blend_channel b f g = blend_sum b f g / 256 := by
    unfold blend_channel
    simp only
    omega
  refine ⟨by omega, hch, ?_, ?_, ?_⟩
  · rw [hch]
    omega
  · rw [hch]
    omega
  · intro h0
    subst h0
    rw [hch]
    unfold blend_sum
    simp

/-- Witness for C30: half coverage of white (255) over black (0) gives 127, and no
coverage (`g = 0`) gives the background. -/
theorem blend_channel_bounds_witness :
    blend_channel 0 255 128 = 127 ∧ blend_channel 200 17 0 = 200 ∧
    (blend_sum 0 255 128 < 65536 ∧
      blend_channel 0 255 128 = blend_sum 0 255 128 / 256 ∧
      min 0 255 ≤ blend_channel 0 255 128 ∧ blend_channel 0 255 128 ≤ max 0 255 ∧
      (128 = 0 → blend_channel 0 255 128 = 0)) :=
  ⟨by decide, by decide, blend_channel_bounds 0 255 128 (by decide) (by decide) (by decide)⟩

/-! ### C25: the tab stop search of `shape_tab` -/

/-- The tab width `ensure_tab_width` leaves in the layout is positive. -/
theorem ensure_tab_width_pos (ext : Collaborators) (layout : PangoLayout)
    (htw : layout.tab_width = -1 ∨ 0 < layout.tab_width) : 0 < ensure_tab_width ext layout := by
  unfold ensure_tab_width
  split
  · split
    · unfold PANGO_SCALE; decide
    · omega
  · omega

/-- Past the explicit tab stops the positions grow by a fixed positive gap. -/
theorem tab_stop_extrapolated (ext : Collaborators) (layout : PangoLayout)
    (htw : layout.tab_width = -1 ∨ 0 < layout.tab_width) :
    ∃ gap : Int, 0 < gap ∧ ∀ j : Nat,
      tab_stop ext layout ((match layout.tabs with
        | some tabs => tabs.positions.length
        | none => 0) + j) =
      tab_stop ext layout (match layout.tabs with
        | some tabs => tabs.positions.length
        | none => 0) + gap * j := by
  have hpos := ensure_tab_width_pos ext layout htw
  cases ht : layout.tabs with
  | none =>
    refine ⟨ensure_tab_width ext layout, hpos, fun j => ?_⟩
    simp [tab_stop, ht]
  | some tabs =>
    simp only
    by_cases h0 : 0 < tabs.positions.length
    · have hform : ∀ idx : Nat, tabs.positions.length ≤ idx →
          tab_stop ext layout idx =
            (if tabs.positions_in_pixels then
                tabs.positions.getD (tabs.positions.length - 1) 0 * PANGO_SCALE
              else tabs.positions.getD (tabs.positions.length - 1) 0) +
            (if (if tabs.positions_in_pixels then
                    (if 1 < tabs.positions.length then
                      tabs.positions.getD (tabs.positions.length - 2) 0 else 0) * PANGO_SCALE
                  else (if 1 < tabs.positions.length then
                      tabs.positions.getD (tabs.positions.length - 2) 0 else 0)) <
                (if tabs.positions_in_pixels then
                    tabs.positions.getD (tabs.positions.length - 1) 0 * PANGO_SCALE
                  else tabs.positions.getD (tabs.positions.length - 1) 0) then
              (if tabs.positions_in_pixels then
                  tabs.positions.getD (tabs.positions.length - 1) 0 * PANGO_SCALE
                else tabs.positions.getD (tabs.positions.length - 1) 0) -
              (if tabs.positions_in_pixels then
                  (if 1 < tabs.positions.length then
                    tabs.positions.getD (tabs.positions.length - 2) 0 else 0) * PANGO_SCALE
                else (if 1 < tabs.positions.length then
                    tabs.positions.getD (tabs.positions.length - 2) 0 else 0))
            else ensure_tab_width ext layout) *
              ((idx : Int) - tabs.positions.length + 1) := by
        intro idx hidx
        simp only [tab_stop, ht]
        rw [if_neg (by omega), if_pos h0]
      generalize (if tabs.positions_in_pixels then
          tabs.positions.getD (tabs.positions.length - 1) 0 * PANGO_SCALE
        else tabs.positions.getD (tabs.positions.length - 1) 0) = last_pos at hform
      generalize (if tabs.positions_in_pixels then
          (if 1 < tabs.positions.length then
            tabs.positions.getD (tabs.positions.length - 2) 0 else 0) * PANGO_SCALE
        else (if 1 < tabs.positions.length then
            tabs.positions.getD (tabs.positions.length - 2) 0 else 0)) = next_to_last_pos
        at hform
      refine ⟨if next_to_last_pos < last_pos then last_pos - next_to_last_pos
        else ensure_tab_width ext layout, ?_, fun j => ?_⟩
      · split
        · omega
        · exact hpos
      · rw [hform _ (Nat.le_add_right _ _), hform _ (le_refl _)]
        push_cast
        ring
    · have hz : tabs.positions.length = 0 := by omega
      refine ⟨ensure_tab_width ext layout, hpos, fun j => ?_⟩
      simp [tab_stop, ht, hz]

theorem int_value_eq_some (x v : Int) :
    int_value x = some v ↔ v = x ∧ G_MININT ≤ x ∧ x ≤ (G_MAXINT : Int) := by
  unfold int_value
  split
  · rename_i h
    simp only [Option.some.injEq]
    exact ⟨fun e => ⟨e.symm, h⟩, fun e => e.1.symm⟩
  · rename_i h
    simp only [false_iff, reduceCtorEq]
    exact fun e => h e.2

theorem int_value_ite (c : Prop) [Decidable c] (a b : Int) :
    (if c then int_value a else int_value b) = int_value (if c then a else b) := by
  split <;> rfl

/-- What `get_tab_pos` returns is the tab stop in unbounded integers, and lies in
the range of `int`. -/
theorem get_tab_pos_sound (ext : Collaborators) (layout : PangoLayout) (k : Nat) (v : Int)
    (h : get_tab_pos ext layout k = some v) :
    v = tab_stop ext layout k ∧ G_MININT ≤ v ∧ v ≤ (G_MAXINT : Int) := by
  unfold get_tab_pos at h
  unfold tab_stop
  simp only [int_value_ite] at h ⊢
  split at h
  · rename_i h1
    rw [if_pos h1]
    rw [int_value_eq_some] at h
    obtain ⟨h, h2⟩ := h
    subst h
    refine ⟨?_, h2⟩
    split <;> rfl
  · rename_i h1
    rw [if_neg h1]
    split at h
    · rename_i h2
      rw [if_pos h2]
      split at h
      · exact absurd h (by simp)
      · rename_i ntl hntl
        split at h
        · exact absurd h (by simp)
        · rename_i last hlast
          split at h
          · exact absurd h (by simp)
          · rename_i tw htw
            split at h
            · exact absurd h (by simp)
            · rename_i count hcount
              split at h
              · exact absurd h (by simp)
              · rename_i gap hgap
                rw [int_value_eq_some] at h hgap hcount htw hlast hntl
                obtain ⟨h, hr⟩ := h
                subst h
                refine ⟨?_, hr⟩
                rw [hgap.1, hcount.1, htw.1, hlast.1, hntl.1]
    · rename_i h2
      rw [if_neg h2]
      split at h
      · exact absurd h (by simp)
      · rename_i tw htw
        rw [int_value_eq_some] at h htw
        obtain ⟨h, hr⟩ := h
        subst h
        exact ⟨by rw [htw.1], hr⟩

theorem int_value_of_range (x : Int) (h0 : 0 ≤ x) (h1 : x ≤ (G_MAXINT : Int)) :
    int_value x = some x := by
  rw [int_value_eq_some]
  refine ⟨rfl, ?_, h1⟩
  unfold G_MININT
  omega

/-- When the tab positions are not negative and the stops up to `k` are at most
`G_MAXINT`, `get_tab_pos` computes the stop `k` without overflow. -/
theorem get_tab_pos_complete (ext : Collaborators) (layout : PangoLayout) (k : Nat)
    (htw : 0 < ensure_tab_width ext layout)
    (hpos : ∀ tabs, layout.tabs = some tabs → ∀ p ∈ tabs.positions, 0 ≤ p)
    (hk : tab_stop ext layout k ≤ (G_MAXINT : Int))
    (hprev : ∀ j, j < k → tab_stop ext layout j ≤ (G_MAXINT : Int))
    (htwm : (match layout.tabs with
        | some tabs => tabs.positions.length
        | none => 0) = 0 → ensure_tab_width ext layout ≤ (G_MAXINT : Int)) :
    get_tab_pos ext layout k = some (tab_stop ext layout k) := by
  have hzero : (match layout.tabs with
        | some tabs => tabs.positions.length
        | none => 0) = 0 →
      get_tab_pos ext layout k = some (tab_stop ext layout k) := by
    intro hn
    have hts : tab_stop ext layout k = ensure_tab_width ext layout * k := by
      simp only [tab_stop, hn, Nat.not_lt_zero, if_false, lt_irrefl]
    have hg : get_tab_pos ext layout k =
        match int_value (ensure_tab_width ext layout) with
        | none => none
        | some tab_width => int_value (tab_width * k) := by
      simp only [get_tab_pos, hn, Nat.not_lt_zero, if_false, lt_irrefl]
    rw [hg, int_value_of_range _ (le_of_lt htw) (htwm hn)]
    simp only
    rw [hts]
    apply int_value_of_range
    · exact Int.mul_nonneg (le_of_lt htw) (Int.ofNat_nonneg _)
    · rw [← hts]; exact hk
  cases ht : layout.tabs with
  | none => exact hzero (by rw [ht])
  | some tabs =>
    by_cases hn0 : tabs.positions.length = 0
    · exact hzero (by rw [ht]; exact hn0)
    have hnn : ∀ i, 0 ≤ tabs.positions.getD i 0 := by
      intro i
      rw [List.getD_eq_getElem?_getD]
      cases hi : tabs.positions[i]? with
      | none => simp
      | some p => exact hpos tabs ht p (List.mem_iff_getElem?.mpr ⟨i, hi⟩)
    have hscale : ∀ x : Int, 0 ≤ x →
        0 ≤ (if tabs.positions_in_pixels then x * PANGO_SCALE else x) := by
      intro x hx
      split
      · exact Int.mul_nonneg hx (by unfold PANGO_SCALE; decide)
      · exact hx
    have hexp : ∀ j, j < tabs.positions.length → tab_stop ext layout j =
        if tabs.positions_in_pixels then tabs.positions.getD j 0 * PANGO_SCALE
        else tabs.positions.getD j 0 := by
      intro j hj
      simp only [tab_stop, ht, hj, if_true]
    by_cases hkn : k < tabs.positions.length
    · rw [hexp k hkn] at hk ⊢
      simp only [get_tab_pos, ht, hkn, if_true, int_value_ite]
      exact int_value_of_range _ (hscale _ (hnn k)) hk
    · have hL := hprev (tabs.positions.length - 1) (by omega)
      rw [hexp _ (by omega)] at hL
      have hN : (if tabs.positions_in_pixels then
            (if 1 < tabs.positions.length then
              tabs.positions.getD (tabs.positions.length - 2) 0 else 0) * PANGO_SCALE
          else (if 1 < tabs.positions.length then
              tabs.positions.getD (tabs.positions.length - 2) 0 else 0)) ≤
          (G_MAXINT : Int) := by
        by_cases h1 : 1 < tabs.positions.length
        · have := hprev (tabs.positions.length - 2) (by omega)
          rw [hexp _ (by omega)] at this
          simp only [h1, if_true]
          exact this
        · simp only [h1, if_false, zero_mul, ite_self]
          unfold G_MAXINT
          decide
      have hN0 : 0 ≤ (if tabs.positions_in_pixels then
            (if 1 < tabs.positions.length then
              tabs.positions.getD (tabs.positions.length - 2) 0 else 0) * PANGO_SCALE
          else (if 1 < tabs.positions.length then
              tabs.positions.getD (tabs.positions.length - 2) 0 else 0)) := by
        apply hscale
        split
        · exact hnn _
        · exact le_refl _
      have hL0 := hscale _ (hnn (tabs.positions.length - 1))
      have hts : tab_stop ext layout k =
          (if tabs.positions_in_pixels then
              tabs.positions.getD (tabs.positions.length - 1) 0 * PANGO_SCALE
            else tabs.positions.getD (tabs.positions.length - 1) 0) +
          (if (if tabs.positions_in_pixels then
                (if 1 < tabs.positions.length then
                  tabs.positions.getD (tabs.positions.length - 2) 0 else 0) * PANGO_SCALE
              else (if 1 < tabs.positions.length then
                  tabs.positions.getD (tabs.positions.length - 2) 0 else 0)) <
              (if tabs.positions_in_pixels then
                tabs.positions.getD (tabs.positions.length - 1) 0 * PANGO_SCALE
              else tabs.positions.getD (tabs.positions.length - 1) 0) then
            (if tabs.positions_in_pixels then
                tabs.positions.getD (tabs.positions.length - 1) 0 * PANGO_SCALE
              else tabs.positions.getD (tabs.positions.length - 1) 0) -
            (if tabs.positions_in_pixels then
                (if 1 < tabs.positions.length then
                  tabs.positions.getD (tabs.positions.length - 2) 0 else 0) * PANGO_SCALE
              else (if 1 < tabs.positions.length then
                  tabs.positions.getD (tabs.positions.length - 2) 0 else 0))
          else ensure_tab_width ext layout) *
            ((k : Int) - tabs.positions.length + 1) := by
        simp only [tab_stop, ht]
        rw [if_neg hkn, if_pos (by omega)]
      have hg : get_tab_pos ext layout k =
          match int_value (if tabs.positions_in_pixels then
              (if 1 < tabs.positions.length then
                tabs.positions.getD (tabs.positions.length - 2) 0 else 0) * PANGO_SCALE
            else (if 1 < tabs.positions.length then
                tabs.positions.getD (tabs.positions.length - 2) 0 else 0)) with
          | none => none
          | some next_to_last_pos =>
            match int_value (if tabs.positions_in_pixels then
                tabs.positions.getD (tabs.positions.length - 1) 0 * PANGO_SCALE
              else tabs.positions.getD (tabs.positions.length - 1) 0) with
            | none => none
            | some last_pos =>
              match int_value (if next_to_last_pos < last_pos then last_pos - next_to_last_pos
                  else ensure_tab_width ext layout) with
              | none => none
              | some tab_width =>
                match int_value ((k : Int) - tabs.positions.length + 1) with
                | none => none
                | some count =>
                  match int_value (tab_width * count) with
                  | none => none
                  | some gap => int_value (last_pos + gap) := by
        simp only [get_tab_pos, ht, int_value_ite]
        rw [if_neg hkn, if_pos (by omega)]
      rw [hg, hts]
      rw [hts] at hk
      generalize (if tabs.positions_in_pixels then
          tabs.positions.getD (tabs.positions.length - 1) 0 * PANGO_SCALE
        else tabs.positions.getD (tabs.positions.length - 1) 0) = L at hL hL0 hk ⊢
      generalize (if tabs.positions_in_pixels then
          (if 1 < tabs.positions.length then
            tabs.positions.getD (tabs.positions.length - 2) 0 else 0) * PANGO_SCALE
        else (if 1 < tabs.positions.length then
            tabs.positions.getD (tabs.positions.length - 2) 0 else 0)) = N at hN hN0 hk ⊢
      generalize hG : (if N < L then L - N else ensure_tab_width ext layout) = G at hk ⊢
      have hG0 : 0 < G := by
        rw [← hG]
        split
        · omega
        · exact htw
      have hc1 : (1 : Int) ≤ (k : Int) - tabs.positions.length + 1 := by omega
      generalize (k : Int) - tabs.positions.length + 1 = c at hk hc1 ⊢
      have hGc : G ≤ G * c := by nlinarith
      have hcG : c ≤ G * c := by nlinarith
      have hGc0 : 0 ≤ G * c := by nlinarith
      rw [int_value_of_range N hN0 hN]
      simp only
      rw [int_value_of_range L hL0 hL]
      simp only
      rw [hG, int_value_of_range G (le_of_lt hG0) (by omega)]
      simp only
      rw [int_value_of_range c (by omega) (by omega)]
      simp only
      rw [int_value_of_range (G * c) hGc0 (by omega)]
      simp only
      exact int_value_of_range _ (by omega) hk

/-- In unbounded integers there is a tab stop of lowest index beyond `current_width`,
and the iterations `shape_tab` is given reach it. -/
theorem tab_stop_next (ext : Collaborators) (layout : PangoLayout) (current_width : Int)
    (htw : layout.tab_width = -1 ∨ 0 < layout.tab_width) :
    ∃ i : Nat, current_width < tab_stop ext layout i ∧
      (∀ j, j < i → tab_stop ext layout j ≤ current_width) ∧
      i < shape_tab_bound ext layout current_width := by
  obtain ⟨gap, hgap, hext⟩ := tab_stop_extrapolated ext layout htw
  generalize hn : (match layout.tabs with
    | some tabs => tabs.positions.length
    | none => 0) = n_tabs at hext
  have hbound : shape_tab_bound ext layout current_width =
      n_tabs + (current_width - tab_stop ext layout n_tabs).toNat + 2 := by
    unfold shape_tab_bound
    simp only [hn]
  have hk := hext ((current_width - tab_stop ext layout n_tabs).toNat + 1)
  have hfar : current_width <
      tab_stop ext layout
        (n_tabs + ((current_width - tab_stop ext layout n_tabs).toNat + 1)) := by
    rw [hk]
    have hm : (((current_width - tab_stop ext layout n_tabs).toNat + 1 : Nat) : Int) ≤
        gap * (((current_width - tab_stop ext layout n_tabs).toNat + 1 : Nat) : Int) := by
      have h1 : (0 : Int) ≤
          (((current_width - tab_stop ext layout n_tabs).toNat + 1 : Nat) : Int) := by
        omega
      nlinarith
    push_cast at hm ⊢
    omega
  have hex : ∃ i : Nat, current_width < tab_stop ext layout i := ⟨_, hfar⟩
  refine ⟨Nat.find hex, Nat.find_spec hex, fun j hj => ?_, ?_⟩
  · exact not_lt.mp (Nat.find_min hex hj)
  · have := Nat.find_min' hex hfar
    rw [hbound]
    omega

/-- The search of `shape_tab` returns the width for the stop `i` when `i` is the
first stop beyond `current_width` and the stops up to `i` are computed without
overflow. -/
theorem shape_tab_search_found (ext : Collaborators) (layout : PangoLayout)
    (current_width : Int) (i : Nat) (hi : (i : Int) ≤ (G_MAXINT : Int))
    (hget : ∀ j, j ≤ i → get_tab_pos ext layout j = some (tab_stop ext layout j))
    (hgt : current_width < tab_stop ext layout i)
    (hmin : ∀ j, j < i → tab_stop ext layout j ≤ current_width) :
    ∀ (fuel j : Nat), j ≤ i → i < j + fuel →
      shape_tab_search ext layout current_width fuel j =
        int_value (tab_stop ext layout i - current_width) := by
  intro fuel
  induction fuel with
  | zero => intro j h1 h2; omega
  | succ fuel ih =>
    intro j h1 h2
    rw [shape_tab_search, if_neg (by omega), hget j h1]
    simp only
    by_cases hji : j = i
    · subst hji
      rw [if_pos hgt]
    · rw [if_neg (not_lt.mpr (hmin j (by omega)))]
      exact ih (j + 1) (by omega) (by omega)

/-- The search of `shape_tab` has no result when the first stop beyond
`current_width`, or its index, is beyond `G_MAXINT`. -/
theorem shape_tab_search_overflow (ext : Collaborators) (layout : PangoLayout)
    (current_width : Int) (i : Nat)
    (hmin : ∀ j, j < i → tab_stop ext layout j ≤ current_width)
    (hbad : (G_MAXINT : Int) < tab_stop ext layout i ∨ (G_MAXINT : Int) < (i : Int)) :
    ∀ (fuel j : Nat), j ≤ i → shape_tab_search ext layout current_width fuel j = none := by
  intro fuel
  induction fuel with
  | zero => intro j _; rfl
  | succ fuel ih =>
    intro j h1
    rw [shape_tab_search]
    split
    · rfl
    · rename_i hj
      cases hg : get_tab_pos ext layout j with
      | none => rfl
      | some v =>
        obtain ⟨hv, _, hv2⟩ := get_tab_pos_sound ext layout j v hg
        simp only
        by_cases hji : j = i
        · subst hji
          rcases hbad with hbad | hbad
          · rw [hv] at hv2; omega
          · omega
        · rw [if_neg (by rw [hv]; exact not_lt.mpr (hmin j (by omega)))]
          exact ih (j + 1) (by omega)

/-- C25, counterexample: one tab stop at 1073741824 and a line of that width. The
stop does not lie beyond the width; the next stop, one gap further, is 2147483648,
above `G_MAXINT`: `get_tab_pos` overflows for the index 1 and `shape_tab` produces
no glyph. -/
theorem shape_tab_overflow_counterexample :
    line_width wide_line = 1073741824 ∧
    (List.range 2).map (tab_stop fixed_width_shaper far_tab_layout) =
      [1073741824, 2147483648] ∧
    (List.range 2).map (get_tab_pos fixed_width_shaper far_tab_layout) =
      [some 1073741824, none] ∧
    shape_tab fixed_width_shaper far_tab_layout wide_line = none := by
  refine ⟨by decide, by decide, by decide, by decide⟩

/-- C25, amended: for every tab array (or none) whose positions are not negative and
every line of width at least 0, there is a tab stop of lowest index `i` beyond the
current width of the line (positions in unbounded integers: explicit stops first,
then stops that repeat the last gap or the tab width). When that stop and its
index are at most `G_MAXINT`, `shape_tab` produces exactly one glyph, with ID 0 and
the width `tab_pos - current_width > 0`; when the stop or its index is beyond
`G_MAXINT`, the search overflows `int` and produces nothing. The tab width of the
layout is `-1` (not measured yet) or positive, as `ensure_tab_width` leaves it. -/
theorem shape_tab_next_stop (ext : Collaborators) (layout : PangoLayout)
    (line : PangoLayoutLine) (htw : layout.tab_width = -1 ∨ 0 < layout.tab_width)
    (hcw : 0 ≤ line_width line)
    (hpos : ∀ tabs, layout.tabs = some tabs → ∀ p ∈ tabs.positions, 0 ≤ p) :
    ∃ i : Nat,
      0 < tab_stop ext layout i - line_width line ∧
      (∀ j, j < i → tab_stop ext layout j ≤ line_width line) ∧
      (tab_stop ext layout i ≤ (G_MAXINT : Int) → (i : Int) ≤ (G_MAXINT : Int) →
        shape_tab ext layout line =
          some { glyphs := [{ glyph := 0, width := tab_stop ext layout i - line_width line,
                              x_offset := 0, y_offset := 0, is_cluster_start := true }],
                 log_clusters := [0] }) ∧
      ((G_MAXINT : Int) < tab_stop ext layout i ∨ (G_MAXINT : Int) < (i : Int) →
        shape_tab ext layout line = none) := by
  obtain ⟨i, hgt, hmin, hfuel⟩ := tab_stop_next ext layout (line_width line) htw
  refine ⟨i, by omega, hmin, fun hmax hidx => ?_, fun hbad => ?_⟩
  · have htwp := ensure_tab_width_pos ext layout htw
    have htwm : (match layout.tabs with
          | some tabs => tabs.positions.length
          | none => 0) = 0 → ensure_tab_width ext layout ≤ (G_MAXINT : Int) := by
      intro hn
      have hts : ∀ m : Nat, tab_stop ext layout m = ensure_tab_width ext layout * m := by
        intro m
        simp only [tab_stop, hn, Nat.not_lt_zero, if_false, lt_irrefl]
      have hi0 : i ≠ 0 := by
        intro h0
        rw [h0, hts 0] at hgt
        simp only [Nat.cast_zero, mul_zero] at hgt
        omega
      have h1 : (1 : Int) ≤ (i : Int) := by omega
      rw [hts i] at hmax
      nlinarith
    have hget : ∀ j, j ≤ i → get_tab_pos ext layout j = some (tab_stop ext layout j) := by
      intro j hj
      apply get_tab_pos_complete ext layout j htwp hpos _ _ htwm
      · rcases Nat.lt_or_eq_of_le hj with h | h
        · have := hmin j h
          omega
        · rw [h]; exact hmax
      · intro j2 hj2
        have := hmin j2 (by omega)
        omega
    unfold shape_tab
    rw [shape_tab_search_found ext layout (line_width line) i hidx hget hgt hmin _ 0
      (Nat.zero_le _) (by omega)]
    rw [int_value_of_range _ (by omega) (by omega)]
  · unfold shape_tab
    rw [shape_tab_search_overflow ext layout (line_width line) i hmin hbad _ 0 (Nat.zero_le _)]

/-- Witness for C25: with the stops 100 and 250 (a last gap of 150) and a line
whose glyphs are 260 wide, the next stop is the extrapolated stop 400, of index 2:
`shape_tab` produces one glyph of ID 0 and width 140. -/
theorem shape_tab_next_stop_witness :
    (stops_layout.tab_width = -1 ∨ 0 < stops_layout.tab_width) ∧
    line_width long_line = 260 ∧
    (∀ tabs, stops_layout.tabs = some tabs → ∀ p ∈ tabs.positions, 0 ≤ p) ∧
    (List.range 3).map (tab_stop fixed_width_shaper stops_layout) = [100, 250, 400] ∧
    shape_tab fixed_width_shaper stops_layout long_line =
      some { glyphs := [{ glyph := 0, width := 140, x_offset := 0, y_offset := 0,
                          is_cluster_start := true }],
             log_clusters := [0] } ∧
    ∃ i : Nat,
      0 < tab_stop fixed_width_shaper stops_layout i - line_width long_line ∧
      (∀ j, j < i → tab_stop fixed_width_shaper stops_layout j ≤ line_width long_line) ∧
      (tab_stop fixed_width_shaper stops_layout i ≤ (G_MAXINT : Int) →
        (i : Int) ≤ (G_MAXINT : Int) →
        shape_tab fixed_width_shaper stops_layout long_line =
          some { glyphs := [{ glyph := 0,
                              width := tab_stop fixed_width_shaper stops_layout i -
                                line_width long_line,
                              x_offset := 0, y_offset := 0, is_cluster_start := true }],
                 log_clusters := [0] }) ∧
      ((G_MAXINT : Int) < tab_stop fixed_width_shaper stops_layout i ∨
          (G_MAXINT : Int) < (i : Int) →
        shape_tab fixed_width_shaper stops_layout long_line = none) :=
  ⟨by decide, by decide, by decide, by decide, by decide,
    shape_tab_next_stop fixed_width_shaper stops_layout long_line (by decide) (by decide)
      (by decide)⟩

/-! ## The break loop of `process_item` -/

/-- One step of the break loop takes the logical width of one more character off
the width. -/
theorem prefix_width_succ (state : ParaBreakState) (n : Nat) (width w : Int) (k : Nat)
    (hk : k ≤ n) (hw : state.log_widths[state.log_widths_offset + n]? = some w) :
    prefix_width state (n + 1) width k = prefix_width state n (width - w) k := by
  unfold prefix_width
  have h1 : n + 1 - k = (n - k) + 1 := by omega
  have h2 : state.log_widths_offset + k + (n - k) = state.log_widths_offset + n := by omega
  rw [h1, sum_log_widths, h2, hw]
  cases sum_log_widths state.log_widths (state.log_widths_offset + k) (n - k) with
  | none => rfl
  | some s =>
    simp only [Option.map_some']
    congr 1
    ring

/-- What the loop `while (--num_chars >= 0)` of `process_item` returns. Either no
character count below `n` is a break position the loop may use, and the triple is
the one it was given; or the triple is a break after `k < n` characters, with the
width and the end width of the first `k` characters, and every break position
above `k` was tried and found too wide. -/
theorem break_loop_spec (layout : PangoLayout) (has_runs : Bool) (state : ParaBreakState)
    (glyphs : List PangoGlyphInfo) (ruby retrying : Bool) :
    ∀ (n : Nat) (width : Int) (acc res : Nat × Int × Int),
      break_loop layout has_runs state glyphs ruby retrying n width acc = some res →
      (res = acc ∧ ∀ k, k < n →
        ¬ (can_break_at layout (state.start_offset + k) retrying = some true ∧
          (0 < k ∨ has_runs = true) ∧ ruby = false)) ∨
      (res.1 < n ∧ can_break_at layout (state.start_offset + res.1) retrying = some true ∧
        (0 < res.1 ∨ has_runs = true) ∧ ruby = false ∧
        prefix_width state n width res.1 = some res.2.1 ∧
        break_end_width glyphs res.1 res.2.1 = some res.2.2 ∧
        ∀ k, res.1 < k → k < n →
          can_break_at layout (state.start_offset + k) retrying = some true →
          ∃ ew, candidate_end_width state glyphs n width k = some ew ∧
            state.remaining_width < ew ∧ ¬ (k = 1 ∧ has_runs = false)) := by
  intro n
  induction n with
  | zero =>
    intro width acc res h
    simp only [break_loop, Option.some.injEq] at h
    exact Or.inl ⟨h.symm, fun k hk => by omega⟩
  | succ n ih =>
    intro width acc res h
    rw [break_loop] at h
    cases hw : state.log_widths[state.log_widths_offset + n]? with
    | none => rw [hw] at h; simp at h
    | some w =>
      rw [hw] at h
      simp only at h
      cases hcan : can_break_at layout (state.start_offset + n) retrying with
      | none => rw [hcan] at h; simp at h
      | some can =>
        rw [hcan] at h
        simp only at h
        have hpw : prefix_width state (n + 1) width n = some (width - w) := by
          unfold prefix_width
          have h1 : n + 1 - n = 0 + 1 := by omega
          rw [h1, sum_log_widths, sum_log_widths]
          simp only [Nat.add_zero, hw, Option.map_some']
          congr 1
          ring
        have lift : ∀ (r : Nat × Int × Int),
            (r.1 < n ∧ can_break_at layout (state.start_offset + r.1) retrying = some true ∧
              (0 < r.1 ∨ has_runs = true) ∧ ruby = false ∧
              prefix_width state n (width - w) r.1 = some r.2.1 ∧
              break_end_width glyphs r.1 r.2.1 = some r.2.2 ∧
              ∀ k, r.1 < k → k < n →
                can_break_at layout (state.start_offset + k) retrying = some true →
                ∃ ew, candidate_end_width state glyphs n (width - w) k = some ew ∧
                  state.remaining_width < ew ∧ ¬ (k = 1 ∧ has_runs = false)) →
            (∀ ew, can = true → break_end_width glyphs n (width - w) = some ew →
              state.remaining_width < ew ∧ ¬ (n = 1 ∧ has_runs = false)) →
            (can = true → ∃ ew, break_end_width glyphs n (width - w) = some ew) →
            (r.1 < n + 1 ∧ can_break_at layout (state.start_offset + r.1) retrying = some true ∧
              (0 < r.1 ∨ has_runs = true) ∧ ruby = false ∧
              prefix_width state (n + 1) width r.1 = some r.2.1 ∧
              break_end_width glyphs r.1 r.2.1 = some r.2.2 ∧
              ∀ k, r.1 < k → k < n + 1 →
                can_break_at layout (state.start_offset + k) retrying = some true →
                ∃ ew, candidate_end_width state glyphs (n + 1) width k = some ew ∧
                  state.remaining_width < ew ∧ ¬ (k = 1 ∧ has_runs = false)) := by
          intro r ⟨h1, h2, h3, h4, h5, h6, h7⟩ hn hex
          refine ⟨by omega, h2, h3, h4, ?_, h6, fun k hk1 hk2 hk3 => ?_⟩
          · rw [prefix_width_succ state n width w r.1 (by omega) hw]
            exact h5
          · by_cases hkn : k = n
            · subst hkn
              rw [hcan] at hk3
              simp only [Option.some.injEq] at hk3
              obtain ⟨ew, hew⟩ := hex hk3
              refine ⟨ew, ?_, hn ew hk3 hew⟩
              unfold candidate_end_width
              rw [hpw]
              exact hew
            · obtain ⟨ew, hew, hlt⟩ := h7 k hk1 (by omega) hk3
              refine ⟨ew, ?_, hlt⟩
              unfold candidate_end_width at hew ⊢
              rw [prefix_width_succ state n width w k (by omega) hw]
              exact hew
        by_cases hcond : can = true ∧ (0 < n ∨ has_runs = true) ∧ ¬ ruby = true
        · rw [if_pos hcond] at h
          cases hbe : break_end_width glyphs n (width - w) with
          | none => rw [hbe] at h; simp at h
          | some end_width =>
            rw [hbe] at h
            simp only at h
            have hhere : (n, width - w, end_width).1 < n + 1 ∧
                can_break_at layout (state.start_offset + n) retrying = some true ∧
                (0 < n ∨ has_runs = true) ∧ ruby = false ∧
                prefix_width state (n + 1) width n = some (width - w) ∧
                break_end_width glyphs n (width - w) = some end_width ∧
                ∀ k, n < k → k < n + 1 →
                  can_break_at layout (state.start_offset + k) retrying = some true →
                  ∃ ew, candidate_end_width state glyphs (n + 1) width k = some ew ∧
                    state.remaining_width < ew ∧ ¬ (k = 1 ∧ has_runs = false) :=
              ⟨Nat.lt_succ_self n, by rw [hcan, hcond.1], hcond.2.1, by simpa using hcond.2.2,
                hpw, hbe, fun k hk1 hk2 => by omega⟩
            by_cases hstop : end_width ≤ state.remaining_width ∨ (n = 1 ∧ ¬ has_runs = true)
            · rw [if_pos hstop] at h
              simp only [Option.some.injEq] at h
              right
              rw [← h]
              exact hhere
            · rw [if_neg hstop] at h
              right
              rcases ih _ _ _ h with ⟨h1, _⟩ | h1
              · rw [h1]
                exact hhere
              · refine lift res h1 (fun ew _ hew => ?_) (fun _ => ⟨end_width, hbe⟩)
                rw [hbe] at hew
                simp only [Option.some.injEq] at hew
                subst hew
                constructor
                · by_contra hle
                  exact hstop (Or.inl (by omega))
                · intro hk
                  exact hstop (Or.inr ⟨hk.1, by simp [hk.2]⟩)
        · rw [if_neg hcond] at h
          rcases ih _ _ _ h with ⟨h1, h2⟩ | h1
          · left
            refine ⟨h1, fun k hk hc => ?_⟩
            by_cases hkn : k = n
            · subst hkn
              rw [hcan] at hc
              simp only [Option.some.injEq] at hc
              exact hcond ⟨hc.1, hc.2.1, by simp [hc.2.2]⟩
            · exact h2 k (by omega) hc
          · right
            have hr := h1.2.2.2.1
            have hnc : ¬ can = true := by
              intro hc
              apply hcond
              exact ⟨hc, Or.inl (by omega), by simp [hr]⟩
            refine lift res h1 (fun ew hc _ => absurd hc hnc) (fun hc => absurd hc hnc)

/-- The ways in which `process_item` returns. Either the item starts with U+2028,
or the whole item was put on the line at once (with `last_line` set), or the
break loop has run, once or, with character breaks, a second time, and its result
`final` decides the outcome. -/
theorem process_item_cases (ext : Collaborators) (layout : PangoLayout)
    (line : PangoLayoutLine) (state0 : ParaBreakState) (force_fit no_break_at_end : Bool)
    (item : PangoItem) (items : List PangoItem) (result : BreakResult)
    (line1 : PangoLayoutLine) (state1 : ParaBreakState)
    (hitems : state0.items = item :: items)
    (h : process_item ext layout line state0 force_fit no_break_at_end =
      some (result, line1, state1)) :
    (result = BreakResult.BREAK_LINE_SEPARATOR ∧ state1.last_line = true) ∨
    (result = BreakResult.BREAK_ALL_FIT ∧ state1.last_line = true ∧ state1.glyphs = none ∧
      no_break_at_end = false) ∨
    ∃ (st : ParaBreakState) (glyphs : PangoGlyphString) (fresh : Bool) (width end_width : Int)
      (first final : Nat × Int × Int) (retrying : Bool),
      process_item_shape ext layout line state0 item = some (st, glyphs, fresh) ∧
      item_width st glyphs fresh item = some width ∧
      item_end_width glyphs width = some end_width ∧
      ¬ (st.remaining_width < 0 ∧ no_break_at_end = false) ∧
      ¬ ((end_width ≤ st.remaining_width ∨ (item.num_chars = 1 ∧ line.runs = [])) ∧
        no_break_at_end = false) ∧
      break_loop layout (decide (line.runs ≠ [])) (break_state ext st glyphs fresh item)
        glyphs.glyphs (pjx_attr_get_from_list item.analysis.extra_attrs PJX_ATTR_RUBY).isSome
        false item.num_chars width (item.num_chars, width, end_width) = some first ∧
      ((retrying = false ∧ final = first) ∨
        (retrying = true ∧ layout.wrap = PangoWrapMode.WORD_CHAR ∧ force_fit = true ∧
          st.remaining_width < first.2.2 ∧
          break_loop layout (decide (line.runs ≠ [])) (break_state ext st glyphs fresh item)
            glyphs.glyphs
            (pjx_attr_get_from_list item.analysis.extra_attrs PJX_ATTR_RUBY).isSome
            true item.num_chars width (item.num_chars, width, width) = some final)) ∧
      ((result = BreakResult.BREAK_NONE_FIT ∧ force_fit = false ∧
          st.remaining_width < final.2.2 ∧ line1 = line) ∨
        ((force_fit = true ∨ final.2.2 ≤ st.remaining_width) ∧
          ((final.1 = item.num_chars ∧ result = BreakResult.BREAK_ALL_FIT ∧
              state1.glyphs = none ∧ state1.last_line = false ∧
              state1.remaining_width =
                (if 0 ≤ st.remaining_width then max (st.remaining_width - final.2.1) 0
                 else st.remaining_width)) ∨
            (final.1 ≠ item.num_chars ∧ final.1 = 0 ∧
              result = BreakResult.BREAK_EMPTY_FIT ∧ line1 = line) ∨
            (final.1 ≠ item.num_chars ∧ final.1 ≠ 0 ∧
              result = BreakResult.BREAK_SOME_FIT ∧
              ∃ run, line1.runs = run :: line.runs ∧ run.item.num_chars = final.1 ∧
                state1.items =
                  (pango_item_split item
                    (g_utf8_offset_to_pointer layout.text item.offset final.1 - item.offset)
                    final.1).2 :: items)))) := by
  unfold process_item at h
  rw [hitems] at h
  simp only at h
  cases hshape : process_item_shape ext layout line state0 item with
  | none => rw [hshape] at h; simp at h
  | some r =>
    obtain ⟨st, gs, fresh⟩ := r
    rw [hshape] at h
    simp only at h
    by_cases hsep : g_utf8_get_char layout.text item.offset = LINE_SEPARATOR
    · rw [if_pos hsep] at h
      left
      unfold insert_run at h
      split at h
      · simp at h
      · rename_i v hv
        split at hv
        · simp at hv
        · simp only [Option.some.injEq, Prod.mk.injEq] at hv h
          obtain ⟨h1, -, h3⟩ := h
          exact ⟨h1.symm, by rw [← h3]⟩
    · rw [if_neg hsep] at h
      by_cases hneg : st.remaining_width < 0 ∧ ¬ no_break_at_end = true
      · rw [if_pos hneg] at h
        right; left
        unfold insert_run at h
        split at h
        · simp at h
        · rename_i v hv
          split at hv
          · simp at hv
          · simp only [Option.some.injEq, Prod.mk.injEq] at hv h
            obtain ⟨h1, -, h3⟩ := h
            refine ⟨h1.symm, by rw [← h3], ?_, by simpa using hneg.2⟩
            rw [← h3, ← hv.2]
            simp
      · rw [if_neg hneg] at h
        cases hw0 : (if fresh = true then
            some (glyphs_width gs.glyphs + st.properties.letter_spacing)
          else sum_log_widths st.log_widths st.log_widths_offset item.num_chars) with
        | none => rw [hw0] at h; simp at h
        | some width0 =>
          rw [hw0] at h
          simp only at h
          generalize hwd : (if (pjx_attr_get_from_list item.analysis.extra_attrs
            PJX_ATTR_RB).isSome = true then (0 : Int) else width0) = width at h
          have hiw : item_width st gs fresh item = some width := by
            unfold item_width
            rw [hw0]
            simp only
            rw [hwd]
          cases hew : item_end_width gs width with
          | none =>
            unfold item_end_width at hew
            rw [hew] at h
            simp at h
          | some end_width =>
            have hew2 := hew
            unfold item_end_width at hew2
            rw [hew2] at h
            simp only at h
            by_cases hfit : (end_width ≤ st.remaining_width ∨
                (item.num_chars = 1 ∧ line.runs = [])) ∧ ¬ no_break_at_end = true
            · rw [if_pos hfit] at h
              right; left
              unfold insert_run at h
              split at h
              · simp at h
              · rename_i v hv
                split at hv
                · simp at hv
                · simp only [Option.some.injEq, Prod.mk.injEq] at hv h
                  obtain ⟨h1, -, h3⟩ := h
                  refine ⟨h1.symm, by rw [← h3], ?_, by simpa using hfit.2⟩
                  rw [← h3, ← hv.2]
                  simp
            · rw [if_neg hfit] at h
              right; right
              cases hfirst : break_loop layout (decide (line.runs ≠ []))
                  (break_state ext st gs fresh item) gs.glyphs
                  (pjx_attr_get_from_list item.analysis.extra_attrs PJX_ATTR_RUBY).isSome false
                  item.num_chars width (item.num_chars, width, end_width) with
              | none =>
                simp only [break_state] at hfirst
                rw [hfirst] at h
                simp at h
              | some first =>
                have hfirst2 := hfirst
                simp only [break_state] at hfirst2
                rw [hfirst2] at h
                simp only at h
                cases hfinal : (if layout.wrap = PangoWrapMode.WORD_CHAR ∧ force_fit = true ∧
                      (break_state ext st gs fresh item).remaining_width < first.2.2 then
                    break_loop layout (decide (line.runs ≠ []))
                      (break_state ext st gs fresh item) gs.glyphs
                      (pjx_attr_get_from_list item.analysis.extra_attrs PJX_ATTR_RUBY).isSome
                      true item.num_chars width (item.num_chars, width, width)
                    else some first) with
                | none =>
                  simp only [break_state] at hfinal
                  rw [hfinal] at h
                  simp at h
                | some final =>
                  have hfinal2 := hfinal
                  simp only [break_state] at hfinal2
                  rw [hfinal2] at h
                  obtain ⟨bnc, bw, ew2⟩ := final
                  simp only at h
                  have hretry : ∃ retrying : Bool, (retrying = false ∧ (bnc, bw, ew2) = first) ∨
                      (retrying = true ∧ layout.wrap = PangoWrapMode.WORD_CHAR ∧
                        force_fit = true ∧ st.remaining_width < first.2.2 ∧
                        break_loop layout (decide (line.runs ≠ []))
                          (break_state ext st gs fresh item) gs.glyphs
                          (pjx_attr_get_from_list item.analysis.extra_attrs
                            PJX_ATTR_RUBY).isSome
                          true item.num_chars width (item.num_chars, width, width) =
                          some (bnc, bw, ew2)) := by
                    split at hfinal
                    · rename_i hc
                      exact ⟨true, Or.inr ⟨rfl, hc.1, hc.2.1, hc.2.2, hfinal⟩⟩
                    · simp only [Option.some.injEq] at hfinal
                      exact ⟨false, Or.inl ⟨rfl, hfinal.symm⟩⟩
                  obtain ⟨retrying, hretry⟩ := hretry
                  refine ⟨st, gs, fresh, width, end_width, first, (bnc, bw, ew2), retrying,
                    rfl, hiw, hew, ?_, ?_, hfirst, hretry, ?_⟩
                  · intro hc
                    exact hneg ⟨hc.1, by simp [hc.2]⟩
                  · intro hc
                    exact hfit ⟨hc.1, by simp [hc.2]⟩
                  · by_cases hok : force_fit = true ∨ ew2 ≤ st.remaining_width
                    · rw [if_pos hok] at h
                      right
                      refine ⟨hok, ?_⟩
                      by_cases hall : bnc = item.num_chars
                      · rw [if_pos hall] at h
                        left
                        unfold insert_run at h
                        split at h
                        · simp at h
                        · rename_i v hv
                          split at hv
                          · simp at hv
                          · simp only [Option.some.injEq, Prod.mk.injEq] at hv h
                            obtain ⟨h1, -, h3⟩ := h
                            refine ⟨hall, h1.symm, ?_, ?_, ?_⟩
                            · rw [← h3, ← hv.2]; simp
                            · rw [← h3, ← hv.2]
                              simp only [if_true, Bool.true_and]
                              split <;> rfl
                            · rw [← h3, ← hv.2]
                              simp only [if_true, Bool.true_and]
                              split <;> rfl
                      · rw [if_neg hall] at h
                        right
                        by_cases hzero : bnc = 0
                        · rw [if_pos hzero] at h
                          left
                          simp only [Option.some.injEq, Prod.mk.injEq] at h
                          exact ⟨hall, hzero, h.1.symm, h.2.1.symm⟩
                        · rw [if_neg hzero] at h
                          right
                          unfold insert_run at h
                          split at h
                          · simp at h
                          · rename_i v hv
                            split at hv
                            · simp at hv
                            · simp only [Option.some.injEq, Prod.mk.injEq] at hv h
                              obtain ⟨h1, h2, h3⟩ := h
                              rw [← h2, ← h3, ← hv.1, ← hv.2]
                              refine ⟨hall, hzero, h1.symm, _, rfl, rfl, ?_⟩
                              simp only [Bool.false_eq_true, if_false, false_and]
                    · rw [if_neg hok] at h
                      left
                      simp only [Option.some.injEq, Prod.mk.injEq] at h
                      refine ⟨h.1.symm, ?_, ?_, h.2.1.symm⟩
                      · cases force_fit with
                        | true => exact absurd (Or.inl rfl) hok
                        | false => rfl
                      · by_contra hc
                        have hc2 : ew2 ≤ st.remaining_width := not_lt.mp hc
                        exact hok (Or.inr hc2)

/-! ### C23: a break before the first character of an item -/

/-- C23 counterexample: "ab cd" at width 30 (10 units per glyph, a break
opportunity before "cd"). After "ab " is on the line, `process_item` for "cd"
chooses the break before the first character of the item (`k = 0`) and returns
`BREAK_EMPTY_FIT`, on a line that holds a run; the paragraph becomes the lines
"ab " and "cd". -/
theorem empty_fit_counterexample :
    two_words_line.runs ≠ [] ∧
    (process_item fixed_width_shaper (two_words_layout 30) two_words_line two_words_state
        true false).map (fun r => (r.1, r.2.1.runs.length)) =
      some (BreakResult.BREAK_EMPTY_FIT, 1) ∧
    (process_lines fixed_width_shaper (two_words_layout 30) 3
        (initial_state two_words_items PangoDirection.LTR 0 0)).map (List.map line_summary) =
      some [(0, 3, [0]), (3, 2, [3])] := by
  decide

/-- C23, amended: `process_item` chooses the break before the first character of
the item (`k = 0`, result `BREAK_EMPTY_FIT`) only on a line that already holds a
run, and it then leaves the line as it is; on a line with no run the break
position is greater than 0. -/
theorem process_item_empty_fit (ext : Collaborators) (layout : PangoLayout)
    (line : PangoLayoutLine) (state : ParaBreakState) (force_fit no_break_at_end : Bool)
    (h : (process_item ext layout line state force_fit no_break_at_end).map (fun r => r.1) =
      some BreakResult.BREAK_EMPTY_FIT) :
    line.runs ≠ [] ∧
    (process_item ext layout line state force_fit no_break_at_end).map (fun r => r.2.1) =
      some line := by
  cases hp : process_item ext layout line state force_fit no_break_at_end with
  | none => rw [hp] at h; simp at h
  | some r =>
    obtain ⟨result, line1, state1⟩ := r
    rw [hp] at h
    simp only [Option.map_some', Option.some.injEq] at h
    subst h
    cases hitems : state.items with
    | nil =>
      unfold process_item at hp
      rw [hitems] at hp
      simp at hp
    | cons item items =>
      rcases process_item_cases ext layout line state force_fit no_break_at_end item items _
        line1 state1 hitems hp with h1 | h1 | h1
      · exact absurd h1.1 (by decide)
      · exact absurd h1.1 (by decide)
      · obtain ⟨st, glyphs, fresh, width, end_width, first, final, retrying, _, _, _, _, _,
          hfirst, hfinal, hres⟩ := h1
        rcases hres with h2 | ⟨_, h2 | h2 | h2⟩
        · exact absurd h2.1 (by decide)
        · exact absurd h2.2.1 (by decide)
        · obtain ⟨hne, hz, _, hline⟩ := h2
          refine ⟨?_, by rw [hline]; rfl⟩
          have key : ∀ (rt : Bool) (acc : Nat × Int × Int), acc.1 = item.num_chars →
              break_loop layout (decide (line.runs ≠ [])) (break_state ext st glyphs fresh item)
                glyphs.glyphs
                (pjx_attr_get_from_list item.analysis.extra_attrs PJX_ATTR_RUBY).isSome rt
                item.num_chars width acc = some final → line.runs ≠ [] := by
            intro rt acc hacc hloop
            rcases break_loop_spec _ _ _ _ _ _ _ _ _ _ hloop with ⟨h3, _⟩ | h3
            · rw [h3] at hne
              exact absurd hacc hne
            · rcases h3.2.2.1 with h4 | h4
              · omega
              · simpa using h4
          rcases hfinal with ⟨_, h5⟩ | ⟨_, _, _, _, h5⟩
          · rw [← h5] at hfirst
            exact key false _ rfl hfirst
          · exact key true _ rfl h5
        · exact absurd h2.2.2.1 (by decide)

/-- Witness for C23: for "cd" after "ab " at width 30, `process_item` returns
`BREAK_EMPTY_FIT`, and the line holds the run "ab ". -/
theorem process_item_empty_fit_witness :
    two_words_line.runs ≠ [] ∧
    (process_item fixed_width_shaper (two_words_layout 30) two_words_line two_words_state
      true false).map (fun r => r.2.1) = some two_words_line :=
  process_item_empty_fit fixed_width_shaper (two_words_layout 30) two_words_line
    two_words_state true false (by decide)

/-! ### C22: the break position of `BREAK_SOME_FIT` -/

/-- Shaping leaves the remaining width of the state as it is. -/
theorem process_item_shape_remaining_width (ext : Collaborators) (layout : PangoLayout)
    (line : PangoLayoutLine) (state st : ParaBreakState) (item : PangoItem)
    (gs : PangoGlyphString) (fresh : Bool)
    (h : process_item_shape ext layout line state item = some (st, gs, fresh)) :
    st.remaining_width = state.remaining_width := by
  unfold process_item_shape at h
  split at h
  · simp only [Option.some.injEq, Prod.mk.injEq] at h
    rw [← h.1]
  · split at h
    · simp at h
    · split at h
      · simp at h
      · simp only [Option.some.injEq, Prod.mk.injEq] at h
        rw [← h.1]

/-- What the break loop guarantees, with the end width as the loop computes it:
when `process_item` returns `BREAK_SOME_FIT` it has put a run of `k` characters on
the line, with `0 < k < item->num_chars`; `can_break_at` allows a break at `k` in
the wrap mode of the pass that found it (`retrying` is `TRUE` in the pass with
character breaks, which only `PANGO_WRAP_WORD_CHAR` with `force_fit` runs); and at
every greater character count `k2` below `item->num_chars` where `can_break_at`
allows a break, the end width of the loop for `k2` exceeds `remaining_width`. So
when the end width for `k` fits, `k` is the largest character count that is a
break position and whose end width fits. -/
theorem process_item_some_fit_largest (ext : Collaborators) (layout : PangoLayout)
    (line : PangoLayoutLine) (state : ParaBreakState) (force_fit no_break_at_end : Bool)
    (item : PangoItem) (items : List PangoItem)
    (hitems : state.items = item :: items)
    (h : (process_item ext layout line state force_fit no_break_at_end).map (fun r => r.1) =
      some BreakResult.BREAK_SOME_FIT) :
    ∃ (line1 : PangoLayoutLine) (state1 st : ParaBreakState) (glyphs : PangoGlyphString)
      (fresh : Bool) (width : Int) (retrying : Bool) (run : PangoLayoutRun) (ew : Int),
      process_item ext layout line state force_fit no_break_at_end =
        some (BreakResult.BREAK_SOME_FIT, line1, state1) ∧
      process_item_shape ext layout line state item = some (st, glyphs, fresh) ∧
      item_width st glyphs fresh item = some width ∧
      line1.runs = run :: line.runs ∧
      0 < run.item.num_chars ∧ run.item.num_chars < item.num_chars ∧
      (retrying = true → layout.wrap = PangoWrapMode.WORD_CHAR ∧ force_fit = true) ∧
      can_break_at layout (state.start_offset + run.item.num_chars) retrying = some true ∧
      candidate_end_width (break_state ext st glyphs fresh item) glyphs.glyphs item.num_chars
        width run.item.num_chars = some ew ∧
      (∀ k2, run.item.num_chars < k2 → k2 < item.num_chars →
        can_break_at layout (state.start_offset + k2) retrying = some true →
        ∃ ew2, candidate_end_width (break_state ext st glyphs fresh item) glyphs.glyphs
            item.num_chars width k2 = some ew2 ∧
          state.remaining_width < ew2) ∧
      (ew ≤ state.remaining_width →
        ∀ k2, k2 < item.num_chars →
          can_break_at layout (state.start_offset + k2) retrying = some true →
          (∃ ew2, candidate_end_width (break_state ext st glyphs fresh item) glyphs.glyphs
            item.num_chars width k2 = some ew2 ∧ ew2 ≤ state.remaining_width) →
          k2 ≤ run.item.num_chars) := by
  cases hp : process_item ext layout line state force_fit no_break_at_end with
  | none => rw [hp] at h; simp at h
  | some r =>
    obtain ⟨result, line1, state1⟩ := r
    rw [hp] at h
    simp only [Option.map_some', Option.some.injEq] at h
    subst h
    rcases process_item_cases ext layout line state force_fit no_break_at_end item items _
      line1 state1 hitems hp with h1 | h1 | h1
    · exact absurd h1.1 (by decide)
    · exact absurd h1.1 (by decide)
    · obtain ⟨st, glyphs, fresh, width, end_width, first, final, retrying, hshape, hwidth, _, _,
        _, hfirst, hfinal, hres⟩ := h1
      have hso := process_item_shape_start_offset ext layout line state st item glyphs fresh
        hshape
      have hrw := process_item_shape_remaining_width ext layout line state st item glyphs fresh
        hshape
      have hso2 : (break_state ext st glyphs fresh item).start_offset = state.start_offset :=
        hso
      have hrw2 : (break_state ext st glyphs fresh item).remaining_width =
          state.remaining_width := hrw
      rcases hres with h2 | ⟨_, h2 | h2 | h2⟩
      · exact absurd h2.1 (by decide)
      · exact absurd h2.2.1 (by decide)
      · exact absurd h2.2.2.1 (by decide)
      · obtain ⟨hne, hnz, _, run, hruns, hk, _⟩ := h2
        have key : ∀ (acc : Nat × Int × Int), acc.1 = item.num_chars →
            break_loop layout (decide (line.runs ≠ [])) (break_state ext st glyphs fresh item)
              glyphs.glyphs
              (pjx_attr_get_from_list item.analysis.extra_attrs PJX_ATTR_RUBY).isSome retrying
              item.num_chars width acc = some final →
            final.1 < item.num_chars ∧
            can_break_at layout (state.start_offset + final.1) retrying = some true ∧
            (∃ ew, candidate_end_width (break_state ext st glyphs fresh item) glyphs.glyphs
              item.num_chars width final.1 = some ew) ∧
            ∀ k2, final.1 < k2 → k2 < item.num_chars →
              can_break_at layout (state.start_offset + k2) retrying = some true →
              ∃ ew2, candidate_end_width (break_state ext st glyphs fresh item) glyphs.glyphs
                  item.num_chars width k2 = some ew2 ∧
                state.remaining_width < ew2 := by
          intro acc hacc hloop
          rcases break_loop_spec _ _ _ _ _ _ _ _ _ _ hloop with ⟨h3, _⟩ | h3
          · rw [h3] at hne
            exact absurd hacc hne
          · obtain ⟨h4, h5, _, _, h7, h8, h9⟩ := h3
            rw [hso2] at h5
            refine ⟨h4, h5, ⟨final.2.2, ?_⟩, fun k2 hk1 hk2 hk3 => ?_⟩
            · unfold candidate_end_width
              rw [h7]
              exact h8
            · rw [← hso2] at hk3
              obtain ⟨ew2, he1, he2, _⟩ := h9 k2 hk1 hk2 hk3
              rw [hrw2] at he2
              exact ⟨ew2, he1, he2⟩
        have hkey : final.1 < item.num_chars ∧
            can_break_at layout (state.start_offset + final.1) retrying = some true ∧
            (∃ ew, candidate_end_width (break_state ext st glyphs fresh item) glyphs.glyphs
              item.num_chars width final.1 = some ew) ∧
            ∀ k2, final.1 < k2 → k2 < item.num_chars →
              can_break_at layout (state.start_offset + k2) retrying = some true →
              ∃ ew2, candidate_end_width (break_state ext st glyphs fresh item) glyphs.glyphs
                  item.num_chars width k2 = some ew2 ∧
                state.remaining_width < ew2 := by
          rcases hfinal with ⟨hr, h5⟩ | ⟨hr, _, _, _, h5⟩
          · subst hr
            rw [← h5] at hfirst
            exact key _ rfl hfirst
          · subst hr
            exact key _ rfl h5
        obtain ⟨hlt, hcan, ⟨ew, hew⟩, hmax⟩ := hkey
        have hretry : retrying = true → layout.wrap = PangoWrapMode.WORD_CHAR ∧
            force_fit = true := by
          intro hr
          rcases hfinal with ⟨hr2, _⟩ | ⟨_, h6, h7, _⟩
          · rw [hr] at hr2
            exact absurd hr2 (by decide)
          · exact ⟨h6, h7⟩
        rw [← hk] at hlt hcan hew hmax hnz
        refine ⟨line1, state1, st, glyphs, fresh, width, retrying, run, ew, rfl, hshape, hwidth,
          hruns, by omega, hlt, hretry, hcan, hew, hmax, fun _ k2 hk2 hc hfit => ?_⟩
        by_contra hgt
        obtain ⟨ew2, he1, he2⟩ := hmax k2 (by omega) hk2 hc
        obtain ⟨ew3, he3, he4⟩ := hfit
        rw [he1] at he3
        simp only [Option.some.injEq] at he3
        omega

/-- An instance: for "The quick brown fox" at width 40 (10 units per glyph,
break positions 4, 10 and 16) `process_item` puts "The " on the line: 4 is the
largest break position whose prefix is at most 40 wide. -/
theorem process_item_some_fit_largest_witness :
    (process_item fixed_width_shaper (fox_layout 40) first_line fox_state true false).map
      (fun r => (r.1, r.2.1.runs.map (fun run => run.item.num_chars))) =
      some (BreakResult.BREAK_SOME_FIT, [4]) ∧
    ∃ (line1 : PangoLayoutLine) (state1 st : ParaBreakState) (glyphs : PangoGlyphString)
      (fresh : Bool) (width : Int) (retrying : Bool) (run : PangoLayoutRun) (ew : Int),
      process_item fixed_width_shaper (fox_layout 40) first_line fox_state true false =
        some (BreakResult.BREAK_SOME_FIT, line1, state1) ∧
      process_item_shape fixed_width_shaper (fox_layout 40) first_line fox_state fox_item =
        some (st, glyphs, fresh) ∧
      item_width st glyphs fresh fox_item = some width ∧
      line1.runs = run :: first_line.runs ∧
      0 < run.item.num_chars ∧ run.item.num_chars < fox_item.num_chars ∧
      (retrying = true → (fox_layout 40).wrap = PangoWrapMode.WORD_CHAR ∧ true = true) ∧
      can_break_at (fox_layout 40) (fox_state.start_offset + run.item.num_chars) retrying =
        some true ∧
      candidate_end_width (break_state fixed_width_shaper st glyphs fresh fox_item)
        glyphs.glyphs fox_item.num_chars width run.item.num_chars = some ew ∧
      (∀ k2, run.item.num_chars < k2 → k2 < fox_item.num_chars →
        can_break_at (fox_layout 40) (fox_state.start_offset + k2) retrying = some true →
        ∃ ew2, candidate_end_width (break_state fixed_width_shaper st glyphs fresh fox_item)
            glyphs.glyphs fox_item.num_chars width k2 = some ew2 ∧
          fox_state.remaining_width < ew2) ∧
      (ew ≤ fox_state.remaining_width →
        ∀ k2, k2 < fox_item.num_chars →
          can_break_at (fox_layout 40) (fox_state.start_offset + k2) retrying = some true →
          (∃ ew2, candidate_end_width (break_state fixed_width_shaper st glyphs fresh fox_item)
            glyphs.glyphs fox_item.num_chars width k2 = some ew2 ∧
            ew2 ≤ fox_state.remaining_width) →
          k2 ≤ run.item.num_chars) :=
  ⟨by decide,
    process_item_some_fit_largest fixed_width_shaper (fox_layout 40) first_line fox_state true
      false fox_item [] rfl (by decide)⟩

/-- C22 (code bug): for the rest of an item that was split on the line before, the
grapheme cluster hack of `process_item` counts clusters from the first glyph of the
glyph string of the whole item, not from the first character of the rest, and
looks for the space glyph of ID 0 in the wrong cluster. The paragraph "xxabcdef" at
the width 30, 10 units per glyph, a space glyph of width 5 after "d", line breaks
allowed before "b", "d" and "e": the first line takes "xx" and "a". For the rest
"bcdef" `process_item` returns `BREAK_SOME_FIT` with the 2 characters "bc",
although a break is allowed after the 3 characters "bcd" and their width without
the trailing space glyph is 30, which fits; the loop took 35 for it. -/
theorem process_item_rest_not_largest :
    (process_line space_after_shaper split_layout
        (initial_state split_items PangoDirection.LTR 0 0)).map
      (fun r => decide ({ r.2 with remaining_width := 30 } = split_rest_state)) = some true ∧
    (process_item space_after_shaper split_layout split_rest_line split_rest_state true
        false).map
      (fun r => (r.1, r.2.1.runs.map (fun run => (run.item.offset, run.item.num_chars)))) =
      some (BreakResult.BREAK_SOME_FIT, [(3, 2)]) ∧
    can_break_at split_layout (split_rest_state.start_offset + 3) false = some true ∧
    3 < split_rest_item.num_chars ∧
    prefix_fit_width space_after_shaper split_rest_item 3 = 30 ∧
    split_rest_state.remaining_width = 30 ∧
    candidate_end_width split_rest_state
      (space_after_shaper.pango_shape (plain_item 2 6 6 [])).glyphs 5 55 3 = some 35 ∧
    (process_lines space_after_shaper split_layout 5
        (initial_state split_items PangoDirection.LTR 0 0)).map
      (fun lines => lines.map
        (fun line => line.runs.map (fun run => (run.item.offset, run.item.num_chars)))) =
      some [[(0, 2), (2, 1)], [(3, 2)], [(5, 1)], [(6, 2)]] := by
  refine ⟨by decide, by decide, by decide, by decide, by decide, by decide, by decide,
    by decide⟩

/-! ### C21: the forced retry after `BREAK_NONE_FIT` -/

/-- C21 (code bug): on the paragraph `<ruby><rb>漢字</rb><rt>かな</rt></ruby>.` at
width 25 (10 units per glyph, a break opportunity inside the ruby base) the loop
of `process_line` puts the base and the text on the line and remembers the break
inside the base; the full stop does not fit and `process_item` returns
`BREAK_NONE_FIT`; the line is backed up to the start and the forced retry
`process_item (force_fit = TRUE, no_break_at_end = TRUE)` on the ruby base
returns `BREAK_ALL_FIT`, because the break loop never breaks an item that carries
the ruby attribute. The assertion `result == BREAK_SOME_FIT || result ==
BREAK_EMPTY_FIT` fails: the iteration and `process_line` have no result. -/
theorem retry_returns_all_fit :
    (ruby_retry_steps 2).map
        (fun r => (line_summary r.1, r.2.1.items.map (fun item => item.offset),
          r.2.1.remaining_width)) =
      some ((0, 12, [6, 0]), [12], 5) ∧
    (ruby_retry_steps 2).map
        (fun r => (r.2.2.have_break, r.2.2.break_link, r.2.2.break_start_offset,
          r.2.2.break_remaining_width)) =
      some (true, 0, 0, 25) ∧
    (ruby_retry_steps 2).bind
        (fun r => (process_item fixed_width_shaper ruby_retry_layout r.1 r.2.1
          (!r.2.2.have_break) false).map (fun x => x.1)) =
      some BreakResult.BREAK_NONE_FIT ∧
    ruby_retry_backed.map
        (fun r => (line_summary r.1, r.2.items.map (fun item => item.offset),
          r.2.start_offset, r.2.remaining_width)) =
      some ((0, 0, []), [0, 6, 12], 0, 25) ∧
    ruby_retry_backed.bind
        (fun r => (process_item fixed_width_shaper ruby_retry_layout r.1 r.2 true true).map
          (fun x => x.1)) =
      some BreakResult.BREAK_ALL_FIT ∧
    ((ruby_retry_steps 2).bind
        (fun r => process_line_step fixed_width_shaper ruby_retry_layout r.1 r.2.1
          r.2.2)).isNone = true ∧
    process_line fixed_width_shaper ruby_retry_layout
      (initial_state ruby_retry_items PangoDirection.LTR 0 0) = none :=
  ⟨by decide, by decide, by decide, by decide, by decide, by decide, by decide⟩

/-! ## The extents of a layout -/

/-- Two calls of `adjust_final_space` are one call with the sum. -/
theorem adjust_final_space_comp (g g1 g2 : PangoGlyphString) (d1 d2 : Int)
    (h1 : adjust_final_space g d1 = some g1) (h2 : adjust_final_space g1 d2 = some g2) :
    adjust_final_space g (d1 + d2) = some g2 := by
  unfold adjust_final_space at h1 h2 ⊢
  cases hl : g.glyphs.getLast? with
  | none => rw [hl] at h1; simp at h1
  | some last =>
    rw [hl] at h1
    simp only [Option.some.injEq] at h1
    subst h1
    have hlast : (g.glyphs.dropLast ++ [{ last with width := last.width + d1 }]).getLast? =
        some { last with width := last.width + d1 } := by simp
    simp only at h2
    rw [hlast] at h2
    simp only [List.dropLast_concat, Option.some.injEq] at h2
    rw [← h2]
    simp only [Option.some.injEq]
    have hw : last.width + d1 + d2 = last.width + (d1 + d2) := by ring
    rw [hw]

/-- A call of `adjust_final_space` on a run with glyphs has a result: a run of the
same item, with glyphs, whose total width has grown by the adjustment. -/
theorem adjust_run_final_space_total (run : PangoLayoutRun) (d : Int)
    (h : run.glyphs.glyphs ≠ []) :
    ∃ r, adjust_run_final_space run d = some r ∧ r.glyphs.glyphs ≠ [] ∧ r.item = run.item ∧
      glyphs_width r.glyphs.glyphs = glyphs_width run.glyphs.glyphs + d := by
  unfold adjust_run_final_space adjust_final_space
  cases hl : run.glyphs.glyphs.getLast? with
  | none =>
    rw [List.getLast?_eq_none_iff] at hl
    exact absurd hl h
  | some last =>
    refine ⟨_, rfl, by simp, rfl, ?_⟩
    have hsplit : run.glyphs.glyphs = run.glyphs.glyphs.dropLast ++ [last] := by
      have := List.dropLast_append_getLast? last hl
      exact this.symm
    simp only
    unfold glyphs_width
    conv_rhs => rw [hsplit]
    simp only [List.map_append, List.sum_append, List.map_cons, List.map_nil, List.sum_cons,
      List.sum_nil]
    ring

/-- What a call of `adjust_final_space` on a run leaves as it is, and what it does
to the total width. -/
theorem adjust_run_final_space_eq (run r : PangoLayoutRun) (d : Int)
    (h : adjust_run_final_space run d = some r) :
    r.glyphs.glyphs ≠ [] ∧ r.item = run.item ∧ run.glyphs.glyphs ≠ [] ∧
      glyphs_width r.glyphs.glyphs = glyphs_width run.glyphs.glyphs + d := by
  have hne : run.glyphs.glyphs ≠ [] := by
    intro hnil
    unfold adjust_run_final_space adjust_final_space at h
    rw [hnil] at h
    simp at h
  obtain ⟨r2, h2, h3, h4, h5⟩ := adjust_run_final_space_total run d hne
  rw [h2] at h
  simp only [Option.some.injEq] at h
  subst h
  exact ⟨h3, h4, hne, h5⟩

/-- The relation `FinalSpaceChanged` holds between a run and itself. -/
theorem finalSpaceChanged_refl (run : PangoLayoutRun) : FinalSpaceChanged run run :=
  Or.inl rfl

/-- The relation `FinalSpaceChanged` is transitive. -/
theorem finalSpaceChanged_trans (a b c : PangoLayoutRun) (h1 : FinalSpaceChanged a b)
    (h2 : FinalSpaceChanged b c) : FinalSpaceChanged a c := by
  rcases h1 with h1 | ⟨d1, h1⟩
  · rw [h1] at h2; exact h2
  · rcases h2 with h2 | ⟨d2, h2⟩
    · rw [h2]; exact Or.inr ⟨d1, h1⟩
    · right
      refine ⟨d1 + d2, ?_⟩
      unfold adjust_run_final_space at h1 h2 ⊢
      cases hg1 : adjust_final_space a.glyphs d1 with
      | none => rw [hg1] at h1; simp at h1
      | some g1 =>
        rw [hg1] at h1
        simp only [Option.some.injEq] at h1
        subst h1
        cases hg2 : adjust_final_space g1 d2 with
        | none => simp only [hg2] at h2; simp at h2
        | some g2 =>
          simp only [hg2, Option.some.injEq] at h2
          rw [adjust_final_space_comp a.glyphs g1 g2 d1 d2 hg1 hg2]
          rw [← h2]

/-- Lists related run by run can be chained. -/
theorem forall₂_changed_trans : ∀ (l1 l2 l3 : List PangoLayoutRun),
    List.Forall₂ FinalSpaceChanged l1 l2 → List.Forall₂ FinalSpaceChanged l2 l3 →
    List.Forall₂ FinalSpaceChanged l1 l3 := by
  intro l1
  induction l1 with
  | nil =>
    intro l2 l3 h1 h2
    cases h1
    cases h2
    exact List.Forall₂.nil
  | cons a l1 ih =>
    intro l2 l3 h1 h2
    cases h1 with
    | cons hab h1 =>
      cases h2 with
      | cons hbc h2 =>
        exact List.Forall₂.cons (finalSpaceChanged_trans _ _ _ hab hbc) (ih _ _ h1 h2)

/-- A list is related to itself. -/
theorem forall₂_changed_refl : ∀ (l : List PangoLayoutRun),
    List.Forall₂ FinalSpaceChanged l l := by
  intro l
  induction l with
  | nil => exact List.Forall₂.nil
  | cons a l ih => exact List.Forall₂.cons (finalSpaceChanged_refl a) ih

/-- The first adjustment of a non-tab run changes at most the final space of the
run before it or after it. -/
theorem letter_spacing_before_rel (layout : PangoLayout) (reversed : Bool)
    (done rest done1 rest1 : List PangoLayoutRun) (tab adjustment tab1 : Int)
    (h : letter_spacing_before layout reversed done rest tab adjustment =
      some (done1, rest1, tab1)) :
    List.Forall₂ FinalSpaceChanged done done1 ∧ List.Forall₂ FinalSpaceChanged rest rest1 := by
  unfold letter_spacing_before at h
  split at h
  · split at h
    · simp only [Option.some.injEq, Prod.mk.injEq] at h
      rw [← h.1, ← h.2.1]
      exact ⟨forall₂_changed_refl _, forall₂_changed_refl _⟩
    · split at h
      · simp only [Option.some.injEq, Prod.mk.injEq] at h
        rw [← h.1, ← h.2.1]
        exact ⟨forall₂_changed_refl _, forall₂_changed_refl _⟩
      · split at h
        · simp at h
        · rename_i r hr
          simp only [Option.some.injEq, Prod.mk.injEq] at h
          rw [← h.1, ← h.2.1]
          exact ⟨forall₂_changed_refl _,
            List.Forall₂.cons (Or.inr ⟨_, hr⟩) (forall₂_changed_refl _)⟩
  · split at h
    · simp only [Option.some.injEq, Prod.mk.injEq] at h
      rw [← h.1, ← h.2.1]
      exact ⟨forall₂_changed_refl _, forall₂_changed_refl _⟩
    · split at h
      · simp only [Option.some.injEq, Prod.mk.injEq] at h
        rw [← h.1, ← h.2.1]
        exact ⟨forall₂_changed_refl _, forall₂_changed_refl _⟩
      · split at h
        · simp at h
        · rename_i r hr
          simp only [Option.some.injEq, Prod.mk.injEq] at h
          rw [← h.1, ← h.2.1]
          exact ⟨List.Forall₂.cons (Or.inr ⟨_, hr⟩) (forall₂_changed_refl _),
            forall₂_changed_refl _⟩

/-- Replacing the runs around the current run by related runs gives related
lists. -/
theorem forall₂_changed_around (done done1 rest rest1 : List PangoLayoutRun)
    (run r : PangoLayoutRun) (h1 : List.Forall₂ FinalSpaceChanged done done1)
    (h2 : List.Forall₂ FinalSpaceChanged rest rest1) (h3 : FinalSpaceChanged run r) :
    List.Forall₂ FinalSpaceChanged (done.reverse ++ run :: rest)
      ((r :: done1).reverse ++ rest1) := by
  simp only [List.reverse_cons, List.append_assoc, List.singleton_append]
  exact List.rel_append (List.rel_reverse h1) (List.Forall₂.cons h3 h2)

/-- The main loop of `adjust_line_letter_spacing` keeps the runs and their order and
changes final spaces only. -/
theorem letter_spacing_loop_rel (layout : PangoLayout) (reversed : Bool) :
    ∀ (n : Nat) (done rest : List PangoLayoutRun) (tab : Int) (result : List PangoLayoutRun),
      rest.length ≤ n →
      letter_spacing_loop layout reversed n done rest tab = some result →
      List.Forall₂ FinalSpaceChanged (done.reverse ++ rest) result := by
  intro n
  induction n with
  | zero =>
    intro done rest tab result hlen h
    have hr : rest = [] := List.length_eq_zero.mp (by omega)
    subst hr
    simp only [letter_spacing_loop, Option.some.injEq] at h
    rw [← h, List.append_nil]
    exact forall₂_changed_refl _
  | succ n ih =>
    intro done rest tab result hlen h
    cases rest with
    | nil =>
      simp only [letter_spacing_loop, Option.some.injEq] at h
      rw [← h, List.append_nil]
      exact forall₂_changed_refl _
    | cons run rest =>
      simp only [List.length_cons] at hlen
      rw [letter_spacing_loop] at h
      split at h
      · split at h
        · simp at h
        · rename_i r hr
          have := ih _ _ _ _ (by omega) h
          exact forall₂_changed_trans _ _ _
            (forall₂_changed_around done done rest rest run r (forall₂_changed_refl _)
              (forall₂_changed_refl _) (Or.inr ⟨_, hr⟩)) this
      · simp only at h
        split at h
        · simp at h
        · rename_i done1 rest1 tab1 hb
          obtain ⟨hd, hrr⟩ := letter_spacing_before_rel layout reversed done rest done1 rest1
            tab _ tab1 hb
          have hlen1 : rest1.length = rest.length := hrr.length_eq.symm
          generalize (match (if reversed = true then done.head? else rest.head?) with
            | some next => !is_tab_run layout next
            | none => false) = c at h
          cases c with
          | true =>
            simp only [if_true] at h
            cases hr : adjust_run_final_space run (-(get_item_letter_spacing run.item).tdiv 2)
              with
            | none => rw [hr] at h; simp at h
            | some r =>
              rw [hr] at h
              have := ih _ _ _ _ (by omega) h
              exact forall₂_changed_trans _ _ _
                (forall₂_changed_around done done1 rest rest1 run r hd hrr (Or.inr ⟨_, hr⟩))
                this
          | false =>
            simp only [Bool.false_eq_true, if_false] at h
            cases hr : adjust_run_final_space run (-get_item_letter_spacing run.item) with
            | none => rw [hr] at h; simp at h
            | some r =>
              rw [hr] at h
              have := ih _ _ _ _ (by omega) h
              exact forall₂_changed_trans _ _ _
                (forall₂_changed_around done done1 rest rest1 run r hd hrr (Or.inr ⟨_, hr⟩))
                this

/-- The total width of a reversed list of runs. -/
theorem runs_width_reverse (l : List PangoLayoutRun) : runs_width l.reverse = runs_width l := by
  unfold runs_width
  rw [List.map_reverse, List.sum_reverse]

/-- The total width of a list of runs with one more run in front. -/
theorem runs_width_cons (r : PangoLayoutRun) (l : List PangoLayoutRun) :
    runs_width (r :: l) = glyphs_width r.glyphs.glyphs + runs_width l := by
  unfold runs_width
  simp

/-- The main loop of `adjust_line_letter_spacing` has a result when every run has
a glyph. -/
theorem letter_spacing_loop_total (layout : PangoLayout) (reversed : Bool) :
    ∀ (n : Nat) (done rest : List PangoLayoutRun) (tab : Int),
      (∀ r ∈ done, r.glyphs.glyphs ≠ []) → (∀ r ∈ rest, r.glyphs.glyphs ≠ []) →
      ∃ result, letter_spacing_loop layout reversed n done rest tab = some result := by
  intro n
  induction n with
  | zero =>
    intro done rest tab _ _
    cases rest with
    | nil => exact ⟨done.reverse, by rw [letter_spacing_loop]⟩
    | cons a l => exact ⟨done.reverse ++ a :: l, by rw [letter_spacing_loop]; simp⟩
  | succ n ih =>
    intro done rest tab hd hr
    cases rest with
    | nil => exact ⟨done.reverse, by rw [letter_spacing_loop]⟩
    | cons run rest =>
      have hrun : run.glyphs.glyphs ≠ [] := hr run (by simp)
      have hrest : ∀ r ∈ rest, r.glyphs.glyphs ≠ [] := fun r h => hr r (by simp [h])
      rw [letter_spacing_loop]
      split
      · obtain ⟨r, h1, h2, _⟩ := adjust_run_final_space_total run tab hrun
        rw [h1]
        simp only
        refine ih _ _ _ (fun x hx => ?_) hrest
        rcases List.mem_cons.mp hx with hx | hx
        · rw [hx]; exact h2
        · exact hd x hx
      · simp only
        have hbefore : ∃ done1 rest1 tab1,
            letter_spacing_before layout reversed done rest tab
              ((get_item_letter_spacing run.item).tdiv 2) = some (done1, rest1, tab1) ∧
            (∀ r ∈ done1, r.glyphs.glyphs ≠ []) ∧ (∀ r ∈ rest1, r.glyphs.glyphs ≠ []) := by
          unfold letter_spacing_before
          split
          · cases rest with
            | nil => exact ⟨_, _, _, rfl, hd, hrest⟩
            | cons next rest2 =>
              simp only
              split
              · exact ⟨_, _, _, rfl, hd, hrest⟩
              · obtain ⟨r, h1, h2, _⟩ := adjust_run_final_space_total next
                  ((get_item_letter_spacing run.item).tdiv 2) (hrest next (by simp))
                rw [h1]
                refine ⟨_, _, _, rfl, hd, fun x hx => ?_⟩
                rcases List.mem_cons.mp hx with hx | hx
                · rw [hx]; exact h2
                · exact hrest x (by simp [hx])
          · cases done with
            | nil => exact ⟨_, _, _, rfl, hd, hrest⟩
            | cons last done2 =>
              simp only
              split
              · exact ⟨_, _, _, rfl, hd, hrest⟩
              · obtain ⟨r, h1, h2, _⟩ := adjust_run_final_space_total last
                  ((get_item_letter_spacing run.item).tdiv 2) (hd last (by simp))
                rw [h1]
                refine ⟨_, _, _, rfl, fun x hx => ?_, hrest⟩
                rcases List.mem_cons.mp hx with hx | hx
                · rw [hx]; exact h2
                · exact hd x (by simp [hx])
        obtain ⟨done1, rest1, tab1, hb, hd1, hr1⟩ := hbefore
        rw [hb]
        simp only
        generalize (match (if reversed = true then done.head? else rest.head?) with
          | some next => !is_tab_run layout next
          | none => false) = c
        cases c
        rotate_left
        · obtain ⟨r, h1, h2, _⟩ := adjust_run_final_space_total run
            (-(get_item_letter_spacing run.item).tdiv 2) hrun
          rw [if_pos rfl, h1]
          simp only
          refine ih _ _ _ (fun x hx => ?_) hr1
          rcases List.mem_cons.mp hx with hx | hx
          · rw [hx]; exact h2
          · exact hd1 x hx
        · obtain ⟨r, h1, h2, _⟩ := adjust_run_final_space_total run
            (-get_item_letter_spacing run.item) hrun
          rw [if_neg (by simp), h1]
          simp only
          refine ih _ _ _ (fun x hx => ?_) hr1
          rcases List.mem_cons.mp hx with hx | hx
          · rw [hx]; exact h2
          · exact hd1 x hx

/-- A call of `adjust_final_space` does not make a run a tab run. -/
theorem adjust_run_final_space_tab (layout : PangoLayout) (run r : PangoLayoutRun) (d : Int)
    (h : adjust_run_final_space run d = some r) : is_tab_run layout r = is_tab_run layout run := by
  have := (adjust_run_final_space_eq run r d h).2.1
  unfold is_tab_run
  rw [this]

/-- On a line without tab runs the main loop of `adjust_line_letter_spacing` changes
the total width by what the first and the last of the runs still to walk lose. -/
theorem letter_spacing_loop_width (layout : PangoLayout) :
    ∀ (n : Nat) (done rest : List PangoLayoutRun) (tab : Int) (result : List PangoLayoutRun),
      rest.length ≤ n →
      (∀ r ∈ done, is_tab_run layout r = false) → (∀ r ∈ rest, is_tab_run layout r = false) →
      letter_spacing_loop layout false n done rest tab = some result →
      runs_width result = runs_width done + runs_width rest +
        (match rest.head?, rest.getLast? with
         | some first, some last =>
           (if done = [] then - (get_item_letter_spacing first.item).tdiv 2 else 0) +
             (get_item_letter_spacing last.item).tdiv 2 - get_item_letter_spacing last.item
         | _, _ => 0) := by
  intro n
  induction n with
  | zero =>
    intro done rest tab result hlen _ _ h
    have hr : rest = [] := List.length_eq_zero.mp (by omega)
    subst hr
    simp only [letter_spacing_loop, Option.some.injEq] at h
    rw [← h, runs_width_reverse]
    simp [runs_width]
  | succ n ih =>
    intro done rest tab result hlen hdt hrt h
    cases rest with
    | nil =>
      simp only [letter_spacing_loop, Option.some.injEq] at h
      rw [← h, runs_width_reverse]
      simp [runs_width]
    | cons run rest =>
      simp only [List.length_cons] at hlen
      have hrun : is_tab_run layout run = false := hrt run (by simp)
      have hrest : ∀ r ∈ rest, is_tab_run layout r = false := fun r h => hrt r (by simp [h])
      rw [letter_spacing_loop] at h
      rw [if_neg (by simp [hrun])] at h
      simp only at h
      have hbefore : ∃ done1,
          letter_spacing_before layout false done rest tab
            ((get_item_letter_spacing run.item).tdiv 2) =
            some (done1, rest, if done = [] then
              tab + (get_item_letter_spacing run.item).tdiv 2 else tab) ∨
          letter_spacing_before layout false done rest tab
            ((get_item_letter_spacing run.item).tdiv 2) = none := by
        unfold letter_spacing_before
        simp only [Bool.false_eq_true, if_false]
        cases done with
        | nil => exact ⟨[], Or.inl (by simp)⟩
        | cons last done2 =>
          simp only [hdt last (by simp), Bool.false_eq_true, if_false]
          cases adjust_run_final_space last ((get_item_letter_spacing run.item).tdiv 2) with
          | none => exact ⟨[], Or.inr rfl⟩
          | some r => exact ⟨r :: done2, Or.inl (by simp)⟩
      cases hb : letter_spacing_before layout false done rest tab
          ((get_item_letter_spacing run.item).tdiv 2) with
      | none => rw [hb] at h; simp at h
      | some b =>
        obtain ⟨done1, rest1, tab1⟩ := b
        rw [hb] at h
        simp only at h
        -- what the first adjustment did
        have hd1 : rest1 = rest ∧ (∀ r ∈ done1, is_tab_run layout r = false) ∧
            (done1 = [] ↔ done = []) ∧
            runs_width done1 = runs_width done +
              (if done = [] then 0 else (get_item_letter_spacing run.item).tdiv 2) := by
          unfold letter_spacing_before at hb
          simp only [Bool.false_eq_true, if_false] at hb
          cases done with
          | nil =>
            simp only [Option.some.injEq, Prod.mk.injEq] at hb
            obtain ⟨h1, h2, _⟩ := hb
            subst h1 h2
            exact ⟨rfl, fun r hr => by simp at hr, Iff.rfl, by simp⟩
          | cons last done2 =>
            simp only [hdt last (by simp), Bool.false_eq_true, if_false] at hb
            cases hadj : adjust_run_final_space last ((get_item_letter_spacing run.item).tdiv 2)
              with
            | none => rw [hadj] at hb; simp at hb
            | some r =>
              rw [hadj] at hb
              simp only [Option.some.injEq, Prod.mk.injEq] at hb
              obtain ⟨h1, h2, _⟩ := hb
              subst h1 h2
              have heq := adjust_run_final_space_eq last r _ hadj
              refine ⟨rfl, fun x hx => ?_, by simp, ?_⟩
              · rcases List.mem_cons.mp hx with hx | hx
                · rw [hx, adjust_run_final_space_tab layout last r _ hadj]
                  exact hdt last (by simp)
                · exact hdt x (by simp [hx])
              · rw [runs_width_cons, runs_width_cons, heq.2.2.2]
                simp only [reduceCtorEq, if_false]
                ring
        obtain ⟨hr1, hdt1, hnil, hw1⟩ := hd1
        subst hr1
        cases rest1 with
        | nil =>
          simp only [List.head?_nil, Bool.false_eq_true, if_false] at h
          cases hadj : adjust_run_final_space run (-get_item_letter_spacing run.item) with
          | none => rw [hadj] at h; simp at h
          | some r =>
            rw [hadj] at h
            simp only at h
            have heq := adjust_run_final_space_eq run r _ hadj
            cases n with
            | zero =>
              simp only [letter_spacing_loop, Option.some.injEq] at h
              rw [← h, runs_width_reverse, runs_width_cons, hw1, heq.2.2.2]
              simp only [List.head?_cons, List.getLast?_singleton, runs_width_cons]
              by_cases hdn : done = []
              · simp only [hdn, if_true, runs_width, List.map_nil, List.sum_nil]
                ring
              · simp only [hdn, if_false, runs_width, List.map_nil, List.sum_nil]
                ring
            | succ n =>
              simp only [letter_spacing_loop, Option.some.injEq] at h
              rw [← h, runs_width_reverse, runs_width_cons, hw1, heq.2.2.2]
              simp only [List.head?_cons, List.getLast?_singleton, runs_width_cons]
              by_cases hdn : done = []
              · simp only [hdn, if_true, runs_width, List.map_nil, List.sum_nil]
                ring
              · simp only [hdn, if_false, runs_width, List.map_nil, List.sum_nil]
                ring
        | cons next rest2 =>
          simp only [Bool.false_eq_true, if_false, List.head?_cons,
            hrest next (List.mem_cons_self _ _), Bool.not_false, if_true] at h
          cases hadj : adjust_run_final_space run (-(get_item_letter_spacing run.item).tdiv 2)
            with
          | none => rw [hadj] at h; simp at h
          | some r =>
            rw [hadj] at h
            simp only at h
            have heq := adjust_run_final_space_eq run r _ hadj
            have hih := ih (r :: done1) (next :: rest2) tab1 result (by simpa using hlen)
              (fun x hx => by
                rcases List.mem_cons.mp hx with hx | hx
                · rw [hx, adjust_run_final_space_tab layout run r _ hadj]; exact hrun
                · exact hdt1 x hx)
              hrest h
            rw [hih, runs_width_cons, hw1, heq.2.2.2]
            simp only [List.head?_cons, reduceCtorEq, if_false, runs_width_cons,
              List.getLast?_cons_cons]
            cases hl : (next :: rest2).getLast? with
            | none => simp at hl
            | some last =>
              simp only
              by_cases hdn : done = []
              · simp only [hdn, if_true]
                ring
              · simp only [hdn, if_false]
                ring

/-! ## Claim C27 -/

/-- C27 (code bug): on a line with a tab `adjust_line_letter_spacing` calls
`adjust_final_space` on a glyph string without glyphs, which writes
`glyphs[num_glyphs - 1]` before the start of the array. For "a" (letter spacing 4),
a tab and "b" at the width 1000: `shape_tab` gives the tab one glyph of ID 0 (here
80 wide), `process_item` removes a first glyph of ID 0, and `process_line` puts the
tab run on the line with no glyph (the runs are listed in reverse order). The line
that `pjx_layout_line_postprocess` passes to `adjust_line_letter_spacing` has the
tab run in the middle, the call has no result, and neither has `process_lines`. -/
theorem tab_run_has_no_glyph :
    (shape_tab fixed_width_shaper tab_layout first_line).map
      (fun g => g.glyphs.map (fun x => (x.glyph, x.width))) = some [(0, 80)] ∧
    (process_line_loop fixed_width_shaper tab_layout 4 first_line
        { initial_state tab_items PangoDirection.LTR 0 0 with remaining_width := 1000 }
        first_locals).map
      (fun r => r.1.runs.map
        (fun run => (run.item.offset, run.glyphs.glyphs.map (fun g => g.width)))) =
      some [(2, [10]), (1, []), (0, [14])] ∧
    (process_line_loop fixed_width_shaper tab_layout 4 first_line
        { initial_state tab_items PangoDirection.LTR 0 0 with remaining_width := 1000 }
        first_locals).map
      (fun r => (line_glyph_widths (pjx_layout_line_reorder
          (fixed_width_shaper.pango_layout_line_ellipsize
            { r.1 with runs := r.1.runs.reverse })),
        (letter_spaced_line fixed_width_shaper tab_layout r.1).isSome)) =
      some ([[14], [], [10]], false) ∧
    process_lines fixed_width_shaper tab_layout 3
      (initial_state tab_items PangoDirection.LTR 0 0) = none := by
  refine ⟨by decide, by decide, by decide, by decide⟩

/-- Where `adjust_line_letter_spacing` is safe: on a line whose runs all have a
glyph it returns the line with runs that are, one by one and in the same order,
the old runs or the old runs after calls of `adjust_final_space` (only the width
of the last glyph differs); and when the line has no tab run, with first run of
letter spacing `s_1` and last run of letter spacing `s_n`, the total glyph width
afterwards is the total before minus `s_1 / 2` minus `s_n - s_n / 2`, the
divisions truncating. -/
theorem letter_spacing_keeps_runs (layout : PangoLayout) (line : PangoLayoutLine)
    (hg : ∀ run ∈ line.runs, run.glyphs.glyphs ≠ []) :
    ∃ runs2, adjust_line_letter_spacing layout line = some { line with runs := runs2 } ∧
      List.Forall₂ FinalSpaceChanged line.runs runs2 ∧
      (∀ first last, line.runs.head? = some first → line.runs.getLast? = some last →
        (∀ run ∈ line.runs, is_tab_run layout run = false) →
        line_width { line with runs := runs2 } =
          line_width line - (get_item_letter_spacing first.item).tdiv 2 -
            (get_item_letter_spacing last.item -
              (get_item_letter_spacing last.item).tdiv 2)) := by
  unfold adjust_line_letter_spacing
  simp only
  generalize hrev : (decide (line.resolved_dir = PangoDirection.RTL) &&
    line.runs.any (is_tab_run layout)) = reversed
  cases reversed with
  | true =>
    simp only [if_true]
    obtain ⟨result, hres⟩ := letter_spacing_loop_total layout true line.runs.reverse.length []
      line.runs.reverse 0 (fun r hr => by simp at hr)
      (fun r hr => hg r (List.mem_reverse.mp hr))
    rw [hres]
    refine ⟨result.reverse, rfl, ?_, ?_⟩
    · have hrel := letter_spacing_loop_rel layout true _ _ _ _ _ (le_refl _) hres
      simp only [List.reverse_nil, List.nil_append] at hrel
      have := List.forall₂_reverse_iff.mpr hrel
      rw [List.reverse_reverse] at this
      exact this
    · intro first last _ _ hnt
      simp only [Bool.and_eq_true, decide_eq_true_eq, List.any_eq_true] at hrev
      obtain ⟨_, x, hx, hxt⟩ := hrev
      rw [hnt x hx] at hxt
      simp at hxt
  | false =>
    simp only [Bool.false_eq_true, if_false]
    obtain ⟨result, hres⟩ := letter_spacing_loop_total layout false line.runs.length []
      line.runs 0 (fun r hr => by simp at hr) hg
    rw [hres]
    refine ⟨result, rfl, ?_, ?_⟩
    · have hrel := letter_spacing_loop_rel layout false _ _ _ _ _ (le_refl _) hres
      simpa using hrel
    · intro first last hfirst hlast hnt
      have hw := letter_spacing_loop_width layout _ _ _ _ _ (le_refl _)
        (fun r hr => by simp at hr) hnt hres
      rw [hfirst, hlast] at hw
      simp only [if_true] at hw
      show runs_width result = runs_width line.runs - _ - _
      rw [hw]
      simp only [runs_width, List.map_nil, List.sum_nil]
      ring

/-- An instance: the line `spaced_line`, of the run widths 25, 28 and 23 with the
letter spacings 5, 8 and 3, comes out with the total width
76 - 5 / 2 - (3 - 3 / 2) = 72. -/
theorem letter_spacing_keeps_runs_witness :
    (∀ run ∈ spaced_line.runs, run.glyphs.glyphs ≠ []) ∧
    line_width spaced_line = 76 ∧
    (adjust_line_letter_spacing spaced_layout spaced_line).map line_width = some 72 ∧
    ∃ runs2, adjust_line_letter_spacing spaced_layout spaced_line =
        some { spaced_line with runs := runs2 } ∧
      List.Forall₂ FinalSpaceChanged spaced_line.runs runs2 ∧
      (∀ first last, spaced_line.runs.head? = some first →
        spaced_line.runs.getLast? = some last →
        (∀ run ∈ spaced_line.runs, is_tab_run spaced_layout run = false) →
        line_width { spaced_line with runs := runs2 } =
          line_width spaced_line - (get_item_letter_spacing first.item).tdiv 2 -
            (get_item_letter_spacing last.item -
              (get_item_letter_spacing last.item).tdiv 2)) :=
  ⟨by decide, by decide, by decide,
    letter_spacing_keeps_runs spaced_layout spaced_line (by decide)⟩

/-! ## Justification and the last line of a paragraph -/

/-- The ruby part of an iteration of `process_line` leaves the loop with an item in
the queue, or goes on with the same queue and `last_line` and no more remaining
width. -/
theorem process_line_ruby_state (line : PangoLayoutLine) (state : ParaBreakState)
    (locals : LineLocals) (item : PangoItem) (result : BreakResult)
    (r : (PangoLayoutLine × ParaBreakState) ⊕ (PangoLayoutLine × ParaBreakState × LineLocals))
    (h : process_line_ruby line state locals item result = some r) :
    match r with
    | Sum.inl (_, state2) => state2.items ≠ []
    | Sum.inr (_, state2, _) =>
      state2.items = state.items ∧ state2.last_line = state.last_line ∧
        state2.remaining_width ≤ state.remaining_width := by
  have hrew : ∀ l s r2, rewind_item l s = some r2 → r2.2.items ≠ [] ∧
      r2.2.last_line = s.last_line := by
    intro l s r2 hr
    unfold rewind_item at hr
    split at hr
    · simp at hr
    · simp only [Option.some.injEq] at hr
      rw [← hr]
      simp
  unfold process_line_ruby at h
  split at h
  · split at h
    · simp at h
    · split at h
      · simp at h
      · simp only [Option.some.injEq] at h
        subst h
        simp
  · split at h
    · split at h
      · simp at h
      · split at h
        · split at h
          · simp at h
          · rename_i r2 hr
            simp only [Option.some.injEq] at h
            subst h
            exact (hrew _ _ _ hr).1
        · split at h
          · rename_i rt_width rb_width hrt hrb
            split at h
            · split at h
              · split at h
                · simp at h
                · rename_i l1 s1 hr
                  simp only [Option.some.injEq] at h
                  subst h
                  have := (hrew _ _ _ hr).1
                  simpa using this
              · split at h
                · simp at h
                · simp only [Option.some.injEq] at h
                  subst h
                  simp only [true_and]
                  omega
            · split at h
              · simp at h
              · split at h
                · simp at h
                · simp only [Option.some.injEq] at h
                  subst h
                  simp
          · simp at h
    · simp only [Option.some.injEq] at h
      subst h
      simp

/-- After `process_item` has put a whole item on the line in the main loop of
`process_line`, `last_line` is set or no width remains, unless the glyph string of
the item ends with a glyph of ID 0 and negative width. -/
theorem process_item_all_fit_state (ext : Collaborators) (layout : PangoLayout)
    (line : PangoLayoutLine) (state0 : ParaBreakState) (force_fit : Bool)
    (item : PangoItem) (items : List PangoItem) (result : BreakResult)
    (line1 : PangoLayoutLine) (state1 : ParaBreakState)
    (hitems : state0.items = item :: items)
    (h : process_item ext layout line state0 force_fit false = some (result, line1, state1))
    (hres : result = BreakResult.BREAK_LINE_SEPARATOR ∨ result = BreakResult.BREAK_ALL_FIT) :
    state1.last_line = true ∨ state1.remaining_width ≤ 0 ∨
      ∃ st glyphs fresh, process_item_shape ext layout line state0 item = some (st, glyphs, fresh) ∧
        negative_trailing_space glyphs = true := by
  rcases process_item_cases ext layout line state0 force_fit false item items result line1
    state1 hitems h with h1 | h1 | h1
  · exact Or.inl h1.2
  · exact Or.inl h1.2.1
  · obtain ⟨st, glyphs, fresh, width, end_width, first, final, retrying, hshape, hwidth, hend,
      -, hnofit, hfirst, hretry, hout⟩ := h1
    have hlt : st.remaining_width < end_width := by
      by_contra hc
      exact hnofit ⟨Or.inl (not_lt.mp hc), rfl⟩
    rcases hout with hout | ⟨-, hout | hout | hout⟩
    · rcases hres with hres | hres
      · rw [hres] at hout; exact absurd hout.1 (by decide)
      · rw [hres] at hout; exact absurd hout.1 (by decide)
    · obtain ⟨hall, -, -, hlast, hrem⟩ := hout
      have hfw : final.2.1 = width := by
        rcases hretry with ⟨-, hf⟩ | ⟨-, -, -, -, hf⟩
        · rw [hf]
          rcases break_loop_spec _ _ _ _ _ _ _ _ _ _ hfirst with hs | hs
          · rw [hs.1]
          · rw [hf] at hall
            omega
        · rcases break_loop_spec _ _ _ _ _ _ _ _ _ _ hf with hs | hs
          · rw [hs.1]
          · omega
      by_cases hneg : negative_trailing_space glyphs = true
      · exact Or.inr (Or.inr ⟨st, glyphs, fresh, hshape, hneg⟩)
      · right; left
        have hew : end_width ≤ width := by
          unfold item_end_width at hend
          split at hend
          · split at hend
            · simp at hend
            · rename_i last hl
              simp only [Option.some.injEq] at hend
              by_cases hg : last.glyph = 0
              · rw [if_pos hg] at hend
                have : ¬ last.width < 0 := fun hw => hneg (by
                  unfold negative_trailing_space
                  rw [hl]
                  simp [hg, hw])
                omega
              · rw [if_neg hg] at hend
                omega
          · simp only [Option.some.injEq] at hend
            omega
        rw [hrem, hfw]
        split
        · omega
        · omega
    · rcases hres with hres | hres
      · rw [hres] at hout; exact absurd hout.2.2.1 (by decide)
      · rw [hres] at hout; exact absurd hout.2.2.1 (by decide)
    · rcases hres with hres | hres
      · rw [hres] at hout; exact absurd hout.2.2.1 (by decide)
      · rw [hres] at hout; exact absurd hout.2.2.1 (by decide)

/-- An iteration of the loop of `process_line` that goes on, or that leaves the loop
with an empty queue, ends with `last_line` set or no width remaining, unless the
glyph string of the item at the head of the queue ends with a glyph of ID 0 and
negative width. -/
theorem process_line_step_state (ext : Collaborators) (layout : PangoLayout)
    (line0 : PangoLayoutLine) (state0 : ParaBreakState) (locals0 : LineLocals) (s : LineStep)
    (h : process_line_step ext layout line0 state0 locals0 = some s) :
    (match s with
     | LineStep.next _ state _ => state.last_line = true ∨ state.remaining_width ≤ 0
     | LineStep.done _ state =>
       state.items = [] → (state.last_line = true ∨ state.remaining_width ≤ 0)) ∨
      ∃ item items st glyphs fresh, state0.items = item :: items ∧
        process_item_shape ext layout line0 state0 item = some (st, glyphs, fresh) ∧
        negative_trailing_space glyphs = true := by
  unfold process_line_step at h
  cases hitems : state0.items with
  | nil => rw [hitems] at h; simp at h
  | cons item0 rest =>
    rw [hitems] at h
    simp only at h
    cases hpi : process_item ext layout line0 state0 (!locals0.have_break) false with
    | none => rw [hpi] at h; simp at h
    | some r =>
      obtain ⟨result, line1, state1⟩ := r
      rw [hpi] at h
      simp only at h
      have hfit := process_item_all_fit_state ext layout line0 state0 _ item0 rest result line1
        state1 hitems hpi
      cases hitems1 : state1.items with
      | nil => rw [hitems1] at h; simp at h
      | cons item items =>
        rw [hitems1] at h
        simp only at h
        cases hruby : process_line_ruby line1 state1 locals0 item result with
        | none => rw [hruby] at h; simp at h
        | some r =>
          rw [hruby] at h
          have hst := process_line_ruby_state line1 state1 locals0 item result r hruby
          cases r with
          | inl r =>
            obtain ⟨line2, state2⟩ := r
            simp only [Option.some.injEq] at h hst
            subst h
            left
            intro hempty
            exact absurd hempty hst
          | inr r =>
            obtain ⟨line, state, locals⟩ := r
            simp only at h hst
            obtain ⟨hi, hl, hr⟩ := hst
            cases result with
            | BREAK_ALL_FIT =>
              simp only at h
              cases hcan : can_break_in layout state.start_offset item0.num_chars
                  (decide (line0.runs ≠ [])) with
              | none => rw [hcan] at h; simp at h
              | some can =>
                rw [hcan] at h
                simp only [Option.some.injEq] at h
                subst h
                rcases hfit (Or.inr rfl) with hf | hf | hf
                · exact Or.inl (Or.inl (by rw [← hf, ← hl]))
                · exact Or.inl (Or.inr (by simp only; omega))
                · obtain ⟨st, glyphs, fresh, h1, h2⟩ := hf
                  exact Or.inr ⟨item0, rest, st, glyphs, fresh, rfl, h1, h2⟩
            | BREAK_EMPTY_FIT =>
              simp only [Option.some.injEq] at h
              subst h
              left
              intro hempty
              rw [hi, hitems1] at hempty
              simp at hempty
            | BREAK_SOME_FIT =>
              simp only [Option.some.injEq] at h
              subst h
              left
              intro hempty
              simp only at hempty
              rw [hi, hitems1] at hempty
              simp at hempty
            | BREAK_NONE_FIT =>
              simp only at h
              split at h
              · simp at h
              · split at h
                · split at h
                  · simp at h
                  · rename_i item4 rest4 hitems4
                    simp only [Option.some.injEq] at h
                    subst h
                    left
                    intro hempty
                    simp only at hempty
                    rw [hitems4] at hempty
                    simp at hempty
                · split at h
                  · simp at h
                  · rename_i item4 rest4 hitems4
                    simp only [Option.some.injEq] at h
                    subst h
                    left
                    intro hempty
                    simp only at hempty
                    rw [hitems4] at hempty
                    simp at hempty
                · simp at h
            | BREAK_LINE_SEPARATOR =>
              simp only [Option.some.injEq] at h
              subst h
              rcases hfit (Or.inl rfl) with hf | hf | hf
              · exact Or.inl (fun _ => Or.inl (by rw [← hf, ← hl]))
              · exact Or.inl (fun _ => Or.inr (by simp only; omega))
              · obtain ⟨st, glyphs, fresh, h1, h2⟩ := hf
                exact Or.inr ⟨item0, rest, st, glyphs, fresh, rfl, h1, h2⟩

/-- When the loop of `process_line` ends with an empty queue that was not empty at
the start, `last_line` is set or no width remains, unless the glyph string of an
iteration ended with a glyph of ID 0 and negative width. -/
theorem process_line_loop_state (ext : Collaborators) (layout : PangoLayout) :
    ∀ (fuel : Nat) (line0 : PangoLayoutLine) (state0 : ParaBreakState) (locals0 : LineLocals)
      (line : PangoLayoutLine) (state : ParaBreakState),
      state0.items ≠ [] →
      process_line_loop ext layout fuel line0 state0 locals0 = some (line, state) →
      state.items = [] →
      (state.last_line = true ∨ state.remaining_width ≤ 0) ∨
        ∃ g ∈ loop_glyphs ext layout fuel line0 state0 locals0,
          negative_trailing_space g = true := by
  intro fuel
  induction fuel with
  | zero =>
    intro line0 state0 locals0 line state _ h _
    simp [process_line_loop] at h
  | succ fuel ih =>
    intro line0 state0 locals0 line state hne h hempty
    rw [process_line_loop, if_neg hne] at h
    cases hstep : process_line_step ext layout line0 state0 locals0 with
    | none => rw [hstep] at h; simp at h
    | some s =>
      rw [hstep] at h
      have hs := process_line_step_state ext layout line0 state0 locals0 s hstep
      have hhead : ∀ item items st glyphs fresh, state0.items = item :: items →
          process_item_shape ext layout line0 state0 item = some (st, glyphs, fresh) →
          glyphs ∈ loop_glyphs ext layout (fuel + 1) line0 state0 locals0 := by
        intro item items st glyphs fresh h1 h2
        rw [loop_glyphs, h1]
        simp only [h2]
        simp
      cases s with
      | done line1 state1 =>
        simp only [Option.some.injEq, Prod.mk.injEq] at h
        obtain ⟨h1, h2⟩ := h
        subst h1 h2
        rcases hs with hs | ⟨item, items, st, glyphs, fresh, hs1, hs2, hs3⟩
        · exact Or.inl (hs hempty)
        · exact Or.inr ⟨glyphs, hhead _ _ _ _ _ hs1 hs2, hs3⟩
      | next line1 state1 locals1 =>
        simp only at h
        rcases hs with hs | ⟨item, items, st, glyphs, fresh, hs1, hs2, hs3⟩
        · by_cases hne1 : state1.items = []
          · cases fuel with
            | zero => simp [process_line_loop] at h
            | succ fuel =>
              rw [process_line_loop, if_pos hne1] at h
              simp only [Option.some.injEq, Prod.mk.injEq] at h
              obtain ⟨h1, h2⟩ := h
              subst h1 h2
              exact Or.inl hs
          · rcases ih line1 state1 locals1 line state hne1 h hempty with hi | ⟨g, hg1, hg2⟩
            · exact Or.inl hi
            · refine Or.inr ⟨g, ?_, hg2⟩
              cases hitems : state0.items with
              | nil => exact absurd hitems hne
              | cons item items =>
                rw [loop_glyphs, hitems]
                simp only [hstep]
                exact List.mem_append_right _ hg1
        · exact Or.inr ⟨glyphs, hhead _ _ _ _ _ hs1 hs2, hs3⟩

/-- With `last_line` set, no width remaining or a right-to-left line,
`pjx_layout_line_postprocess` returns the line as `adjust_line_letter_spacing` left
it. -/
theorem postprocess_skips_justify (ext : Collaborators) (layout : PangoLayout)
    (line : PangoLayoutLine) (state : ParaBreakState)
    (h : state.last_line = true ∨ state.remaining_width ≤ 0 ∨
      (ext.pango_layout_line_ellipsize { line with runs := line.runs.reverse }).resolved_dir =
        PangoDirection.RTL) :
    pjx_layout_line_postprocess ext layout line state = letter_spaced_line ext layout line := by
  unfold pjx_layout_line_postprocess letter_spaced_line
  simp only
  cases hls : adjust_line_letter_spacing layout (pjx_layout_line_reorder
      (ext.pango_layout_line_ellipsize { line with runs := line.runs.reverse })) with
  | none => rfl
  | some line4 =>
    simp only
    by_cases hl : state.last_line = true
    · simp [hl]
    · rw [if_pos hl]
      have hdir : line4.resolved_dir =
          (ext.pango_layout_line_ellipsize { line with runs := line.runs.reverse }).resolved_dir := by
        unfold adjust_line_letter_spacing at hls
        simp only at hls
        split at hls
        · simp at hls
        · simp only [Option.some.injEq] at hls
          rw [← hls]
          rfl
      unfold adjust_line_justify
      rcases h with h | h | h
      · exact absurd h hl
      · by_cases hd : line4.resolved_dir = PangoDirection.RTL
        · rw [if_pos hd]
        · rw [if_neg hd, if_pos h]
      · rw [if_pos (by rw [hdir]; exact h)]

/-! ## Claim C26 -/

/-- Where the last line is safe: for a line the loop of `process_line` ends with,
started with an item in the queue, `pjx_layout_line_postprocess` returns the line
as `adjust_line_letter_spacing` left it when the line is right-to-left, and when
the queue is empty and no glyph string the loop worked with ended with a glyph of
ID 0 and negative width. -/
theorem last_line_not_justified (ext : Collaborators) (layout : PangoLayout) (fuel : Nat)
    (line0 : PangoLayoutLine) (state0 : ParaBreakState) (locals0 : LineLocals)
    (line : PangoLayoutLine) (state : ParaBreakState)
    (hne : state0.items ≠ [])
    (hloop : process_line_loop ext layout fuel line0 state0 locals0 = some (line, state))
    (hend : (state.items = [] ∧
        ∀ g ∈ loop_glyphs ext layout fuel line0 state0 locals0,
          negative_trailing_space g = false) ∨
      (ext.pango_layout_line_ellipsize { line with runs := line.runs.reverse }).resolved_dir =
        PangoDirection.RTL) :
    pjx_layout_line_postprocess ext layout line state = letter_spaced_line ext layout line := by
  apply postprocess_skips_justify
  rcases hend with ⟨hempty, hg⟩ | hrtl
  · rcases process_line_loop_state ext layout fuel line0 state0 locals0 line state hne hloop
      hempty with h | ⟨g, hg1, hg2⟩
    · rcases h with h | h
      · exact Or.inl h
      · exact Or.inr (Or.inl h)
    · rw [hg g hg1] at hg2
      exact absurd hg2 (by decide)
  · exact Or.inr (Or.inr hrtl)

/-- The paragraph "ab" without letter spacing, shaped with a trailing space glyph of
width 5, at the width 10: the item of width 25 is forced on the line, no width
remains, and the line is not justified although `last_line` is not set. -/
theorem last_line_not_justified_witness :
    loose_state.items ≠ [] ∧
    process_line_loop trailing_space_shaper tight_layout 2 first_line loose_state first_locals =
      some (forced_line, forced_state) ∧
    forced_state.items = [] ∧ forced_state.last_line = false ∧
    (∀ g ∈ loop_glyphs trailing_space_shaper tight_layout 2 first_line loose_state first_locals,
      negative_trailing_space g = false) ∧
    pjx_layout_line_postprocess trailing_space_shaper tight_layout forced_line forced_state =
      letter_spaced_line trailing_space_shaper tight_layout forced_line :=
  ⟨by decide, rfl, rfl, rfl, by decide,
    last_line_not_justified trailing_space_shaper tight_layout 2 first_line loose_state
      first_locals forced_line forced_state (by decide) rfl (Or.inl ⟨rfl, by decide⟩)⟩

/-! ## The visual-to-logical map of a line -/

/-- Character offsets add up in `g_utf8_offset_to_pointer`. -/
theorem otp_add (text : List Nat) : ∀ (a p b : Nat),
    g_utf8_offset_to_pointer text (g_utf8_offset_to_pointer text p a) b =
      g_utf8_offset_to_pointer text p (a + b) := by
  intro a
  induction a with
  | zero => intro p b; simp [g_utf8_offset_to_pointer]
  | succ a ih =>
    intro p b
    have h : a + 1 + b = (a + b) + 1 := by omega
    rw [h, otp_succ, otp_succ, ih]

/-- The inner loop of `pjx_layout_line_get_vis2log_map` assigns the positions of
the characters `i`, ..., `i + count - 1` of the run and no other. -/
theorem vis2log_run_loop_spec (text : List Nat) (start : Int) (pos m : Nat) (ltr : Bool)
    (len : Nat) (hm : pos + m < len) :
    ∀ (count i p : Nat) (result : List (Option Int)),
      result.length = len → i + count ≤ m + (if ltr then 1 else 0) →
      ∃ r, vis2log_run_loop text start pos m ltr count i p result =
          some (r, g_utf8_offset_to_pointer text p count) ∧
        r.length = len ∧
        (∀ k, i ≤ k → k < i + count →
          r[if ltr then pos + k else pos + m - k]? =
            some (some ((g_utf8_offset_to_pointer text p (k - i) : Int) - start))) ∧
        (∀ j, (∀ k, i ≤ k → k < i + count → j ≠ (if ltr then pos + k else pos + m - k)) →
          r[j]? = result[j]?) := by
  intro count
  induction count with
  | zero =>
    intro i p result hl _
    refine ⟨result, by simp [vis2log_run_loop, g_utf8_offset_to_pointer], hl, ?_, ?_⟩
    · intro k h1 h2; omega
    · intro j _; rfl
  | succ count ih =>
    intro i p result hl hc
    rw [vis2log_run_loop]
    have hidx : (if ltr then pos + i else pos + m - i) < result.length := by
      rw [hl]
      split
      · rename_i h; rw [if_pos h] at hc; omega
      · omega
    have hw : map_write result (if ltr then pos + i else pos + m - i) ((p : Int) - start) =
        some (result.set (if ltr then pos + i else pos + m - i) (some ((p : Int) - start))) := by
      unfold map_write
      rw [if_pos hidx]
    rw [hw]
    simp only
    obtain ⟨r, h1, h2, h3, h4⟩ := ih (i + 1) (g_utf8_next_char text p)
      (result.set (if ltr then pos + i else pos + m - i) (some ((p : Int) - start)))
      (by rw [List.length_set]; exact hl) (by omega)
    refine ⟨r, ?_, h2, ?_, ?_⟩
    · rw [h1, otp_succ]
    · intro k hk1 hk2
      by_cases hki : k = i
      · subst hki
        rw [h4]
        · rw [List.getElem?_set_self hidx]
          simp [g_utf8_offset_to_pointer]
        · intro k2 hk3 hk4
          split
          · omega
          · rename_i hl2
            rw [if_neg hl2] at hc
            omega
      · rw [h3 k (by omega) (by omega)]
        have : k - i = (k - (i + 1)) + 1 := by omega
        rw [this, otp_succ]
    · intro j hj
      rw [h4 j (fun k hk1 hk2 => hj k (by omega) (by omega))]
      rw [List.getElem?_set_ne]
      exact fun h => hj i (le_refl _) (by omega) h.symm

/-- A conditional assignment inside the array has a result, which differs from the
array at the index only. -/
theorem map_write_if_spec (cond : Bool) (result : List (Option Int)) (i : Nat) (v : Int)
    (hi : i < result.length) :
    ∃ r, map_write_if cond result i v = some r ∧ r.length = result.length ∧
      r[i]? = (if cond then some (some v) else result[i]?) ∧
      ∀ j, j ≠ i → r[j]? = result[j]? := by
  unfold map_write_if
  cases cond with
  | false => exact ⟨result, by simp, rfl, by simp, fun _ _ => rfl⟩
  | true =>
    simp only [if_true]
    unfold map_write
    rw [if_pos hi]
    refine ⟨_, rfl, by simp, by simp [List.getElem?_set_self hi], fun j hj => ?_⟩
    rw [List.getElem?_set_ne (fun h => hj h.symm)]

/-- The body of the loop over the runs, for a run of `c > 0` characters that starts
at the visual position `pos` and holds the characters of the line from number `s`
on: it has a result, which differs from the array only at the positions `pos`,
..., `pos + c`; inside the run the entries are those of `run_char`, and so are the
entry at the start and the entry at the end when the run assigns them. -/
theorem vis2log_run_spec (text : List Nat) (start : Int) (st : Nat)
    (cursor_dir prev_dir : PangoDirection) (run : PangoLayoutRun) (pos n s : Nat)
    (result : List (Option Int)) (hc : 0 < run.item.num_chars)
    (hpos : pos + run.item.num_chars ≤ n) (hlen : result.length = n + 1)
    (hoff : run.item.offset = g_utf8_offset_to_pointer text st s) :
    ∃ r, vis2log_run text start cursor_dir prev_dir run pos result = some r ∧
      r.length = n + 1 ∧
      (∀ j, j < pos ∨ pos + run.item.num_chars < j → r[j]? = result[j]?) ∧
      (∀ i, 0 < i → i < run.item.num_chars →
        r[pos + i]? =
          some (some ((g_utf8_offset_to_pointer text st (run_char run s i) : Int) - start))) ∧
      (r[pos]? = if run_writes_start cursor_dir prev_dir run = true then
          some (some ((g_utf8_offset_to_pointer text st (run_char run s 0) : Int) - start))
        else result[pos]?) ∧
      (r[pos + run.item.num_chars]? = if run_writes_end cursor_dir run = true then
          some (some ((g_utf8_offset_to_pointer text st
            (run_char run s run.item.num_chars) : Int) - start))
        else result[pos + run.item.num_chars]?) := by
  unfold vis2log_run
  simp only
  by_cases hdir : run_dir run = PangoDirection.LTR
  · rw [if_pos hdir]
    obtain ⟨r1, h1, hl1, hg1, hf1⟩ := map_write_if_spec
      (decide (cursor_dir = PangoDirection.LTR ∨ prev_dir = run_dir run)) result pos
      ((run.item.offset : Int) - start) (by omega)
    rw [h1]
    simp only
    obtain ⟨r2, h2, hl2, hg2, hf2⟩ := vis2log_run_loop_spec text start pos run.item.num_chars
      true (n + 1) (by omega) (run.item.num_chars - 1) 1 (g_utf8_next_char text run.item.offset)
      r1 (by rw [hl1, hlen]) (by simp only [if_true]; omega)
    rw [h2]
    simp only
    obtain ⟨r3, h3, hl3, hg3, hf3⟩ := map_write_if_spec
      (decide (cursor_dir = PangoDirection.LTR)) r2 (pos + run.item.num_chars)
      (((g_utf8_offset_to_pointer text (g_utf8_next_char text run.item.offset)
        (run.item.num_chars - 1) : Nat) : Int) - start) (by omega)
    rw [h3]
    simp only [if_true] at hg2 hf2
    refine ⟨r3, rfl, by omega, ?_, ?_, ?_, ?_⟩
    · intro j hj
      rw [hf3 j (by omega), hf2 j (fun k _ _ => by omega), hf1 j (by omega)]
    · intro i hi1 hi2
      rw [hf3 _ (by omega), hg2 i (by omega) (by omega)]
      have : g_utf8_offset_to_pointer text (g_utf8_next_char text run.item.offset) (i - 1) =
          g_utf8_offset_to_pointer text st (run_char run s i) := by
        rw [← otp_succ, hoff, otp_add]
        unfold run_char
        rw [if_pos hdir]
        congr 1
        omega
      rw [this]
    · rw [hf3 _ (by omega), hf2 pos (fun k _ _ => by omega), hg1]
      unfold run_writes_start run_char
      simp [hdir, hoff]
    · have : g_utf8_offset_to_pointer text (g_utf8_next_char text run.item.offset)
          (run.item.num_chars - 1) =
          g_utf8_offset_to_pointer text st (s + run.item.num_chars) := by
        rw [← otp_succ, hoff, otp_add]
        congr 1
        omega
      rw [hg3, this, hf2 _ (fun k _ _ => by omega), hf1 _ (by omega)]
      unfold run_writes_end run_char
      simp [hdir]
  · rw [if_neg hdir]
    have hrtl : run_dir run = PangoDirection.RTL := by
      unfold run_dir at hdir ⊢
      split
      · rfl
      · rename_i h
        rw [if_neg h] at hdir
        exact absurd rfl hdir
    obtain ⟨r1, h1, hl1, hg1, hf1⟩ := map_write_if_spec
      (decide (cursor_dir = PangoDirection.RTL)) result (pos + run.item.num_chars)
      ((run.item.offset : Int) - start) (by omega)
    rw [h1]
    simp only
    obtain ⟨r2, h2, hl2, hg2, hf2⟩ := vis2log_run_loop_spec text start pos run.item.num_chars
      false (n + 1) (by omega) (run.item.num_chars - 1) 1
      (g_utf8_next_char text run.item.offset) r1 (by rw [hl1, hlen])
      (by simp only [Bool.false_eq_true, if_false]; omega)
    rw [h2]
    simp only
    obtain ⟨r3, h3, hl3, hg3, hf3⟩ := map_write_if_spec
      (decide (cursor_dir = PangoDirection.RTL ∨ prev_dir = run_dir run)) r2 pos
      (((g_utf8_offset_to_pointer text (g_utf8_next_char text run.item.offset)
        (run.item.num_chars - 1) : Nat) : Int) - start) (by omega)
    rw [h3]
    simp only [Bool.false_eq_true, if_false] at hg2 hf2
    refine ⟨r3, rfl, by omega, ?_, ?_, ?_, ?_⟩
    · intro j hj
      rw [hf3 j (by omega), hf2 j (fun k _ _ => by omega), hf1 j (by omega)]
    · intro i hi1 hi2
      rw [hf3 _ (by omega)]
      have hidx : pos + i = pos + run.item.num_chars - (run.item.num_chars - i) := by omega
      rw [hidx, hg2 (run.item.num_chars - i) (by omega) (by omega)]
      have : g_utf8_offset_to_pointer text (g_utf8_next_char text run.item.offset)
          (run.item.num_chars - i - 1) =
          g_utf8_offset_to_pointer text st (run_char run s i) := by
        rw [← otp_succ, hoff, otp_add]
        unfold run_char
        rw [if_neg hdir]
        congr 1
        omega
      rw [this]
    · have : g_utf8_offset_to_pointer text (g_utf8_next_char text run.item.offset)
          (run.item.num_chars - 1) =
          g_utf8_offset_to_pointer text st (s + run.item.num_chars) := by
        rw [← otp_succ, hoff, otp_add]
        congr 1
        omega
      rw [hg3, this, hf2 _ (fun k _ _ => by omega), hf1 _ (by omega)]
      unfold run_writes_start run_char
      simp [hrtl]
    · rw [hf3 _ (by omega), hf2 _ (fun k _ _ => by omega), hg1]
      unfold run_writes_end run_char
      simp [hrtl, hoff]

/-- The loop of `pjx_layout_line_get_vis2log_map` over the runs: when the map `G`
agrees with what the loop assigns last to each position (`MapSpec`), the entries
before `pos` are those of `G`, and so is the entry at `pos` unless it is yet to be
assigned, then the loop has a result, whose entries are those of `G`. -/
theorem vis2log_runs_spec (text : List Nat) (line : PangoLayoutLine)
    (cursor_dir : PangoDirection) (n : Nat) (G : Nat → Nat) (hstart : 0 ≤ line.start_index)
    (hend : boundary_offset text line n = line.length) :
    ∀ (runs : List PangoLayoutRun) (prev_dir : PangoDirection) (pos : Nat)
      (result : List (Option Int)),
      MapSpec text line n cursor_dir G runs prev_dir pos → result.length = n + 1 →
      (∀ j, j < pos → result[j]? = some (some (boundary_offset text line (G j)))) →
      (next_writes cursor_dir line.resolved_dir prev_dir runs = false →
        result[pos]? = some (some (boundary_offset text line (G pos)))) →
      ∃ r, vis2log_runs text line cursor_dir runs prev_dir pos result = some r ∧
        r.length = n + 1 ∧
        ∀ j, j ≤ n → r[j]? = some (some (boundary_offset text line (G j))) := by
  intro runs
  induction runs with
  | nil =>
    intro prev_dir pos result hspec hlen hbefore hat
    obtain ⟨hpos, hlast⟩ := hspec
    subst hpos
    rw [vis2log_runs]
    obtain ⟨r, h1, h2, h3, h4⟩ := map_write_if_spec
      (decide (cursor_dir = line.resolved_dir ∨ prev_dir = line.resolved_dir)) result pos
      (if line.resolved_dir = PangoDirection.LTR then line.length else 0) (by omega)
    refine ⟨r, h1, by omega, fun j hj => ?_⟩
    by_cases hjp : j = pos
    · subst hjp
      rw [h3]
      by_cases hc : cursor_dir = line.resolved_dir ∨ prev_dir = line.resolved_dir
      · rw [if_pos (by simpa using hc), hlast hc]
        by_cases hd : line.resolved_dir = PangoDirection.LTR
        · rw [if_pos hd, if_pos hd, hend]
        · rw [if_neg hd, if_neg hd]
          unfold boundary_offset
          simp only [g_utf8_offset_to_pointer]
          congr 2
          omega
      · rw [if_neg (by simpa using hc)]
        exact hat (by simpa [next_writes] using hc)
    · rw [h4 j hjp]
      exact hbefore j (by omega)
  | cons run rest ih =>
    intro prev_dir pos result hspec hlen hbefore hat
    obtain ⟨⟨s, hc, hpos, hs, hoff, hleft, hin, hright⟩, hrest⟩ := hspec
    obtain ⟨r1, h1, hl1, hf1, hi1, hs1, he1⟩ := vis2log_run_spec text line.start_index
      line.start_index.toNat cursor_dir prev_dir run pos n s result hc hpos hlen hoff
    rw [vis2log_runs, h1]
    simp only
    refine ih (run_dir run) (pos + run.item.num_chars) r1 hrest hl1 ?_ ?_
    · intro j hj
      by_cases hj1 : j < pos
      · rw [hf1 j (Or.inl hj1)]
        exact hbefore j hj1
      · by_cases hj2 : j = pos
        · subst hj2
          rw [hs1]
          by_cases hw : run_writes_start cursor_dir prev_dir run = true
          · rw [if_pos hw, hleft hw]
            rfl
          · rw [if_neg hw]
            exact hat (by simpa [next_writes] using hw)
        · have hji : j = pos + (j - pos) := by omega
          rw [hji, hi1 (j - pos) (by omega) (by omega), hin (j - pos) (by omega) (by omega)]
          rfl
    · intro hnw
      obtain ⟨hw, hg⟩ := hright hnw
      rw [he1, if_pos hw, hg]
      rfl

/-- The offset of the character boundary 0 is 0. -/
theorem boundary_offset_zero (text : List Nat) (line : PangoLayoutLine)
    (hstart : 0 ≤ line.start_index) : boundary_offset text line 0 = 0 := by
  unfold boundary_offset
  simp only [g_utf8_offset_to_pointer]
  omega

/-- The offsets of the character boundaries grow with their number. -/
theorem boundary_offset_lt (text : List Nat) (line : PangoLayoutLine) (j k : Nat) (h : j < k) :
    boundary_offset text line j < boundary_offset text line k := by
  unfold boundary_offset
  have h1 := otp_lt_succ text line.start_index.toNat j
  have h2 := otp_mono text line.start_index.toNat k (j + 1) (by omega)
  omega

/-- Different character boundaries have different offsets. -/
theorem boundary_offset_inj (text : List Nat) (line : PangoLayoutLine) (j k : Nat)
    (h : boundary_offset text line j = boundary_offset text line k) : j = k := by
  by_contra hne
  rcases Nat.lt_or_gt_of_ne hne with hlt | hlt
  · have := boundary_offset_lt text line j k hlt
    omega
  · have := boundary_offset_lt text line k j hlt
    omega

/-- The function `pjx_layout_line_get_vis2log_map` returns the map `G` when `G`
agrees with what the function assigns last to each visual position. -/
theorem vis2log_map_spec (layout : PangoLayout) (line : PangoLayoutLine) (strong : Bool)
    (n : Nat) (G : Nat → Nat) (hstart : 0 ≤ line.start_index)
    (hn : line_n_chars layout line = some n)
    (hend : boundary_offset layout.text line n = line.length)
    (hspec : MapSpec layout.text line n (map_cursor_dir line strong) G line.runs
      line.resolved_dir 0)
    (hfirst : next_writes (map_cursor_dir line strong) line.resolved_dir line.resolved_dir
        line.runs = false →
      line.resolved_dir = map_cursor_dir line strong ∧
        G 0 = if line.resolved_dir = PangoDirection.LTR then 0 else n) :
    ∃ m, pjx_layout_line_get_vis2log_map layout line strong = some m ∧ m.length = n + 1 ∧
      ∀ j, j ≤ n → m[j]? = some (some (boundary_offset layout.text line (G j))) := by
  unfold pjx_layout_line_get_vis2log_map
  rw [hn]
  simp only
  obtain ⟨r0, h0, hl0, hg0, hf0⟩ := map_write_if_spec
    (decide (line.resolved_dir = map_cursor_dir line strong)) (List.replicate (n + 1) none) 0
    (if line.resolved_dir = PangoDirection.LTR then 0 else line.length) (by simp)
  unfold map_cursor_dir at h0 hg0 hspec hfirst
  rw [h0]
  simp only
  refine vis2log_runs_spec layout.text line _ n G hstart hend line.runs line.resolved_dir 0 r0
    hspec (by rw [hl0]; simp) (fun j hj => by omega) ?_
  intro hnw
  obtain ⟨hd, hg⟩ := hfirst hnw
  rw [hg0, if_pos (by simpa using hd), hg]
  by_cases hl : line.resolved_dir = PangoDirection.LTR
  · rw [if_pos hl, if_pos hl, boundary_offset_zero _ _ hstart]
  · rw [if_neg hl, if_neg hl, hend]

/-- The loop of `pjx_layout_line_get_log2vis_map` over a map whose entries are all
written, lie inside the result and differ from each other: it has a result, which
holds at each entry of the map the position of that entry, and is as before
elsewhere. -/
theorem log2vis_loop_spec : ∀ (reverse_map : List (Option Int)) (i : Nat) (result : List Int),
    (∀ k, k < reverse_map.length → ∃ v : Nat, reverse_map[k]? = some (some (v : Int)) ∧
      v < result.length) →
    (∀ (j k : Nat) (v : Int), reverse_map[j]? = some (some v) →
      reverse_map[k]? = some (some v) → j = k) →
    ∃ r, log2vis_loop reverse_map i result = some r ∧ r.length = result.length ∧
      (∀ (k v : Nat), reverse_map[k]? = some (some (v : Int)) →
        r[v]? = some ((i + k : Nat) : Int)) ∧
      (∀ x : Nat, (∀ k : Nat, reverse_map[k]? ≠ some (some (x : Int))) →
        r[x]? = result[x]?) := by
  intro reverse_map
  induction reverse_map with
  | nil =>
    intro i result _ _
    exact ⟨result, by simp [log2vis_loop], rfl, fun k v h => by simp at h, fun _ _ => rfl⟩
  | cons e rest ih =>
    intro i result hall hinj
    obtain ⟨v, hv, hvl⟩ := hall 0 (by simp)
    simp only [List.getElem?_cons_zero, Option.some.injEq] at hv
    subst hv
    rw [log2vis_loop]
    rw [if_pos ⟨by omega, by simpa using hvl⟩]
    simp only [Int.toNat_ofNat]
    obtain ⟨r, h1, h2, h3, h4⟩ := ih (i + 1) (result.set v (i : Int))
      (fun k hk => by
        obtain ⟨w, hw1, hw2⟩ := hall (k + 1) (by simp; omega)
        exact ⟨w, by simpa using hw1, by simpa using hw2⟩)
      (fun j k w hj hk => by
        have := hinj (j + 1) (k + 1) w (by simpa using hj) (by simpa using hk)
        omega)
    refine ⟨r, h1, by simpa using h2, ?_, ?_⟩
    · intro k w hk
      cases k with
      | zero =>
        simp only [List.getElem?_cons_zero, Option.some.injEq, Nat.cast_inj] at hk
        subst hk
        rw [h4 v]
        · rw [List.getElem?_set_self hvl]
          simp
        · intro k hk
          have := hinj 0 (k + 1) (v : Int) (by simp) (by simpa using hk)
          omega
      | succ k =>
        rw [h3 k w (by simpa using hk)]
        congr 2
        omega
    · intro x hx
      rw [h4 x (fun k hk => hx (k + 1) (by simpa using hk))]
      rw [List.getElem?_set_ne]
      intro hvx
      subst hvx
      exact hx 0 (by simp)

/-- When the map `G` agrees with what `pjx_layout_line_get_vis2log_map` assigns last
to each visual position and is a one-to-one map of the positions `0..n` into
themselves, then the function returns `G`, as byte offsets, and
`pjx_layout_line_get_log2vis_map` returns its inverse. -/
theorem maps_inverse_of_spec (layout : PangoLayout) (line : PangoLayoutLine) (strong : Bool)
    (n : Nat) (G : Nat → Nat) (hstart : 0 ≤ line.start_index)
    (hn : line_n_chars layout line = some n)
    (hend : boundary_offset layout.text line n = line.length)
    (hspec : MapSpec layout.text line n (map_cursor_dir line strong) G line.runs
      line.resolved_dir 0)
    (hfirst : next_writes (map_cursor_dir line strong) line.resolved_dir line.resolved_dir
        line.runs = false →
      line.resolved_dir = map_cursor_dir line strong ∧
        G 0 = if line.resolved_dir = PangoDirection.LTR then 0 else n)
    (hG : ∀ j, j ≤ n → G j ≤ n)
    (hinj : ∀ i j, i ≤ n → j ≤ n → G i = G j → i = j) :
    ∃ m l2v, pjx_layout_line_get_vis2log_map layout line strong = some m ∧
      pjx_layout_line_get_log2vis_map layout line strong = some l2v ∧ m.length = n + 1 ∧
      ∀ i, i ≤ n → m[i]? = some (some (boundary_offset layout.text line (G i))) ∧
        l2v[(boundary_offset layout.text line (G i)).toNat]? = some (i : Int) := by
  obtain ⟨m, hm, hml, hmg⟩ := vis2log_map_spec layout line strong n G hstart hn hend hspec hfirst
  have hnat : ∀ k, boundary_offset layout.text line k =
      ((g_utf8_offset_to_pointer layout.text line.start_index.toNat k -
        line.start_index.toNat : Nat) : Int) := by
    intro k
    unfold boundary_offset
    have := otp_le layout.text k line.start_index.toNat
    omega
  have hle : ∀ k, k ≤ n → boundary_offset layout.text line k ≤ line.length := by
    intro k hk
    rcases Nat.lt_or_ge k n with h | h
    · have := boundary_offset_lt layout.text line k n h
      omega
    · have : k = n := by omega
      rw [this, hend]
  have hlen0 : 0 ≤ line.length := by
    rw [← hend, hnat]
    omega
  obtain ⟨r, hr1, hr2, hr3, -⟩ := log2vis_loop_spec m 0
    (List.replicate (line.length.toNat + 1) 0)
    (fun k hk => by
      refine ⟨g_utf8_offset_to_pointer layout.text line.start_index.toNat (G k) -
        line.start_index.toNat, ?_, ?_⟩
      · rw [hmg k (by omega), hnat]
      · have := hle (G k) (hG k (by omega))
        rw [hnat] at this
        simp only [List.length_replicate]
        omega)
    (fun j k v hj hk => by
      have hjl : j < m.length := by
        by_contra hc
        rw [List.getElem?_eq_none (by omega)] at hj
        simp at hj
      have hkl : k < m.length := by
        by_contra hc
        rw [List.getElem?_eq_none (by omega)] at hk
        simp at hk
      rw [hmg j (by omega)] at hj
      rw [hmg k (by omega)] at hk
      simp only [Option.some.injEq] at hj hk
      exact hinj j k (by omega) (by omega)
        (boundary_offset_inj layout.text line _ _ (by rw [hj, hk])))
  refine ⟨m, r, hm, ?_, hml, fun i hi => ⟨hmg i hi, ?_⟩⟩
  · unfold pjx_layout_line_get_log2vis_map
    rw [if_neg (by omega), hm]
    exact hr1
  · have := hr3 i (g_utf8_offset_to_pointer layout.text line.start_index.toNat (G i) -
      line.start_index.toNat) (by rw [hmg i hi, hnat])
    rw [hnat, Int.toNat_ofNat, this]
    simp

/-! ## Lines with two embedding levels -/

/-- A run is left-to-right or right-to-left. -/
theorem run_dir_cases (run : PangoLayoutRun) :
    run_dir run = PangoDirection.LTR ∨ run_dir run = PangoDirection.RTL := by
  unfold run_dir
  split
  · exact Or.inr rfl
  · exact Or.inl rfl

/-- When nothing after a run assigns the visual position at its end, the run has
the direction of the cursor, and assigns the position. -/
theorem next_writes_false (cursor_dir dir : PangoDirection) (run : PangoLayoutRun)
    (rest : List PangoLayoutRun)
    (hD : dir = PangoDirection.LTR ∨ dir = PangoDirection.RTL)
    (hC : cursor_dir = PangoDirection.LTR ∨ cursor_dir = PangoDirection.RTL)
    (h : next_writes cursor_dir dir (run_dir run) rest = false) :
    run_writes_end cursor_dir run = true := by
  unfold run_writes_end
  unfold next_writes at h
  cases rest with
  | nil =>
    simp only [decide_eq_false_iff_not, not_or] at h
    rcases run_dir_cases run with hr | hr <;> rcases hD with hd | hd <;>
      rcases hC with hc | hc <;> simp_all
  | cons next rest =>
    simp only [run_writes_start, decide_eq_false_iff_not, not_or] at h
    rcases run_dir_cases run with hr | hr <;> rcases run_dir_cases next with hx | hx <;>
      rcases hC with hc | hc <;> simp_all

/-- The runs of a line with two embedding levels give `MapSpec` for the map that
mirrors the visual positions inside the groups of runs of the other direction. -/
theorem two_level_mapSpec (text : List Nat) (line : PangoLayoutLine) (n : Nat)
    (cursor_dir : PangoDirection) (G : Nat → Nat)
    (hD : line.resolved_dir = PangoDirection.LTR ∨ line.resolved_dir = PangoDirection.RTL)
    (hC : cursor_dir = PangoDirection.LTR ∨ cursor_dir = PangoDirection.RTL) :
    ∀ (rest : List PangoLayoutRun) (blk : Option (Nat × Nat)) (pos : Nat)
      (prev_dir : PangoDirection),
      two_level_runs text line.start_index.toNat n line.resolved_dir rest blk pos = true →
      (∀ ab, blk = some ab → ab.1 < pos ∧ pos + opposite_chars line.resolved_dir rest = ab.2) →
      (∀ v, pos < v → v ≤ n →
        G v = line_base line.resolved_dir n
          (reflect_pos cursor_dir line.resolved_dir rest blk pos v)) →
      (next_writes cursor_dir line.resolved_dir prev_dir rest = true →
        G pos = line_base line.resolved_dir n
          (reflect_pos cursor_dir line.resolved_dir rest blk pos pos)) →
      MapSpec text line n cursor_dir G rest prev_dir pos := by
  intro rest
  induction rest with
  | nil =>
    intro blk pos prev_dir htl _ _ hat
    simp only [two_level_runs, decide_eq_true_eq] at htl
    subst htl
    refine ⟨rfl, fun hw => ?_⟩
    rw [hat (by simpa [next_writes] using hw)]
    unfold line_base reflect_pos
    split
    · rfl
    · omega
  | cons run rest ih =>
    intro blk pos prev_dir htl hblk hafter hat
    rw [two_level_runs] at htl
    by_cases hb : run_dir run = line.resolved_dir
    · rw [if_pos hb] at htl
      simp only [Bool.and_eq_true, decide_eq_true_eq] at htl
      obtain ⟨⟨hc, hpos, hoff⟩, hrest⟩ := htl
      have hrefl : ∀ v, reflect_pos cursor_dir line.resolved_dir (run :: rest) blk pos v =
          if v < pos + run.item.num_chars ∨ (v = pos + run.item.num_chars ∧
            next_writes cursor_dir line.resolved_dir (run_dir run) rest = false) then v
          else reflect_pos cursor_dir line.resolved_dir rest none (pos + run.item.num_chars) v := by
        intro v
        rw [reflect_pos, if_pos hb]
      have hchar : ∀ i, i ≤ run.item.num_chars →
          run_char run (if line.resolved_dir = PangoDirection.LTR then pos
            else n - pos - run.item.num_chars) i = line_base line.resolved_dir n (pos + i) := by
        intro i hi
        unfold run_char line_base
        rw [hb]
        split <;> omega
      refine ⟨⟨_, hc, hpos, ?_, hoff, ?_, ?_, ?_⟩, ?_⟩
      · split <;> omega
      · intro hw
        rw [hat (by simpa [next_writes] using hw), hrefl, if_pos (Or.inl (by omega)),
          hchar 0 (by omega)]
        rfl
      · intro i hi1 hi2
        rw [hafter _ (by omega) (by omega), hrefl, if_pos (Or.inl (by omega)),
          hchar i (by omega)]
      · intro hnw
        refine ⟨next_writes_false cursor_dir line.resolved_dir run rest hD hC hnw, ?_⟩
        rw [hafter _ (by omega) (by omega), hrefl, if_pos (Or.inr ⟨rfl, hnw⟩),
          hchar _ (le_refl _)]
      · refine ih none _ _ hrest (fun ab h => by simp at h) ?_ ?_
        · intro v hv1 hv2
          rw [hafter v (by omega) hv2, hrefl, if_neg (by omega)]
        · intro hnw
          rw [hafter _ (by omega) (by omega), hrefl, if_neg (by
            rw [hnw]
            simp)]
    · rw [if_neg hb] at htl
      simp only [Bool.and_eq_true, decide_eq_true_eq] at htl
      obtain ⟨⟨hc, hbn, hoff⟩, hrest⟩ := htl
      have hopp : opposite_chars line.resolved_dir (run :: rest) =
          run.item.num_chars + opposite_chars line.resolved_dir rest := by
        rw [opposite_chars, if_neg hb]
      generalize hab : blk.getD (pos, pos + opposite_chars line.resolved_dir (run :: rest)) = ab
        at hoff hbn hrest
      have hbounds : ab.1 ≤ pos ∧
          pos + run.item.num_chars + opposite_chars line.resolved_dir rest = ab.2 := by
        cases blk with
        | none =>
          simp only [Option.getD_none] at hab
          rw [← hab]
          simp only
          omega
        | some ab2 =>
          simp only [Option.getD_some] at hab
          subst hab
          have := hblk ab2 rfl
          omega
      have hrefl : ∀ v, reflect_pos cursor_dir line.resolved_dir (run :: rest) blk pos v =
          if v < pos + run.item.num_chars ∨ (v = pos + run.item.num_chars ∧
            next_writes cursor_dir line.resolved_dir (run_dir run) rest = false)
          then ab.1 + ab.2 - v
          else reflect_pos cursor_dir line.resolved_dir rest (some ab)
            (pos + run.item.num_chars) v := by
        intro v
        rw [reflect_pos, if_neg hb]
        simp only [hab]
      have hchar : ∀ i, i ≤ run.item.num_chars →
          run_char run (if line.resolved_dir = PangoDirection.LTR then
              ab.1 + ab.2 - pos - run.item.num_chars
            else n + pos - ab.1 - ab.2) i =
            line_base line.resolved_dir n (ab.1 + ab.2 - (pos + i)) := by
        intro i hi
        unfold run_char line_base
        rcases hD with hd | hd
        · rw [hd] at hb
          rw [if_neg hb, if_pos hd, if_pos hd]
          omega
        · rw [hd] at hb
          have hl : run_dir run = PangoDirection.LTR := by
            rcases run_dir_cases run with h | h
            · exact h
            · exact absurd h hb
          rw [if_pos hl, if_neg (by rw [hd]; decide), if_neg (by rw [hd]; decide)]
          omega
      refine ⟨⟨_, hc, by omega, ?_, hoff, ?_, ?_, ?_⟩, ?_⟩
      · split <;> omega
      · intro hw
        rw [hat (by simpa [next_writes] using hw), hrefl, if_pos (Or.inl (by omega)),
          hchar 0 (by omega)]
        rfl
      · intro i hi1 hi2
        rw [hafter _ (by omega) (by omega), hrefl, if_pos (Or.inl (by omega)),
          hchar i (by omega)]
      · intro hnw
        refine ⟨next_writes_false cursor_dir line.resolved_dir run rest hD hC hnw, ?_⟩
        rw [hafter _ (by omega) (by omega), hrefl, if_pos (Or.inr ⟨rfl, hnw⟩),
          hchar _ (le_refl _)]
      · refine ih (some ab) _ _ hrest (fun ab2 h => by
          simp only [Option.some.injEq] at h
          subst h
          omega) ?_ ?_
        · intro v hv1 hv2
          rw [hafter v (by omega) hv2, hrefl, if_neg (by omega)]
        · intro hnw
          rw [hafter _ (by omega) (by omega), hrefl, if_neg (by
            rw [hnw]
            simp)]

/-- When nothing after a run of the other direction assigns the visual position at
its end, the cursor has the other direction too and the run is the last of its
group. -/
theorem next_writes_false_opposite (cursor_dir dir : PangoDirection) (run : PangoLayoutRun)
    (rest : List PangoLayoutRun)
    (hD : dir = PangoDirection.LTR ∨ dir = PangoDirection.RTL)
    (hb : run_dir run ≠ dir)
    (h : next_writes cursor_dir dir (run_dir run) rest = false) :
    cursor_dir ≠ dir ∧ opposite_chars dir rest = 0 := by
  unfold next_writes at h
  cases rest with
  | nil =>
    simp only [decide_eq_false_iff_not, not_or] at h
    exact ⟨h.1, rfl⟩
  | cons next rest =>
    simp only [run_writes_start, decide_eq_false_iff_not, not_or] at h
    have hn : run_dir next = dir := by
      rcases run_dir_cases run with hr | hr <;> rcases run_dir_cases next with hx | hx <;>
        rcases hD with hd | hd <;> simp_all
    refine ⟨by rw [← hn]; exact h.1, ?_⟩
    rw [opposite_chars, if_pos hn]

/-- The first run of a group of runs of the other direction assigns the visual
position at its start when the cursor has the other direction too, and only
then. -/
theorem next_writes_opposite_first (cursor_dir dir prev_dir : PangoDirection)
    (run : PangoLayoutRun) (rest : List PangoLayoutRun)
    (hD : dir = PangoDirection.LTR ∨ dir = PangoDirection.RTL)
    (hC : cursor_dir = PangoDirection.LTR ∨ cursor_dir = PangoDirection.RTL)
    (hp : prev_dir = dir) (hb : run_dir run ≠ dir) :
    next_writes cursor_dir dir prev_dir (run :: rest) = true ↔ cursor_dir ≠ dir := by
  simp only [next_writes, run_writes_start, decide_eq_true_eq]
  rcases run_dir_cases run with hr | hr <;> rcases hD with hd | hd <;>
    rcases hC with hc2 | hc2 <;> simp_all

/-- The map `reflect_pos` on the visual positions the runs `rest` assign: its values
are positions the runs before have not used, and no value is taken twice. In a
group of runs of the other direction at the positions `a` to `b`, the values not
used yet are those from `a` up to the mirror image of `pos`, the positions after
`b`, and one of `a` and `b`. -/
theorem reflect_pos_injective (text : List Nat) (st n : Nat) (cursor_dir dir : PangoDirection)
    (hD : dir = PangoDirection.LTR ∨ dir = PangoDirection.RTL)
    (hC : cursor_dir = PangoDirection.LTR ∨ cursor_dir = PangoDirection.RTL) :
    ∀ (rest : List PangoLayoutRun) (blk : Option (Nat × Nat)) (pos : Nat)
      (prev_dir : PangoDirection),
      two_level_runs text st n dir rest blk pos = true →
      (prev_dir = PangoDirection.LTR ∨ prev_dir = PangoDirection.RTL) →
      (blk = none → prev_dir = dir) →
      (∀ ab, blk = some ab →
        prev_dir ≠ dir ∧ ab.1 < pos ∧ pos + opposite_chars dir rest = ab.2) →
      (∀ v, (pos < v ∨ (v = pos ∧ next_writes cursor_dir dir prev_dir rest = true)) → v ≤ n →
        reflect_pos cursor_dir dir rest blk pos v ≤ n ∧
        (blk = none →
          pos < reflect_pos cursor_dir dir rest blk pos v ∨
            (reflect_pos cursor_dir dir rest blk pos v = pos ∧
              next_writes cursor_dir dir prev_dir rest = true)) ∧
        (∀ ab, blk = some ab →
          (ab.1 < reflect_pos cursor_dir dir rest blk pos v ∧
            reflect_pos cursor_dir dir rest blk pos v + pos ≤ ab.1 + ab.2) ∨
          ab.2 < reflect_pos cursor_dir dir rest blk pos v ∨
          (reflect_pos cursor_dir dir rest blk pos v = ab.2 ∧ cursor_dir = dir) ∨
          (reflect_pos cursor_dir dir rest blk pos v = ab.1 ∧ cursor_dir ≠ dir ∧ pos < ab.2))) ∧
      (∀ v w, (pos < v ∨ (v = pos ∧ next_writes cursor_dir dir prev_dir rest = true)) → v ≤ n →
        (pos < w ∨ (w = pos ∧ next_writes cursor_dir dir prev_dir rest = true)) → w ≤ n →
        reflect_pos cursor_dir dir rest blk pos v = reflect_pos cursor_dir dir rest blk pos w →
        v = w) := by
  intro rest
  induction rest with
  | nil =>
    intro blk pos prev_dir htl hprev hnone hsome
    simp only [two_level_runs, decide_eq_true_eq] at htl
    subst htl
    refine ⟨fun v hv hvn => ?_, fun v w hv hvn hw hwn _ => by omega⟩
    have hvp : v = pos := by omega
    subst hvp
    have hown : next_writes cursor_dir dir prev_dir [] = true := by
      rcases hv with hv | hv
      · omega
      · exact hv.2
    have hr : reflect_pos cursor_dir dir [] blk v v = v := by rw [reflect_pos]
    rw [hr]
    refine ⟨le_refl _, fun _ => Or.inr ⟨rfl, hown⟩, fun ab hab => ?_⟩
    obtain ⟨h1, h2, h3⟩ := hsome ab hab
    simp only [opposite_chars, Nat.add_zero] at h3
    simp only [next_writes, decide_eq_true_eq] at hown
    rcases hown with ho | ho
    · exact Or.inr (Or.inr (Or.inl ⟨h3, ho⟩))
    · exact absurd ho h1
  | cons run rest ih =>
    intro blk pos prev_dir htl hprev hnone hsome
    rw [two_level_runs] at htl
    by_cases hb : run_dir run = dir
    · rw [if_pos hb] at htl
      simp only [Bool.and_eq_true, decide_eq_true_eq] at htl
      obtain ⟨⟨hc, hpos, -⟩, hrest⟩ := htl
      obtain ⟨ih1, ih2⟩ := ih none (pos + run.item.num_chars) (run_dir run) hrest
        (run_dir_cases run) (fun _ => hb) (fun ab h => by simp at h)
      have hrefl : ∀ v, reflect_pos cursor_dir dir (run :: rest) blk pos v =
          if v < pos + run.item.num_chars ∨ (v = pos + run.item.num_chars ∧
            next_writes cursor_dir dir (run_dir run) rest = false) then v
          else reflect_pos cursor_dir dir rest none (pos + run.item.num_chars) v := by
        intro v
        rw [reflect_pos, if_pos hb]
      have hown : next_writes cursor_dir dir prev_dir (run :: rest) = true ↔
          (cursor_dir = dir ∨ prev_dir = dir) := by
        simp only [next_writes, run_writes_start, decide_eq_true_eq, hb]
      have hopp : opposite_chars dir (run :: rest) = 0 := by
        rw [opposite_chars, if_pos hb]
      have helse : ∀ v, (pos < v ∨ (v = pos ∧ next_writes cursor_dir dir prev_dir (run :: rest) =
            true)) →
          ¬ (v < pos + run.item.num_chars ∨ (v = pos + run.item.num_chars ∧
            next_writes cursor_dir dir (run_dir run) rest = false)) →
          (pos + run.item.num_chars < v ∨ (v = pos + run.item.num_chars ∧
            next_writes cursor_dir dir (run_dir run) rest = true)) := by
        intro v _ hne
        simp only [not_or, not_lt, not_and, Bool.not_eq_false] at hne
        rcases Nat.lt_or_ge (pos + run.item.num_chars) v with h | h
        · exact Or.inl h
        · have : v = pos + run.item.num_chars := by omega
          exact Or.inr ⟨this, hne.2 this⟩
      refine ⟨fun v hv hvn => ?_, fun v w hv hvn hw hwn hvw => ?_⟩
      · rw [hrefl]
        by_cases hh : v < pos + run.item.num_chars ∨ (v = pos + run.item.num_chars ∧
            next_writes cursor_dir dir (run_dir run) rest = false)
        · rw [if_pos hh]
          refine ⟨hvn, fun _ => ?_, fun ab hab => ?_⟩
          · rcases hv with hv | hv
            · exact Or.inl hv
            · exact Or.inr hv
          · obtain ⟨h1, h2, h3⟩ := hsome ab hab
            rw [hopp] at h3
            rcases hv with hv | hv
            · exact Or.inr (Or.inl (by omega))
            · have := hown.mp hv.2
              rcases this with ho | ho
              · exact Or.inr (Or.inr (Or.inl ⟨by omega, ho⟩))
              · exact absurd ho h1
        · rw [if_neg hh]
          obtain ⟨i1, i2, -⟩ := ih1 v (helse v hv hh) hvn
          have i3 := i2 rfl
          refine ⟨i1, fun _ => Or.inl (by omega), fun ab hab => ?_⟩
          obtain ⟨h1, h2, h3⟩ := hsome ab hab
          rw [hopp] at h3
          exact Or.inr (Or.inl (by omega))
      · rw [hrefl, hrefl] at hvw
        by_cases hh : v < pos + run.item.num_chars ∨ (v = pos + run.item.num_chars ∧
            next_writes cursor_dir dir (run_dir run) rest = false)
        · rw [if_pos hh] at hvw
          by_cases hh2 : w < pos + run.item.num_chars ∨ (w = pos + run.item.num_chars ∧
              next_writes cursor_dir dir (run_dir run) rest = false)
          · rw [if_pos hh2] at hvw
            exact hvw
          · rw [if_neg hh2] at hvw
            obtain ⟨-, i2, -⟩ := ih1 w (helse w hw hh2) hwn
            have i3 := i2 rfl
            rw [← hvw] at i3
            rcases hh with hh | hh
            · omega
            · rcases i3 with i3 | i3
              · omega
              · rw [hh.2] at i3
                exact absurd i3.2 (by decide)
        · rw [if_neg hh] at hvw
          by_cases hh2 : w < pos + run.item.num_chars ∨ (w = pos + run.item.num_chars ∧
              next_writes cursor_dir dir (run_dir run) rest = false)
          · rw [if_pos hh2] at hvw
            obtain ⟨-, i2, -⟩ := ih1 v (helse v hv hh) hvn
            have i3 := i2 rfl
            rw [hvw] at i3
            rcases hh2 with hh2 | hh2
            · omega
            · rcases i3 with i3 | i3
              · omega
              · rw [hh2.2] at i3
                exact absurd i3.2 (by decide)
          · rw [if_neg hh2] at hvw
            exact ih2 v w (helse v hv hh) hvn (helse w hw hh2) hwn hvw
    · rw [if_neg hb] at htl
      simp only [Bool.and_eq_true, decide_eq_true_eq] at htl
      obtain ⟨⟨hc, hbn, -⟩, hrest⟩ := htl
      have hopp : opposite_chars dir (run :: rest) =
          run.item.num_chars + opposite_chars dir rest := by
        rw [opposite_chars, if_neg hb]
      have hrefl0 : ∀ v, reflect_pos cursor_dir dir (run :: rest) blk pos v =
          if v < pos + run.item.num_chars ∨ (v = pos + run.item.num_chars ∧
            next_writes cursor_dir dir (run_dir run) rest = false)
          then (blk.getD (pos, pos + opposite_chars dir (run :: rest))).1 +
            (blk.getD (pos, pos + opposite_chars dir (run :: rest))).2 - v
          else reflect_pos cursor_dir dir rest
            (some (blk.getD (pos, pos + opposite_chars dir (run :: rest))))
            (pos + run.item.num_chars) v := by
        intro v
        rw [reflect_pos, if_neg hb]
      generalize hab : blk.getD (pos, pos + opposite_chars dir (run :: rest)) = ab
        at hbn hrest hrefl0
      have hbounds : ab.1 ≤ pos ∧ pos + run.item.num_chars + opposite_chars dir rest = ab.2 ∧
          (blk = none → ab.1 = pos) ∧ (∀ ab2, blk = some ab2 → ab2 = ab ∧ ab.1 < pos) := by
        cases blk with
        | none =>
          simp only [Option.getD_none] at hab
          rw [← hab]
          simp only [reduceCtorEq, false_implies, implies_true, and_true, true_implies]
          omega
        | some ab2 =>
          simp only [Option.getD_some] at hab
          subst hab
          have := hsome ab2 rfl
          refine ⟨by omega, by omega, fun h => by simp at h, fun ab3 h => ?_⟩
          simp only [Option.some.injEq] at h
          subst h
          exact ⟨rfl, this.2.1⟩
      obtain ⟨hb1, hb2, hb3, hb4⟩ := hbounds
      obtain ⟨ih1, ih2⟩ := ih (some ab) (pos + run.item.num_chars) (run_dir run) hrest
        (run_dir_cases run) (fun h => by simp at h) (fun ab2 h => by
          simp only [Option.some.injEq] at h
          subst h
          exact ⟨hb, by omega, hb2⟩)
      have hownn : blk = none →
          (next_writes cursor_dir dir prev_dir (run :: rest) = true ↔ cursor_dir ≠ dir) := by
        intro hbn2
        exact next_writes_opposite_first cursor_dir dir prev_dir run rest hD hC (hnone hbn2) hb
      have hfalse := fun h => next_writes_false_opposite cursor_dir dir run rest hD hb h
      have helse : ∀ v, (pos < v ∨ (v = pos ∧ next_writes cursor_dir dir prev_dir (run :: rest) =
            true)) →
          ¬ (v < pos + run.item.num_chars ∨ (v = pos + run.item.num_chars ∧
            next_writes cursor_dir dir (run_dir run) rest = false)) →
          (pos + run.item.num_chars < v ∨ (v = pos + run.item.num_chars ∧
            next_writes cursor_dir dir (run_dir run) rest = true)) := by
        intro v _ hne
        simp only [not_or, not_lt, not_and, Bool.not_eq_false] at hne
        rcases Nat.lt_or_ge (pos + run.item.num_chars) v with h | h
        · exact Or.inl h
        · have : v = pos + run.item.num_chars := by omega
          exact Or.inr ⟨this, hne.2 this⟩
      have hvb : ∀ v, (v < pos + run.item.num_chars ∨ (v = pos + run.item.num_chars ∧
            next_writes cursor_dir dir (run_dir run) rest = false)) →
          (v < ab.2 ∧ v < pos + run.item.num_chars) ∨
            (v = ab.2 ∧ cursor_dir ≠ dir ∧ v = pos + run.item.num_chars) := by
        intro v hh
        rcases hh with hh | hh
        · exact Or.inl ⟨by omega, hh⟩
        · have := hfalse hh.2
          exact Or.inr ⟨by omega, this.1, hh.1⟩
      refine ⟨fun v hv hvn => ?_, fun v w hv hvn hw hwn hvw => ?_⟩
      · rw [hrefl0]
        have hvp : pos ≤ v := by omega
        by_cases hh : v < pos + run.item.num_chars ∨ (v = pos + run.item.num_chars ∧
            next_writes cursor_dir dir (run_dir run) rest = false)
        · rw [if_pos hh]
          refine ⟨by omega, fun hbn2 => ?_, fun ab2 hab2 => ?_⟩
          · have ha := hb3 hbn2
            rcases hvb v hh with h | h
            · exact Or.inl (by omega)
            · exact Or.inr ⟨by omega, (hownn hbn2).mpr h.2.1⟩
          · obtain ⟨he, ha⟩ := hb4 ab2 hab2
            subst he
            rcases hvb v hh with h | h
            · exact Or.inl ⟨by omega, by omega⟩
            · exact Or.inr (Or.inr (Or.inr ⟨by omega, h.2.1, by omega⟩))
        · rw [if_neg hh]
          obtain ⟨i1, -, i3⟩ := ih1 v (helse v hv hh) hvn
          have i4 := i3 ab rfl
          refine ⟨i1, fun hbn2 => ?_, fun ab2 hab2 => ?_⟩
          · have ha := hb3 hbn2
            rcases i4 with i4 | i4 | i4 | i4
            · exact Or.inl (by omega)
            · exact Or.inl (by omega)
            · exact Or.inl (by omega)
            · exact Or.inr ⟨by omega, (hownn hbn2).mpr i4.2.1⟩
          · obtain ⟨he, ha⟩ := hb4 ab2 hab2
            subst he
            rcases i4 with i4 | i4 | i4 | i4
            · exact Or.inl ⟨i4.1, by omega⟩
            · exact Or.inr (Or.inl i4)
            · exact Or.inr (Or.inr (Or.inl i4))
            · exact Or.inr (Or.inr (Or.inr ⟨i4.1, i4.2.1, by omega⟩))
      · rw [hrefl0, hrefl0] at hvw
        have hvp : pos ≤ v := by omega
        have hwp : pos ≤ w := by omega
        have hmixed : ∀ x y, pos ≤ x → x ≤ n →
            (pos < x ∨ (x = pos ∧ next_writes cursor_dir dir prev_dir (run :: rest) = true)) →
            (x < pos + run.item.num_chars ∨ (x = pos + run.item.num_chars ∧
              next_writes cursor_dir dir (run_dir run) rest = false)) →
            (pos + run.item.num_chars < y ∨ (y = pos + run.item.num_chars ∧
              next_writes cursor_dir dir (run_dir run) rest = true)) → y ≤ n →
            ab.1 + ab.2 - x =
              reflect_pos cursor_dir dir rest (some ab) (pos + run.item.num_chars) y →
            False := by
          intro x y hxp hxn hx hhx hy hyn hxy
          obtain ⟨-, -, i3⟩ := ih1 y hy hyn
          have i4 := i3 ab rfl
          rw [← hxy] at i4
          rcases hvb x hhx with h | h
          · rcases i4 with i4 | i4 | i4 | i4
            · omega
            · omega
            · have hxa : x = ab.1 := by omega
              have hxpos : x = pos := by omega
              have hnone2 : blk = none := by
                cases hblk : blk with
                | none => rfl
                | some ab2 =>
                  have := (hb4 ab2 hblk).2
                  omega
              rcases hx with hx | hx
              · omega
              · exact ((hownn hnone2).mp hx.2) i4.2
            · omega
          · rcases i4 with i4 | i4 | i4 | i4
            · omega
            · omega
            · exact h.2.1 i4.2
            · omega
        by_cases hh : v < pos + run.item.num_chars ∨ (v = pos + run.item.num_chars ∧
            next_writes cursor_dir dir (run_dir run) rest = false)
        · rw [if_pos hh] at hvw
          by_cases hh2 : w < pos + run.item.num_chars ∨ (w = pos + run.item.num_chars ∧
              next_writes cursor_dir dir (run_dir run) rest = false)
          · rw [if_pos hh2] at hvw
            have h1 := hvb v hh
            have h2 := hvb w hh2
            omega
          · rw [if_neg hh2] at hvw
            exact absurd (hmixed v w hvp hvn hv hh (helse w hw hh2) hwn hvw) id
        · rw [if_neg hh] at hvw
          by_cases hh2 : w < pos + run.item.num_chars ∨ (w = pos + run.item.num_chars ∧
              next_writes cursor_dir dir (run_dir run) rest = false)
          · rw [if_pos hh2] at hvw
            exact absurd (hmixed w v hwp hwn hw hh2 (helse v hv hh) hvn hvw.symm) id
          · rw [if_neg hh2] at hvw
            exact ih2 v w (helse v hv hh) hvn (helse w hw hh2) hwn hvw

/-- The character boundary at a visual position of a line whose runs all have the
direction of the line is one of the line, and different positions have different
boundaries. -/
theorem line_base_inj (dir : PangoDirection) (n x y : Nat) (hx : x ≤ n) (hy : y ≤ n)
    (h : line_base dir n x = line_base dir n y) : x = y := by
  unfold line_base at h
  split at h <;> omega

/-- The cursor of `pjx_layout_line_get_vis2log_map` is left-to-right or
right-to-left when the line is. -/
theorem map_cursor_dir_cases (line : PangoLayoutLine) (strong : Bool)
    (hD : line.resolved_dir = PangoDirection.LTR ∨ line.resolved_dir = PangoDirection.RTL) :
    map_cursor_dir line strong = PangoDirection.LTR ∨
      map_cursor_dir line strong = PangoDirection.RTL := by
  unfold map_cursor_dir
  cases strong with
  | true => simpa using hD
  | false =>
    simp only [Bool.false_eq_true, if_false]
    split
    · exact Or.inr rfl
    · exact Or.inl rfl

/-- On a line with two embedding levels `pjx_layout_line_get_vis2log_map` returns
the map `expected_boundary`, as byte offsets, which takes no value twice, and
`pjx_layout_line_get_log2vis_map` returns its inverse. -/
theorem two_level_maps (layout : PangoLayout) (line : PangoLayoutLine) (strong : Bool) (n : Nat)
    (hstart : 0 ≤ line.start_index) (hn : line_n_chars layout line = some n)
    (hend : boundary_offset layout.text line n = line.length)
    (hD : line.resolved_dir = PangoDirection.LTR ∨ line.resolved_dir = PangoDirection.RTL)
    (hruns : two_level_runs layout.text line.start_index.toNat n line.resolved_dir line.runs
      none 0 = true) :
    (∃ m l2v, pjx_layout_line_get_vis2log_map layout line strong = some m ∧
      pjx_layout_line_get_log2vis_map layout line strong = some l2v ∧ m.length = n + 1 ∧
      ∀ i, i ≤ n →
        m[i]? = some (some (boundary_offset layout.text line
          (expected_boundary line n (map_cursor_dir line strong) i))) ∧
        l2v[(boundary_offset layout.text line
          (expected_boundary line n (map_cursor_dir line strong) i)).toNat]? = some (i : Int)) ∧
    (∀ i, i ≤ n → expected_boundary line n (map_cursor_dir line strong) i ≤ n) ∧
    (∀ i j, i ≤ n → j ≤ n →
      expected_boundary line n (map_cursor_dir line strong) i =
        expected_boundary line n (map_cursor_dir line strong) j → i = j) := by
  have hC := map_cursor_dir_cases line strong hD
  obtain ⟨hr1, hr2⟩ := reflect_pos_injective layout.text line.start_index.toNat n
    (map_cursor_dir line strong) line.resolved_dir hD hC line.runs none 0 line.resolved_dir
    hruns hD (fun _ => rfl) (fun ab h => by simp at h)
  have hG : ∀ i, i ≤ n → expected_boundary line n (map_cursor_dir line strong) i ≤ n := by
    intro i hi
    unfold expected_boundary line_base
    split
    · split <;> omega
    · split
      · rename_i hc _
        refine (hr1 i ?_ hi).1
        rcases Nat.eq_zero_or_pos i with h0 | h0
        · right
          refine ⟨h0, ?_⟩
          by_contra hnw
          exact hc ⟨h0, by simpa using hnw⟩
        · exact Or.inl h0
      · omega
  have hdom : ∀ i, ¬ (i = 0 ∧ next_writes (map_cursor_dir line strong) line.resolved_dir
        line.resolved_dir line.runs = false) →
      (0 < i ∨ (i = 0 ∧ next_writes (map_cursor_dir line strong) line.resolved_dir
        line.resolved_dir line.runs = true)) := by
    intro i hc
    rcases Nat.eq_zero_or_pos i with h0 | h0
    · right
      refine ⟨h0, ?_⟩
      by_contra hnw
      exact hc ⟨h0, by simpa using hnw⟩
    · exact Or.inl h0
  have hinj : ∀ i j, i ≤ n → j ≤ n →
      expected_boundary line n (map_cursor_dir line strong) i =
        expected_boundary line n (map_cursor_dir line strong) j → i = j := by
    intro i j hi hj hij
    unfold expected_boundary at hij
    by_cases hci : i = 0 ∧ next_writes (map_cursor_dir line strong) line.resolved_dir
        line.resolved_dir line.runs = false
    · by_cases hcj : j = 0 ∧ next_writes (map_cursor_dir line strong) line.resolved_dir
          line.resolved_dir line.runs = false
      · omega
      · rw [if_pos hci, if_neg hcj] at hij
        obtain ⟨h1, h2, -⟩ := hr1 j (hdom j hcj) hj
        have := line_base_inj _ _ _ _ (Nat.zero_le n) h1 hij
        rcases h2 rfl with h3 | h3
        · omega
        · rw [hci.2] at h3
          exact absurd h3.2 (by decide)
    · by_cases hcj : j = 0 ∧ next_writes (map_cursor_dir line strong) line.resolved_dir
          line.resolved_dir line.runs = false
      · rw [if_neg hci, if_pos hcj] at hij
        obtain ⟨h1, h2, -⟩ := hr1 i (hdom i hci) hi
        have := line_base_inj _ _ _ _ h1 (Nat.zero_le n) hij
        rcases h2 rfl with h3 | h3
        · omega
        · rw [hcj.2] at h3
          exact absurd h3.2 (by decide)
      · rw [if_neg hci, if_neg hcj] at hij
        have h1 := (hr1 i (hdom i hci) hi).1
        have h2 := (hr1 j (hdom j hcj) hj).1
        exact hr2 i j (hdom i hci) hi (hdom j hcj) hj (line_base_inj _ _ _ _ h1 h2 hij)
  refine ⟨?_, hG, hinj⟩
  refine maps_inverse_of_spec layout line strong n _ hstart hn hend ?_ ?_ hG hinj
  · refine two_level_mapSpec layout.text line n _ _ hD hC line.runs none 0 line.resolved_dir
      hruns (fun ab h => by simp at h) ?_ ?_
    · intro v hv1 hv2
      unfold expected_boundary
      rw [if_neg (by omega)]
    · intro hnw
      unfold expected_boundary
      rw [if_neg (by rw [hnw]; simp)]
  · intro hnw
    refine ⟨?_, ?_⟩
    · cases hruns2 : line.runs with
      | nil =>
        rw [hruns2] at hnw
        simp [next_writes] at hnw
      | cons run rest =>
        rw [hruns2] at hnw
        by_cases hb : run_dir run = line.resolved_dir
        · simp [next_writes, run_writes_start, hb] at hnw
        · have := (next_writes_opposite_first (map_cursor_dir line strong) line.resolved_dir
            line.resolved_dir run rest hD hC rfl hb).not
          simp only [hnw, Bool.false_eq_true, not_false_eq_true, ne_eq, not_not, true_iff]
            at this
          exact this.symm
    · unfold expected_boundary
      rw [if_pos ⟨rfl, hnw⟩]
      unfold line_base
      split <;> rfl

/-! ## Claim C29 -/

/-- C29, counterexample: the line "abcdef" of a left-to-right paragraph with "ab" at
level 0, "cd" at level 2 and "ef" at level 1. Its runs in visual order are "ab",
"ef", "cd"; they partition the characters of the line. With the strong cursor
`pjx_layout_line_get_vis2log_map` gives the visual positions 2 and 4 the same
offset 2 and no position the offset 4, and `pjx_layout_line_get_log2vis_map` maps
the offset of position 2 to position 4. -/
theorem vis2log_three_levels_counterexample :
    three_level_line.runs = [text_run 0 2 2 0, text_run 4 2 2 1, text_run 2 2 2 2] ∧
    line_n_chars mixed_layout three_level_line = some 6 ∧
    pjx_layout_line_get_vis2log_map mixed_layout three_level_line true =
      some [some 0, some 1, some 2, some 5, some 2, some 3, some 6] ∧
    pjx_layout_line_get_log2vis_map mixed_layout three_level_line true =
      some [0, 1, 4, 5, 0, 3, 6] := by
  refine ⟨by decide, by decide, by decide, by decide⟩

/-- C29, amended: for a line of direction LTR or RTL whose runs, in visual order,
are those of a line of `n` characters with two embedding levels (`two_level_runs`),
and for both cursors, `pjx_layout_line_get_vis2log_map` and
`pjx_layout_line_get_log2vis_map` return; every visual position `0..n` has the
byte offset of a character boundary of the line, no two visual positions have the
same offset, and the second map at that offset is the visual position. -/
theorem vis2log_two_levels_inverse (layout : PangoLayout) (line : PangoLayoutLine)
    (strong : Bool) (n : Nat)
    (hstart : 0 ≤ line.start_index) (hn : line_n_chars layout line = some n)
    (hend : boundary_offset layout.text line n = line.length)
    (hD : line.resolved_dir = PangoDirection.LTR ∨ line.resolved_dir = PangoDirection.RTL)
    (hruns : two_level_runs layout.text line.start_index.toNat n line.resolved_dir line.runs
      none 0 = true) :
    ∃ m l2v, pjx_layout_line_get_vis2log_map layout line strong = some m ∧
      pjx_layout_line_get_log2vis_map layout line strong = some l2v ∧ m.length = n + 1 ∧
      ∀ i : Nat, i ≤ n → ∃ v, m[i]? = some (some v) ∧
        (∃ k : Nat, k ≤ n ∧ v = boundary_offset layout.text line k) ∧
        (∀ j : Nat, j ≤ n → m[j]? = some (some v) → j = i) ∧
        l2v[v.toNat]? = some (i : Int) := by
  obtain ⟨⟨m, l2v, h1, h2, h3, h4⟩, hG, hinj⟩ :=
    two_level_maps layout line strong n hstart hn hend hD hruns
  refine ⟨m, l2v, h1, h2, h3, fun i hi => ⟨_, (h4 i hi).1, ⟨_, hG i hi, rfl⟩, ?_, (h4 i hi).2⟩⟩
  intro j hj hmj
  rw [(h4 j hj).1] at hmj
  simp only [Option.some.injEq] at hmj
  exact hinj j i hj hi (boundary_offset_inj layout.text line _ _ hmj)

/-- The line "abcdef" with "a" and "f" at level 0 and "bc", "de" at level 1, whose
runs in visual order are "a", "de", "bc", "f": the maps are
0, 1, 4, 3, 2, 5, 6 both ways for the strong cursor. -/
theorem vis2log_two_levels_inverse_witness :
    two_level_line.runs =
      [text_run 0 1 1 0, text_run 3 2 2 1, text_run 1 2 2 1, text_run 5 1 1 0] ∧
    pjx_layout_line_get_vis2log_map mixed_layout two_level_line true =
      some [some 0, some 1, some 4, some 3, some 2, some 5, some 6] ∧
    ∃ m l2v, pjx_layout_line_get_vis2log_map mixed_layout two_level_line true = some m ∧
      pjx_layout_line_get_log2vis_map mixed_layout two_level_line true = some l2v ∧
      m.length = 6 + 1 ∧
      ∀ i : Nat, i ≤ 6 → ∃ v, m[i]? = some (some v) ∧
        (∃ k : Nat, k ≤ 6 ∧ v = boundary_offset mixed_layout.text two_level_line k) ∧
        (∀ j : Nat, j ≤ 6 → m[j]? = some (some v) → j = i) ∧
        l2v[v.toNat]? = some (i : Int) :=
  ⟨by decide, by decide,
    vis2log_two_levels_inverse mixed_layout two_level_line true 6 (by decide) (by decide)
      (by decide) (Or.inl (by decide)) (by decide)⟩
/-! ### C13: the strong cursor moving right from the visual start of a line -/

/-- Counting the characters from `s` to the position `k` characters after `s`
gives `k`. -/
theorem pointer_to_offset_loop_otp (text : List Nat) :
    ∀ (k fuel s offset : Nat), k ≤ fuel →
      pointer_to_offset_loop text (g_utf8_offset_to_pointer text s k) fuel s offset =
        offset + k := by
  intro k
  induction k with
  | zero =>
    intro fuel s offset _
    cases fuel with
    | zero => rfl
    | succ fuel => simp [pointer_to_offset_loop, g_utf8_offset_to_pointer]
  | succ k ih =>
    intro fuel s offset hf
    cases fuel with
    | zero => omega
    | succ fuel =>
      rw [pointer_to_offset_loop, otp_succ]
      have h1 := next_char_gt text s
      have h2 := otp_le text k (g_utf8_next_char text s)
      rw [if_pos (by omega), ih fuel _ _ (by omega)]
      omega

theorem otp_ge_add (text : List Nat) : ∀ (k p : Nat),
    p + k ≤ g_utf8_offset_to_pointer text p k := by
  intro k
  induction k with
  | zero => intro p; simp [g_utf8_offset_to_pointer]
  | succ k ih =>
    intro p
    rw [otp_succ]
    have h1 := next_char_gt text p
    have h2 := ih (g_utf8_next_char text p)
    omega

/-- The character offset of the character boundary `k` of a line is `k`. -/
theorem pointer_to_offset_boundary (text : List Nat) (line : PangoLayoutLine) (k : Nat)
    (hstart : 0 ≤ line.start_index) :
    g_utf8_pointer_to_offset text line.start_index
      (line.start_index + boundary_offset text line k) = some (k : Int) := by
  have hge := otp_ge_add text k line.start_index.toNat
  have hp : line.start_index + boundary_offset text line k =
      (g_utf8_offset_to_pointer text line.start_index.toNat k : Int) := by
    unfold boundary_offset
    omega
  rw [hp]
  unfold g_utf8_pointer_to_offset
  rw [if_neg (by omega), if_neg (by omega)]
  simp only [Int.toNat_ofNat]
  rw [pointer_to_offset_loop_otp text k _ _ 0 (by omega)]
  simp

/-- The head of the runs of a line with two embedding levels has a character. -/
theorem two_level_runs_head (text : List Nat) (st n : Nat) (dir : PangoDirection)
    (run : PangoLayoutRun) (rest : List PangoLayoutRun) (blk : Option (Nat × Nat)) (pos : Nat)
    (h : two_level_runs text st n dir (run :: rest) blk pos = true) :
    0 < run.item.num_chars ∧
      (run_dir run ≠ dir → (blk.getD (pos, pos + opposite_chars dir (run :: rest))).2 ≤ n) ∧
      ∃ blk2, two_level_runs text st n dir rest blk2 (pos + run.item.num_chars) = true := by
  unfold two_level_runs at h
  split at h
  · rename_i hd
    simp only [Bool.and_eq_true, decide_eq_true_eq] at h
    exact ⟨h.1.1, fun hne => absurd hd hne, _, h.2⟩
  · simp only [Bool.and_eq_true, decide_eq_true_eq] at h
    exact ⟨h.1.1, fun _ => h.1.2.1, _, h.2⟩

/-- The visual position 1 of a line with two embedding levels, for the strong
cursor: it is mirrored when the line starts with runs of the other direction that
hold two characters or more. -/
theorem reflect_pos_one (text : List Nat) (st n : Nat) (dir : PangoDirection)
    (hD : dir = PangoDirection.LTR ∨ dir = PangoDirection.RTL)
    (runs : List PangoLayoutRun)
    (h : two_level_runs text st n dir runs none 0 = true) :
    reflect_pos dir dir runs none 0 1 =
      if 2 ≤ opposite_chars dir runs then opposite_chars dir runs - 1 else 1 := by
  cases runs with
  | nil => simp [reflect_pos, opposite_chars]
  | cons x rest =>
    obtain ⟨hc, _, blk2, hrest⟩ := two_level_runs_head text st n dir x rest none 0 h
    have hy : ∀ y rest2, rest = y :: rest2 → 0 < y.item.num_chars := by
      intro y rest2 he
      rw [he] at hrest
      exact (two_level_runs_head text st n dir y rest2 blk2 _ hrest).1
    by_cases hx : run_dir x = dir
    · have hb : opposite_chars dir (x :: rest) = 0 := by
        rw [opposite_chars, if_pos hx]
      rw [hb, if_neg (by omega)]
      rw [reflect_pos, if_pos hx]
      split
      · rfl
      · rename_i hcond
        simp only [zero_add, not_or, not_lt, not_and, Bool.not_eq_false] at hcond
        have hc1 : x.item.num_chars = 1 := by omega
        have hnw := hcond.2 hc1.symm
        rw [hc1]
        cases rest with
        | nil => simp [reflect_pos]
        | cons y rest2 =>
          have hcy := hy y rest2 rfl
          by_cases hyd : run_dir y = dir
          · rw [reflect_pos, if_pos hyd, if_pos (Or.inl (by omega))]
          · exfalso
            simp only [next_writes, run_writes_start, decide_eq_true_eq] at hnw
            rcases hnw with h1 | h1
            · exact hyd h1.symm
            · exact hyd (h1 ▸ hx)
    · have hb : opposite_chars dir (x :: rest) = x.item.num_chars + opposite_chars dir rest := by
        rw [opposite_chars, if_neg hx]
      rw [reflect_pos, if_neg hx]
      simp only [Option.getD_none, zero_add]
      split
      · rename_i hcond
        rcases hcond with h1 | ⟨h1, hnw⟩
        · rw [if_pos (by omega)]
        · obtain ⟨_, hz⟩ := next_writes_false_opposite dir dir x rest hD hx hnw
          exact absurd rfl (next_writes_false_opposite dir dir x rest hD hx hnw).1
      · rename_i hcond
        simp only [not_or, not_lt, not_and, Bool.not_eq_false] at hcond
        have hc1 : x.item.num_chars = 1 := by omega
        rw [hb, hc1]
        cases rest with
        | nil => simp [reflect_pos, opposite_chars]
        | cons y rest2 =>
          have hcy := hy y rest2 rfl
          by_cases hyd : run_dir y = dir
          · rw [reflect_pos, if_pos hyd, if_pos (Or.inl (by omega))]
            rw [opposite_chars, if_pos hyd, if_neg (by omega)]
          · rw [reflect_pos, if_neg hyd]
            simp only [Option.getD_some]
            rw [if_pos (Or.inl (by omega))]
            rw [opposite_chars, if_neg hyd, if_pos (by omega)]
            omega

/-- On a right-to-left line with two embedding levels the visual position 1 of the
strong cursor is the character boundary `landing_char`, which lies before the end
of the line. -/
theorem expected_boundary_one (text : List Nat) (line : PangoLayoutLine) (n : Nat)
    (hD : line.resolved_dir = PangoDirection.RTL) (hn : 1 ≤ n)
    (hruns : two_level_runs text line.start_index.toNat n PangoDirection.RTL line.runs
      none 0 = true) :
    expected_boundary line n (map_cursor_dir line true) 1 = landing_char line n ∧
      landing_char line n < n := by
  have hr := reflect_pos_one text line.start_index.toNat n PangoDirection.RTL (Or.inr rfl)
    line.runs hruns
  unfold expected_boundary map_cursor_dir line_base landing_char
  simp only [if_true, hD, one_ne_zero, false_and, if_false, reduceCtorEq]
  rw [hr]
  constructor
  · split <;> split <;> omega
  · split <;> omega

/-- C13 counterexample: the line "אבגabc" of a right-to-left paragraph has
resolved direction RTL and one left-to-right run, "abc", which comes first
visually. The strong cursor at the visual start of the line (byte 9, visual
position 0) that moves right lands on byte 7, the second character of the
left-to-right run, not on byte 8, where the logically last character of the line
starts. On the line "abc" of a right-to-left paragraph it lands on byte 1, not on
byte 2. -/
theorem move_cursor_rtl_line_counterexample :
    hebrew_abc_line.resolved_dir = PangoDirection.RTL ∧
    hebrew_abc_line.runs.map run_dir = [PangoDirection.LTR, PangoDirection.RTL] ∧
    cursor_start (cursor_layout hebrew_abc_text 6) [hebrew_abc_line] true 9 0 =
      some (hebrew_abc_line, none, none, 0, 6, 9, 0) ∧
    pjx_layout_move_cursor_visually (cursor_layout hebrew_abc_text 6) (all_cursor_positions 6)
      [hebrew_abc_line] true 9 0 1 = some (7, 0) ∧
    g_utf8_offset_to_pointer hebrew_abc_text 0 5 = 8 ∧
    cursor_start (cursor_layout [97, 98, 99] 3) [abc_rtl_line] true 3 0 =
      some (abc_rtl_line, none, none, 0, 3, 3, 0) ∧
    pjx_layout_move_cursor_visually (cursor_layout [97, 98, 99] 3) (all_cursor_positions 3)
      [abc_rtl_line] true 3 0 1 = some (1, 0) :=
  ⟨rfl, rfl, rfl, by decide, rfl, rfl, by decide⟩

/-- C13, amended: on a line of resolved direction RTL with two embedding levels
(right-to-left runs and left-to-right runs, in visual order) and at least one
character, `pjx_layout_move_cursor_visually` with `strong = TRUE` and a positive
direction, started at visual position 0 of the line, returns the byte index of the
character `landing_char` of the line with `new_trailing = 0`, when that character
is a cursor position. This is the logically last character of the line when the
left-to-right runs at the visual start of the line hold at most two characters (in
particular when the line starts visually with a right-to-left run), and the second
character of these runs when they hold three characters or more. -/
theorem move_cursor_right_from_visual_start (layout : PangoLayout)
    (is_cursor_position : List Bool) (lines : List PangoLayoutLine) (line : PangoLayoutLine)
    (prev_line next_line : Option PangoLayoutLine) (old_index old_trailing direction : Int)
    (start_offset : Int) (n_vis : Nat) (old_index2 : Int)
    (hs : cursor_start layout lines true old_index old_trailing =
      some (line, prev_line, next_line, start_offset, n_vis, old_index2, 0))
    (hstart : 0 ≤ line.start_index)
    (hend : boundary_offset layout.text line n_vis = line.length)
    (hD : line.resolved_dir = PangoDirection.RTL)
    (hruns : two_level_runs layout.text line.start_index.toNat n_vis PangoDirection.RTL
      line.runs none 0 = true)
    (hn : 1 ≤ n_vis)
    (hcp : cursor_position_at is_cursor_position
      (start_offset + (landing_char line n_vis : Nat)) = some true)
    (hd : 0 < direction) :
    pjx_layout_move_cursor_visually layout is_cursor_position lines true old_index old_trailing
        direction =
      some (((g_utf8_offset_to_pointer layout.text line.start_index.toNat
        (landing_char line n_vis) : Nat) : Int), 0) ∧
    (opposite_chars PangoDirection.RTL line.runs ≤ 2 → landing_char line n_vis = n_vis - 1) ∧
    (3 ≤ opposite_chars PangoDirection.RTL line.runs →
      landing_char line n_vis = n_vis + 1 - opposite_chars PangoDirection.RTL line.runs) := by
  refine ⟨?_, fun h => by unfold landing_char; rw [if_neg (by omega)],
    fun h => by unfold landing_char; rw [if_pos h]⟩
  obtain ⟨hnv, m, hmap, hmlen, _, _, _⟩ := cursor_start_maps layout lines true old_index
    old_trailing line prev_line next_line start_offset n_vis old_index2 0 hs
  obtain ⟨⟨m2, l2v, hm2, _, _, hmi⟩, _, _⟩ := two_level_maps layout line true n_vis hstart hnv
    hend (Or.inr hD) (by rw [hD]; exact hruns)
  rw [hmap] at hm2
  simp only [Option.some.injEq] at hm2
  subst hm2
  obtain ⟨hE, hK⟩ := expected_boundary_one layout.text line n_vis hD hn hruns
  have h1 := (hmi 1 hn).1
  rw [hE] at h1
  have hlp := pointer_to_offset_boundary layout.text line (landing_char line n_vis) hstart
  have hlt := boundary_offset_lt layout.text line (landing_char line n_vis) n_vis hK
  have hn1 : ¬ direction < 0 := by omega
  have hn2 : ¬ ((0 : Int) = n_vis ∧ 0 < direction) := by omega
  have h1' : m[(1 : Int).toNat]? =
      some (some (boundary_offset layout.text line (landing_char line n_vis))) := h1
  have hloop : cursor_move_loop layout is_cursor_position line m start_offset n_vis direction
      (n_vis + 1) 0 = some (1, ((landing_char line n_vis : Nat) : Int)) := by
    rw [cursor_move_loop]
    simp only [hd, if_true, zero_add]
    rw [if_neg (by omega), h1']
    simp only
    rw [hlp]
    simp only
    split
    · rw [hcp]
    · rfl
  have hidx : line.start_index + boundary_offset layout.text line (landing_char line n_vis) =
      ((g_utf8_offset_to_pointer layout.text line.start_index.toNat
        (landing_char line n_vis) : Nat) : Int) := by
    unfold boundary_offset
    omega
  unfold pjx_layout_move_cursor_visually
  rw [hs]
  simp only [hn1, hn2, if_false, Bool.false_eq_true, false_and, not_false_eq_true, false_or,
    and_false]
  rw [hnv, hmap]
  simp only [if_true]
  rw [hloop]
  simp only
  rw [h1']
  simp only
  rw [if_neg (by omega), hidx]

/-- Witness for C13: in the line "אבגa" of a right-to-left paragraph the
left-to-right run "a" comes first visually and holds one character; the strong
cursor moving right from byte 7, the visual start, lands on byte 6, where "a", the
logically last character of the line, starts. -/
theorem move_cursor_right_from_visual_start_witness :
    hebrew_a_line.runs.map run_dir = [PangoDirection.LTR, PangoDirection.RTL] ∧
    opposite_chars PangoDirection.RTL hebrew_a_line.runs = 1 ∧
    landing_char hebrew_a_line 4 = 3 ∧
    g_utf8_offset_to_pointer hebrew_a_text 0 3 = 6 ∧
    pjx_layout_move_cursor_visually (cursor_layout hebrew_a_text 4) (all_cursor_positions 4)
        [hebrew_a_line] true 7 0 1 =
      some (((g_utf8_offset_to_pointer (cursor_layout hebrew_a_text 4).text
        hebrew_a_line.start_index.toNat (landing_char hebrew_a_line 4) : Nat) : Int), 0) ∧
    (opposite_chars PangoDirection.RTL hebrew_a_line.runs ≤ 2 →
      landing_char hebrew_a_line 4 = 4 - 1) ∧
    (3 ≤ opposite_chars PangoDirection.RTL hebrew_a_line.runs →
      landing_char hebrew_a_line 4 =
        4 + 1 - opposite_chars PangoDirection.RTL hebrew_a_line.runs) :=
  ⟨rfl, rfl, rfl, rfl,
    move_cursor_right_from_visual_start (cursor_layout hebrew_a_text 4) (all_cursor_positions 4)
      [hebrew_a_line] hebrew_a_line none none 7 0 1 0 4 7 rfl (by decide) (by decide)
      rfl (by decide) (by decide) (by decide) (by decide)⟩

end Pjx
